import Mathlib

/-!
Verification of the structural-repair engine of the OmniFormat JATS pipeline
(`MasterPipeline.py`).  The development shallowly embeds the XML tree model
and the transformations performed by `HighFidelityConverter._post_process_xml`
(table structure fixing, front-matter metadata completion, reference-id
assignment, xref repair, ID/IDREF validation and namespace/schema binding),
together with the control flow of `run_pipeline` around XML well-formedness
checking and schema validation.

Python/lxml conventions are mapped as follows: an element's `text` of `None`
is modelled as the empty string (the code only ever distinguishes the two
through blankness checks), attribute maps are ordered association lists with
unique keys exactly as lxml's `attrib`, `find('.//t')` is the first
pre-order proper descendant with the given tag, and the byte serialization
of a tree is treated as canonical so that equality of written files is
equality of the parsed documents.
-/

/-! ### Character-list string helpers

Lean core string functions are implemented by well-founded recursion and do
not reduce in the kernel; the helpers below mirror the Python string
operations used by the pipeline (`str.strip`, `str.split`, `str.isdigit`,
`int`, `' '.join`, substring test, `str.lower`) on `List Char`.
-/

def isWS (c : Char) : Bool := c = ' ' || c = '\t' || c = '\n' || c = '\r' || c = '\x0b' || c = '\x0c'

def dropWS : List Char → List Char
  | [] => []
  | c :: cs => if isWS c then dropWS cs else c :: cs

/-- Python `s is None or s.strip() == ''` (with `None` modelled as `""`). -/
def strBlank (s : String) : Bool := (dropWS s.data).isEmpty

def splitWSAux : List Char → List String → List Char → List String
  | [], acc, cur => (if cur.isEmpty then acc else acc ++ [⟨cur.reverse⟩])
  | c :: cs, acc, cur =>
    if isWS c then splitWSAux cs (if cur.isEmpty then acc else acc ++ [⟨cur.reverse⟩]) []
    else splitWSAux cs acc (c :: cur)

/-- Python `s.split()` (split on runs of whitespace, no empty tokens). -/
def strSplit (s : String) : List String := splitWSAux s.data [] []

/-- Python `s.isdigit()` restricted to ASCII digits. -/
def isDigits (s : String) : Bool := !s.data.isEmpty && s.data.all Char.isDigit

def digitsToNat : List Char → Nat → Nat
  | [], acc => acc
  | c :: cs, acc => digitsToNat cs (acc * 10 + (c.toNat - 48))

/-- Python `int(s)` on a digit string. -/
def strToNat (s : String) : Nat := digitsToNat s.data 0

/-- Python `' '.join(l)`. -/
def joinSp : List String → String
  | [] => ""
  | [s] => s
  | s :: ss => s ++ " " ++ joinSp ss

def containsSubAux : List Char → List Char → Bool
  | [], pat => pat.isEmpty
  | c :: cs, pat => pat.isPrefixOf (c :: cs) || containsSubAux cs pat

/-- Python `pat in s` (substring test). -/
def containsSub (s pat : String) : Bool := pat.data.isEmpty || containsSubAux s.data pat.data

/-- Python `s.lower()`. -/
def strLower (s : String) : String := ⟨s.data.map Char.toLower⟩

/-! ### The element tree

`Elem` mirrors an lxml element: tag, ordered attribute map, text and
children.  Tail text is never read or written by the code under study and is
omitted.
-/

inductive Elem where
  | mk (tag : String) (attrs : List (String × String)) (text : String) (children : List Elem)

namespace Elem

def tag : Elem → String
  | .mk t _ _ _ => t

def attrs : Elem → List (String × String)
  | .mk _ a _ _ => a

def text : Elem → String
  | .mk _ _ x _ => x

def children : Elem → List Elem
  | .mk _ _ _ c => c

@[simp] theorem tag_mk (t a x c) : (Elem.mk t a x c).tag = t := rfl
@[simp] theorem attrs_mk (t a x c) : (Elem.mk t a x c).attrs = a := rfl
@[simp] theorem text_mk (t a x c) : (Elem.mk t a x c).text = x := rfl
@[simp] theorem children_mk (t a x c) : (Elem.mk t a x c).children = c := rfl

theorem ext_iff (e : Elem) : e = .mk e.tag e.attrs e.text e.children := by
  cases e; rfl

def withChildren (e : Elem) (c : List Elem) : Elem := .mk e.tag e.attrs e.text c
def withText (e : Elem) (x : String) : Elem := .mk e.tag e.attrs x e.children
def withAttrs (e : Elem) (a : List (String × String)) : Elem := .mk e.tag a e.text e.children

@[simp] theorem tag_withChildren (e c) : (withChildren e c).tag = e.tag := rfl
@[simp] theorem attrs_withChildren (e c) : (withChildren e c).attrs = e.attrs := rfl
@[simp] theorem text_withChildren (e c) : (withChildren e c).text = e.text := rfl
@[simp] theorem children_withChildren (e c) : (withChildren e c).children = c := rfl
@[simp] theorem tag_withText (e x) : (withText e x).tag = e.tag := rfl
@[simp] theorem attrs_withText (e x) : (withText e x).attrs = e.attrs := rfl
@[simp] theorem text_withText (e x) : (withText e x).text = x := rfl
@[simp] theorem children_withText (e x) : (withText e x).children = e.children := rfl
@[simp] theorem tag_withAttrs (e a) : (withAttrs e a).tag = e.tag := rfl
@[simp] theorem attrs_withAttrs (e a) : (withAttrs e a).attrs = a := rfl
@[simp] theorem text_withAttrs (e a) : (withAttrs e a).text = e.text := rfl
@[simp] theorem children_withAttrs (e a) : (withAttrs e a).children = e.children := rfl

theorem sizeOf_lt_of_mem {e : Elem} {l : List Elem} (h : e ∈ l) : sizeOf e < sizeOf l := by
  induction l with
  | nil => cases h
  | cons a as ih =>
    rcases h with h | h
    · simp; omega
    · have := ih ‹_›; simp at this ⊢; omega

/-- Strong induction along the child relation. -/
theorem strongInd (P : Elem → Prop)
    (h : ∀ t a x c, (∀ e ∈ c, P e) → P (.mk t a x c)) : ∀ e, P e
  | .mk t a x c => h t a x c (fun e he => strongInd P h e)
termination_by e => sizeOf e
decreasing_by
  have := sizeOf_lt_of_mem he
  simp
  omega

/-! ### Attribute maps (lxml `attrib` semantics) -/

/-- `elem.get(k)`. -/
def getA (a : List (String × String)) (k : String) : Option String :=
  match a with
  | [] => none
  | p :: ps => if p.1 = k then some p.2 else getA ps k

/-- `elem.set(k, v)`: replace in place if the key exists, else append. -/
def setA (a : List (String × String)) (k v : String) : List (String × String) :=
  match a with
  | [] => [(k, v)]
  | p :: ps => if p.1 = k then (k, v) :: ps else p :: setA ps k v

/-- `del elem.attrib[k]` (total: removes the key if present). -/
def delA : List (String × String) → String → List (String × String)
  | [], _ => []
  | p :: ps, k => if p.1 = k then delA ps k else p :: delA ps k

def get (e : Elem) (k : String) : Option String := getA e.attrs k
def set (e : Elem) (k v : String) : Elem := e.withAttrs (setA e.attrs k v)
def del (e : Elem) (k : String) : Elem := e.withAttrs (delA e.attrs k)
def hasA (e : Elem) (k : String) : Bool := (e.get k).isSome

@[simp] theorem tag_set (e k v) : (set e k v).tag = e.tag := rfl
@[simp] theorem text_set (e k v) : (set e k v).text = e.text := rfl
@[simp] theorem children_set (e k v) : (set e k v).children = e.children := rfl
@[simp] theorem tag_del (e k) : (del e k).tag = e.tag := rfl
@[simp] theorem text_del (e k) : (del e k).text = e.text := rfl
@[simp] theorem children_del (e k) : (del e k).children = e.children := rfl

/-! ### Traversals -/

mutual
/-- Document-order listing of an element and all of its descendants
(`elem.iter()`). -/
def preorder : Elem → List Elem
  | .mk t a x c => .mk t a x c :: preorderL c
def preorderL : List Elem → List Elem
  | [] => []
  | e :: es => preorder e ++ preorderL es
end

/-- All proper descendants in document order (`elem.findall('.//*')`). -/
def descendants (e : Elem) : List Elem := preorderL e.children

theorem preorderL_eq (l : List Elem) : preorderL l = l.flatMap preorder := by
  induction l with
  | nil => rfl
  | cons e es ih => simp [preorderL, ih]

@[simp] theorem preorder_mk (t a x c) :
    preorder (.mk t a x c) = .mk t a x c :: preorderL c := rfl

theorem self_mem_preorder (e : Elem) : e ∈ preorder e := by
  cases e; simp [preorder]

theorem preorder_eq_cons (e : Elem) : preorder e = e :: descendants e := by
  cases e; rfl

mutual
/-- Path (list of child indices) of the first pre-order proper descendant
satisfying `p`; mirrors `elem.find('.//…')`, which never matches the element
itself.  A path identifies the lxml node object, so membership of the found
node in a sibling list is path-length-one, matching Python identity. -/
def findPath (p : Elem → Bool) : Elem → Option (List Nat)
  | .mk _ _ _ c => findPathL p c 0
def findPathL (p : Elem → Bool) : List Elem → Nat → Option (List Nat)
  | [], _ => none
  | e :: es, i =>
    if p e then some [i]
    else
      match findPath p e with
      | some path => some (i :: path)
      | none => findPathL p es (i + 1)
end

/-- Look up the element at a path. -/
def getPath : Elem → List Nat → Option Elem
  | e, [] => some e
  | e, i :: is =>
    match e.children.get? i with
    | some ch => getPath ch is
    | none => none

/-- Replace the `i`-th entry of a list by `f` of it. -/
def modN (f : Elem → Elem) : List Elem → Nat → List Elem
  | [], _ => []
  | e :: es, 0 => f e :: es
  | e :: es, n + 1 => e :: modN f es n

/-- Rewrite the element at a path with `f` (identity on a dangling path). -/
def updatePath (f : Elem → Elem) : Elem → List Nat → Elem
  | e, [] => f e
  | .mk t a x c, i :: is => .mk t a x (modN (fun ch => updatePath f ch is) c i)

/-- `x = e.find('.//…'); if x is not None: mutate x`. -/
def updateFirst (p : Elem → Bool) (f : Elem → Elem) (e : Elem) : Elem :=
  match findPath p e with
  | none => e
  | some path => updatePath f e path

/-- Python `list.insert` (clamps at the end). -/
def insN (x : Elem) : List Elem → Nat → List Elem
  | l, 0 => x :: l
  | [], _ + 1 => [x]
  | e :: es, n + 1 => e :: insN x es n

/-- Index of the first child with the given tag. -/
def idxOfTag (l : List Elem) (t : String) : Option Nat :=
  match l with
  | [] => none
  | e :: es =>
    if e.tag = t then some 0
    else (idxOfTag es t).map (· + 1)

/-- `elem.find(t)`: first direct child with the given tag. -/
def findChild (e : Elem) (t : String) : Option Elem :=
  e.children.find? (fun c => c.tag = t)

mutual
/-- Bottom-up map of `f` over a tree (children first). -/
def mapTree (f : Elem → Elem) : Elem → Elem
  | .mk t a x c => f (.mk t a x (mapTreeL f c))
def mapTreeL (f : Elem → Elem) : List Elem → List Elem
  | [] => []
  | e :: es => mapTree f e :: mapTreeL f es
end

/-- Apply `f` at every proper descendant, leaving the root node itself
untouched (the `findall('.//…')` iteration pattern). -/
def mapDescendants (f : Elem → Elem) (e : Elem) : Elem :=
  e.withChildren (mapTreeL f e.children)

theorem mapTreeL_eq (f : Elem → Elem) (l : List Elem) :
    mapTreeL f l = l.map (mapTree f) := by
  induction l with
  | nil => rfl
  | cons e es ih => simp [mapTreeL, ih]

end Elem

/-! ### Stage 1 — table-wrap positioning

`_post_process_xml`, "PMC Requirement: table-wrap position attribute":
a missing `position` defaults to `float`, and `top` is replaced by `float`.
-/

namespace Pipeline

open Elem

def posFixNode (e : Elem) : Elem :=
  if e.tag = "table-wrap" then
    match e.get "position" with
    | none => e.set "position" "float"
    | some p => if p = "top" then e.set "position" "float" else e
  else e

def posFix (root : Elem) : Elem := mapDescendants posFixNode root

/-! ### Stage 2 — table structure fixing

`_post_process_xml`, "Fix table structure to comply with DTD".  Tables are
visited in document order (ancestors before the tables inside them), so the
whole-tree pass fixes a table's child list and then recurses into the
resulting children.
-/

/-- `len(tbody) == 0 or not tbody.findall('.//tr')`: no `tr` descendant. -/
def hasDescTr (e : Elem) : Bool := (descendants e).any (fun d => d.tag = "tr")

def emptyTbody (e : Elem) : Bool := e.tag = "tbody" && !(hasDescTr e)

/-- The synthesized `<tbody><tr><td/></tr></tbody>` (`td.text = ''`). -/
def newTbody : Elem := .mk "tbody" [] "" [.mk "tr" [] "" [.mk "td" [] "" []]]

/-- The placeholder row appended to a sole empty tbody. -/
def newTr : Elem := .mk "tr" [] "" [.mk "td" [] "" []]

def hasHeadOrFoot (c : List Elem) : Bool :=
  c.any (fun e => e.tag = "thead") || c.any (fun e => e.tag = "tfoot")

/-- One table's child-list repair, exactly as in the source: with a header or
footer, empty tbodys are removed and, if no tbody remains, a fresh one is
inserted immediately after the footer (else the header); without them, a sole
empty tbody with no sibling rows receives a placeholder row, and any other
empty tbody is removed. -/
def fixTable (c : List Elem) : List Elem :=
  if hasHeadOrFoot c then
    let kept := c.filter (fun e => !(emptyTbody e))
    if kept.any (fun e => e.tag = "tbody") then kept
    else
      let idx :=
        match idxOfTag kept "tfoot" with
        | some i => i + 1
        | none =>
          match idxOfTag kept "thead" with
          | some i => i + 1
          | none => kept.length
      insN newTbody kept idx
  else
    let nTbody := (c.filter (fun e => e.tag = "tbody")).length
    let hasTr := c.any (fun e => e.tag = "tr")
    if nTbody = 1 && !hasTr then
      c.map (fun e => if emptyTbody e then e.withChildren (e.children ++ [newTr]) else e)
    else
      c.filter (fun e => !(emptyTbody e))

/-- `fixTable` on a child list paired with its recursively fixed version.
The source iterates `root.findall('.//table')` in document order, repairing a
table's child list before the tables nested inside it; every removal/keep
decision reads only the not-yet-recursed subtree (tags and `tr` descendants
of the original children), the synthesized `tbody`/`tr` contain no tables,
and the per-table surgeries are local to disjoint subtrees, so repairing the
nested tables first and then applying the outer decisions computed on the
original children produces the same tree.  `ps` zips each original child with
its fixed version. -/
def fixTablePost (ps : List (Elem × Elem)) : List Elem :=
  let origs := ps.map Prod.fst
  if hasHeadOrFoot origs then
    let kept := (ps.filter (fun p => !(emptyTbody p.1))).map Prod.snd
    if kept.any (fun e => e.tag = "tbody") then kept
    else
      let idx :=
        match idxOfTag kept "tfoot" with
        | some i => i + 1
        | none =>
          match idxOfTag kept "thead" with
          | some i => i + 1
          | none => kept.length
      insN newTbody kept idx
  else
    let nTbody := (origs.filter (fun e => e.tag = "tbody")).length
    let hasTr := origs.any (fun e => e.tag = "tr")
    if nTbody = 1 && !hasTr then
      ps.map (fun p =>
        if emptyTbody p.1 then p.2.withChildren (p.2.children ++ [newTr]) else p.2)
    else
      (ps.filter (fun p => !(emptyTbody p.1))).map Prod.snd

mutual
def tableFixE : Elem → Elem
  | .mk t a x c =>
    if t = "table" then .mk t a x (fixTablePost (c.zip (tableFixL c)))
    else .mk t a x (tableFixL c)
def tableFixL : List Elem → List Elem
  | [] => []
  | e :: es => tableFixE e :: tableFixL es
end

/-- Whole-tree pass; `root.findall('.//table')` does not include the root. -/
def tableFix (root : Elem) : Elem := root.withChildren (tableFixL root.children)

theorem tableFixL_eq (l : List Elem) : tableFixL l = l.map tableFixE := by
  induction l with
  | nil => rfl
  | cons e es ih => simp [tableFixL, ih]

/-! ### Stage 3 — front-matter metadata completion

`_post_process_xml`, "Fix article-meta content order".  The only step that
can raise is `list(article_meta).index(permissions)`, which throws
`ValueError` when the permissions element found by `.//permissions` is not a
direct child of article-meta; the whole post-processing is wrapped in a
`try/except`, so this aborts the rewrite.
-/

inductive PErr where
  | valueError
deriving DecidableEq

def fixJournalId (e : Elem) : Elem :=
  if strBlank e.text then (e.set "journal-id-type" "publisher-id").withText "unknown-journal"
  else if e.hasA "journal-id-type" then e
  else e.set "journal-id-type" "publisher-id"

def fixJTG (e : Elem) : Elem :=
  match findPath (fun d => d.tag = "journal-title") e with
  | none => e.withChildren (e.children ++ [.mk "journal-title" [] "Unknown Journal" []])
  | some p =>
    updatePath (fun jt => if strBlank jt.text then jt.withText "Unknown Journal" else jt) e p

def fixIssn (e : Elem) : Elem :=
  let e1 := if strBlank e.text then e.withText "0000-0000" else e
  if e1.hasA "pub-type" || e1.hasA "publication-format" then e1
  else e1.set "pub-type" "epub"

def fixPublisher (e : Elem) : Elem :=
  updateFirst (fun d => d.tag = "publisher-name")
    (fun pn => if strBlank pn.text then pn.withText "Unknown Publisher" else pn) e

def fixJournalMeta (jm : Elem) : Elem :=
  let jm1 := updateFirst (fun d => d.tag = "journal-id") fixJournalId jm
  let jm2 := updateFirst (fun d => d.tag = "journal-title-group") fixJTG jm1
  let jm3 := updateFirst (fun d => d.tag = "issn") fixIssn jm2
  updateFirst (fun d => d.tag = "publisher") fixPublisher jm3

def newTitleGroup : Elem :=
  .mk "title-group" [] "" [.mk "article-title" [] "Article Title" []]

def newArticleCategories (articleType : String) : Elem :=
  .mk "article-categories" [] ""
    [.mk "subj-group" [("subj-group-type", "heading")] ""
      [.mk "subject" []
        (if articleType = "research-article" then "Research Article"
         else if articleType = "review-article" then "Review Article"
         else "Article") []]]

def newPubDate (year : String) : Elem :=
  .mk "pub-date" [("date-type", "pub"), ("publication-format", "electronic")] ""
    [.mk "year" [] year []]

def newElocation : Elem := .mk "elocation-id" [] "e001" []

/-- `0 + length of the prefix of tags within the given set`, implementing the
`for i in range(start, len) … else break` scans. -/
def scanLen (tags : List String) : List Elem → Nat
  | [] => 0
  | e :: es => if tags.contains e.tag then 1 + scanLen tags es else 0

/-- Title-group before permissions when permissions exist without one;
`list(article_meta).index(permissions)` raises unless the found permissions
is a direct child (path of length one). -/
def tgStep (am : Elem) : Except PErr Elem :=
  match findPath (fun d => d.tag = "permissions") am,
        findPath (fun d => d.tag = "title-group") am with
  | some pp, none =>
    match pp with
    | [i] => pure (am.withChildren (insN newTitleGroup am.children i))
    | _ => throw PErr.valueError
  | _, _ => pure am

/-- Article-categories inserted first in article-meta when missing. -/
def acStep (articleType : String) (am : Elem) : Elem :=
  match findPath (fun d => d.tag = "article-categories") am with
  | none => am.withChildren (insN (newArticleCategories articleType) am.children 0)
  | some _ => am

/-- Base insertion index: after the title-group when it is a direct child,
else after article-categories when it is a direct child, else 0. -/
def baseIdx (am : Elem) : Nat :=
  match findPath (fun d => d.tag = "title-group") am with
  | some [i] => i + 1
  | _ =>
    match findPath (fun d => d.tag = "article-categories") am with
    | some [j] => j + 1
    | _ => 0

/-- Pub-date inserted at the scanned index when missing; returns the updated
element and insertion index. -/
def pubDateStep (year : String) (am : Elem) (idx : Nat) : Elem × Nat :=
  match findPath (fun d => d.tag = "pub-date") am with
  | none => (am.withChildren (insN (newPubDate year) am.children idx), idx + 1)
  | some _ => (am, idx)

/-- Elocation-id inserted when both fpage and elocation-id are missing. -/
def elocStep (am : Elem) (idx : Nat) : Elem :=
  if (findPath (fun d => d.tag = "fpage") am).isNone &&
     (findPath (fun d => d.tag = "elocation-id") am).isNone then
    am.withChildren (insN newElocation am.children idx)
  else am

def fixArticleMeta (articleType year : String) (am : Elem) : Except PErr Elem := do
  let am1 ← tgStep am
  let am2 := acStep articleType am1
  let idx0 := baseIdx am2
  let idx1 := idx0 + scanLen ["contrib-group", "aff", "author-notes"] (am2.children.drop idx0)
  let r := pubDateStep year am2 idx1
  let idx2 := r.2 + scanLen ["volume", "issue"] (r.1.children.drop r.2)
  pure (elocStep r.1 idx2)

/-- Except-valued variant of `modN`. -/
def modNE (f : Elem → Except PErr Elem) : List Elem → Nat → Except PErr (List Elem)
  | [], _ => pure []
  | e :: es, 0 => do pure ((← f e) :: es)
  | e :: es, n + 1 => do pure (e :: (← modNE f es n))

/-- Except-valued variant of `updatePath`. -/
def updatePathE (f : Elem → Except PErr Elem) : Elem → List Nat → Except PErr Elem
  | e, [] => f e
  | .mk t a x c, i :: is =>
    do pure (.mk t a x (← modNE (fun ch => updatePathE f ch is) c i))

def updateFirstE (p : Elem → Bool) (f : Elem → Except PErr Elem) (e : Elem) :
    Except PErr Elem :=
  match findPath p e with
  | none => pure e
  | some path => updatePathE f e path

def fixFront (articleType year : String) (fr : Elem) : Except PErr Elem :=
  let fr1 := updateFirst (fun d => d.tag = "journal-meta") fixJournalMeta fr
  updateFirstE (fun d => d.tag = "article-meta") (fixArticleMeta articleType year) fr1

def metaFix (year : String) (root : Elem) : Except PErr Elem :=
  let articleType := (root.get "article-type").getD "research-article"
  updateFirstE (fun d => d.tag = "front") (fixFront articleType year) root

/-! ### Stage 4 — reference-id assignment

`_post_process_xml`, "Fix missing reference IDs": every `ref` under the first
`ref-list` of the first `back`, counted in document order starting at 1,
receives `id = refN` when it has no id attribute.
-/

mutual
def numberRefsE : Elem → Nat → Elem × Nat
  | .mk t a x c, n =>
    if t = "ref" then
      let a1 := if (getA a "id").isSome then a else setA a "id" ("ref" ++ toString (n + 1))
      let r := numberRefsL c (n + 1)
      (.mk t a1 x r.1, r.2)
    else
      let r := numberRefsL c n
      (.mk t a x r.1, r.2)
def numberRefsL : List Elem → Nat → List Elem × Nat
  | [], n => ([], n)
  | e :: es, n =>
    let r1 := numberRefsE e n
    let r2 := numberRefsL es r1.2
    (r1.1 :: r2.1, r2.2)
end

def refIdFix (root : Elem) : Elem :=
  updateFirst (fun d => d.tag = "back")
    (updateFirst (fun d => d.tag = "ref-list")
      (fun rl => rl.withChildren (numberRefsL rl.children 0).1)) root

/-! ### Stage 5 — xref repair

`_post_process_xml`, lines 1132–1198.  `xrefs = root.findall('.//xref')` is a
snapshot; both loops only rewrite attributes of individual xrefs, so they are
modelled as two successive per-xref passes sharing the same environment: the
`ref` elements of the first ref-list of the first back, and the set of all
(truthy) `rid` values of xrefs at snapshot time.
-/

/-- `ref` elements of the first `ref-list` of the first `back`
(`back.find('.//ref-list')`, then `ref_list.findall('.//ref')`). -/
def bibRefs (root : Elem) : List Elem :=
  match findPath (fun d => d.tag = "back") root with
  | none => []
  | some bp =>
    match getPath root bp with
    | none => []
    | some b =>
      match findPath (fun d => d.tag = "ref-list") b with
      | none => []
      | some rp =>
        match getPath b rp with
        | none => []
        | some rl => (preorderL rl.children).filter (fun d => d.tag = "ref")

/-- Truthy `rid` values of all xrefs (the `referenced_ids` snapshot). -/
def referencedIds (root : Elem) : List String :=
  (descendants root).filterMap fun e =>
    if e.tag = "xref" then
      match e.get "rid" with
      | some r => if r = "" then none else some r
      | none => none
    else none

/-- Loop at lines 1147–1161: for an xref whose `alt` number matches a
reference position, with a (truthy) `rid` that no ref of the ref-list
carries as id, rewrite `rid` to that reference's id. -/
def altRewrite (refs : List Elem) (refIds : List String) (e : Elem) : Elem :=
  match e.get "alt", e.get "rid" with
  | some alt, some rid =>
    if isDigits alt then
      let n := strToNat alt
      if 1 ≤ n ∧ n ≤ refs.length then
        match refs.get? (n - 1) with
        | some ref =>
          if rid ∈ refIds ∧ ¬ refs.any (fun r => r.get "id" = some rid) then
            e.set "rid" ((ref.get "id").getD ("ref" ++ toString n))
          else e
        | none => e
      else e
    else e
  | _, _ => e

/-- Loop at lines 1165–1198: default `ref-type` to `bibr`, and synthesize a
missing `rid` from a digit `alt` in range of the reference list. -/
def refTypeRidFix (refs : List Elem) (e : Elem) : Elem :=
  let e1 := if e.hasA "ref-type" then e else e.set "ref-type" "bibr"
  if e1.hasA "rid" then e1
  else
    match e1.get "alt" with
    | some alt =>
      if isDigits alt then
        let n := strToNat alt
        if 1 ≤ n ∧ n ≤ refs.length then
          match refs.get? (n - 1) with
          | some ref => e1.set "rid" ((ref.get "id").getD ("ref" ++ toString n))
          | none => e1
        else e1
      else e1
    | none => e1

def xrefFix (root : Elem) : Elem :=
  let refs := bibRefs root
  let refIds := referencedIds root
  let r1 := mapDescendants
    (fun e => if e.tag = "xref" then altRewrite refs refIds e else e) root
  mapDescendants (fun e => if e.tag = "xref" then refTypeRidFix refs e else e) r1

/-! ### Stage 6 — ID/IDREF validation

`_post_process_xml`, lines 1200–1266: one pass over `root.iter()` collects
truthy `id` values and the elements carrying `rid`/`rids`; a second pass
validates, repairs (xref via digit `alt` against the reference list) or
removes those attributes.  Only attributes are rewritten, so the pass is a
per-node map with a fixed environment; `root.iter()` includes the root.
-/

/-- Truthy `id` values over `root.iter()`. -/
def validIds (root : Elem) : List String :=
  (preorder root).filterMap fun e =>
    match e.get "id" with
    | some i => if i = "" then none else some i
    | none => none

/-- The candidate replacement id of lines 1226–1247: an xref whose digit
`alt` indexes into the reference list can borrow that reference's id, when
that id is truthy and among the collected ids. -/
def xrefRepair (vs : List String) (refs : List Elem) (e : Elem) : Option String :=
  if e.tag = "xref" then
    match e.get "alt" with
    | some alt =>
      if isDigits alt then
        let n := strToNat alt
        if 1 ≤ n ∧ n ≤ refs.length then
          match refs.get? (n - 1) with
          | some ref =>
            match ref.get "id" with
            | some cid => if ¬ cid = "" ∧ cid ∈ vs then some cid else none
            | none => none
          | none => none
        else none
      else none
    | none => none
  else none

/-- The `rid` half of the validation loop (lines 1218–1249): keep falsy or
valid values, repair an xref via `xrefRepair`, else delete the attribute. -/
def ridFixE (vs : List String) (refs : List Elem) (e : Elem) : Elem :=
  match e.get "rid" with
  | none => e
  | some rid =>
    if rid = "" then e
    else if rid ∈ vs then e
    else
      match xrefRepair vs refs e with
      | some cid => e.set "rid" cid
      | none => e.del "rid"

/-- The `rids` half of the validation loop (lines 1251–1266): keep falsy
values, keep only valid tokens, delete the attribute when none survive. -/
def ridsFixE (vs : List String) (e1 : Elem) : Elem :=
  match e1.get "rids" with
  | none => e1
  | some rids =>
    if rids = "" then e1
    else
      let toks := strSplit rids
      let valid := toks.filter (fun t => t ∈ vs)
      if valid.isEmpty then e1.del "rids" else e1.set "rids" (joinSp valid)

def idrefNode (vs : List String) (refs : List Elem) (e : Elem) : Elem :=
  ridsFixE vs (ridFixE vs refs e)

def idrefFix (root : Elem) : Elem :=
  let vs := validIds root
  let refs := bibRefs root
  mapTree (idrefNode vs refs) root

/-! ### Stage 7 — namespace and schema binding

`_post_process_xml`, lines 1268–1327.  A document couples the root element
with its namespace map and a DOCTYPE flag; `tree.docinfo.clear()` plus a
write without DOCTYPE make the schema-variant serialization DOCTYPE-free.
When a namespace must be added the root element is rebuilt, which copies the
attributes except those containing `schemaLocation` and drops the root text;
the `xsi:schemaLocation` attribute is removed, `dtd-version` is forced to
the configured version and `article-type` is defaulted.
-/

structure Doc where
  doctype : Bool
  nsmap : List (String × String)
  root : Elem

/-- `_namespace_exists`: key match, or case-insensitive substring of a
truthy key. -/
def nsExists (nsmap : List (String × String)) (pfx : String) : Bool :=
  nsmap.any (fun p => p.1 = pfx) ||
  nsmap.any (fun p => !(p.1 = "") && containsSub (strLower p.1) (strLower pfx))

def xlinkNs : String := "http://www.w3.org/1999/xlink"
def mmlNs : String := "http://www.w3.org/1998/Math/MathML"
def xsiSchemaLocation : String :=
  "{http://www.w3.org/2001/XMLSchema-instance}schemaLocation"

def nsBind (d : Doc) : Doc :=
  let addXlink := !(nsExists d.nsmap "xlink")
  let ns1 := if addXlink then d.nsmap ++ [("xlink", xlinkNs)] else d.nsmap
  let addMml := !(nsExists ns1 "mml")
  let ns2 := if addMml then ns1 ++ [("mml", mmlNs)] else ns1
  let root :=
    if addXlink || addMml then
      Elem.mk d.root.tag
        (d.root.attrs.filter (fun p => !(containsSub p.1 "schemaLocation")))
        "" d.root.children
    else d.root
  let root := root.del xsiSchemaLocation
  let root := root.set "dtd-version" "1.3"
  let root := if root.hasA "article-type" then root else root.set "article-type" "research-article"
  { doctype := false, nsmap := ns2, root := root }

/-! ### The composed post-processing pass -/

/-- The tree rewriting of `_post_process_xml`, stages in source order. -/
def postProcessTree (year : String) (root : Elem) : Except PErr Elem := do
  let r := posFix root
  let r := tableFix r
  let r ← metaFix year r
  let r := refIdFix r
  let r := xrefFix r
  pure (idrefFix r)

def postProcessDoc (year : String) (d : Doc) : Except PErr Doc := do
  let r ← postProcessTree year d.root
  pure (nsBind { d with root := r })

/-- `_post_process_xml` as an action on the on-disk file: the whole body is
inside `try/except`, the file is written only as the final step, so a raised
step leaves the file untouched and the function returns normally. -/
def postProcessFile (year : String) (d : Doc) : Doc :=
  match postProcessDoc year d with
  | .ok r => r
  | .error _ => d

end Pipeline

/-! ### Lemma library: attribute maps -/

namespace Elem

theorem getA_setA_self (a : List (String × String)) (k v : String) :
    getA (setA a k v) k = some v := by
  induction a with
  | nil => simp [setA, getA]
  | cons p ps ih =>
    by_cases h : p.1 = k
    · simp [setA, getA, h]
    · simp [setA, getA, h, ih]

theorem getA_setA_ne (a : List (String × String)) (k v k2 : String) (h : ¬ k2 = k) :
    getA (setA a k v) k2 = getA a k2 := by
  have hk : ¬ k = k2 := fun hh => h hh.symm
  induction a with
  | nil => simp [setA, getA, hk]
  | cons p ps ih =>
    cases p with
    | mk pk pv =>
      by_cases hp : pk = k
      · subst hp
        simp [setA, getA, hk]
      · simp only [setA, hp, if_false, getA]
        by_cases hq : pk = k2 <;> simp [hq, ih]

theorem setA_of_getA_eq (a : List (String × String)) (k v : String)
    (h : getA a k = some v) : setA a k v = a := by
  induction a with
  | nil => simp [getA] at h
  | cons p ps ih =>
    cases p with
    | mk pk pv =>
      by_cases hp : pk = k
      · subst hp
        simp only [getA, if_true, Option.some.injEq] at h
        simp [setA, h]
      · simp only [getA, hp, if_false] at h
        simp [setA, hp, ih h]

theorem getA_delA_self (a : List (String × String)) (k : String) :
    getA (delA a k) k = none := by
  induction a with
  | nil => simp [delA, getA]
  | cons p ps ih =>
    by_cases hp : p.1 = k
    · simpa [delA, hp] using ih
    · simp [delA, getA, hp, ih]

theorem getA_delA_ne (a : List (String × String)) (k k2 : String) (h : ¬ k2 = k) :
    getA (delA a k) k2 = getA a k2 := by
  induction a with
  | nil => simp [delA]
  | cons p ps ih =>
    cases p with
    | mk pk pv =>
      by_cases hp : pk = k
      · subst hp
        have hne : ¬ pk = k2 := fun hh => h hh.symm
        simpa [delA, getA, hne] using ih
      · by_cases hq : pk = k2 <;> simp_all [delA, getA]

theorem delA_of_getA_none (a : List (String × String)) (k : String)
    (h : getA a k = none) : delA a k = a := by
  induction a with
  | nil => simp [delA]
  | cons p ps ih =>
    cases p with
    | mk pk pv =>
      by_cases hp : pk = k
      · simp [getA, hp] at h
      · simp only [getA, hp, if_false] at h
        simp [delA, hp, ih h]

@[simp] theorem get_set_self (e : Elem) (k v : String) : (e.set k v).get k = some v :=
  getA_setA_self e.attrs k v

theorem get_set_ne (e : Elem) (k v k2 : String) (h : ¬ k2 = k) :
    (e.set k v).get k2 = e.get k2 :=
  getA_setA_ne e.attrs k v k2 h

@[simp] theorem get_del_self (e : Elem) (k : String) : (e.del k).get k = none :=
  getA_delA_self e.attrs k

theorem get_del_ne (e : Elem) (k k2 : String) (h : ¬ k2 = k) :
    (e.del k).get k2 = e.get k2 :=
  getA_delA_ne e.attrs k k2 h

@[simp] theorem withAttrs_attrs (e : Elem) : e.withAttrs e.attrs = e := by
  cases e; rfl

theorem set_of_get_eq (e : Elem) (k v : String) (h : e.get k = some v) : e.set k v = e := by
  have : setA e.attrs k v = e.attrs := setA_of_getA_eq e.attrs k v h
  simp [set, this]

theorem del_of_get_none (e : Elem) (k : String) (h : e.get k = none) : e.del k = e := by
  have : delA e.attrs k = e.attrs := delA_of_getA_none e.attrs k h
  simp [del, this]

/-! ### Lemma library: skeletons

`skel` forgets attributes and text; a transformation that preserves `skel`
keeps every structural property (tags, child lists, descendant tags, find
paths) intact.
-/

mutual
def skel : Elem → Elem
  | .mk t _ _ c => .mk t [] "" (skelL c)
def skelL : List Elem → List Elem
  | [] => []
  | e :: es => skel e :: skelL es
end

theorem skelL_eq (l : List Elem) : skelL l = l.map skel := by
  induction l with
  | nil => rfl
  | cons e es ih => simp [skelL, ih]

@[simp] theorem skel_mk (t a x c) : skel (.mk t a x c) = .mk t [] "" (skelL c) := rfl

@[simp] theorem tag_skel (e : Elem) : (skel e).tag = e.tag := by
  cases e; rfl

theorem children_skel (e : Elem) : (skel e).children = skelL e.children := by
  cases e; rfl

theorem skel_withChildren (e : Elem) (c : List Elem) :
    skel (e.withChildren c) = .mk e.tag [] "" (skelL c) := by
  cases e; rfl

@[simp] theorem skel_set (e : Elem) (k v : String) : skel (e.set k v) = skel e := by
  cases e; rfl

@[simp] theorem skel_del (e : Elem) (k : String) : skel (e.del k) = skel e := by
  cases e; rfl

@[simp] theorem skel_withText (e : Elem) (x : String) : skel (e.withText x) = skel e := by
  cases e; rfl

@[simp] theorem skel_withAttrs (e : Elem) (a) : skel (e.withAttrs a) = skel e := by
  cases e; rfl

theorem preorderL_append (l1 l2 : List Elem) :
    preorderL (l1 ++ l2) = preorderL l1 ++ preorderL l2 := by
  induction l1 with
  | nil => rfl
  | cons e es ih => simp [preorderL, ih]

/-- Tags of the pre-order listing are determined by the skeleton. -/
theorem preorder_map_tag_skel : ∀ e : Elem,
    (preorder (skel e)).map tag = (preorder e).map tag := by
  intro e
  induction e using strongInd with
  | h t a x c ih =>
    simp only [skel_mk, preorder_mk, List.map_cons, tag_mk, List.cons.injEq, true_and]
    rw [skelL_eq, preorderL_eq, preorderL_eq, List.flatMap_def, List.flatMap_def,
      List.map_map]
    induction c with
    | nil => rfl
    | cons d ds ihl =>
      simp only [List.map_cons, List.flatten_cons, List.map_append, Function.comp]
      rw [ih d (by simp), ihl (fun e he => ih e (by simp [he]))]

theorem any_tag_eq_of_map_tag_eq {l1 l2 : List Elem} (T : String)
    (h : l1.map tag = l2.map tag) :
    (l1.any fun d => d.tag = T) = (l2.any fun d => d.tag = T) := by
  induction l1 generalizing l2 with
  | nil =>
    cases l2 with
    | nil => rfl
    | cons b bs => simp at h
  | cons a as ih =>
    cases l2 with
    | nil => simp at h
    | cons b bs =>
      simp only [List.map_cons, List.cons.injEq] at h
      simp [List.any_cons, h.1, ih h.2]

theorem hasDescTr_skel (e : Elem) :
    Pipeline.hasDescTr (skel e) = Pipeline.hasDescTr e := by
  have h1 : (preorder (skel e)).map tag = (preorder e).map tag := preorder_map_tag_skel e
  rw [preorder_eq_cons, preorder_eq_cons] at h1
  simp only [List.map_cons, tag_skel, List.cons.injEq, true_and] at h1
  simp only [Pipeline.hasDescTr, descendants]
  rw [children_skel]
  simp only [descendants, children_skel] at h1
  exact any_tag_eq_of_map_tag_eq "tr" h1

end Elem

/-! ### Decidable equality for elements and documents -/

namespace Elem

mutual
def beqE : Elem → Elem → Bool
  | .mk t a x c, .mk t2 a2 x2 c2 => t = t2 && a = a2 && x = x2 && beqL c c2
def beqL : List Elem → List Elem → Bool
  | [], [] => true
  | e :: es, f :: fs => beqE e f && beqL es fs
  | _, _ => false
end

theorem beqL_iff_aux : ∀ (c c2 : List Elem),
    (∀ e ∈ c, ∀ b, beqE e b = true ↔ e = b) → (beqL c c2 = true ↔ c = c2)
  | [], [], _ => by simp [beqL]
  | [], _ :: _, _ => by simp [beqL]
  | _ :: _, [], _ => by simp [beqL]
  | e :: es, f :: fs, h => by
    simp only [beqL, Bool.and_eq_true, List.cons.injEq]
    rw [h e (by simp) f, beqL_iff_aux es fs (fun x hx => h x (by simp [hx]))]

theorem beqE_iff : ∀ a b : Elem, beqE a b = true ↔ a = b := by
  intro a
  induction a using strongInd with
  | h t at2 x c ih =>
    intro b
    cases b with
    | mk t2 a2 x2 c2 =>
      simp only [beqE, Bool.and_eq_true, decide_eq_true_eq, Elem.mk.injEq]
      rw [beqL_iff_aux c c2 (fun e he b => ih e he b)]
      tauto

instance : DecidableEq Elem := fun a b => decidable_of_iff _ (beqE_iff a b)

end Elem

instance : DecidableEq Pipeline.Doc := fun d1 d2 =>
  match d1, d2 with
  | ⟨b1, n1, r1⟩, ⟨b2, n2, r2⟩ =>
    decidable_of_iff (b1 = b2 ∧ n1 = n2 ∧ r1 = r2) (by simp [Pipeline.Doc.mk.injEq, and_assoc])

/-! ### Counting and scanning helpers used by the claims -/

namespace Pipeline

open Elem

/-- Number of elements with a given tag, the element itself included. -/
def countTag (e : Elem) (T : String) : Nat :=
  ((preorder e).filter (fun d => d.tag = T)).length

/-- Number of proper descendants with a given tag. -/
def countTagD (e : Elem) (T : String) : Nat :=
  ((descendants e).filter (fun d => d.tag = T)).length

def hasDescTag (e : Elem) (T : String) : Bool :=
  (descendants e).any (fun d => d.tag = T)

/-- Python `s.startswith(pat)`. -/
def strStarts (s pat : String) : Bool := pat.data.isPrefixOf s.data

/-- A table with both direct row children and a body-group child. -/
def mixedTable (t : Elem) : Bool :=
  (preorder t).any fun e =>
    e.tag = "table" && (e.children.any fun c => c.tag = "tr") &&
      (e.children.any fun c => c.tag = "tbody")

/-- No table anywhere has a direct row child. -/
def noDirectTrTables (t : Elem) : Bool :=
  (preorder t).all fun e =>
    !(e.tag = "table") || e.children.all fun c => !(c.tag = "tr")

/-! ### The surrounding pipeline control flow (`run_pipeline`)

Step 1 converts the document and checks well-formedness
(`_validate_xml_wellformedness` re-raises any parse failure, and the
enclosing `try` re-raises, aborting the run); on success `_post_process_xml`
and `_generate_articledtd_xml` run before validation.  Step 3 calls
`validate_jats_compliance`, whose boolean result is only logged — the outputs
written in step 1 are unaffected.  `articledtd.xml` is the same document with
a DOCTYPE declaration prepended (`tools/add_doctype.py`).
-/

inductive ParseErr where
  | syntaxError
deriving DecidableEq

structure PipelineResult where
  articleXml : Option Doc
  articleDtdXml : Option Doc
  validationFailureReported : Bool
  fatal : Bool
deriving DecidableEq

def addDoctype (d : Doc) : Doc := { d with doctype := true }

/-- `run_pipeline` steps 1–3, parametrized by the outcome of parsing the
converted XML and by the schema validator's verdict. -/
def runPipeline (year : String) (wellformed : Except ParseErr Doc)
    (schemaValid : Bool) : PipelineResult :=
  match wellformed with
  | .error _ => PipelineResult.mk none none false true
  | .ok d =>
    let processed := postProcessFile year d
    let dtd := addDoctype processed
    PipelineResult.mk (some processed) (some dtd) (!schemaValid) false

/-! ### Concrete documents

These transcribe inputs of the repository's own test-suite
(`tests/test_tex_math_citation_fix.py`, `tests/test_data_attribute_stripping.py`)
and small documents exercising single branches.
-/

/-- `test_multiple_citations_conversion`: a paragraph with
`<tex-math id="texmath1">^{5,6}</tex-math>`. -/
def texCitationDoc : Doc :=
  Doc.mk true [("xlink", xlinkNs)]
    (.mk "article" [("dtd-version", "1.3")] ""
      [.mk "front" [] ""
        [.mk "article-meta" [] ""
          [.mk "title-group" [] "" [.mk "article-title" [] "Test" []]]],
       .mk "body" [] ""
        [.mk "p" [] "This is a test"
          [.mk "tex-math" [("id", "texmath1")] "^\x7b5,6\x7d" []]]])

/-- `test_post_process_xml_strips_data_dtd_compliance`: a table row carrying
`data-dtd-compliance="true"`. -/
def dataAttrDoc : Doc :=
  Doc.mk true [("xlink", xlinkNs)]
    (.mk "article" [("article-type", "research-article")] ""
      [.mk "body" [] ""
        [.mk "table-wrap" [] ""
          [.mk "table" [] ""
            [.mk "thead" [] ""
              [.mk "tr" [] "" [.mk "th" [] "Header 1" [], .mk "th" [] "Header 2" []]],
             .mk "tbody" [] ""
              [.mk "tr" [("data-dtd-compliance", "true")] ""
                [.mk "td" [] "" [], .mk "td" [] "" []]]]]]])

/-- A table with a header row and a direct sibling row. -/
def mixedTableDoc : Elem :=
  .mk "article" [] ""
    [.mk "table" [] ""
      [.mk "thead" [] "" [.mk "tr" [] "" [.mk "th" [] "A" []]],
       .mk "tr" [] "" [.mk "td" [] "B" []]]]

/-- An article-meta with neither title-group nor permissions. -/
def noTitleGroupDoc : Doc :=
  Doc.mk true [("xlink", xlinkNs), ("mml", mmlNs)]
    (.mk "article" [("article-type", "research-article")] ""
      [.mk "front" [] "" [.mk "article-meta" [] "" [.mk "abstract" [] "" []]],
       .mk "body" [] "" [.mk "p" [] "Text" []]])

/-- A root carrying an `xsi:schemaLocation` attribute. -/
def schemaLocDoc : Doc :=
  Doc.mk true [("xlink", xlinkNs), ("mml", mmlNs)]
    (.mk "article"
      [("{http://www.w3.org/2001/XMLSchema-instance}schemaLocation", "https://jats.nlm.nih.gov x.xsd"),
       ("article-type", "research-article")] ""
      [.mk "front" [] ""
        [.mk "article-meta" [] ""
          [.mk "title-group" [] "" [.mk "article-title" [] "T" []],
           .mk "pub-date" [] "" [.mk "year" [] "2020" []],
           .mk "elocation-id" [] "e1" [],
           .mk "article-categories" [] "" []]]])

/-- `permissions` present but not a direct child of article-meta, with no
title-group: `list(article_meta).index(permissions)` raises `ValueError`. -/
def permissionsNestedDoc : Doc :=
  Doc.mk true [("xlink", xlinkNs), ("mml", mmlNs)]
    (.mk "article" [("article-type", "research-article")] ""
      [.mk "front" [] ""
        [.mk "article-meta" [] ""
          [.mk "custom-meta-group" [] "" [.mk "permissions" [] "" []]]]])

/-- An xref carrying an empty `rid` in a document with no ids at all. -/
def emptyRidDoc : Doc :=
  Doc.mk true [("xlink", xlinkNs), ("mml", mmlNs)]
    (.mk "article" [("article-type", "research-article")] ""
      [.mk "body" [] "" [.mk "p" [] "t" [.mk "xref" [("rid", "")] "c" []]]])

end Pipeline

namespace Pipeline

open Elem

instance : DecidableEq (Except PErr Doc) := fun a b =>
  match a, b with
  | .ok x, .ok y => decidable_of_iff (x = y) (by simp)
  | .error x, .error y => decidable_of_iff (x = y) (by simp)
  | .ok _, .error _ => isFalse (by simp)
  | .error _, .ok _ => isFalse (by simp)

/-! ### Claim C3 — tex-math citation conversion (code bug)

The spec and the repository's own tests
(`tests/test_tex_math_citation_fix.py::test_multiple_citations_conversion`)
require `_post_process_xml` to replace a `tex-math` placeholder holding the
citation marker `^{5,6}` by two `xref` links to `ref5`/`ref6` inside a `sup`
wrapper, creating the missing back-matter entries.  The code in
`MasterPipeline.py` contains no such transformation: the placeholder survives
untouched and no cross-reference or reference entry is created.
-/

set_option maxHeartbeats 4000000 in
/-- **C3** (code evaluated at the failing input): post-processing the test
document leaves the `tex-math` element with text `^{5,6}` in place and
produces no `xref` and no `ref` anywhere, contradicting the claimed citation
expansion. -/
theorem c3_texmath_citation_not_converted :
    (postProcessDoc "2024" texCitationDoc).isOk = true ∧
    countTag (postProcessFile "2024" texCitationDoc).root "tex-math" = 1 ∧
    ((preorder (postProcessFile "2024" texCitationDoc).root).any fun e =>
      e.tag = "tex-math" && e.text = "^\x7b5,6\x7d") = true ∧
    countTag (postProcessFile "2024" texCitationDoc).root "xref" = 0 ∧
    countTag (postProcessFile "2024" texCitationDoc).root "ref" = 0 := by
  refine ⟨by decide, by decide, by decide, by decide, by decide⟩

/-! ### Claim C7 — attribute sanitizing (code bug)

The spec and `tests/test_data_attribute_stripping.py` require every
`data-*`-prefixed (and deny-listed) attribute to be removed by the repair
pass.  `_post_process_xml` contains no attribute stripping besides the root's
`xsi:schemaLocation`; a `data-dtd-compliance` attribute survives.
-/

set_option maxHeartbeats 4000000 in
/-- **C7** (code evaluated at the failing input): the `data-dtd-compliance`
attribute of the table row is still present after post-processing. -/
theorem c7_data_attributes_not_stripped :
    (postProcessDoc "2024" dataAttrDoc).isOk = true ∧
    ((preorder (postProcessFile "2024" dataAttrDoc).root).any fun e =>
      e.attrs.any fun p => strStarts p.1 "data-") = true := by
  refine ⟨by decide, by decide⟩

/-! ### Claim C10 — post-processing never propagates and is atomic -/

/-- **C10**: `_post_process_xml` wraps every transformation in `try/except`
and writes the file only as its final step; if any internal step raises, the
function returns normally and the file keeps its previous content. -/
theorem c10_post_process_atomic (year : String) (d : Doc) (e : PErr)
    (h : postProcessDoc year d = .error e) : postProcessFile year d = d := by
  simp [postProcessFile, h]

set_option maxHeartbeats 4000000 in
/-- Witness: on a document whose `permissions` is not a direct child of
article-meta and whose title-group is missing, the `list.index` step raises
`ValueError` and the document is left untouched. -/
theorem c10_post_process_atomic_witness :
    postProcessDoc "2024" permissionsNestedDoc = .error PErr.valueError ∧
    postProcessFile "2024" permissionsNestedDoc = permissionsNestedDoc :=
  ⟨by decide,
   c10_post_process_atomic "2024" permissionsNestedDoc PErr.valueError (by decide)⟩

/-! ### Claim C9 — only the parse failure is fatal -/

/-- **C9**: a malformed conversion result aborts the run with no outputs;
for any document that parses, the pipeline completes step 1, both
serializations (`article.xml`, DOCTYPE-bearing `articledtd.xml`) exist
before validation runs, and a failing schema validation is merely reported,
leaving the outputs untouched. -/
theorem c9_only_parse_failure_fatal :
    (∀ (year : String) (e : ParseErr) (v : Bool),
      runPipeline year (.error e) v = PipelineResult.mk none none false true) ∧
    (∀ (year : String) (d : Doc) (v : Bool),
      (runPipeline year (.ok d) v).fatal = false ∧
      (runPipeline year (.ok d) v).articleXml = some (postProcessFile year d) ∧
      (runPipeline year (.ok d) v).articleDtdXml =
        some (addDoctype (postProcessFile year d)) ∧
      (runPipeline year (.ok d) v).validationFailureReported = (!v)) := by
  exact ⟨fun year e v => rfl, fun year d v => ⟨rfl, rfl, rfl, rfl⟩⟩

/-! ### Claim C5 — mixed table content models (counterexample) -/

set_option maxHeartbeats 1000000 in
/-- **C5 counterexample**: a table with a header and a direct row has no
body-group, so the fixer inserts one immediately after the header while the
direct row stays — the output table has direct `tr` children and a `tbody`
sibling, although the input had no such table. -/
theorem c5_counterexample :
    mixedTable (tableFix mixedTableDoc) = true ∧ mixedTable mixedTableDoc = false := by
  refine ⟨by decide, by decide⟩

/-! ### Claim C6 — required front-matter insertion (counterexample) -/

set_option maxHeartbeats 4000000 in
/-- **C6 counterexample**: with no `permissions` element, a missing
title-group is never inserted: the processed article still has none, while
the other placeholders (categories, date, location id) do get added. -/
theorem c6_counterexample :
    (postProcessDoc "2024" noTitleGroupDoc).isOk = true ∧
    countTag noTitleGroupDoc.root "title-group" = 0 ∧
    countTag (postProcessFile "2024" noTitleGroupDoc).root "title-group" = 0 ∧
    countTag (postProcessFile "2024" noTitleGroupDoc).root "article-categories" = 1 ∧
    countTag (postProcessFile "2024" noTitleGroupDoc).root "pub-date" = 1 ∧
    countTag (postProcessFile "2024" noTitleGroupDoc).root "elocation-id" = 1 := by
  refine ⟨by decide, by decide, by decide, by decide, by decide, by decide⟩

/-! ### Claim C8 — schema-variant serialization (counterexample) -/

set_option maxHeartbeats 4000000 in
/-- **C8 counterexample**: far from being attached or refreshed, the
schema-location attribute present on the input root is removed; the output
root carries no attribute whose name contains `schemaLocation` at all. -/
theorem c8_counterexample :
    schemaLocDoc.root.get xsiSchemaLocation ≠ none ∧
    (postProcessDoc "2024" schemaLocDoc).isOk = true ∧
    ((postProcessFile "2024" schemaLocDoc).root.attrs.all fun p =>
      !(containsSub p.1 "schemaLocation")) = true := by
  refine ⟨by decide, by decide, by decide⟩

theorem get_xsi_none_of_chain (r2 : Elem) (h2 : r2.get xsiSchemaLocation = none) :
    (if r2.hasA "article-type" then r2 else r2.set "article-type" "research-article").get
      xsiSchemaLocation = none := by
  by_cases h : r2.hasA "article-type" = true
  · rw [if_pos h]
    exact h2
  · rw [if_neg h, get_set_ne _ _ _ _ (by decide)]
    exact h2

/-- The binder leaves no `xsi:schemaLocation` on the root. -/
theorem nsBind_root_get_xsi (d : Doc) : (nsBind d).root.get xsiSchemaLocation = none := by
  simp only [nsBind]
  apply get_xsi_none_of_chain
  rw [get_set_ne _ _ _ _ (by decide)]
  exact get_del_self _ _

/-- **C8 amended**: the schema-variant serialization is written with no
document-type declaration and with any `xsi:schemaLocation` attribute
removed from the root (none is attached). -/
theorem c8_amended (year : String) (d r : Doc) (h : postProcessDoc year d = .ok r) :
    r.doctype = false ∧ r.root.get xsiSchemaLocation = none := by
  unfold postProcessDoc at h
  cases hp : postProcessTree year d.root with
  | error e =>
    rw [hp] at h
    exact absurd h (by simp [Bind.bind, Except.bind])
  | ok t =>
    rw [hp] at h
    simp only [Bind.bind, Except.bind, pure, Except.pure, Except.ok.injEq] at h
    subst h
    exact ⟨rfl, nsBind_root_get_xsi _⟩

set_option maxHeartbeats 4000000 in
/-- Witness for the amended C8 at a concrete document. -/
theorem c8_amended_witness :
    (postProcessFile "2024" schemaLocDoc).doctype = false ∧
    (postProcessFile "2024" schemaLocDoc).root.get xsiSchemaLocation = none :=
  c8_amended "2024" schemaLocDoc (postProcessFile "2024" schemaLocDoc) (by decide)

/-! ### Claim C2 — IDREF closure (counterexample to the unrestricted claim) -/

set_option maxHeartbeats 4000000 in
/-- **C2 counterexample**: an empty `rid` is falsy in Python, so the
collection pass skips it; it survives post-processing although no element of
the document carries any id — the claimed closure fails for the empty
value. -/
theorem c2_counterexample :
    (postProcessDoc "2024" emptyRidDoc).isOk = true ∧
    ((preorder (postProcessFile "2024" emptyRidDoc).root).any fun e =>
      e.get "rid" = some "") = true ∧
    validIds (postProcessFile "2024" emptyRidDoc).root = [] := by
  refine ⟨by decide, by decide, by decide⟩

end Pipeline

namespace Pipeline

open Elem

/-! ### Membership lemmas for the table fixer -/

theorem mem_preorderL {d : Elem} {l : List Elem} :
    d ∈ preorderL l ↔ ∃ e ∈ l, d ∈ preorder e := by
  induction l with
  | nil => simp [preorderL]
  | cons e es ih =>
    simp only [preorderL, List.mem_append, ih, List.mem_cons]
    constructor
    · rintro (h | ⟨f, hf, hd⟩)
      · exact ⟨e, Or.inl rfl, h⟩
      · exact ⟨f, Or.inr hf, hd⟩
    · rintro ⟨f, hf | hf, hd⟩
      · exact Or.inl (hf ▸ hd)
      · exact Or.inr ⟨f, hf, hd⟩

theorem mem_insN {y x : Elem} : ∀ {l : List Elem} {i : Nat}, y ∈ insN x l i → y = x ∨ y ∈ l := by
  intro l
  induction l with
  | nil =>
    intro i h
    cases i with
    | zero => simpa [insN] using h
    | succ n => simpa [insN] using h
  | cons e es ih =>
    intro i h
    cases i with
    | zero =>
      rcases List.mem_cons.mp h with h | h
      · exact Or.inl h
      · exact Or.inr h
    | succ n =>
      rcases List.mem_cons.mp h with h | h
      · exact Or.inr (h ▸ List.mem_cons_self e es)
      · rcases ih h with h | h
        · exact Or.inl h
        · exact Or.inr (List.mem_cons_of_mem _ h)

theorem mem_zip_map_self {f : Elem → Elem} :
    ∀ {c : List Elem} {p : Elem × Elem}, p ∈ c.zip (c.map f) → p.1 ∈ c ∧ p.2 = f p.1 := by
  intro c
  induction c with
  | nil => intro p h; simp at h
  | cons e es ih =>
    intro p h
    simp only [List.map_cons, List.zip_cons_cons, List.mem_cons] at h
    rcases h with h | h
    · subst h; exact ⟨List.mem_cons_self _ _, rfl⟩
    · rcases ih h with ⟨h1, h2⟩
      exact ⟨List.mem_cons_of_mem _ h1, h2⟩

theorem tag_tableFixE (e : Elem) : (tableFixE e).tag = e.tag := by
  cases e with
  | mk t a x c =>
    simp only [tableFixE]
    split <;> rfl

/-- Where the elements of a repaired table child list come from: a fixed
original child, the synthesized tbody, or the sole empty tbody with the
placeholder row appended. -/
theorem mem_fixTablePost {y : Elem} {ps : List (Elem × Elem)} (h : y ∈ fixTablePost ps) :
    (∃ p ∈ ps, y = p.2) ∨ y = newTbody ∨
    (∃ p ∈ ps, emptyTbody p.1 = true ∧ y = p.2.withChildren (p.2.children ++ [newTr])) := by
  unfold fixTablePost at h
  by_cases hf : hasHeadOrFoot (ps.map Prod.fst) = true
  · simp only [hf, if_true] at h
    by_cases ht : ((ps.filter fun p => !emptyTbody p.1).map Prod.snd).any
        (fun e => e.tag = "tbody") = true
    · simp only [ht, if_true] at h
      rcases List.mem_map.mp h with ⟨p, hp, hy⟩
      exact Or.inl ⟨p, List.mem_of_mem_filter hp, hy.symm⟩
    · simp only [ht, if_false] at h
      rcases mem_insN h with h | h
      · exact Or.inr (Or.inl h)
      · rcases List.mem_map.mp h with ⟨p, hp, hy⟩
        exact Or.inl ⟨p, List.mem_of_mem_filter hp, hy.symm⟩
  · simp only [hf, if_false] at h
    by_cases hc : (((ps.map Prod.fst).filter fun e => e.tag = "tbody").length = 1 &&
        !((ps.map Prod.fst).any fun e => e.tag = "tr")) = true
    · simp only [hc, if_true] at h
      rcases List.mem_map.mp h with ⟨p, hp, hy⟩
      by_cases he : emptyTbody p.1 = true
      · simp only [he, if_true] at hy
        exact Or.inr (Or.inr ⟨p, hp, he, hy.symm⟩)
      · simp only [he, if_false] at hy
        exact Or.inl ⟨p, hp, hy.symm⟩
    · simp only [hc, if_false] at h
      rcases List.mem_map.mp h with ⟨p, hp, hy⟩
      exact Or.inl ⟨p, List.mem_of_mem_filter hp, hy.symm⟩

/-! ### Claim C5 — amended theorem -/

/-- No table in pre-order has a direct row child (propositional form). -/
def NoTrTables (e : Elem) : Prop :=
  ∀ d ∈ preorder e, d.tag = "table" → ∀ ch ∈ d.children, ¬ ch.tag = "tr"

theorem noDirectTrTables_iff (t : Elem) : noDirectTrTables t = true ↔ NoTrTables t := by
  simp only [noDirectTrTables, NoTrTables, List.all_eq_true, Bool.or_eq_true,
    Bool.not_eq_eq_eq_not, Bool.not_true, decide_eq_false_iff_not, decide_eq_true_eq]
  constructor
  · intro h d hd htag ch hch
    rcases h d hd with h1 | h1
    · exact absurd htag h1
    · exact h1 ch hch
  · intro h d hd
    by_cases htag : d.tag = "table"
    · exact Or.inr (h d hd htag)
    · exact Or.inl htag

theorem newTbody_no_table : ∀ d ∈ preorder newTbody, ¬ d.tag = "table" := by decide

theorem newTr_no_table : ∀ d ∈ preorder newTr, ¬ d.tag = "table" := by decide

/-- Per-node form: a table node has no direct row child. -/
def nodeNoTr (d : Elem) : Prop := d.tag = "table" → ∀ ch ∈ d.children, ¬ ch.tag = "tr"

theorem newTbody_ok : ∀ d ∈ preorder newTbody, nodeNoTr d := by
  intro d hd
  fin_cases hd <;> intro h <;> simp_all [nodeNoTr]

theorem newTr_ok : ∀ d ∈ preorder newTr, nodeNoTr d := by
  intro d hd
  fin_cases hd <;> intro h <;> simp_all [nodeNoTr]

theorem tag_of_emptyTbody {e : Elem} (h : emptyTbody e = true) : e.tag = "tbody" := by
  simp only [emptyTbody, Bool.and_eq_true, decide_eq_true_eq] at h
  exact h.1

theorem tag_fixTablePost_mem {y : Elem} {c : List Elem}
    (h : y ∈ fixTablePost (c.zip (tableFixL c))) :
    (∃ ce ∈ c, y.tag = ce.tag) ∨ y.tag = "tbody" := by
  rw [tableFixL_eq] at h
  rcases mem_fixTablePost h with ⟨p, hp, rfl⟩ | rfl | ⟨p, hp, hemp, rfl⟩
  · rcases mem_zip_map_self hp with ⟨h1, h2⟩
    rw [h2, tag_tableFixE]
    exact Or.inl ⟨p.1, h1, rfl⟩
  · exact Or.inr rfl
  · rcases mem_zip_map_self hp with ⟨h1, hf2⟩
    right
    rw [tag_withChildren, hf2, tag_tableFixE]
    exact tag_of_emptyTbody hemp

theorem noTrTables_tableFixE : ∀ e : Elem,
    (∀ d ∈ preorder e, nodeNoTr d) → ∀ d ∈ preorder (tableFixE e), nodeNoTr d := by
  intro e
  induction e using strongInd with
  | h t a x c ih =>
    intro hP
    have hchild : ∀ ce ∈ c, ∀ d ∈ preorder ce, nodeNoTr d := by
      intro ce hce d hd
      exact hP d (by
        simp only [preorder_mk, List.mem_cons]
        exact Or.inr (mem_preorderL.mpr ⟨ce, hce, hd⟩))
    have hfixed : ∀ ce ∈ c, ∀ d ∈ preorder (tableFixE ce), nodeNoTr d :=
      fun ce hce => ih ce hce (hchild ce hce)
    have hself : nodeNoTr (.mk t a x c) := hP _ (self_mem_preorder _)
    by_cases ht : t = "table"
    · subst ht
      intro d hd
      simp only [tableFixE, if_pos rfl, preorder_mk] at hd
      rcases List.mem_cons.mp hd with hd0 | hd1
      · -- the repaired table node: its new children carry no `tr` tag
        subst hd0
        intro _ ch hch
        simp only [children_mk] at hch
        rcases tag_fixTablePost_mem hch with ⟨ce, hce, hta⟩ | hta
        · rw [hta]; exact hself rfl ce hce
        · rw [hta]; decide
      · -- descendants of the repaired child list
        rcases mem_preorderL.mp hd1 with ⟨y, hy, hdy⟩
        rw [tableFixL_eq] at hy
        rcases mem_fixTablePost hy with ⟨p, hp, rfl⟩ | rfl | ⟨p, hp, hemp, rfl⟩
        · rcases mem_zip_map_self hp with ⟨h1, h2⟩
          rw [h2] at hdy
          exact hfixed p.1 h1 d hdy
        · exact newTbody_ok d hdy
        · rcases mem_zip_map_self hp with ⟨h1, hf2⟩
          rw [preorder_eq_cons] at hdy
          rcases List.mem_cons.mp hdy with rfl | hdy2
          · -- the grown sole tbody is itself not a table
            intro htab
            rw [tag_withChildren, hf2, tag_tableFixE, tag_of_emptyTbody hemp] at htab
            exact absurd htab (by decide)
          · simp only [descendants, children_withChildren] at hdy2
            rw [preorderL_append] at hdy2
            rcases List.mem_append.mp hdy2 with hdy3 | hdy3
            · -- inside the fixed sole tbody
              have : d ∈ preorder p.2 := by
                rw [preorder_eq_cons]
                exact List.mem_cons_of_mem _ hdy3
              rw [hf2] at this
              exact hfixed p.1 h1 d this
            · -- inside the appended placeholder row
              have : d ∈ preorder newTr := by
                simpa [preorderL] using hdy3
              exact newTr_ok d this
    · intro d hd
      simp only [tableFixE, if_neg ht, preorder_mk] at hd
      rcases List.mem_cons.mp hd with hd0 | hd1
      · subst hd0
        intro htab ch hch
        simp only [children_mk] at hch
        rw [tableFixL_eq] at hch
        rcases List.mem_map.mp hch with ⟨ce, hce, rfl⟩
        rw [tag_tableFixE]
        exact hself htab ce hce
      · rcases mem_preorderL.mp hd1 with ⟨y, hy, hdy⟩
        rw [tableFixL_eq] at hy
        rcases List.mem_map.mp hy with ⟨ce, hce, rfl⟩
        exact hfixed ce hce d hdy

theorem noTrTables_tableFix (t : Elem) (h : ∀ d ∈ preorder t, nodeNoTr d) :
    ∀ d ∈ preorder (tableFix t), nodeNoTr d := by
  intro d hd
  unfold tableFix at hd
  rw [preorder_eq_cons] at hd
  have hchild : ∀ ce ∈ t.children, ∀ d2 ∈ preorder ce, nodeNoTr d2 := by
    intro ce hce d2 hd2
    refine h d2 ?_
    rw [preorder_eq_cons]
    exact List.mem_cons_of_mem _ (mem_preorderL.mpr ⟨ce, hce, hd2⟩)
  rcases List.mem_cons.mp hd with rfl | hd2
  · intro htab ch hch
    simp only [children_withChildren] at hch
    rw [tableFixL_eq] at hch
    rcases List.mem_map.mp hch with ⟨ce, hce, rfl⟩
    rw [tag_tableFixE]
    exact h t (self_mem_preorder t) (by simpa using htab) ce hce
  · simp only [descendants, children_withChildren] at hd2
    rcases mem_preorderL.mp hd2 with ⟨y, hy, hdy⟩
    rw [tableFixL_eq] at hy
    rcases List.mem_map.mp hy with ⟨ce, hce, rfl⟩
    exact noTrTables_tableFixE ce (hchild ce hce) d hdy

/-- **C5 amended**: the table fixer never introduces direct row children; on
any document in which no table has a direct `tr` child, the fixed document
has no table mixing direct rows with a body-group. -/
theorem c5_amended (t : Elem) (h : noDirectTrTables t = true) :
    mixedTable (tableFix t) = false := by
  have hno : ∀ d ∈ preorder (tableFix t), nodeNoTr d := by
    apply noTrTables_tableFix
    intro d hd
    intro htab ch hch
    have := (noDirectTrTables_iff t).mp h
    exact this d hd htab ch hch
  simp only [mixedTable]
  rw [List.any_eq_false]
  intro d hd
  intro hcontra
  simp only [Bool.and_eq_true, decide_eq_true_eq, List.any_eq_true] at hcontra
  obtain ⟨⟨htab, ch, hch, htr⟩, -⟩ := hcontra
  exact absurd htr (hno d hd htab ch hch)

/-- Witness for the amended C5: the spec's own end-to-end table example. -/
def theadTableDoc : Elem :=
  .mk "article" [] ""
    [.mk "body" [] ""
      [.mk "table" [] "" [.mk "thead" [] "" [.mk "tr" [] "" [.mk "th" [] "A" []]]]]]

theorem c5_amended_witness :
    noDirectTrTables theadTableDoc = true ∧ mixedTable (tableFix theadTableDoc) = false :=
  ⟨by decide, c5_amended theadTableDoc (by decide)⟩

end Pipeline

namespace Pipeline

open Elem

/-! ### Find-path / descendant-tag bridge and counting lemmas -/

theorem findPath_isSome_eq (T : String) : ∀ e : Elem,
    (findPath (fun d => d.tag = T) e).isSome = hasDescTag e T := by
  intro e
  induction e using strongInd with
  | h t a x c ih =>
    have key : ∀ i, (findPathL (fun d => d.tag = T) c i).isSome =
        (preorderL c).any (fun d => d.tag = T) := by
      induction c with
      | nil => intro i; simp [findPathL, preorderL]
      | cons e2 es ihl =>
        intro i
        have ihe : (findPath (fun d => d.tag = T) e2).isSome = hasDescTag e2 T :=
          ih e2 (by simp)
        have ihtail := ihl (fun e he => ih e (by simp [he]))
        rw [show preorderL (e2 :: es) = preorder e2 ++ preorderL es from rfl,
            List.any_append, preorder_eq_cons]
        by_cases he : e2.tag = T
        · simp [findPathL, he]
        · cases hfp : findPath (fun d => d.tag = T) e2 with
          | some path =>
            have h2 : hasDescTag e2 T = true := by rw [← ihe, hfp]; rfl
            simp only [hasDescTag, descendants] at h2
            have hyes : ((e2 :: descendants e2).any fun d => d.tag = T) = true := by
              rw [List.any_cons]
              simp only [descendants]
              rw [h2]
              simp
            simp [findPathL, he, hfp, hyes]
          | none =>
            have h2 : hasDescTag e2 T = false := by rw [← ihe, hfp]; rfl
            simp only [hasDescTag, descendants] at h2
            have hno : ((e2 :: descendants e2).any fun d => d.tag = T) = false := by
              rw [List.any_cons]
              simp only [descendants]
              rw [h2]
              simp [he]
            simp [findPathL, he, hfp, hno, ihtail (i + 1)]
    show (findPathL (fun d => d.tag = T) c 0).isSome = _
    rw [key 0]
    rfl

theorem filter_preorderL_insN (p : Elem → Bool) (x : Elem) :
    ∀ (l : List Elem) (i : Nat),
    ((preorderL (insN x l i)).filter p).length =
      ((preorder x).filter p).length + ((preorderL l).filter p).length := by
  intro l
  induction l with
  | nil =>
    intro i
    cases i <;> simp [insN, preorderL, List.filter_append]
  | cons e es ih =>
    intro i
    cases i with
    | zero =>
      simp only [insN, preorderL, List.filter_append, List.length_append]
    | succ n =>
      simp only [insN, preorderL, List.filter_append, List.length_append, ih n]
      omega

theorem countTagD_insert (am x : Elem) (i : Nat) (T : String) :
    countTagD (am.withChildren (insN x am.children i)) T =
      countTag x T + countTagD am T := by
  simp only [countTagD, countTag, descendants, children_withChildren]
  exact filter_preorderL_insN _ x am.children i

theorem hasDescTag_iff_pos (e : Elem) (T : String) :
    hasDescTag e T = true ↔ 0 < countTagD e T := by
  simp only [hasDescTag, countTagD, List.any_eq_true, decide_eq_true_eq]
  constructor
  · rintro ⟨d, hd, hdt⟩
    have : d ∈ (descendants e).filter (fun d => d.tag = T) :=
      List.mem_filter.mpr ⟨hd, by simp [hdt]⟩
    exact List.length_pos.mpr (List.ne_nil_of_mem this)
  · intro h
    rcases List.exists_mem_of_length_pos h with ⟨d, hd⟩
    rcases List.mem_filter.mp hd with ⟨h1, h2⟩
    exact ⟨d, h1, by simpa using h2⟩

theorem hasDescTag_insert_of_zero (am x : Elem) (i : Nat) (T : String)
    (hx : countTag x T = 0) :
    hasDescTag (am.withChildren (insN x am.children i)) T = hasDescTag am T := by
  by_cases h : hasDescTag am T = true
  · have := (hasDescTag_iff_pos am T).mp h
    rw [h]
    exact (hasDescTag_iff_pos _ T).mpr (by rw [countTagD_insert, hx]; omega)
  · rw [Bool.not_eq_true] at h
    rw [h]
    rw [Bool.eq_false_iff]
    intro hc
    have := (hasDescTag_iff_pos _ T).mp hc
    rw [countTagD_insert, hx] at this
    exact absurd ((hasDescTag_iff_pos am T).mpr (by omega)) (by simp [h])

/-! Tag counts of the synthesized payloads (their texts may vary, their
structure does not). -/

theorem counts_newTitleGroup :
    countTag newTitleGroup "title-group" = 1 ∧
    countTag newTitleGroup "article-categories" = 0 ∧
    countTag newTitleGroup "pub-date" = 0 ∧
    countTag newTitleGroup "elocation-id" = 0 ∧
    countTag newTitleGroup "fpage" = 0 ∧
    countTag newTitleGroup "permissions" = 0 := by
  refine ⟨rfl, rfl, rfl, rfl, rfl, rfl⟩

theorem counts_newArticleCategories (s : String) :
    countTag (newArticleCategories s) "article-categories" = 1 ∧
    countTag (newArticleCategories s) "title-group" = 0 ∧
    countTag (newArticleCategories s) "pub-date" = 0 ∧
    countTag (newArticleCategories s) "elocation-id" = 0 ∧
    countTag (newArticleCategories s) "fpage" = 0 ∧
    countTag (newArticleCategories s) "permissions" = 0 := by
  unfold newArticleCategories countTag
  by_cases h1 : s = "research-article"
  · simp [h1, preorder, preorderL]
  · by_cases h2 : s = "review-article" <;> simp [h1, h2, preorder, preorderL]

theorem counts_newPubDate (y : String) :
    countTag (newPubDate y) "pub-date" = 1 ∧
    countTag (newPubDate y) "article-categories" = 0 ∧
    countTag (newPubDate y) "title-group" = 0 ∧
    countTag (newPubDate y) "elocation-id" = 0 ∧
    countTag (newPubDate y) "fpage" = 0 ∧
    countTag (newPubDate y) "permissions" = 0 := by
  refine ⟨rfl, rfl, rfl, rfl, rfl, rfl⟩

theorem counts_newElocation :
    countTag newElocation "elocation-id" = 1 ∧
    countTag newElocation "article-categories" = 0 ∧
    countTag newElocation "title-group" = 0 ∧
    countTag newElocation "pub-date" = 0 ∧
    countTag newElocation "fpage" = 0 ∧
    countTag newElocation "permissions" = 0 := by
  refine ⟨rfl, rfl, rfl, rfl, rfl, rfl⟩

/-! ### Shapes of the metadata steps -/

theorem tgStep_eq (am r : Elem) (h : tgStep am = .ok r) :
    (hasDescTag am "permissions" = true ∧ hasDescTag am "title-group" = false ∧
      ∃ i, r = am.withChildren (insN newTitleGroup am.children i)) ∨
    (¬ (hasDescTag am "permissions" = true ∧ hasDescTag am "title-group" = false) ∧
      r = am) := by
  unfold tgStep at h
  cases hp : findPath (fun d => d.tag = "permissions") am with
  | none =>
    rw [hp] at h
    right
    have : hasDescTag am "permissions" = false := by
      rw [← findPath_isSome_eq, hp]; rfl
    refine ⟨by simp [this], ?_⟩
    cases ht : findPath (fun d => d.tag = "title-group") am <;>
      · rw [ht] at h
        exact (Except.ok.injEq _ _ ▸ h).symm ▸ rfl
  | some pp =>
    rw [hp] at h
    cases ht : findPath (fun d => d.tag = "title-group") am with
    | some q =>
      rw [ht] at h
      right
      have : hasDescTag am "title-group" = true := by
        rw [← findPath_isSome_eq, ht]; rfl
      refine ⟨by simp [this], ?_⟩
      exact (Except.ok.injEq _ _ ▸ h).symm ▸ rfl
    | none =>
      rw [ht] at h
      left
      have hperm : hasDescTag am "permissions" = true := by
        rw [← findPath_isSome_eq, hp]; rfl
      have htg : hasDescTag am "title-group" = false := by
        rw [← findPath_isSome_eq, ht]; rfl
      refine ⟨hperm, htg, ?_⟩
      match pp with
      | [] => exact absurd h (by simp [pure, Except.pure])
      | [i] =>
        refine ⟨i, ?_⟩
        simpa [pure, Except.pure, eq_comm] using h
      | i :: j :: rest => exact absurd h (by simp [pure, Except.pure])

end Pipeline

namespace Pipeline

open Elem

theorem tgStep_invariant (am r : Elem) (h : tgStep am = .ok r) (T : String)
    (hT : countTag newTitleGroup T = 0) :
    countTagD r T = countTagD am T ∧ hasDescTag r T = hasDescTag am T := by
  rcases tgStep_eq am r h with ⟨hp, ht, i, hr⟩ | ⟨hc, hr⟩
  · rw [hr]
    exact ⟨by rw [countTagD_insert, hT]; omega, hasDescTag_insert_of_zero _ _ _ _ hT⟩
  · rw [hr]
    exact ⟨rfl, rfl⟩

theorem hasDescTag_of_pos (e : Elem) (T : String) (h : 0 < countTagD e T) :
    hasDescTag e T = true := (hasDescTag_iff_pos e T).mpr h

theorem countTagD_zero_of_not_hasDescTag (e : Elem) (T : String)
    (h : hasDescTag e T = false) : countTagD e T = 0 := by
  by_contra hc
  have := hasDescTag_of_pos e T (Nat.pos_of_ne_zero hc)
  rw [h] at this
  cases this

theorem tgStep_tg (am r : Elem) (h : tgStep am = .ok r) :
    countTagD r "title-group" =
      (if (hasDescTag am "permissions" && !(hasDescTag am "title-group")) = true then
        countTagD am "title-group" + 1 else countTagD am "title-group") ∧
    (hasDescTag am "permissions" = true → hasDescTag r "title-group" = true) := by
  rcases tgStep_eq am r h with ⟨hp, ht, i, hr⟩ | ⟨hc, hr⟩
  · have hcond : (hasDescTag am "permissions" && !(hasDescTag am "title-group")) = true := by
      rw [hp, ht]; rfl
    rw [hr]
    constructor
    · rw [hcond, if_pos rfl, countTagD_insert, counts_newTitleGroup.1]
      omega
    · intro _
      apply hasDescTag_of_pos
      rw [countTagD_insert, counts_newTitleGroup.1]
      omega
  · rw [hr]
    constructor
    · have hcond : (hasDescTag am "permissions" && !(hasDescTag am "title-group")) = false := by
        cases hperm : hasDescTag am "permissions" with
        | false => rfl
        | true =>
          cases htg2 : hasDescTag am "title-group" with
          | true => rfl
          | false => exact absurd ⟨hperm, htg2⟩ hc
      rw [hcond]
      simp
    · intro hp
      cases htg2 : hasDescTag am "title-group" with
      | true => rfl
      | false => exact absurd ⟨hp, htg2⟩ hc

theorem acStep_eq (s : String) (am : Elem) :
    (hasDescTag am "article-categories" = false ∧
      acStep s am = am.withChildren (insN (newArticleCategories s) am.children 0)) ∨
    (hasDescTag am "article-categories" = true ∧ acStep s am = am) := by
  unfold acStep
  cases hac : findPath (fun d => d.tag = "article-categories") am with
  | none => exact Or.inl ⟨by rw [← findPath_isSome_eq, hac]; rfl, rfl⟩
  | some p => exact Or.inr ⟨by rw [← findPath_isSome_eq, hac]; rfl, rfl⟩

theorem pubDateStep_eq (y : String) (am : Elem) (idx : Nat) :
    (hasDescTag am "pub-date" = false ∧
      pubDateStep y am idx =
        (am.withChildren (insN (newPubDate y) am.children idx), idx + 1)) ∨
    (hasDescTag am "pub-date" = true ∧ pubDateStep y am idx = (am, idx)) := by
  unfold pubDateStep
  cases hpd : findPath (fun d => d.tag = "pub-date") am with
  | none => exact Or.inl ⟨by rw [← findPath_isSome_eq, hpd]; rfl, rfl⟩
  | some p => exact Or.inr ⟨by rw [← findPath_isSome_eq, hpd]; rfl, rfl⟩

theorem elocStep_eq (am : Elem) (idx : Nat) :
    ((hasDescTag am "fpage" || hasDescTag am "elocation-id") = false ∧
      elocStep am idx = am.withChildren (insN newElocation am.children idx)) ∨
    ((hasDescTag am "fpage" || hasDescTag am "elocation-id") = true ∧
      elocStep am idx = am) := by
  unfold elocStep
  rw [show ∀ o : Option (List Nat), o.isNone = !o.isSome from fun o => by cases o <;> rfl,
      show ∀ o : Option (List Nat), o.isNone = !o.isSome from fun o => by cases o <;> rfl,
      findPath_isSome_eq, findPath_isSome_eq]
  cases hf : hasDescTag am "fpage" with
  | true => exact Or.inr ⟨rfl, rfl⟩
  | false =>
    cases he : hasDescTag am "elocation-id" with
    | true => exact Or.inr ⟨rfl, rfl⟩
    | false => exact Or.inl ⟨rfl, rfl⟩

theorem insN_zero (x : Elem) (l : List Elem) : insN x l 0 = x :: l := by
  cases l <;> rfl

theorem insN_ne_nil (x : Elem) (l : List Elem) (i : Nat) : insN x l i ≠ [] := by
  cases l with
  | nil => cases i <;> simp [insN]
  | cons e es => cases i <;> simp [insN]

theorem get0_insN_of_pos (x : Elem) : ∀ (l : List Elem) (i : Nat), 1 ≤ i → l ≠ [] →
    (insN x l i).get? 0 = l.get? 0 := by
  intro l i h1 h2
  cases l with
  | nil => exact absurd rfl h2
  | cons e es =>
    cases i with
    | zero => omega
    | succ n => rfl

theorem findPath_withChildren_cons (am x : Elem) (l : List Elem) (T : String)
    (hx : x.tag = T) :
    findPath (fun d => d.tag = T) (am.withChildren (x :: l)) = some [0] := by
  cases am
  simp [withChildren, findPath, findPathL, hx]

theorem baseIdx_pos (am2 : Elem)
    (h : findPath (fun d => d.tag = "article-categories") am2 = some [0]) :
    1 ≤ baseIdx am2 := by
  unfold baseIdx
  rw [h]
  cases htg : findPath (fun d => d.tag = "title-group") am2 with
  | none => simp
  | some p =>
    match p with
    | [] => simp
    | [i] => simp
    | i :: j :: rest => simp

end Pipeline

namespace Pipeline

open Elem

theorem acStep_invariant (s : String) (am : Elem) (T : String)
    (hT : countTag (newArticleCategories s) T = 0) :
    countTagD (acStep s am) T = countTagD am T ∧
    hasDescTag (acStep s am) T = hasDescTag am T := by
  rcases acStep_eq s am with ⟨hf, heq⟩ | ⟨ht, heq⟩ <;> rw [heq]
  · exact ⟨by rw [countTagD_insert, hT]; omega, hasDescTag_insert_of_zero _ _ _ _ hT⟩
  · exact ⟨rfl, rfl⟩

theorem acStep_ac (s : String) (am : Elem) :
    hasDescTag (acStep s am) "article-categories" = true ∧
    countTagD (acStep s am) "article-categories" =
      (if hasDescTag am "article-categories" = true then countTagD am "article-categories"
       else countTagD am "article-categories" + 1) := by
  rcases acStep_eq s am with ⟨hf, heq⟩ | ⟨ht, heq⟩ <;> rw [heq]
  · rw [hf]
    constructor
    · apply hasDescTag_of_pos
      rw [countTagD_insert, (counts_newArticleCategories s).1]
      omega
    · rw [if_neg (by simp), countTagD_insert, (counts_newArticleCategories s).1]
      omega
  · rw [ht, if_pos rfl]
    exact ⟨rfl, rfl⟩

theorem pubDateStep_invariant (y : String) (am : Elem) (idx : Nat) (T : String)
    (hT : countTag (newPubDate y) T = 0) :
    countTagD (pubDateStep y am idx).1 T = countTagD am T ∧
    hasDescTag (pubDateStep y am idx).1 T = hasDescTag am T := by
  rcases pubDateStep_eq y am idx with ⟨hf, heq⟩ | ⟨ht, heq⟩ <;> rw [heq]
  · exact ⟨by rw [countTagD_insert, hT]; omega, hasDescTag_insert_of_zero _ _ _ _ hT⟩
  · exact ⟨rfl, rfl⟩

theorem pubDateStep_pd (y : String) (am : Elem) (idx : Nat) :
    hasDescTag (pubDateStep y am idx).1 "pub-date" = true ∧
    countTagD (pubDateStep y am idx).1 "pub-date" =
      (if hasDescTag am "pub-date" = true then countTagD am "pub-date"
       else countTagD am "pub-date" + 1) := by
  rcases pubDateStep_eq y am idx with ⟨hf, heq⟩ | ⟨ht, heq⟩ <;> rw [heq]
  · rw [hf]
    constructor
    · apply hasDescTag_of_pos
      rw [countTagD_insert, (counts_newPubDate y).1]
      omega
    · rw [if_neg (by simp), countTagD_insert, (counts_newPubDate y).1]
      omega
  · rw [ht, if_pos rfl]
    exact ⟨rfl, rfl⟩

theorem elocStep_invariant (am : Elem) (idx : Nat) (T : String)
    (hT : countTag newElocation T = 0) :
    countTagD (elocStep am idx) T = countTagD am T ∧
    hasDescTag (elocStep am idx) T = hasDescTag am T := by
  rcases elocStep_eq am idx with ⟨hf, heq⟩ | ⟨ht, heq⟩ <;> rw [heq]
  · exact ⟨by rw [countTagD_insert, hT]; omega, hasDescTag_insert_of_zero _ _ _ _ hT⟩
  · exact ⟨rfl, rfl⟩

theorem elocStep_eloc (am : Elem) (idx : Nat) :
    (hasDescTag (elocStep am idx) "fpage" || hasDescTag (elocStep am idx) "elocation-id") = true ∨
    ((hasDescTag am "fpage" || hasDescTag am "elocation-id") = true ∧ elocStep am idx = am) := by
  rcases elocStep_eq am idx with ⟨hf, heq⟩ | ⟨ht, heq⟩
  · left
    rw [heq]
    have : hasDescTag (am.withChildren (insN newElocation am.children idx)) "elocation-id" = true := by
      apply hasDescTag_of_pos
      rw [countTagD_insert, counts_newElocation.1]
      omega
    rw [this]
    simp
  · exact Or.inr ⟨ht, heq⟩

theorem elocStep_count (am : Elem) (idx : Nat) :
    countTagD (elocStep am idx) "elocation-id" =
      (if (hasDescTag am "fpage" || hasDescTag am "elocation-id") = true then
        countTagD am "elocation-id" else countTagD am "elocation-id" + 1) := by
  rcases elocStep_eq am idx with ⟨hf, heq⟩ | ⟨ht, heq⟩ <;> rw [heq]
  · rw [hf, if_neg (by simp), countTagD_insert, counts_newElocation.1]
    omega
  · rw [ht, if_pos rfl]

theorem ne_nil_of_get0 {l : List Elem} {x : Elem} (h : l.get? 0 = some x) : l ≠ [] := by
  cases l with
  | nil => simp at h
  | cons a as => simp

/-- **C6 amended**: article-categories, pub-date and a page/location id are
inserted exactly once when missing (article-categories first in
article-meta); a missing title-group is inserted only when permissions is
present; nothing already present is ever duplicated. -/
theorem c6_amended (articleType year : String) (am r : Elem)
    (h : fixArticleMeta articleType year am = .ok r) :
    hasDescTag r "article-categories" = true ∧
    hasDescTag r "pub-date" = true ∧
    (hasDescTag r "fpage" || hasDescTag r "elocation-id") = true ∧
    (hasDescTag am "permissions" = true → hasDescTag r "title-group" = true) ∧
    countTagD r "article-categories" =
      (if hasDescTag am "article-categories" = true then countTagD am "article-categories"
       else countTagD am "article-categories" + 1) ∧
    countTagD r "pub-date" =
      (if hasDescTag am "pub-date" = true then countTagD am "pub-date"
       else countTagD am "pub-date" + 1) ∧
    countTagD r "title-group" =
      (if (hasDescTag am "permissions" && !(hasDescTag am "title-group")) = true then
        countTagD am "title-group" + 1 else countTagD am "title-group") ∧
    countTagD r "elocation-id" =
      (if (hasDescTag am "fpage" || hasDescTag am "elocation-id") = true then
        countTagD am "elocation-id" else countTagD am "elocation-id" + 1) ∧
    countTagD r "fpage" = countTagD am "fpage" ∧
    (hasDescTag am "article-categories" = false →
      r.children.get? 0 = some (newArticleCategories articleType)) := by
  unfold fixArticleMeta at h
  cases htgs : tgStep am with
  | error e =>
    rw [htgs] at h
    exact absurd h (by simp [Bind.bind, Except.bind])
  | ok am1 =>
    rw [htgs] at h
    simp only [Bind.bind, Except.bind, pure, Except.pure, Except.ok.injEq] at h
    subst h
    -- abbreviations for the stage values
    have invAC := tgStep_invariant am am1 htgs "article-categories" counts_newTitleGroup.2.1
    have invPD := tgStep_invariant am am1 htgs "pub-date" counts_newTitleGroup.2.2.1
    have invEL := tgStep_invariant am am1 htgs "elocation-id" counts_newTitleGroup.2.2.2.1
    have invFP := tgStep_invariant am am1 htgs "fpage" counts_newTitleGroup.2.2.2.2.1
    have tgF := tgStep_tg am am1 htgs
    have acAC := acStep_ac articleType am1
    have acPD := acStep_invariant articleType am1 "pub-date" (counts_newArticleCategories _).2.2.1
    have acEL := acStep_invariant articleType am1 "elocation-id" (counts_newArticleCategories _).2.2.2.1
    have acFP := acStep_invariant articleType am1 "fpage" (counts_newArticleCategories _).2.2.2.2.1
    have acTG := acStep_invariant articleType am1 "title-group" (counts_newArticleCategories _).2.1
    set am2 := acStep articleType am1 with ham2
    set idx1 := baseIdx am2 +
      scanLen ["contrib-group", "aff", "author-notes"] (am2.children.drop (baseIdx am2)) with hidx1
    have pdPD := pubDateStep_pd year am2 idx1
    have pdAC := pubDateStep_invariant year am2 idx1 "article-categories" (counts_newPubDate _).2.1
    have pdEL := pubDateStep_invariant year am2 idx1 "elocation-id" (counts_newPubDate _).2.2.2.1
    have pdFP := pubDateStep_invariant year am2 idx1 "fpage" (counts_newPubDate _).2.2.2.2.1
    have pdTG := pubDateStep_invariant year am2 idx1 "title-group" (counts_newPubDate _).2.2.1
    set pd := pubDateStep year am2 idx1 with hpd
    set am3 := pd.1 with ham3
    set idx2 := pd.2 + scanLen ["volume", "issue"] (am3.children.drop pd.2) with hidx2
    have elEL := elocStep_count am3 idx2
    have elACi := elocStep_invariant am3 idx2 "article-categories" counts_newElocation.2.1
    have elPDi := elocStep_invariant am3 idx2 "pub-date" counts_newElocation.2.2.2.1
    have elTGi := elocStep_invariant am3 idx2 "title-group" counts_newElocation.2.2.1
    have elFPi := elocStep_invariant am3 idx2 "fpage" counts_newElocation.2.2.2.2.1
    refine ⟨?_, ?_, ?_, ?_, ?_, ?_, ?_, ?_, ?_, ?_⟩
    · -- article-categories present
      rw [elACi.2, pdAC.2, acAC.1]
    · -- pub-date present
      rw [elPDi.2, pdPD.1]
    · -- fpage or elocation present
      rcases elocStep_eloc am3 idx2 with hyes | ⟨hcond, heq⟩
      · exact hyes
      · rw [heq]
        exact hcond
    · -- permissions implies title-group
      intro hp
      rw [elTGi.2, pdTG.2, acTG.2]
      exact tgF.2 hp
    · -- article-categories count
      rw [elACi.1, pdAC.1, acAC.2, invAC.1, invAC.2]
    · -- pub-date count
      rw [elPDi.1, pdPD.2, acPD.1, acPD.2, invPD.1, invPD.2]
    · -- title-group count
      rw [elTGi.1, pdTG.1, acTG.1, tgF.1]
    · -- elocation count
      rw [elEL, pdEL.1, pdEL.2, pdFP.2, acEL.1, acEL.2, acFP.2, invEL.1, invEL.2, invFP.2]
    · -- fpage count
      rw [elFPi.1, pdFP.1, acFP.1, invFP.1]
    · -- article-categories lands first
      intro hmiss
      have hmiss1 : hasDescTag am1 "article-categories" = false := by rw [invAC.2, hmiss]
      rcases acStep_eq articleType am1 with ⟨hf, heq⟩ | ⟨ht, heq⟩
      · have ham2c : am2.children = newArticleCategories articleType :: am1.children := by
          rw [ham2, heq]
          simp [insN]
        have hhead : am2.children.get? 0 = some (newArticleCategories articleType) := by
          rw [ham2c]; rfl
        have hfp0 : findPath (fun d => d.tag = "article-categories") am2 = some [0] := by
          rw [ham2, heq, insN_zero]
          exact findPath_withChildren_cons am1 (newArticleCategories articleType)
            am1.children "article-categories" rfl
        have hbase : 1 ≤ baseIdx am2 := baseIdx_pos am2 hfp0
        have hidx1pos : 1 ≤ idx1 := by rw [hidx1]; omega
        have hne2 : am2.children ≠ [] := ne_nil_of_get0 hhead
        have hhead3 : am3.children.get? 0 = some (newArticleCategories articleType) ∧ 1 ≤ pd.2 := by
          rcases pubDateStep_eq year am2 idx1 with ⟨hf2, heq2⟩ | ⟨ht2, heq2⟩
          · rw [ham3, hpd, heq2]
            constructor
            · rw [children_withChildren]
              rw [get0_insN_of_pos _ _ _ hidx1pos hne2]
              exact hhead
            · simp [heq2]
          · rw [ham3, hpd, heq2]
            exact ⟨hhead, by simp [heq2]; omega⟩
        have hidx2pos : 1 ≤ idx2 := by rw [hidx2]; have := hhead3.2; omega
        have hne3 : am3.children ≠ [] := ne_nil_of_get0 hhead3.1
        rcases elocStep_eq am3 idx2 with ⟨hf3, heq3⟩ | ⟨ht3, heq3⟩
        · rw [heq3, children_withChildren, get0_insN_of_pos _ _ _ hidx2pos hne3]
          exact hhead3.1
        · rw [heq3]
          exact hhead3.1
      · rw [ht] at hmiss1
        cases hmiss1

end Pipeline

namespace Pipeline

open Elem

def c6WitnessAm : Elem := .mk "article-meta" [] "" [.mk "abstract" [] "" []]

def c6WitnessOut : Elem :=
  match fixArticleMeta "research-article" "2024" c6WitnessAm with
  | .ok r => r
  | .error _ => c6WitnessAm

set_option maxHeartbeats 1000000 in
/-- Witness for the amended C6 at a concrete article-meta. -/
theorem c6_amended_witness :
    hasDescTag c6WitnessOut "article-categories" = true ∧
    hasDescTag c6WitnessOut "pub-date" = true ∧
    (hasDescTag c6WitnessOut "fpage" || hasDescTag c6WitnessOut "elocation-id") = true ∧
    (hasDescTag c6WitnessAm "permissions" = true →
      hasDescTag c6WitnessOut "title-group" = true) ∧
    countTagD c6WitnessOut "article-categories" =
      (if hasDescTag c6WitnessAm "article-categories" = true then
        countTagD c6WitnessAm "article-categories"
       else countTagD c6WitnessAm "article-categories" + 1) ∧
    countTagD c6WitnessOut "pub-date" =
      (if hasDescTag c6WitnessAm "pub-date" = true then countTagD c6WitnessAm "pub-date"
       else countTagD c6WitnessAm "pub-date" + 1) ∧
    countTagD c6WitnessOut "title-group" =
      (if (hasDescTag c6WitnessAm "permissions" &&
            !(hasDescTag c6WitnessAm "title-group")) = true then
        countTagD c6WitnessAm "title-group" + 1 else countTagD c6WitnessAm "title-group") ∧
    countTagD c6WitnessOut "elocation-id" =
      (if (hasDescTag c6WitnessAm "fpage" || hasDescTag c6WitnessAm "elocation-id") = true then
        countTagD c6WitnessAm "elocation-id" else countTagD c6WitnessAm "elocation-id" + 1) ∧
    countTagD c6WitnessOut "fpage" = countTagD c6WitnessAm "fpage" ∧
    (hasDescTag c6WitnessAm "article-categories" = false →
      c6WitnessOut.children.get? 0 = some (newArticleCategories "research-article")) :=
  c6_amended "research-article" "2024" c6WitnessAm c6WitnessOut rfl

end Pipeline

/-! ### C2 machinery: split/join round-trip -/

theorem splitWSAux_append_nonWS (xs : List Char) :
    ∀ ys acc cur, (∀ c ∈ xs, isWS c = false) →
    splitWSAux (xs ++ ys) acc cur = splitWSAux ys acc (xs.reverse ++ cur) := by
  induction xs with
  | nil => intro ys acc cur _; simp
  | cons c cs ih =>
    intro ys acc cur hx
    have hc : isWS c = false := hx c (List.mem_cons_self c cs)
    simp only [List.cons_append, splitWSAux, hc, Bool.false_eq_true, if_false, List.append_eq]
    rw [ih ys acc (c :: cur) (fun d hd => hx d (List.mem_cons_of_mem c hd))]
    simp

/-- Tokens produced by the splitter are non-empty and whitespace-free. -/
theorem splitWSAux_tokens (P : String → Prop)
    (hP : ∀ t : String, t.data ≠ [] → (∀ c ∈ t.data, isWS c = false) → P t) :
    ∀ cs acc cur, (∀ t ∈ acc, P t) → (∀ c ∈ cur, isWS c = false) →
    ∀ t ∈ splitWSAux cs acc cur, P t := by
  intro cs
  induction cs with
  | nil =>
    intro acc cur hacc hcur t ht
    simp only [splitWSAux] at ht
    by_cases hc : cur.isEmpty
    · rw [if_pos hc] at ht; exact hacc t ht
    · rw [if_neg hc] at ht
      rcases List.mem_append.mp ht with h1 | h1
      · exact hacc t h1
      · have : t = (⟨cur.reverse⟩ : String) := by simpa using h1
        subst this
        refine hP _ ?_ ?_
        · simp only [List.isEmpty_iff] at hc
          simpa using hc
        · intro c hcm
          exact hcur c (by simpa using hcm)
  | cons c cs ih =>
    intro acc cur hacc hcur t ht
    simp only [splitWSAux] at ht
    by_cases hws : isWS c
    · rw [if_pos hws] at ht
      refine ih _ [] ?_ (by intro d hd; cases hd) t ht
      by_cases hc : cur.isEmpty
      · rw [if_pos hc]; exact hacc
      · rw [if_neg hc]
        intro u hu
        rcases List.mem_append.mp hu with h1 | h1
        · exact hacc u h1
        · have : u = (⟨cur.reverse⟩ : String) := by simpa using h1
          subst this
          refine hP _ ?_ ?_
          · simp only [List.isEmpty_iff] at hc
            simpa using hc
          · intro d hd
            exact hcur d (by simpa using hd)
    · rw [if_neg hws] at ht
      refine ih acc (c :: cur) hacc ?_ t ht
      intro d hd
      rcases List.mem_cons.mp hd with h1 | h1
      · subst h1; simpa using hws
      · exact hcur d h1

theorem strSplit_tokens (s : String) :
    ∀ t ∈ strSplit s, t.data ≠ [] ∧ ∀ c ∈ t.data, isWS c = false := by
  refine splitWSAux_tokens _ (fun t h1 h2 => ⟨h1, h2⟩) s.data [] []
    (fun t ht => absurd ht (List.not_mem_nil t)) (fun c hc => absurd hc (List.not_mem_nil c))

theorem strSplit_joinSp_aux :
    ∀ l : List String, (∀ t ∈ l, t.data ≠ [] ∧ ∀ c ∈ t.data, isWS c = false) →
    ∀ acc, splitWSAux (joinSp l).data acc [] = acc ++ l := by
  intro l
  induction l with
  | nil => intro _ acc; simp [joinSp, splitWSAux]
  | cons s ss ih =>
    intro hl acc
    have hs := hl s (List.mem_cons_self s ss)
    cases ss with
    | nil =>
      simp only [joinSp]
      rw [show (s.data : List Char) = s.data ++ [] by simp]
      rw [splitWSAux_append_nonWS s.data [] acc [] hs.2]
      simp only [splitWSAux, List.append_nil]
      rw [if_neg (by simpa [List.isEmpty_iff] using hs.1)]
      simp
    | cons u us =>
      have hjd : (joinSp (s :: u :: us)).data = s.data ++ ' ' :: (joinSp (u :: us)).data := by
        show (s ++ " " ++ joinSp (u :: us)).data = _
        simp [String.data_append]
      rw [hjd, splitWSAux_append_nonWS s.data _ acc [] hs.2]
      simp only [splitWSAux, isWS]
      rw [if_pos (by simp)]
      rw [if_neg (by simpa [List.isEmpty_iff] using hs.1)]
      simp only [List.append_nil, List.reverse_reverse]
      have hrec := ih (fun t ht => hl t (List.mem_cons_of_mem s ht))
        (acc ++ [(⟨s.data⟩ : String)])
      have hse : (⟨s.data⟩ : String) = s := rfl
      rw [hse] at hrec
      rw [hrec]
      simp

/-- `' '.join` inverts `split` on lists of non-empty whitespace-free tokens. -/
theorem strSplit_joinSp (l : List String)
    (hl : ∀ t ∈ l, t.data ≠ [] ∧ ∀ c ∈ t.data, isWS c = false) :
    strSplit (joinSp l) = l := by
  have := strSplit_joinSp_aux l hl []
  simpa [strSplit] using this

/-! ### C2 machinery: attribute-only tree maps -/

namespace Elem

@[simp] theorem get_rid_set_rids (e : Elem) (v : String) :
    (e.set "rids" v).get "rid" = e.get "rid" := get_set_ne e "rids" v "rid" (by decide)

@[simp] theorem get_rid_del_rids (e : Elem) :
    (e.del "rids").get "rid" = e.get "rid" := get_del_ne e "rids" "rid" (by decide)

@[simp] theorem get_rids_set_rid (e : Elem) (v : String) :
    (e.set "rid" v).get "rids" = e.get "rids" := get_set_ne e "rid" v "rids" (by decide)

@[simp] theorem get_rids_del_rid (e : Elem) :
    (e.del "rid").get "rids" = e.get "rids" := get_del_ne e "rid" "rids" (by decide)

@[simp] theorem get_id_set_rid (e : Elem) (v : String) :
    (e.set "rid" v).get "id" = e.get "id" := get_set_ne e "rid" v "id" (by decide)

@[simp] theorem get_id_del_rid (e : Elem) :
    (e.del "rid").get "id" = e.get "id" := get_del_ne e "rid" "id" (by decide)

@[simp] theorem get_id_set_rids (e : Elem) (v : String) :
    (e.set "rids" v).get "id" = e.get "id" := get_set_ne e "rids" v "id" (by decide)

@[simp] theorem get_id_del_rids (e : Elem) :
    (e.del "rids").get "id" = e.get "id" := get_del_ne e "rids" "id" (by decide)

theorem getA_filter (a : List (String × String)) (q : String × String → Bool) (k : String)
    (h : ∀ v, q (k, v) = true) : getA (a.filter q) k = getA a k := by
  induction a with
  | nil => rfl
  | cons p ps ih =>
    cases p with
    | mk pk pv =>
      by_cases hk : pk = k
      · subst hk
        simp [List.filter_cons, h pv, getA]
      · by_cases hq : q (pk, pv)
        · simp [List.filter_cons, hq, getA, hk, ih]
        · simp [List.filter_cons, hq, getA, hk, ih]

/-- Every node of an attribute-only bottom-up map is an image of `f`. -/
theorem mem_preorder_mapTree (f : Elem → Elem) (hc : ∀ e, (f e).children = e.children) :
    ∀ e : Elem, ∀ e2 ∈ preorder (mapTree f e), ∃ e0, e2 = f e0 := by
  refine strongInd (fun e => ∀ e2 ∈ preorder (mapTree f e), ∃ e0, e2 = f e0) ?_
  intro t a x c ih e2 h2
  simp only [mapTree] at h2
  rw [preorder_eq_cons] at h2
  rcases List.mem_cons.mp h2 with h2 | h2
  · exact ⟨_, h2⟩
  · have hd : descendants (f (.mk t a x (mapTreeL f c))) = preorderL (mapTreeL f c) := by
      simp [descendants, hc]
    rw [hd, mapTreeL_eq, preorderL_eq] at h2
    rcases List.mem_flatMap.mp h2 with ⟨y, hy, h3⟩
    rcases List.mem_map.mp hy with ⟨ci, hci, hye⟩
    subst hye
    exact ih ci hci e2 h3

theorem filterMap_preorderL_mapTreeL {β : Type} (f : Elem → Elem) (g : Elem → Option β)
    (l : List Elem)
    (hmem : ∀ ci ∈ l, (preorder (mapTree f ci)).filterMap g = (preorder ci).filterMap g) :
    (preorderL (mapTreeL f l)).filterMap g = (preorderL l).filterMap g := by
  induction l with
  | nil => rfl
  | cons y ys ih =>
    simp only [mapTreeL, preorderL, List.filterMap_append]
    rw [hmem y (List.mem_cons_self y ys), ih (fun ci hci => hmem ci (List.mem_cons_of_mem y hci))]

/-- An attribute-only map that preserves the view `g` of each node keeps the
multiset of views of the whole tree. -/
theorem filterMap_preorder_mapTree {β : Type} (f : Elem → Elem) (g : Elem → Option β)
    (hc : ∀ e, (f e).children = e.children)
    (hgf : ∀ e, g (f e) = g e)
    (hgc : ∀ t a x c c2, g (.mk t a x c) = g (.mk t a x c2)) :
    ∀ e : Elem, (preorder (mapTree f e)).filterMap g = (preorder e).filterMap g := by
  refine strongInd
    (fun e => (preorder (mapTree f e)).filterMap g = (preorder e).filterMap g) ?_
  intro t a x c ih
  simp only [mapTree]
  rw [preorder_eq_cons, preorder_eq_cons]
  have hd : descendants (f (.mk t a x (mapTreeL f c))) = preorderL (mapTreeL f c) := by
    simp [descendants, hc]
  rw [hd]
  have hdc : descendants (Elem.mk t a x c) = preorderL c := rfl
  rw [hdc]
  rw [List.filterMap_cons, List.filterMap_cons]
  rw [hgf (Elem.mk t a x (mapTreeL f c)), hgc t a x (mapTreeL f c) c]
  rw [filterMap_preorderL_mapTreeL f g c ih]

end Elem

namespace Pipeline

open Elem

theorem xrefRepair_some (vs : List String) (refs : List Elem) (e : Elem)
    (cid : String) (h : xrefRepair vs refs e = some cid) : ¬ cid = "" ∧ cid ∈ vs := by
  simp only [xrefRepair] at h
  repeat' split at h
  all_goals simp_all

theorem ridFixE_children (vs : List String) (refs : List Elem) (e : Elem) :
    (ridFixE vs refs e).children = e.children := by
  simp only [ridFixE]
  repeat' split
  all_goals simp

theorem ridsFixE_children (vs : List String) (e : Elem) :
    (ridsFixE vs e).children = e.children := by
  simp only [ridsFixE]
  repeat' split
  all_goals simp

theorem ridFixE_get_id (vs : List String) (refs : List Elem) (e : Elem) :
    (ridFixE vs refs e).get "id" = e.get "id" := by
  simp only [ridFixE]
  repeat' split
  all_goals simp

theorem ridsFixE_get_id (vs : List String) (e : Elem) :
    (ridsFixE vs e).get "id" = e.get "id" := by
  simp only [ridsFixE]
  repeat' split
  all_goals simp

theorem ridsFixE_get_rid (vs : List String) (e : Elem) :
    (ridsFixE vs e).get "rid" = e.get "rid" := by
  simp only [ridsFixE]
  repeat' split
  all_goals simp

theorem idrefNode_children (vs : List String) (refs : List Elem) (e : Elem) :
    (idrefNode vs refs e).children = e.children := by
  simp only [idrefNode, ridsFixE_children, ridFixE_children]

theorem idrefNode_get_id (vs : List String) (refs : List Elem) (e : Elem) :
    (idrefNode vs refs e).get "id" = e.get "id" := by
  simp only [idrefNode, ridsFixE_get_id, ridFixE_get_id]

theorem ridFixE_rid_post (vs : List String) (refs : List Elem) (e : Elem)
    (rid : String) (h : (ridFixE vs refs e).get "rid" = some rid)
    (hne : ¬ rid = "") : rid ∈ vs := by
  rcases hrid : e.get "rid" with _ | rid0
  · simp only [ridFixE, hrid] at h
    simp_all
  · by_cases h0 : rid0 = ""
    · subst h0
      simp [ridFixE, hrid] at h
      simp_all
    · by_cases hin : rid0 ∈ vs
      · simp [ridFixE, hrid, h0, hin] at h
        simp_all
      · rcases hrep : xrefRepair vs refs e with _ | cid
        · simp [ridFixE, hrid, h0, hin, hrep] at h
        · have hg : ¬ cid = "" ∧ cid ∈ vs := xrefRepair_some vs refs e cid hrep
          simp [ridFixE, hrid, h0, hin, hrep] at h
          simp_all

/-- A non-empty `rid` surviving the IDREF pass is a collected id. -/
theorem idrefNode_rid_post (vs : List String) (refs : List Elem) (e : Elem)
    (rid : String) (h : (idrefNode vs refs e).get "rid" = some rid)
    (hne : ¬ rid = "") : rid ∈ vs := by
  rw [idrefNode, ridsFixE_get_rid] at h
  exact ridFixE_rid_post vs refs e rid h hne

/-- A non-empty `rids` surviving the IDREF pass splits into a non-empty
list of collected ids. -/
theorem ridsFixE_rids_post (vs : List String) (e1 : Elem)
    (rids : String) (h : (ridsFixE vs e1).get "rids" = some rids)
    (hne : ¬ rids = "") :
    strSplit rids ≠ [] ∧ ∀ t ∈ strSplit rids, t ∈ vs := by
  rcases hrids : e1.get "rids" with _ | p
  · simp only [ridsFixE, hrids] at h
    simp_all
  · by_cases hp : p = ""
    · subst hp
      simp [ridsFixE, hrids] at h
      simp_all
    · by_cases hF : ((strSplit p).filter (fun t => t ∈ vs)).isEmpty
      · simp [ridsFixE, hrids, hp, hF] at h
      · simp [ridsFixE, hrids, hp, hF] at h
        have hl : ∀ t ∈ (strSplit p).filter (fun t => decide (t ∈ vs)),
            t.data ≠ [] ∧ ∀ c ∈ t.data, isWS c = false :=
          fun t ht => strSplit_tokens p t (List.mem_filter.mp ht).1
        rw [← h, strSplit_joinSp _ hl]
        refine ⟨?_, fun t ht => by simpa using (List.mem_filter.mp ht).2⟩
        intro hnil
        rw [hnil] at hF
        simp at hF

theorem idrefNode_rids_post (vs : List String) (refs : List Elem) (e : Elem)
    (rids : String) (h : (idrefNode vs refs e).get "rids" = some rids)
    (hne : ¬ rids = "") :
    strSplit rids ≠ [] ∧ ∀ t ∈ strSplit rids, t ∈ vs := by
  rw [idrefNode] at h
  exact ridsFixE_rids_post vs (ridFixE vs refs e) rids h hne

theorem nsBind_root_get_stable (d : Doc) (k : String)
    (h1 : containsSub k "schemaLocation" = false)
    (h2 : ¬ k = xsiSchemaLocation) (h3 : ¬ k = "dtd-version")
    (h4 : ¬ k = "article-type") :
    (nsBind d).root.get k = d.root.get k := by
  have hq : ∀ v : String,
      (fun p : String × String => !(containsSub p.1 "schemaLocation")) (k, v) = true := by
    intro v; simp [h1]
  have hfil : getA (d.root.attrs.filter
      (fun p => !(containsSub p.1 "schemaLocation"))) k = getA d.root.attrs k :=
    getA_filter d.root.attrs (fun p => !(containsSub p.1 "schemaLocation")) k hq
  simp only [nsBind]
  repeat' split
  all_goals
    simp [Elem.get, Elem.set, Elem.del, getA_setA_ne _ _ _ _ h3,
      getA_setA_ne _ _ _ _ h4, getA_delA_ne _ _ _ h2, hfil]

theorem nsBind_root_children (d : Doc) :
    (nsBind d).root.children = d.root.children := by
  simp only [nsBind]
  repeat' split
  all_goals simp

theorem validIds_eq_of (a b : Elem) (hid : a.get "id" = b.get "id")
    (hch : a.children = b.children) : validIds a = validIds b := by
  cases a with
  | mk t1 a1 x1 c1 =>
    cases b with
    | mk t2 a2 x2 c2 =>
      simp only [children_mk] at hch
      subst hch
      simp only [Elem.get, attrs_mk] at hid
      simp only [validIds, preorder_mk, List.filterMap_cons, Elem.get, attrs_mk]
      rw [hid]

theorem validIds_mapTree (f : Elem → Elem) (hc : ∀ e, (f e).children = e.children)
    (hid : ∀ e, (f e).get "id" = e.get "id") (root : Elem) :
    validIds (mapTree f root) = validIds root := by
  simp only [validIds]
  exact filterMap_preorder_mapTree f
    (fun e => match e.get "id" with
      | some i => if i = "" then none else some i
      | none => none)
    hc (fun e => by simp [hid e]) (fun t a x c c2 => rfl) root

theorem validIds_idrefFix (root : Elem) : validIds (idrefFix root) = validIds root := by
  simp only [idrefFix]
  exact validIds_mapTree _ (idrefNode_children _ _) (idrefNode_get_id _ _) root

/-- Every node of the IDREF-fixed tree satisfies the referential closure. -/
theorem idrefFix_post (root : Elem) :
    ∀ e ∈ preorder (idrefFix root),
      (∀ rid, e.get "rid" = some rid → ¬ rid = "" → rid ∈ validIds (idrefFix root)) ∧
      (∀ rids, e.get "rids" = some rids → ¬ rids = "" →
        strSplit rids ≠ [] ∧ ∀ t ∈ strSplit rids, t ∈ validIds (idrefFix root)) := by
  intro e he
  rw [validIds_idrefFix]
  simp only [idrefFix] at he
  rcases mem_preorder_mapTree _ (idrefNode_children _ _) root e he with ⟨e0, he0⟩
  subst he0
  exact ⟨fun rid h hne => idrefNode_rid_post _ _ _ _ h hne,
         fun rids h hne => idrefNode_rids_post _ _ _ _ h hne⟩

theorem nsBind_idrefFix_post (dd : Doc) (r0 : Elem) (hroot : dd.root = idrefFix r0) :
    ∀ e ∈ preorder (nsBind dd).root,
      (∀ rid, e.get "rid" = some rid → ¬ rid = "" →
        rid ∈ validIds (nsBind dd).root) ∧
      (∀ rids, e.get "rids" = some rids → ¬ rids = "" →
        strSplit rids ≠ [] ∧ ∀ t ∈ strSplit rids, t ∈ validIds (nsBind dd).root) := by
  intro e he
  have hch : (nsBind dd).root.children = (idrefFix r0).children := by
    rw [nsBind_root_children, hroot]
  have hv : validIds (nsBind dd).root = validIds (idrefFix r0) := by
    refine validIds_eq_of _ _ ?_ hch
    rw [nsBind_root_get_stable dd "id" (by decide) (by decide) (by decide) (by decide), hroot]
  rw [hv]
  rw [preorder_eq_cons] at he
  rcases List.mem_cons.mp he with he | he
  · subst he
    constructor
    · intro rid hg hne
      rw [nsBind_root_get_stable dd "rid" (by decide) (by decide) (by decide) (by decide),
        hroot] at hg
      exact (idrefFix_post r0 (idrefFix r0) (self_mem_preorder _)).1 rid hg hne
    · intro rids hg hne
      rw [nsBind_root_get_stable dd "rids" (by decide) (by decide) (by decide) (by decide),
        hroot] at hg
      exact (idrefFix_post r0 (idrefFix r0) (self_mem_preorder _)).2 rids hg hne
  · have hmem : e ∈ preorder (idrefFix r0) := by
      rw [preorder_eq_cons]
      refine List.mem_cons_of_mem _ ?_
      have hdd : descendants (nsBind dd).root = descendants (idrefFix r0) := by
        simp [descendants, hch]
      rw [← hdd]
      exact he
    exact idrefFix_post r0 e hmem

/-- C2 (amended): after a successful `_post_process_xml`, every non-empty
`rid` value in the tree equals some element's truthy `id`, and every
non-empty `rids` value splits into a non-empty token list whose tokens all
equal some element's truthy `id`; an empty-string value, being falsy in
Python, is skipped by the validation pass and survives unvalidated, which
is the correction to the claim's unconditional wording. -/
theorem c2_amended (year : String) (d d2 : Doc)
    (h : postProcessDoc year d = .ok d2) :
    ∀ e ∈ preorder d2.root,
      (∀ rid, e.get "rid" = some rid → ¬ rid = "" → rid ∈ validIds d2.root) ∧
      (∀ rids, e.get "rids" = some rids → ¬ rids = "" →
        strSplit rids ≠ [] ∧ ∀ t ∈ strSplit rids, t ∈ validIds d2.root) := by
  rcases hm : metaFix year (tableFix (posFix d.root)) with err | rm
  · simp [postProcessDoc, postProcessTree, hm] at h
  · simp only [postProcessDoc, postProcessTree, hm] at h
    simp only [Except.bind, bind, pure, Except.pure, Except.ok.injEq] at h
    subst h
    exact nsBind_idrefFix_post _ (xrefFix (refIdFix rm)) rfl

/-- A valid cross-reference together with its target id. -/
def c2WitDoc : Doc :=
  Doc.mk true [("xlink", xlinkNs), ("mml", mmlNs)]
    (.mk "article" [("article-type", "research-article"), ("dtd-version", "1.3")] ""
      [.mk "body" [] ""
        [.mk "p" [("id", "p1")] "" [.mk "xref" [("rid", "p1"), ("ref-type", "bibr")] "" []]]])

def c2WitOut : Doc :=
  match postProcessDoc "2024" c2WitDoc with
  | .ok r => r
  | .error _ => c2WitDoc

set_option maxHeartbeats 4000000 in
/-- Witness for the amended C2: in the processed document the surviving
`rid` of the xref is a collected id. -/
theorem c2_amended_witness : "p1" ∈ validIds c2WitOut.root :=
  (c2_amended "2024" c2WitDoc c2WitOut (by decide)
      (Elem.mk "xref" [("rid", "p1"), ("ref-type", "bibr")] "" [])
      (by decide)).1 "p1" (by decide) (by decide)

/-! ### C1 machinery: the header/footer table invariant

The table structure fixer guarantees that every `table` with a `thead` or
`tfoot` child owns a `tbody` child holding a row; the later pipeline stages
only insert placeholder subtrees or rewrite attributes, so the invariant
survives to the written document.
-/

/-- A row here or below (`e` is a `tr`, or has one as a descendant). -/
def trIn (e : Elem) : Bool := e.tag = "tr" || hasDescTr e

/-- Per-node invariant: a `table` with header or footer has a `tbody` child
with a row descendant. -/
def tableHFOk (e : Elem) : Bool :=
  !(e.tag = "table" && hasHeadOrFoot e.children) ||
  e.children.any (fun ch => ch.tag = "tbody" && hasDescTr ch)

/-- The invariant at every node of a tree. -/
def HFInv (r : Elem) : Prop := ∀ e ∈ preorder r, tableHFOk e = true

theorem any_preorderL (p : Elem → Bool) :
    ∀ c : List Elem, (preorderL c).any p = c.any (fun e => (preorder e).any p) := by
  intro c
  induction c with
  | nil => rfl
  | cons e es ih => simp [preorderL, List.any_append, ih]

theorem any_preorder_tr (e : Elem) :
    (preorder e).any (fun d => d.tag = "tr") = trIn e := by
  rw [preorder_eq_cons]
  simp [trIn, hasDescTr]

theorem hasDescTr_mk (t a x c) : hasDescTr (.mk t a x c) = c.any trIn := by
  simp only [hasDescTr, descendants, children_mk, any_preorderL]
  congr 1
  funext e
  exact any_preorder_tr e

theorem hasDescTr_children (e : Elem) : hasDescTr e = e.children.any trIn := by
  cases e; exact hasDescTr_mk _ _ _ _

theorem trIn_of_hasDescTr {e : Elem} (h : hasDescTr e = true) : trIn e = true := by
  simp [trIn, h]

theorem hasDescTr_of_trIn_ne_tr {e : Elem} (h : trIn e = true) (hne : ¬ e.tag = "tr") :
    hasDescTr e = true := by
  simp only [trIn, Bool.or_eq_true, decide_eq_true_eq] at h
  exact h.resolve_left hne

theorem emptyTbody_false_of_trIn {e : Elem} (h : trIn e = true) :
    emptyTbody e = false := by
  by_cases he : emptyTbody e = true
  · simp only [emptyTbody, Bool.and_eq_true, Bool.not_eq_eq_eq_not, Bool.not_true,
      decide_eq_true_eq] at he
    have htr : hasDescTr e = true :=
      hasDescTr_of_trIn_ne_tr h (by rw [he.1]; decide)
    rw [htr] at he
    exact absurd he.2 (by decide)
  · exact Bool.not_eq_true _ ▸ (by simpa using he)

theorem any_insN (q : Elem → Bool) (b : Elem) :
    ∀ (l : List Elem) (i : Nat), (insN b l i).any q = (q b || l.any q) := by
  intro l
  induction l with
  | nil => intro i; cases i <;> simp [insN]
  | cons e es ih =>
    intro i
    cases i with
    | zero => simp [insN]
    | succ n =>
      simp only [insN, List.any_cons, ih n]
      cases q e <;> cases q b <;> simp

theorem insN_len (b : Elem) : ∀ l : List Elem, insN b l l.length = l ++ [b] := by
  intro l
  induction l with
  | nil => rfl
  | cons e es ih => simp [insN, ih]

theorem any_modN_eq (g : Elem → Elem) (q : Elem → Bool) (hq : ∀ x, q (g x) = q x) :
    ∀ (l : List Elem) (i : Nat), (modN g l i).any q = l.any q := by
  intro l
  induction l with
  | nil => intro i; rfl
  | cons e es ih =>
    intro i
    cases i with
    | zero => simp [modN, hq]
    | succ n => simp [modN, ih]

theorem any_modN_pres (g : Elem → Elem) (q : Elem → Bool)
    (hq : ∀ x, q x = true → q (g x) = true) :
    ∀ (l : List Elem) (i : Nat), l.any q = true → (modN g l i).any q = true := by
  intro l
  induction l with
  | nil => intro i h; simp at h
  | cons e es ih =>
    intro i h
    cases i with
    | zero =>
      simp only [List.any_cons, Bool.or_eq_true] at h
      rcases h with h | h
      · simp [modN, hq e h]
      · simp [modN, h]
    | succ n =>
      simp only [List.any_cons, Bool.or_eq_true] at h
      rcases h with h | h
      · simp [modN, h]
      · simp [modN, ih n h]

theorem mem_modN (g : Elem → Elem) :
    ∀ (l : List Elem) (i : Nat), ∀ y ∈ modN g l i, y ∈ l ∨ ∃ ch ∈ l, y = g ch := by
  intro l
  induction l with
  | nil => intro i y hy; simp [modN] at hy
  | cons e es ih =>
    intro i y hy
    cases i with
    | zero =>
      simp only [modN, List.mem_cons] at hy
      rcases hy with hy | hy
      · exact Or.inr ⟨e, List.mem_cons_self e es, hy⟩
      · exact Or.inl (List.mem_cons_of_mem _ hy)
    | succ n =>
      simp only [modN, List.mem_cons] at hy
      rcases hy with hy | hy
      · exact Or.inl (by simp [hy])
      · rcases ih n y hy with h | ⟨ch, hch, hge⟩
        · exact Or.inl (List.mem_cons_of_mem _ h)
        · exact Or.inr ⟨ch, List.mem_cons_of_mem _ hch, hge⟩

theorem HFInv_sub {t a x c} (h : HFInv (.mk t a x c)) : ∀ ch ∈ c, HFInv ch := by
  intro ch hch e he
  refine h e ?_
  simp only [preorder_mk, List.mem_cons]
  exact Or.inr (mem_preorderL.mpr ⟨ch, hch, he⟩)

theorem HFInv_sub_children {e : Elem} (h : HFInv e) : ∀ ch ∈ e.children, HFInv ch := by
  cases e
  exact HFInv_sub h

theorem HFInv_node {e : Elem} (h : HFInv e) : tableHFOk e = true :=
  h e (self_mem_preorder e)

theorem HFInv_mk (t a x c) (hn : tableHFOk (.mk t a x c) = true)
    (hc : ∀ ch ∈ c, HFInv ch) : HFInv (.mk t a x c) := by
  intro e he
  simp only [preorder_mk, List.mem_cons] at he
  rcases he with rfl | he
  · exact hn
  · rcases mem_preorderL.mp he with ⟨ch, hch, hech⟩
    exact hc ch hch e hech

theorem preorder_skel : ∀ e : Elem, preorder (skel e) = (preorder e).map skel := by
  refine strongInd (fun e => preorder (skel e) = (preorder e).map skel) ?_
  intro t a x c ih
  simp only [skel_mk, preorder_mk, List.map_cons]
  refine congrArg _ ?_
  induction c with
  | nil => rfl
  | cons y ys ihl =>
    simp only [skelL, preorderL, List.map_append]
    rw [ih y (List.mem_cons_self y ys), ihl (fun z hz => ih z (List.mem_cons_of_mem y hz))]

theorem trIn_skel (e : Elem) : trIn (skel e) = trIn e := by
  simp [trIn, tag_skel, hasDescTr_skel]

theorem skelL_map_tag (c : List Elem) : (skelL c).map tag = c.map tag := by
  rw [skelL_eq, List.map_map]
  refine List.map_congr_left ?_
  intro e _
  exact tag_skel e

theorem hasHeadOrFoot_skelL (c : List Elem) :
    hasHeadOrFoot (skelL c) = hasHeadOrFoot c := by
  simp only [hasHeadOrFoot]
  rw [any_tag_eq_of_map_tag_eq "thead" (skelL_map_tag c),
    any_tag_eq_of_map_tag_eq "tfoot" (skelL_map_tag c)]

theorem tableHFOk_skel (e : Elem) : tableHFOk (skel e) = tableHFOk e := by
  cases e with
  | mk t a x c =>
    simp only [tableHFOk, skel_mk, tag_mk, children_mk, hasHeadOrFoot_skelL]
    refine congrArg _ ?_
    induction c with
    | nil => rfl
    | cons ch cs ih => simp [skelL, List.any_cons, tag_skel, hasDescTr_skel, ih]

theorem HFInv_of_skel_eq {a b : Elem} (h : skel b = skel a) (ha : HFInv a) : HFInv b := by
  intro e he
  have h1 : skel e ∈ (preorder b).map skel := List.mem_map_of_mem skel he
  rw [← preorder_skel, h, preorder_skel] at h1
  rcases List.mem_map.mp h1 with ⟨e2, he2, heq⟩
  calc tableHFOk e = tableHFOk (skel e) := (tableHFOk_skel e).symm
    _ = tableHFOk (skel e2) := by rw [heq]
    _ = tableHFOk e2 := tableHFOk_skel e2
    _ = true := ha e2 he2

theorem tag_of_skel_eq {a b : Elem} (h : skel b = skel a) : b.tag = a.tag := by
  rw [← tag_skel b, h, tag_skel]

theorem trIn_of_skel_eq {a b : Elem} (h : skel b = skel a) : trIn b = trIn a := by
  rw [← trIn_skel b, h, trIn_skel]

theorem skelL_modN (g : Elem → Elem) (hg : ∀ x, skel (g x) = skel x) :
    ∀ (l : List Elem) (i : Nat), skelL (modN g l i) = skelL l := by
  intro l
  induction l with
  | nil => intro i; rfl
  | cons e es ih =>
    intro i
    cases i with
    | zero => simp [modN, skelL, hg]
    | succ n => simp [modN, skelL, ih]

theorem skel_updatePath (f : Elem → Elem) (hf : ∀ x, skel (f x) = skel x) :
    ∀ (p : List Nat) (e : Elem), skel (updatePath f e p) = skel e := by
  intro p
  induction p with
  | nil =>
    intro e
    cases e with
    | mk t a x c => exact hf _
  | cons i is ih =>
    intro e
    cases e with
    | mk t a x c =>
      simp only [updatePath, skel_mk]
      rw [skelL_modN _ (fun ch => ih ch) c i]

theorem skel_updateFirst (p : Elem → Bool) (f : Elem → Elem)
    (hf : ∀ x, skel (f x) = skel x) (e : Elem) :
    skel (updateFirst p f e) = skel e := by
  unfold updateFirst
  cases findPath p e with
  | none => rfl
  | some path => exact skel_updatePath f hf path e

theorem skelL_numberRefsL_aux :
    ∀ l : List Elem, (∀ y ∈ l, ∀ n, skel (numberRefsE y n).1 = skel y) →
    ∀ n, skelL (numberRefsL l n).1 = skelL l := by
  intro l
  induction l with
  | nil => intro _ _; rfl
  | cons e es ih =>
    intro hl n
    simp only [numberRefsL, skelL]
    rw [hl e (List.mem_cons_self e es) n,
      ih (fun y hy => hl y (List.mem_cons_of_mem e hy)) _]

theorem skel_numberRefsE : ∀ (e : Elem) (n : Nat), skel (numberRefsE e n).1 = skel e := by
  refine strongInd (fun e => ∀ n, skel (numberRefsE e n).1 = skel e) ?_
  intro t a x c ih n
  simp only [numberRefsE]
  split
  · simp only [skel_mk]
    rw [skelL_numberRefsL_aux c ih]
  · simp only [skel_mk]
    rw [skelL_numberRefsL_aux c ih]

theorem skel_refIdFix (root : Elem) : skel (refIdFix root) = skel root := by
  unfold refIdFix
  refine skel_updateFirst _ _ ?_ root
  intro b
  refine skel_updateFirst _ _ ?_ b
  intro rl
  cases rl with
  | mk t a x c =>
    simp only [withChildren, children_mk, skel_mk, tag_mk]
    rw [skelL_numberRefsL_aux c (fun y _ n => skel_numberRefsE y n)]

theorem skelL_mapTreeL (f : Elem → Elem) (hf : ∀ x, skel (f x) = skel x) :
    ∀ l : List Elem, skelL (mapTreeL f l) = skelL l := by
  have he : ∀ e : Elem, skel (mapTree f e) = skel e := by
    refine strongInd (fun e => skel (mapTree f e) = skel e) ?_
    intro t a x c ih
    simp only [mapTree]
    rw [hf (Elem.mk t a x (mapTreeL f c))]
    simp only [skel_mk]
    refine congrArg _ ?_
    induction c with
    | nil => rfl
    | cons y ys ihl =>
      simp only [mapTreeL, skelL]
      rw [ih y (List.mem_cons_self y ys),
        ihl (fun z hz => ih z (List.mem_cons_of_mem y hz))]
  intro l
  induction l with
  | nil => rfl
  | cons y ys ih => simp [mapTreeL, skelL, he, ih]

theorem skel_mapTree (f : Elem → Elem) (hf : ∀ x, skel (f x) = skel x) (e : Elem) :
    skel (mapTree f e) = skel e := by
  cases e with
  | mk t a x c =>
    simp only [mapTree]
    rw [hf (Elem.mk t a x (mapTreeL f c))]
    simp only [skel_mk]
    rw [show skelL (mapTreeL f c) = skelL c from skelL_mapTreeL f hf c]

theorem skel_mapDescendants (f : Elem → Elem) (hf : ∀ x, skel (f x) = skel x) (e : Elem) :
    skel (mapDescendants f e) = skel e := by
  cases e with
  | mk t a x c =>
    simp only [mapDescendants, withChildren, children_mk, skel_mk, tag_mk, attrs_mk, text_mk]
    rw [skelL_mapTreeL f hf c]

theorem skel_altRewrite (refs : List Elem) (refIds : List String) (e : Elem) :
    skel (altRewrite refs refIds e) = skel e := by
  simp only [altRewrite]
  repeat' split
  all_goals simp

theorem skel_refTypeRidFix (refs : List Elem) (e : Elem) :
    skel (refTypeRidFix refs e) = skel e := by
  simp only [refTypeRidFix]
  repeat' split
  all_goals simp

theorem skel_xrefFix (root : Elem) : skel (xrefFix root) = skel root := by
  unfold xrefFix
  rw [skel_mapDescendants, skel_mapDescendants]
  · intro x
    split
    · exact skel_altRewrite _ _ x
    · rfl
  · intro x
    split
    · exact skel_refTypeRidFix _ x
    · rfl

theorem skel_ridFixE (vs : List String) (refs : List Elem) (e : Elem) :
    skel (ridFixE vs refs e) = skel e := by
  simp only [ridFixE]
  repeat' split
  all_goals simp

theorem skel_ridsFixE (vs : List String) (e : Elem) :
    skel (ridsFixE vs e) = skel e := by
  simp only [ridsFixE]
  repeat' split
  all_goals simp

theorem skel_idrefFix (root : Elem) : skel (idrefFix root) = skel root := by
  unfold idrefFix
  refine skel_mapTree _ ?_ root
  intro x
  simp only [idrefNode]
  rw [skel_ridsFixE, skel_ridFixE]

theorem map_fst_zip_self (f : Elem → Elem) :
    ∀ c : List Elem, (c.zip (c.map f)).map Prod.fst = c := by
  intro c
  induction c with
  | nil => rfl
  | cons e es ih => simp [ih]

theorem mem_zip_of_mem (f : Elem → Elem) :
    ∀ {c : List Elem} {ci : Elem}, ci ∈ c → (ci, f ci) ∈ c.zip (c.map f) := by
  intro c
  induction c with
  | nil => intro ci h; cases h
  | cons e es ih =>
    intro ci h
    rcases List.mem_cons.mp h with rfl | h
    · simp
    · simp only [List.map_cons, List.zip_cons_cons, List.mem_cons]
      exact Or.inr (ih h)

theorem hasDescTr_of_tbody_not_empty {e : Elem} (ht : e.tag = "tbody")
    (hne : emptyTbody e = false) : hasDescTr e = true := by
  simp [emptyTbody, ht] at hne
  exact hne

/-- An element of the repaired child list coming from a surviving original
child or matching predicate. -/
theorem fixTablePost_src_any (c : List Elem) (q : Elem → Bool)
    (ci : Elem) (hci : ci ∈ c) (hne : emptyTbody ci = false)
    (hq : q (tableFixE ci) = true) :
    (fixTablePost (c.zip (tableFixL c))).any q = true := by
  rw [tableFixL_eq]
  have hp : (ci, tableFixE ci) ∈ c.zip (c.map tableFixE) := mem_zip_of_mem _ hci
  have hkeep : (ci, tableFixE ci) ∈
      (c.zip (c.map tableFixE)).filter (fun p => !(emptyTbody p.1)) :=
    List.mem_filter.mpr ⟨hp, by simp [hne]⟩
  simp only [fixTablePost]
  split
  · split
    · exact List.any_eq_true.mpr ⟨tableFixE ci, List.mem_map.mpr ⟨_, hkeep, rfl⟩, hq⟩
    · rw [any_insN]
      refine Bool.or_eq_true _ _ |>.mpr (Or.inr ?_)
      exact List.any_eq_true.mpr ⟨tableFixE ci, List.mem_map.mpr ⟨_, hkeep, rfl⟩, hq⟩
  · split
    · refine List.any_eq_true.mpr ⟨tableFixE ci, ?_, hq⟩
      refine List.mem_map.mpr ⟨(ci, tableFixE ci), hp, ?_⟩
      simp [hne]
    · exact List.any_eq_true.mpr ⟨tableFixE ci, List.mem_map.mpr ⟨_, hkeep, rfl⟩, hq⟩

theorem trIn_withChildren_append (x : Elem) (l2 : List Elem)
    (h : trIn x = true) : trIn (x.withChildren (x.children ++ l2)) = true := by
  simp only [trIn, Bool.or_eq_true, decide_eq_true_eq, tag_withChildren] at h ⊢
  rcases h with h | h
  · exact Or.inl h
  · right
    rw [hasDescTr_children] at h ⊢
    simp only [children_withChildren, List.any_append, Bool.or_eq_true]
    exact Or.inl h

theorem trIn_tableFixE : ∀ e : Elem, trIn e = true → trIn (tableFixE e) = true := by
  refine strongInd (fun e => trIn e = true → trIn (tableFixE e) = true) ?_
  intro t a x c ih h
  by_cases htr : t = "tr"
  · subst htr
    have htag : (tableFixE (.mk "tr" a x c)).tag = "tr" := tag_tableFixE _
    simp [trIn, htag]
  · have hc : c.any trIn = true := by
      simp only [trIn, tag_mk, hasDescTr_mk, Bool.or_eq_true, decide_eq_true_eq] at h
      exact h.resolve_left htr
    obtain ⟨ci, hci, htri⟩ := List.any_eq_true.mp hc
    have hne : emptyTbody ci = false := emptyTbody_false_of_trIn htri
    have hfi : trIn (tableFixE ci) = true := ih ci hci htri
    simp only [tableFixE]
    split
    · simp only [trIn, tag_mk, hasDescTr_mk, Bool.or_eq_true]
      exact Or.inr (fixTablePost_src_any c trIn ci hci hne hfi)
    · simp only [trIn, tag_mk, hasDescTr_mk, Bool.or_eq_true]
      refine Or.inr ?_
      rw [tableFixL_eq]
      exact List.any_eq_true.mpr ⟨tableFixE ci, List.mem_map.mpr ⟨ci, hci, rfl⟩, hfi⟩

theorem tbodyTr_tableFixE {e : Elem} (ht : e.tag = "tbody") (hd : hasDescTr e = true) :
    ((tableFixE e).tag = "tbody" && hasDescTr (tableFixE e)) = true := by
  have h1 : (tableFixE e).tag = "tbody" := by rw [tag_tableFixE, ht]
  have h2 : trIn (tableFixE e) = true := trIn_tableFixE e (trIn_of_hasDescTr hd)
  have h3 : hasDescTr (tableFixE e) = true :=
    hasDescTr_of_trIn_ne_tr h2 (by rw [h1]; decide)
  simp [h1, h3]

theorem map_tag_fixTablePost_mapBranch (c : List Elem) :
    (((c.zip (c.map tableFixE)).map
      (fun p => if emptyTbody p.1 then p.2.withChildren (p.2.children ++ [newTr])
                else p.2)).map tag) = c.map tag := by
  induction c with
  | nil => rfl
  | cons e es ih =>
    simp only [List.map_cons, List.zip_cons_cons, List.cons.injEq]
    refine ⟨?_, ih⟩
    cases he : emptyTbody e <;> simp [he, tag_tableFixE]

theorem hasHeadOrFoot_of_filter_map (c : List Elem)
    (h : hasHeadOrFoot (((c.zip (c.map tableFixE)).filter
        (fun p => !(emptyTbody p.1))).map Prod.snd) = true) :
    hasHeadOrFoot c = true := by
  simp only [hasHeadOrFoot, Bool.or_eq_true, List.any_eq_true] at h ⊢
  rcases h with ⟨y, hy, hty⟩ | ⟨y, hy, hty⟩
  · left
    rcases List.mem_map.mp hy with ⟨p, hp, hpy⟩
    rcases mem_zip_map_self (List.mem_of_mem_filter hp) with ⟨h1, h2⟩
    refine ⟨p.1, h1, ?_⟩
    rw [← hpy, h2, tag_tableFixE] at hty
    exact hty
  · right
    rcases List.mem_map.mp hy with ⟨p, hp, hpy⟩
    rcases mem_zip_map_self (List.mem_of_mem_filter hp) with ⟨h1, h2⟩
    refine ⟨p.1, h1, ?_⟩
    rw [← hpy, h2, tag_tableFixE] at hty
    exact hty

theorem newTbody_tbodyTr : (newTbody.tag = "tbody" && hasDescTr newTbody) = true := by decide

theorem newTbody_hfok : ∀ d ∈ preorder newTbody, tableHFOk d = true := by decide

theorem newTr_hfok : ∀ d ∈ preorder newTr, tableHFOk d = true := by decide

/-- The repaired table node satisfies the invariant, for any input children. -/
theorem tableHFOk_table_fixTablePost (a : List (String × String)) (x : String)
    (c : List Elem) :
    tableHFOk (.mk "table" a x (fixTablePost (c.zip (tableFixL c)))) = true := by
  have hstart : tableHFOk (.mk "table" a x (fixTablePost (c.zip (tableFixL c)))) =
      (!(hasHeadOrFoot (fixTablePost (c.zip (tableFixL c)))) ||
       (fixTablePost (c.zip (tableFixL c))).any
         (fun ch => ch.tag = "tbody" && hasDescTr ch)) := by
    simp [tableHFOk]
  rw [hstart, Bool.or_eq_true]
  cases hHF : hasHeadOrFoot c with
  | true =>
    right
    rw [tableFixL_eq]
    simp only [fixTablePost]
    rw [if_pos (by rw [map_fst_zip_self]; exact hHF)]
    split
    · next hkt =>
      obtain ⟨k, hk, htb⟩ := List.any_eq_true.mp hkt
      rcases List.mem_map.mp hk with ⟨p, hp, hpk⟩
      rcases mem_zip_map_self (List.mem_of_mem_filter hp) with ⟨h1, h2⟩
      have hnef : (!(emptyTbody p.1)) = true := (List.mem_filter.mp hp).2
      have hne : emptyTbody p.1 = false := by simpa using hnef
      have htags : p.1.tag = "tbody" := by
        rw [← tag_tableFixE p.1, ← h2, hpk]
        simpa using htb
      have hdp : hasDescTr p.1 = true := hasDescTr_of_tbody_not_empty htags hne
      refine List.any_eq_true.mpr ⟨k, hk, ?_⟩
      rw [← hpk, h2]
      exact tbodyTr_tableFixE htags hdp
    · rw [any_insN]
      simp [newTbody_tbodyTr]
  | false =>
    left
    simp only [Bool.not_eq_true']
    rw [tableFixL_eq]
    simp only [fixTablePost]
    rw [if_neg (by rw [map_fst_zip_self]; simp [hHF])]
    split
    · rw [show hasHeadOrFoot (((c.zip (c.map tableFixE)).map
          (fun p => if emptyTbody p.1 then p.2.withChildren (p.2.children ++ [newTr])
                    else p.2))) = hasHeadOrFoot c from by
        simp only [hasHeadOrFoot]
        rw [any_tag_eq_of_map_tag_eq "thead" (map_tag_fixTablePost_mapBranch c),
          any_tag_eq_of_map_tag_eq "tfoot" (map_tag_fixTablePost_mapBranch c)]]
      exact hHF
    · by_cases h2 : hasHeadOrFoot (((c.zip (c.map tableFixE)).filter
          (fun p => !(emptyTbody p.1))).map Prod.snd) = true
      · rw [hasHeadOrFoot_of_filter_map c h2] at hHF
        cases hHF
      · simpa using h2

/-- The table structure fixer establishes the invariant at every node,
whatever the input. -/
theorem tableHFOk_tableFixE :
    ∀ e : Elem, ∀ d ∈ preorder (tableFixE e), tableHFOk d = true := by
  refine strongInd (fun e => ∀ d ∈ preorder (tableFixE e), tableHFOk d = true) ?_
  intro t a x c ih
  by_cases ht : t = "table"
  · subst ht
    intro d hd
    simp only [tableFixE, if_pos rfl, preorder_mk] at hd
    rcases List.mem_cons.mp hd with hd0 | hd1
    · subst hd0
      exact tableHFOk_table_fixTablePost a x c
    · rcases mem_preorderL.mp hd1 with ⟨y, hy, hdy⟩
      rw [tableFixL_eq] at hy
      rcases mem_fixTablePost hy with ⟨p, hp, rfl⟩ | rfl | ⟨p, hp, hemp, rfl⟩
      · rcases mem_zip_map_self hp with ⟨h1, h2⟩
        rw [h2] at hdy
        exact ih p.1 h1 d hdy
      · exact newTbody_hfok d hdy
      · rcases mem_zip_map_self hp with ⟨h1, hf2⟩
        rw [preorder_eq_cons] at hdy
        rcases List.mem_cons.mp hdy with rfl | hdy2
        · have htag : (p.2.withChildren (p.2.children ++ [newTr])).tag = "tbody" := by
            rw [tag_withChildren, hf2, tag_tableFixE]
            exact tag_of_emptyTbody hemp
          simp [tableHFOk, htag]
        · simp only [descendants, children_withChildren] at hdy2
          rw [preorderL_append] at hdy2
          rcases List.mem_append.mp hdy2 with hdy3 | hdy3
          · have hmem : d ∈ preorder p.2 := by
              rw [preorder_eq_cons]
              exact List.mem_cons_of_mem _ hdy3
            rw [hf2] at hmem
            exact ih p.1 h1 d hmem
          · have hmem : d ∈ preorder newTr := by simpa [preorderL] using hdy3
            exact newTr_hfok d hmem
  · intro d hd
    simp only [tableFixE, if_neg ht, preorder_mk] at hd
    rcases List.mem_cons.mp hd with hd0 | hd1
    · subst hd0
      simp [tableHFOk, ht]
    · rcases mem_preorderL.mp hd1 with ⟨y, hy, hdy⟩
      rw [tableFixL_eq] at hy
      rcases List.mem_map.mp hy with ⟨ce, hce, rfl⟩
      exact ih ce hce d hdy

theorem HFInv_tableFix (root : Elem) (hroot : ¬ root.tag = "table") :
    HFInv (tableFix root) := by
  cases root with
  | mk t a x c =>
    simp only [tag_mk] at hroot
    unfold tableFix
    simp only [withChildren, children_mk, tag_mk, attrs_mk, text_mk]
    refine HFInv_mk t a x (tableFixL c) ?_ ?_
    · simp [tableHFOk, hroot]
    · intro ch hch
      rw [tableFixL_eq] at hch
      rcases List.mem_map.mp hch with ⟨ce, hce, rfl⟩
      exact fun d hd => tableHFOk_tableFixE ce d hd

/-- Bundle for the metadata fixers: tag-preserving, row-monotone and
invariant-preserving element transformations. -/
def HFM (f : Elem → Elem) : Prop :=
  (∀ y, (f y).tag = y.tag) ∧ (∀ y, trIn y = true → trIn (f y) = true) ∧
  (∀ y, HFInv y → HFInv (f y))

theorem HFM_congr {f g : Elem → Elem} (h : ∀ y, f y = g y) (hf : HFM f) : HFM g := by
  refine ⟨fun y => ?_, fun y ht => ?_, fun y hi => ?_⟩ <;> rw [← h y]
  · exact hf.1 y
  · exact hf.2.1 y ht
  · exact hf.2.2 y hi

theorem HFM_of_skel {f : Elem → Elem} (h : ∀ y, skel (f y) = skel y) : HFM f :=
  ⟨fun y => tag_of_skel_eq (h y), fun y ht => by rw [trIn_of_skel_eq (h y)]; exact ht,
   fun y hi => HFInv_of_skel_eq (h y) hi⟩

theorem hasHeadOrFoot_insN (nb : Elem) (c : List Elem) (i : Nat)
    (h1 : ¬ nb.tag = "thead") (h2 : ¬ nb.tag = "tfoot") :
    hasHeadOrFoot (insN nb c i) = hasHeadOrFoot c := by
  simp [hasHeadOrFoot, any_insN, h1, h2]

theorem tableHFOk_insChild (t : String) (a : List (String × String)) (x : String)
    (c : List Elem) (nb : Elem) (i : Nat)
    (h1 : ¬ nb.tag = "thead") (h2 : ¬ nb.tag = "tfoot")
    (hn : tableHFOk (.mk t a x c) = true) :
    tableHFOk (.mk t a x (insN nb c i)) = true := by
  simp only [tableHFOk, tag_mk, children_mk] at hn ⊢
  by_cases ht : t = "table"
  · rw [hasHeadOrFoot_insN nb c i h1 h2, any_insN]
    rcases (Bool.or_eq_true _ _).mp hn with h | h
    · simp [h]
    · simp [h]
  · simp [ht]

theorem trIn_insChild (y : Elem) (nb : Elem) (i : Nat) (h : trIn y = true) :
    trIn (y.withChildren (insN nb y.children i)) = true := by
  simp only [trIn, Bool.or_eq_true, decide_eq_true_eq, tag_withChildren] at h ⊢
  rcases h with h | h
  · exact Or.inl h
  · right
    rw [hasDescTr_children] at h ⊢
    simp only [children_withChildren, any_insN]
    simp [h]

theorem HFInv_insChild (y : Elem) (nb : Elem) (i : Nat) (hok : HFInv nb)
    (h1 : ¬ nb.tag = "thead") (h2 : ¬ nb.tag = "tfoot") (h : HFInv y) :
    HFInv (y.withChildren (insN nb y.children i)) := by
  cases y with
  | mk t a x c =>
    simp only [withChildren, children_mk, tag_mk, attrs_mk, text_mk]
    refine HFInv_mk t a x (insN nb c i) ?_ ?_
    · exact tableHFOk_insChild t a x c nb i h1 h2 (HFInv_node h)
    · intro ch hch
      rcases mem_insN hch with rfl | hch
      · exact hok
      · exact HFInv_sub h ch hch

theorem HFM_insN (nb : Elem) (idx : Elem → Nat) (hok : HFInv nb)
    (h1 : ¬ nb.tag = "thead") (h2 : ¬ nb.tag = "tfoot") :
    HFM (fun y => y.withChildren (insN nb y.children (idx y))) :=
  ⟨fun y => tag_withChildren _ _,
   fun y h => trIn_insChild y nb (idx y) h,
   fun y h => HFInv_insChild y nb (idx y) hok h1 h2 h⟩

theorem tableHFOk_modN (g : Elem → Elem) (htag : ∀ y, (g y).tag = y.tag)
    (htr : ∀ y, trIn y = true → trIn (g y) = true)
    (t : String) (a : List (String × String)) (x : String) (c : List Elem) (i : Nat)
    (hn : tableHFOk (.mk t a x c) = true) :
    tableHFOk (.mk t a x (modN g c i)) = true := by
  simp only [tableHFOk, tag_mk, children_mk] at hn ⊢
  have hHF : hasHeadOrFoot (modN g c i) = hasHeadOrFoot c := by
    simp only [hasHeadOrFoot]
    rw [any_modN_eq g _ (fun y => by simp [htag y]) c i,
      any_modN_eq g _ (fun y => by simp [htag y]) c i]
  rw [hHF]
  rcases (Bool.or_eq_true _ _).mp hn with h | h
  · simp [h]
  · refine (Bool.or_eq_true _ _).mpr (Or.inr ?_)
    refine any_modN_pres g _ ?_ c i h
    intro y hy
    simp only [Bool.and_eq_true, decide_eq_true_eq] at hy ⊢
    refine ⟨by rw [htag y]; exact hy.1, ?_⟩
    have htry : trIn (g y) = true := htr y (trIn_of_hasDescTr hy.2)
    exact hasDescTr_of_trIn_ne_tr htry (by rw [htag y, hy.1]; decide)

theorem HFM_updatePath {f : Elem → Elem} (hf : HFM f) :
    ∀ p : List Nat, HFM (fun e => updatePath f e p) := by
  intro p
  induction p with
  | nil => exact HFM_congr (fun y => by cases y; rfl) hf
  | cons i is ih =>
    refine ⟨fun y => ?_, fun y h => ?_, fun y h => ?_⟩
    · cases y; rfl
    · cases y with
      | mk t a x c =>
        simp only [updatePath]
        simp only [trIn, Bool.or_eq_true, decide_eq_true_eq, tag_mk, hasDescTr_mk] at h ⊢
        rcases h with h | h
        · exact Or.inl h
        · exact Or.inr (any_modN_pres _ _ (fun z hz => ih.2.1 z hz) c i h)
    · cases y with
      | mk t a x c =>
        simp only [updatePath]
        refine HFInv_mk t a x _ ?_ ?_
        · exact tableHFOk_modN _ (fun z => ih.1 z) (fun z hz => ih.2.1 z hz)
            t a x c i (HFInv_node h)
        · intro ch hch
          rcases mem_modN _ c i ch hch with hch2 | ⟨ce, hce, rfl⟩
          · exact HFInv_sub h ch hch2
          · exact ih.2.2 ce (HFInv_sub h ce hce)

theorem HFM_updateFirst (p : Elem → Bool) {f : Elem → Elem} (hf : HFM f) :
    HFM (updateFirst p f) := by
  refine ⟨fun y => ?_, fun y h => ?_, fun y h => ?_⟩ <;>
    · unfold updateFirst
      cases hfp : findPath p y with
      | none => first | rfl | exact h
      | some path =>
        first
          | exact (HFM_updatePath hf path).1 y
          | exact (HFM_updatePath hf path).2.1 y h
          | exact (HFM_updatePath hf path).2.2 y h

theorem HFInv_newTitleGroup : HFInv newTitleGroup := by
  intro e he
  fin_cases he <;> rfl

theorem HFInv_newPubDate (year : String) : HFInv (newPubDate year) := by
  intro e he
  fin_cases he <;> rfl

theorem HFInv_newElocation : HFInv newElocation := by
  intro e he
  fin_cases he <;> rfl

theorem HFInv_newArticleCategories (articleType : String) :
    HFInv (newArticleCategories articleType) := by
  intro e he
  fin_cases he <;> rfl

theorem HFM_fixJournalId : HFM fixJournalId :=
  HFM_of_skel (fun y => by
    simp only [fixJournalId]
    repeat' split
    all_goals first | rfl | simp)

theorem HFM_fixJTG : HFM fixJTG := by
  have hupd : HFM (fun jt : Elem =>
      if strBlank jt.text then jt.withText "Unknown Journal" else jt) :=
    HFM_of_skel (fun y => by split <;> first | rfl | simp)
  refine ⟨fun y => ?_, fun y h => ?_, fun y h => ?_⟩ <;>
    · unfold fixJTG
      cases hfp : findPath (fun d => d.tag = "journal-title") y with
      | none =>
        first
          | exact tag_withChildren _ _
          | exact (by
              rw [← insN_len (Elem.mk "journal-title" [] "Unknown Journal" []) y.children]
              exact trIn_insChild y _ _ h)
          | exact (by
              rw [← insN_len (Elem.mk "journal-title" [] "Unknown Journal" []) y.children]
              exact HFInv_insChild y _ _ (fun e he => by fin_cases he <;> rfl)
                (by decide) (by decide) h)
      | some path =>
        first
          | exact (HFM_updatePath hupd path).1 y
          | exact (HFM_updatePath hupd path).2.1 y h
          | exact (HFM_updatePath hupd path).2.2 y h

theorem HFM_fixIssn : HFM fixIssn :=
  HFM_of_skel (fun y => by
    simp only [fixIssn]
    repeat' split
    all_goals first | rfl | simp)

theorem HFM_fixPublisher : HFM fixPublisher :=
  HFM_updateFirst _ (HFM_of_skel (fun y => by split <;> first | rfl | simp))

theorem HFM_comp2 {f g : Elem → Elem} (hf : HFM f) (hg : HFM g) :
    HFM (fun y => g (f y)) :=
  ⟨fun y => by rw [hg.1, hf.1], fun y h => hg.2.1 _ (hf.2.1 y h),
   fun y h => hg.2.2 _ (hf.2.2 y h)⟩

theorem HFM_fixJournalMeta : HFM fixJournalMeta := by
  have h1 := HFM_updateFirst (fun d => d.tag = "journal-id") HFM_fixJournalId
  have h2 := HFM_updateFirst (fun d => d.tag = "journal-title-group") HFM_fixJTG
  have h3 := HFM_updateFirst (fun d => d.tag = "issn") HFM_fixIssn
  have h4 := HFM_updateFirst (fun d => d.tag = "publisher") HFM_fixPublisher
  exact HFM_congr
    (f := fun y => updateFirst (fun d => d.tag = "publisher") fixPublisher
      (updateFirst (fun d => d.tag = "issn") fixIssn
        (updateFirst (fun d => d.tag = "journal-title-group") fixJTG
          (updateFirst (fun d => d.tag = "journal-id") fixJournalId y))))
    (fun y => rfl)
    (HFM_comp2 (HFM_comp2 (HFM_comp2 h1 h2) h3) h4)

/-- Bundle for the fallible metadata fixers. -/
def HFME (f : Elem → Except PErr Elem) : Prop :=
  ∀ y out, f y = .ok out →
    out.tag = y.tag ∧ (trIn y = true → trIn out = true) ∧ (HFInv y → HFInv out)

theorem tgStep_props (y out : Elem) (h : tgStep y = .ok out) :
    out.tag = y.tag ∧ (trIn y = true → trIn out = true) ∧ (HFInv y → HFInv out) := by
  unfold tgStep at h
  repeat' split at h
  any_goals exact Except.noConfusion h
  all_goals simp only [pure, Except.pure, Except.ok.injEq] at h
  all_goals subst h
  all_goals
    first
      | exact ⟨rfl, fun hh => hh, fun hh => hh⟩
      | exact ⟨tag_withChildren _ _,
          fun hh => trIn_insChild y _ _ hh,
          fun hh => HFInv_insChild y _ _ HFInv_newTitleGroup (by decide) (by decide) hh⟩

theorem acStep_props (articleType : String) (y : Elem) :
    (acStep articleType y).tag = y.tag ∧
    (trIn y = true → trIn (acStep articleType y) = true) ∧
    (HFInv y → HFInv (acStep articleType y)) := by
  unfold acStep
  cases hfp : findPath (fun d => d.tag = "article-categories") y with
  | none =>
    exact ⟨tag_withChildren _ _,
      fun hh => trIn_insChild y _ _ hh,
      fun hh => HFInv_insChild y _ _ (HFInv_newArticleCategories articleType)
        (by simp [newArticleCategories]) (by simp [newArticleCategories]) hh⟩
  | some path => exact ⟨rfl, fun hh => hh, fun hh => hh⟩

theorem pubDateStep_props (year : String) (y : Elem) (i : Nat) :
    (pubDateStep year y i).1.tag = y.tag ∧
    (trIn y = true → trIn (pubDateStep year y i).1 = true) ∧
    (HFInv y → HFInv (pubDateStep year y i).1) := by
  unfold pubDateStep
  cases hfp : findPath (fun d => d.tag = "pub-date") y with
  | none =>
    exact ⟨tag_withChildren _ _,
      fun hh => trIn_insChild y _ _ hh,
      fun hh => HFInv_insChild y _ _ (HFInv_newPubDate year)
        (by simp [newPubDate]) (by simp [newPubDate]) hh⟩
  | some path => exact ⟨rfl, fun hh => hh, fun hh => hh⟩

theorem elocStep_props (y : Elem) (i : Nat) :
    (elocStep y i).tag = y.tag ∧
    (trIn y = true → trIn (elocStep y i) = true) ∧
    (HFInv y → HFInv (elocStep y i)) := by
  unfold elocStep
  split
  · exact ⟨tag_withChildren _ _,
      fun hh => trIn_insChild y _ _ hh,
      fun hh => HFInv_insChild y _ _ HFInv_newElocation (by decide) (by decide) hh⟩
  · exact ⟨rfl, fun hh => hh, fun hh => hh⟩

theorem HFME_fixArticleMeta (articleType year : String) :
    HFME (fixArticleMeta articleType year) := by
  intro y out h
  unfold fixArticleMeta at h
  cases htg : tgStep y with
  | error err => rw [htg] at h; simp [Except.bind, bind] at h
  | ok am1 =>
    rw [htg] at h
    simp only [Except.bind, bind, pure, Except.pure, Except.ok.injEq] at h
    subst h
    have h1 := tgStep_props y am1 htg
    have h2 := acStep_props articleType am1
    have h3 := pubDateStep_props year (acStep articleType am1)
      (baseIdx (acStep articleType am1) +
        scanLen ["contrib-group", "aff", "author-notes"]
          ((acStep articleType am1).children.drop (baseIdx (acStep articleType am1))))
    have h4 := elocStep_props
      (pubDateStep year (acStep articleType am1)
        (baseIdx (acStep articleType am1) +
          scanLen ["contrib-group", "aff", "author-notes"]
            ((acStep articleType am1).children.drop
              (baseIdx (acStep articleType am1))))).1
      ((pubDateStep year (acStep articleType am1)
        (baseIdx (acStep articleType am1) +
          scanLen ["contrib-group", "aff", "author-notes"]
            ((acStep articleType am1).children.drop
              (baseIdx (acStep articleType am1))))).2 +
        scanLen ["volume", "issue"]
          ((pubDateStep year (acStep articleType am1)
            (baseIdx (acStep articleType am1) +
              scanLen ["contrib-group", "aff", "author-notes"]
                ((acStep articleType am1).children.drop
                  (baseIdx (acStep articleType am1))))).1.children.drop
            ((pubDateStep year (acStep articleType am1)
              (baseIdx (acStep articleType am1) +
                scanLen ["contrib-group", "aff", "author-notes"]
                  ((acStep articleType am1).children.drop
                    (baseIdx (acStep articleType am1))))).2)))
    refine ⟨?_, ?_, ?_⟩
    · rw [h4.1, h3.1, h2.1, h1.1]
    · intro hh
      exact h4.2.1 (h3.2.1 (h2.2.1 (h1.2.1 hh)))
    · intro hh
      exact h4.2.2 (h3.2.2 (h2.2.2 (h1.2.2 hh)))

theorem modNE_props (g : Elem → Except PErr Elem)
    (hg : ∀ y out, g y = .ok out →
      out.tag = y.tag ∧ (trIn y = true → trIn out = true) ∧ (HFInv y → HFInv out)) :
    ∀ (l : List Elem) (i : Nat) (l2 : List Elem), modNE g l i = .ok l2 →
      l2.map tag = l.map tag ∧
      (l.any trIn = true → l2.any trIn = true) ∧
      (l.any (fun ch => ch.tag = "tbody" && hasDescTr ch) = true →
        l2.any (fun ch => ch.tag = "tbody" && hasDescTr ch) = true) ∧
      (∀ y ∈ l2, y ∈ l ∨ ∃ ch ∈ l, g ch = .ok y) := by
  intro l
  induction l with
  | nil =>
    intro i l2 h
    simp only [modNE, pure, Except.pure, Except.ok.injEq] at h
    subst h
    exact ⟨rfl, fun hh => hh, fun hh => hh, fun y hy => absurd hy (List.not_mem_nil y)⟩
  | cons e es ih =>
    intro i l2 h
    cases i with
    | zero =>
      cases hge : g e with
      | error err => rw [modNE, hge] at h; simp [Except.bind, bind] at h
      | ok v =>
        rw [modNE, hge] at h
        simp only [Except.bind, bind, pure, Except.pure, Except.ok.injEq] at h
        subst h
        obtain ⟨hg1, hg2, hg3⟩ := hg e v hge
        refine ⟨by simp [hg1], ?_, ?_, ?_⟩
        · intro hh
          simp only [List.any_cons, Bool.or_eq_true] at hh ⊢
          rcases hh with hh | hh
          · exact Or.inl (hg2 hh)
          · exact Or.inr hh
        · intro hh
          simp only [List.any_cons, Bool.or_eq_true] at hh ⊢
          rcases hh with hh | hh
          · left
            simp only [Bool.and_eq_true, decide_eq_true_eq] at hh ⊢
            refine ⟨by rw [hg1]; exact hh.1, ?_⟩
            have htv : trIn v = true := hg2 (trIn_of_hasDescTr hh.2)
            exact hasDescTr_of_trIn_ne_tr htv (by rw [hg1, hh.1]; decide)
          · exact Or.inr hh
        · intro y hy
          rcases List.mem_cons.mp hy with rfl | hy
          · exact Or.inr ⟨e, List.mem_cons_self e es, hge⟩
          · exact Or.inl (List.mem_cons_of_mem _ hy)
    | succ n =>
      cases hme : modNE g es n with
      | error err => rw [modNE, hme] at h; simp [Except.bind, bind] at h
      | ok es2 =>
        rw [modNE, hme] at h
        simp only [Except.bind, bind, pure, Except.pure, Except.ok.injEq] at h
        subst h
        obtain ⟨ht, htr, hq, hmem⟩ := ih n es2 hme
        refine ⟨by simp [ht], ?_, ?_, ?_⟩
        · intro hh
          simp only [List.any_cons, Bool.or_eq_true] at hh ⊢
          rcases hh with hh | hh
          · exact Or.inl hh
          · exact Or.inr (htr hh)
        · intro hh
          simp only [List.any_cons, Bool.or_eq_true] at hh ⊢
          rcases hh with hh | hh
          · exact Or.inl hh
          · exact Or.inr (hq hh)
        · intro y hy
          rcases List.mem_cons.mp hy with rfl | hy
          · exact Or.inl (List.mem_cons_self _ _)
          · rcases hmem y hy with hm | ⟨ch, hch, hgc⟩
            · exact Or.inl (List.mem_cons_of_mem _ hm)
            · exact Or.inr ⟨ch, List.mem_cons_of_mem _ hch, hgc⟩

theorem updatePathE_props {f : Elem → Except PErr Elem} (hf : HFME f) :
    ∀ (p : List Nat) (y out : Elem), updatePathE f y p = .ok out →
      out.tag = y.tag ∧ (trIn y = true → trIn out = true) ∧ (HFInv y → HFInv out) := by
  intro p
  induction p with
  | nil =>
    intro y out h
    cases y with
    | mk t a x c => exact hf _ out h
  | cons i is ih =>
    intro y out h
    cases y with
    | mk t a x c =>
      simp only [updatePathE] at h
      cases hm : modNE (fun ch => updatePathE f ch is) c i with
      | error err => rw [hm] at h; simp [Except.bind, bind] at h
      | ok c2 =>
        rw [hm] at h
        simp only [Except.bind, bind, pure, Except.pure, Except.ok.injEq] at h
        subst h
        obtain ⟨htags, htr, hq, hmem⟩ :=
          modNE_props _ (fun y2 o2 h2 => ih y2 o2 h2) c i c2 hm
        refine ⟨rfl, ?_, ?_⟩
        · intro hh
          simp only [trIn, Bool.or_eq_true, decide_eq_true_eq, tag_mk,
            hasDescTr_mk] at hh ⊢
          rcases hh with hh | hh
          · exact Or.inl hh
          · exact Or.inr (htr hh)
        · intro hh
          refine HFInv_mk t a x c2 ?_ ?_
          · have hn := HFInv_node hh
            simp only [tableHFOk, tag_mk, children_mk] at hn ⊢
            have hHF : hasHeadOrFoot c2 = hasHeadOrFoot c := by
              simp only [hasHeadOrFoot]
              rw [any_tag_eq_of_map_tag_eq "thead" htags,
                any_tag_eq_of_map_tag_eq "tfoot" htags]
            rw [hHF]
            rcases (Bool.or_eq_true _ _).mp hn with hn1 | hn1
            · simp [hn1]
            · exact (Bool.or_eq_true _ _).mpr (Or.inr (hq hn1))
          · intro ch hch
            rcases hmem ch hch with hm2 | ⟨ce, hce, hgc⟩
            · exact HFInv_sub hh ch hm2
            · exact (ih ce ch hgc).2.2 (HFInv_sub hh ce hce)

theorem updateFirstE_props (p : Elem → Bool) {f : Elem → Except PErr Elem}
    (hf : HFME f) : HFME (updateFirstE p f) := by
  intro y out h
  unfold updateFirstE at h
  cases hfp : findPath p y with
  | none =>
    rw [hfp] at h
    simp only [pure, Except.pure, Except.ok.injEq] at h
    subst h
    exact ⟨rfl, fun hh => hh, fun hh => hh⟩
  | some path =>
    rw [hfp] at h
    exact updatePathE_props hf path y out h

theorem HFME_fixFront (articleType year : String) : HFME (fixFront articleType year) := by
  intro y out h
  unfold fixFront at h
  have h1 := updateFirstE_props (fun d => d.tag = "article-meta")
    (HFME_fixArticleMeta articleType year) _ out h
  have h2tag := (HFM_updateFirst (fun d => d.tag = "journal-meta") HFM_fixJournalMeta).1 y
  refine ⟨h1.1.trans h2tag, ?_, ?_⟩
  · intro hh
    exact h1.2.1
      ((HFM_updateFirst (fun d => d.tag = "journal-meta") HFM_fixJournalMeta).2.1 y hh)
  · intro hh
    exact h1.2.2
      ((HFM_updateFirst (fun d => d.tag = "journal-meta") HFM_fixJournalMeta).2.2 y hh)

theorem HFME_metaFix (year : String) : HFME (metaFix year) := by
  intro y out h
  unfold metaFix at h
  exact updateFirstE_props (fun d => d.tag = "front")
    (HFME_fixFront ((y.get "article-type").getD "research-article") year) y out h

theorem nsBind_root_tag (d : Doc) : (nsBind d).root.tag = d.root.tag := by
  simp only [nsBind]
  repeat' split
  all_goals simp

/-- C1: after a successful `_post_process_xml` on a document whose root is
not itself a `table`, every `table` element having a `thead` or `tfoot`
child contains a `tbody` child with at least one `tr` descendant: the table
fixer removes row-less tbodys and synthesizes `tbody[tr[td]]` right after
the footer (else the header) when none remains, and the later stages only
insert row-free placeholders or rewrite attributes. -/
theorem c1_confirmed (year : String) (d d2 : Doc) (hroot : ¬ d.root.tag = "table")
    (h : postProcessDoc year d = .ok d2) :
    ∀ e ∈ preorder d2.root, e.tag = "table" → hasHeadOrFoot e.children = true →
      (e.children.any fun ch => ch.tag = "tbody" && hasDescTr ch) = true := by
  rcases hm : metaFix year (tableFix (posFix d.root)) with err | rm
  · simp [postProcessDoc, postProcessTree, hm] at h
  · simp only [postProcessDoc, postProcessTree, hm] at h
    simp only [Except.bind, bind, pure, Except.pure, Except.ok.injEq] at h
    subst h
    have hpos : ¬ (posFix d.root).tag = "table" := by
      rw [show (posFix d.root).tag = d.root.tag from tag_withChildren _ _]
      exact hroot
    have h1 : HFInv (tableFix (posFix d.root)) := HFInv_tableFix _ hpos
    have h2 : HFInv rm := ((HFME_metaFix year) _ rm hm).2.2 h1
    have h3 : HFInv (refIdFix rm) := HFInv_of_skel_eq (skel_refIdFix rm) h2
    have h4 : HFInv (xrefFix (refIdFix rm)) := HFInv_of_skel_eq (skel_xrefFix _) h3
    have h5 : HFInv (idrefFix (xrefFix (refIdFix rm))) :=
      HFInv_of_skel_eq (skel_idrefFix _) h4
    have hRtag : (idrefFix (xrefFix (refIdFix rm))).tag = d.root.tag := by
      rw [tag_of_skel_eq (skel_idrefFix _), tag_of_skel_eq (skel_xrefFix _),
        tag_of_skel_eq (skel_refIdFix _), ((HFME_metaFix year) _ rm hm).1,
        show (tableFix (posFix d.root)).tag = (posFix d.root).tag from tag_withChildren _ _,
        show (posFix d.root).tag = d.root.tag from tag_withChildren _ _]
    intro e he htab hHF
    rw [preorder_eq_cons] at he
    rcases List.mem_cons.mp he with rfl | he2
    · exfalso
      rw [nsBind_root_tag] at htab
      exact hroot (hRtag ▸ htab)
    · have hmem : e ∈ preorder (idrefFix (xrefFix (refIdFix rm))) := by
        rw [preorder_eq_cons]
        refine List.mem_cons_of_mem _ ?_
        have hch : descendants (nsBind { d with
            root := idrefFix (xrefFix (refIdFix rm)) }).root =
            descendants (idrefFix (xrefFix (refIdFix rm))) := by
          simp [descendants, nsBind_root_children]
        rw [← hch]
        exact he2
      have hok := h5 e hmem
      simpa [tableHFOk, htab, hHF] using hok

/-- A table with a header and no body group at all. -/
def c1WitDoc : Doc :=
  Doc.mk true [("xlink", xlinkNs), ("mml", mmlNs)]
    (.mk "article" [("article-type", "research-article"), ("dtd-version", "1.3")] ""
      [.mk "body" [] ""
        [.mk "table" [] ""
          [.mk "thead" [] "" [.mk "tr" [] "" [.mk "td" [] "" []]]]]])

def c1WitOut : Doc :=
  match postProcessDoc "2024" c1WitDoc with
  | .ok r => r
  | .error _ => c1WitDoc

set_option maxHeartbeats 4000000 in
/-- Witness for C1: the header-only table of the processed document owns a
synthesized `tbody` with a row. -/
theorem c1_confirmed_witness :
    ((Elem.mk "table" [] ""
      [Elem.mk "thead" [] "" [Elem.mk "tr" [] "" [Elem.mk "td" [] "" []]],
       newTbody]).children.any fun ch => ch.tag = "tbody" && hasDescTr ch) = true :=
  c1_confirmed "2024" c1WitDoc c1WitOut (by decide) (by decide)
    (Elem.mk "table" [] ""
      [Elem.mk "thead" [] "" [Elem.mk "tr" [] "" [Elem.mk "td" [] "" []]],
       newTbody])
    (by decide) (by decide) (by decide)

/-! ### C4 machinery: the second run is a no-op

Each stage of `_post_process_xml` is shown to fix its own output: the
invariants the first run establishes make every rewrite of a second run
fall into its identity branch.
-/

theorem withChildren_self (e : Elem) : e.withChildren e.children = e := by
  cases e; rfl

theorem mapTreeL_id_aux (f : Elem → Elem) :
    ∀ l : List Elem,
    (∀ e ∈ l, (∀ d ∈ preorder e, f d = d) → mapTree f e = e) →
    (∀ d ∈ preorderL l, f d = d) → mapTreeL f l = l := by
  intro l
  induction l with
  | nil => intro _ _; rfl
  | cons e es ihl =>
    intro hmem hl
    simp only [mapTreeL]
    rw [hmem e (List.mem_cons_self e es)
        (fun d hd => hl d (by simp only [preorderL, List.mem_append]; exact Or.inl hd)),
      ihl (fun y hy => hmem y (List.mem_cons_of_mem e hy))
        (fun d hd => hl d (by simp only [preorderL, List.mem_append]; exact Or.inr hd))]

theorem mapTree_id_of (f : Elem → Elem) :
    ∀ e : Elem, (∀ d ∈ preorder e, f d = d) → mapTree f e = e := by
  refine strongInd (fun e => (∀ d ∈ preorder e, f d = d) → mapTree f e = e) ?_
  intro t a x c ih h
  have hc : mapTreeL f c = c :=
    mapTreeL_id_aux f c (fun y hy => ih y hy)
      (fun d hd => h d (by simp only [preorder_mk, List.mem_cons]; exact Or.inr hd))
  simp only [mapTree, hc]
  exact h _ (self_mem_preorder _)

theorem mapTreeL_id_of (f : Elem → Elem) (l : List Elem)
    (hl : ∀ e ∈ preorderL l, f e = e) : mapTreeL f l = l :=
  mapTreeL_id_aux f l (fun e _ => mapTree_id_of f e) hl

theorem mapDescendants_id_of (f : Elem → Elem) (e : Elem)
    (h : ∀ d ∈ descendants e, f d = d) : mapDescendants f e = e := by
  unfold mapDescendants
  rw [mapTreeL_id_of f e.children h, withChildren_self]

theorem findPathL_spec (p : Elem → Bool) :
    ∀ (l : List Elem) (i : Nat) (pi : List Nat), findPathL p l i = some pi →
    ∃ j ch, l.get? j = some ch ∧
      ((pi = [i + j] ∧ p ch = true) ∨
       (∃ rest, pi = (i + j) :: rest ∧ findPath p ch = some rest)) := by
  intro l
  induction l with
  | nil => intro i pi h; simp [findPathL] at h
  | cons e es ih =>
    intro i pi h
    rw [findPathL] at h
    by_cases hp : p e = true
    · rw [if_pos hp] at h
      refine ⟨0, e, rfl, Or.inl ⟨?_, hp⟩⟩
      simp only [Option.some.injEq] at h
      simp [← h]
    · rw [if_neg hp] at h
      cases hfe : findPath p e with
      | some path =>
        rw [hfe] at h
        simp only [Option.some.injEq] at h
        exact ⟨0, e, rfl, Or.inr ⟨path, by simp [← h], hfe⟩⟩
      | none =>
        rw [hfe] at h
        obtain ⟨j, ch, hget, hcase⟩ := ih (i + 1) pi h
        refine ⟨j + 1, ch, by simpa using hget, ?_⟩
        rcases hcase with ⟨hpi, hpch⟩ | ⟨rest, hpi, hf⟩
        · exact Or.inl ⟨by rw [hpi]; congr 1; omega, hpch⟩
        · exact Or.inr ⟨rest, by rw [hpi]; congr 1; omega, hf⟩

theorem findPath_getPath (p : Elem → Bool) :
    ∀ (e : Elem) (pi : List Nat), findPath p e = some pi →
    ∃ x, getPath e pi = some x ∧ p x = true := by
  refine strongInd (fun e => ∀ pi, findPath p e = some pi →
    ∃ x, getPath e pi = some x ∧ p x = true) ?_
  intro t a x c ih pi h
  rw [show findPath p (.mk t a x c) = findPathL p c 0 from rfl] at h
  obtain ⟨j, ch, hget, hcase⟩ := findPathL_spec p c 0 pi h
  rcases hcase with ⟨hpi, hp⟩ | ⟨rest, hpi, hf⟩
  · subst hpi
    exact ⟨ch, by rw [List.get?_eq_getElem?] at hget; simp [getPath, hget], hp⟩
  · subst hpi
    have hch : ch ∈ c := by
      have := List.get?_eq_some.mp hget
      rcases this with ⟨hlt, hvl⟩
      exact hvl ▸ List.get_mem c j hlt
    obtain ⟨x2, hg2, hp2⟩ := ih ch hch rest hf
    exact ⟨x2, by rw [List.get?_eq_getElem?] at hget; simp [getPath, hget, hg2], hp2⟩

theorem getPath_mem : ∀ (pi : List Nat) (e x : Elem), getPath e pi = some x →
    x ∈ preorder e := by
  intro pi
  induction pi with
  | nil =>
    intro e x h
    simp only [getPath, Option.some.injEq] at h
    subst h
    exact self_mem_preorder e
  | cons i is ih =>
    intro e x h
    simp only [getPath] at h
    cases hget : e.children.get? i with
    | none => rw [hget] at h; cases h
    | some ch =>
      rw [hget] at h
      have hch : ch ∈ e.children := by
        rcases List.get?_eq_some.mp hget with ⟨hlt, hvl⟩
        exact hvl ▸ List.get_mem _ i hlt
      rw [preorder_eq_cons]
      exact List.mem_cons_of_mem _ (mem_preorderL.mpr ⟨ch, hch, ih ch x h⟩)

theorem modN_eq_self_of (g : Elem → Elem) :
    ∀ (l : List Elem) (i : Nat), (∀ y, l.get? i = some y → g y = y) → modN g l i = l := by
  intro l
  induction l with
  | nil => intro i _; rfl
  | cons e es ih =>
    intro i h
    cases i with
    | zero => simp [modN, h e rfl]
    | succ n =>
      simp only [modN, List.cons.injEq, true_and]
      exact ih n (fun y hy => h y (by simpa using hy))

theorem updatePath_eq_self (f : Elem → Elem) :
    ∀ (pi : List Nat) (e : Elem), (∀ x, getPath e pi = some x → f x = x) →
    updatePath f e pi = e := by
  intro pi
  induction pi with
  | nil =>
    intro e h
    cases e with
    | mk t a x c => exact h _ rfl
  | cons i is ih =>
    intro e h
    cases e with
    | mk t a x c =>
      simp only [updatePath]
      rw [modN_eq_self_of _ c i]
      intro y hy
      refine ih y ?_
      intro x2 hx2
      refine h x2 ?_
      simp only [getPath, children_mk, hy]
      exact hx2

theorem updateFirst_eq_self (p : Elem → Bool) (f : Elem → Elem) (e : Elem)
    (h : ∀ pi, findPath p e = some pi → ∀ x, getPath e pi = some x → f x = x) :
    updateFirst p f e = e := by
  unfold updateFirst
  cases hfp : findPath p e with
  | none => rfl
  | some pi => exact updatePath_eq_self f pi e (h pi hfp)

theorem modNE_eq_self_of (g : Elem → Except PErr Elem) :
    ∀ (l : List Elem) (i : Nat), (∀ y, l.get? i = some y → g y = .ok y) →
    modNE g l i = .ok l := by
  intro l
  induction l with
  | nil => intro i _; rfl
  | cons e es ih =>
    intro i h
    cases i with
    | zero =>
      rw [modNE, h e rfl]
      rfl
    | succ n =>
      rw [modNE, ih n (fun y hy => h y (by simpa using hy))]
      rfl

theorem updatePathE_eq_self (f : Elem → Except PErr Elem) :
    ∀ (pi : List Nat) (e : Elem), (∀ x, getPath e pi = some x → f x = .ok x) →
    updatePathE f e pi = .ok e := by
  intro pi
  induction pi with
  | nil =>
    intro e h
    cases e with
    | mk t a x c => exact h _ rfl
  | cons i is ih =>
    intro e h
    cases e with
    | mk t a x c =>
      simp only [updatePathE]
      rw [modNE_eq_self_of _ c i]
      · rfl
      · intro y hy
        refine ih y ?_
        intro x2 hx2
        refine h x2 ?_
        simp only [getPath, children_mk, hy]
        exact hx2

theorem updateFirstE_eq_self (p : Elem → Bool) (f : Elem → Except PErr Elem) (e : Elem)
    (h : ∀ pi, findPath p e = some pi → ∀ x, getPath e pi = some x → f x = .ok x) :
    updateFirstE p f e = .ok e := by
  unfold updateFirstE
  cases hfp : findPath p e with
  | none => rfl
  | some pi => exact updatePathE_eq_self f pi e (h pi hfp)

theorem nsExists_append (l l2 : List (String × String)) (pfx : String)
    (h : nsExists l pfx = true) : nsExists (l ++ l2) pfx = true := by
  simp only [nsExists, List.any_append, Bool.or_eq_true] at h ⊢
  tauto

theorem nsExists_append_key (l : List (String × String)) (pfx v : String) :
    nsExists (l ++ [(pfx, v)]) pfx = true := by
  simp [nsExists, List.any_append]

theorem nsBind_nsmap_xlink (dd : Doc) : nsExists (nsBind dd).nsmap "xlink" = true := by
  simp only [nsBind]
  by_cases hx : nsExists dd.nsmap "xlink" = true
  · simp only [hx, Bool.not_true, Bool.false_eq_true, if_false]
    split
    · exact nsExists_append _ _ _ hx
    · exact hx
  · simp only [Bool.not_eq_true] at hx
    simp only [hx, Bool.not_false, if_true]
    split
    · exact nsExists_append _ _ _ (nsExists_append_key _ _ _)
    · exact nsExists_append_key _ _ _

theorem nsBind_nsmap_mml (dd : Doc) : nsExists (nsBind dd).nsmap "mml" = true := by
  simp only [nsBind]
  set ns1 := if !(nsExists dd.nsmap "xlink") then dd.nsmap ++ [("xlink", xlinkNs)]
             else dd.nsmap with hns1
  by_cases hm : nsExists ns1 "mml" = true
  · simp [hm]
  · simp only [Bool.not_eq_true] at hm
    simp [hm, nsExists_append_key]

theorem get_dtd_at_chain (r2 : Elem) :
    (if r2.hasA "article-type" then r2
     else r2.set "article-type" "research-article").get "dtd-version" =
    r2.get "dtd-version" := by
  by_cases h : r2.hasA "article-type" = true
  · rw [if_pos h]
  · rw [if_neg h, get_set_ne _ _ _ _ (by decide)]

theorem hasA_at_chain (r2 : Elem) :
    (if r2.hasA "article-type" then r2
     else r2.set "article-type" "research-article").hasA "article-type" = true := by
  by_cases h : r2.hasA "article-type" = true
  · rw [if_pos h]; exact h
  · rw [if_neg h]
    simp [hasA]

theorem nsBind_root_dtd (dd : Doc) :
    (nsBind dd).root.get "dtd-version" = some "1.3" := by
  simp only [nsBind]
  rw [get_dtd_at_chain]
  exact get_set_self _ _ _

theorem nsBind_root_at (dd : Doc) : (nsBind dd).root.hasA "article-type" = true := by
  simp only [nsBind]
  rw [hasA_at_chain]

theorem nsBind_idem (dd : Doc) : nsBind (nsBind dd) = nsBind dd := by
  have hx := nsBind_nsmap_xlink dd
  have hm := nsBind_nsmap_mml dd
  have hxsi := nsBind_root_get_xsi dd
  have hdtd := nsBind_root_dtd dd
  have hat := nsBind_root_at dd
  rw [show nsBind (nsBind dd) =
      (let addXlink := !(nsExists (nsBind dd).nsmap "xlink")
       let ns1 := if addXlink then (nsBind dd).nsmap ++ [("xlink", xlinkNs)]
                  else (nsBind dd).nsmap
       let addMml := !(nsExists ns1 "mml")
       let ns2 := if addMml then ns1 ++ [("mml", mmlNs)] else ns1
       let root :=
         if addXlink || addMml then
           Elem.mk (nsBind dd).root.tag
             ((nsBind dd).root.attrs.filter
               (fun p => !(containsSub p.1 "schemaLocation")))
             "" (nsBind dd).root.children
         else (nsBind dd).root
       let root := root.del xsiSchemaLocation
       let root := root.set "dtd-version" "1.3"
       let root := if root.hasA "article-type" then root
                   else root.set "article-type" "research-article"
       ({ doctype := false, nsmap := ns2, root := root } : Doc)) from rfl]
  simp only [hx, hm, Bool.not_true, Bool.false_eq_true, if_false, Bool.or_self]
  rw [del_of_get_none _ _ hxsi, set_of_get_eq _ _ _ hdtd, if_pos hat]
  have hdoc : (nsBind dd).doctype = false := by
    simp only [nsBind]
  cases hd2 : nsBind dd with
  | mk b n r =>
    rw [hd2] at hdoc
    simp only at hdoc
    subst hdoc
    rfl

/-- Surviving non-empty `rids` values are exactly the space-join of their
valid tokens (the normal form the pass writes). -/
theorem ridsFixE_rids_post_norm (vs : List String) (e1 : Elem)
    (rs : String) (h : (ridsFixE vs e1).get "rids" = some rs)
    (hne : ¬ rs = "") :
    ((strSplit rs).filter (fun t => t ∈ vs)).isEmpty = false ∧
    joinSp ((strSplit rs).filter (fun t => t ∈ vs)) = rs := by
  rcases hrids : e1.get "rids" with _ | p
  · simp only [ridsFixE, hrids] at h
    simp_all
  · by_cases hp : p = ""
    · subst hp
      simp [ridsFixE, hrids] at h
      simp_all
    · by_cases hF : ((strSplit p).filter (fun t => t ∈ vs)).isEmpty
      · simp [ridsFixE, hrids, hp, hF] at h
      · simp [ridsFixE, hrids, hp, hF] at h
        have hl : ∀ t ∈ (strSplit p).filter (fun t => decide (t ∈ vs)),
            t.data ≠ [] ∧ ∀ c ∈ t.data, isWS c = false :=
          fun t ht => strSplit_tokens p t (List.mem_filter.mp ht).1
        have hsp : strSplit rs = (strSplit p).filter (fun t => decide (t ∈ vs)) := by
          rw [← h]
          exact strSplit_joinSp _ hl
        have hfid : ((strSplit p).filter (fun t => decide (t ∈ vs))).filter
            (fun t => decide (t ∈ vs)) = (strSplit p).filter (fun t => decide (t ∈ vs)) :=
          List.filter_eq_self.mpr (fun t ht => (List.mem_filter.mp ht).2)
        constructor
        · rw [show ((strSplit rs).filter (fun t => t ∈ vs)) =
              (strSplit p).filter (fun t => decide (t ∈ vs)) from by rw [hsp, hfid]]
          simpa using hF
        · rw [show ((strSplit rs).filter (fun t => t ∈ vs)) =
              (strSplit p).filter (fun t => decide (t ∈ vs)) from by rw [hsp, hfid]]
          exact h

theorem idrefNode_rids_post_norm (vs : List String) (refs : List Elem) (e : Elem)
    (rs : String) (h : (idrefNode vs refs e).get "rids" = some rs)
    (hne : ¬ rs = "") :
    ((strSplit rs).filter (fun t => t ∈ vs)).isEmpty = false ∧
    joinSp ((strSplit rs).filter (fun t => t ∈ vs)) = rs := by
  rw [idrefNode] at h
  exact ridsFixE_rids_post_norm vs (ridFixE vs refs e) rs h hne

theorem idrefFix_post_norm (root : Elem) :
    ∀ e ∈ preorder (idrefFix root), ∀ rs, e.get "rids" = some rs → ¬ rs = "" →
      ((strSplit rs).filter (fun t => t ∈ validIds (idrefFix root))).isEmpty = false ∧
      joinSp ((strSplit rs).filter (fun t => t ∈ validIds (idrefFix root))) = rs := by
  intro e he rs hrs hne
  rw [validIds_idrefFix]
  simp only [idrefFix] at he
  rcases mem_preorder_mapTree _ (idrefNode_children _ _) root e he with ⟨e0, he0⟩
  subst he0
  exact idrefNode_rids_post_norm _ _ _ rs hrs hne

theorem nsBind_idrefFix_post_norm (dd : Doc) (r0 : Elem) (hroot : dd.root = idrefFix r0) :
    ∀ e ∈ preorder (nsBind dd).root, ∀ rs, e.get "rids" = some rs → ¬ rs = "" →
      ((strSplit rs).filter
        (fun t => t ∈ validIds (nsBind dd).root)).isEmpty = false ∧
      joinSp ((strSplit rs).filter
        (fun t => t ∈ validIds (nsBind dd).root)) = rs := by
  intro e he rs hrs hne
  have hch : (nsBind dd).root.children = (idrefFix r0).children := by
    rw [nsBind_root_children, hroot]
  have hv : validIds (nsBind dd).root = validIds (idrefFix r0) := by
    refine validIds_eq_of _ _ ?_ hch
    rw [nsBind_root_get_stable dd "id" (by decide) (by decide) (by decide) (by decide), hroot]
  rw [hv]
  rw [preorder_eq_cons] at he
  rcases List.mem_cons.mp he with rfl | he
  · rw [nsBind_root_get_stable dd "rids" (by decide) (by decide) (by decide) (by decide),
      hroot] at hrs
    exact idrefFix_post_norm r0 (idrefFix r0) (self_mem_preorder _) rs hrs hne
  · have hmem : e ∈ preorder (idrefFix r0) := by
      rw [preorder_eq_cons]
      refine List.mem_cons_of_mem _ ?_
      have hdd : descendants (nsBind dd).root = descendants (idrefFix r0) := by
        simp [descendants, hch]
      rw [← hdd]
      exact he
    exact idrefFix_post_norm r0 e hmem rs hrs hne

theorem ridFixE_noop (vs : List String) (refs : List Elem) (e : Elem)
    (h : ∀ r, e.get "rid" = some r → r = "" ∨ r ∈ vs) : ridFixE vs refs e = e := by
  rcases hrid : e.get "rid" with _ | r
  · simp [ridFixE, hrid]
  · rcases h r hrid with rfl | hin
    · simp [ridFixE, hrid]
    · by_cases h0 : r = ""
      · simp [ridFixE, hrid, h0]
      · simp [ridFixE, hrid, h0, hin]

theorem ridsFixE_noop (vs : List String) (e : Elem)
    (h : ∀ rs, e.get "rids" = some rs → rs = "" ∨
      (((strSplit rs).filter (fun t => t ∈ vs)).isEmpty = false ∧
       joinSp ((strSplit rs).filter (fun t => t ∈ vs)) = rs)) :
    ridsFixE vs e = e := by
  rcases hrids : e.get "rids" with _ | rs
  · simp [ridsFixE, hrids]
  · rcases h rs hrids with rfl | ⟨hF, hj⟩
    · simp [ridsFixE, hrids]
    · have hne : ¬ rs = "" := by
        intro h0
        subst h0
        rw [show strSplit "" = [] from rfl] at hF
        simp at hF
      simp only [ridsFixE, hrids, if_neg hne]
      rw [if_neg (by simp [hF])]
      rw [hj]
      exact set_of_get_eq e "rids" rs hrids

theorem idrefNode_noop (vs : List String) (refs : List Elem) (e : Elem)
    (h1 : ∀ r, e.get "rid" = some r → r = "" ∨ r ∈ vs)
    (h2 : ∀ rs, e.get "rids" = some rs → rs = "" ∨
      (((strSplit rs).filter (fun t => t ∈ vs)).isEmpty = false ∧
       joinSp ((strSplit rs).filter (fun t => t ∈ vs)) = rs)) :
    idrefNode vs refs e = e := by
  rw [idrefNode, ridFixE_noop vs refs e h1, ridsFixE_noop vs e h2]

theorem idrefFix_noop (T : Elem)
    (h1 : ∀ e ∈ preorder T, ∀ r, e.get "rid" = some r → ¬ r = "" → r ∈ validIds T)
    (h2 : ∀ e ∈ preorder T, ∀ rs, e.get "rids" = some rs → ¬ rs = "" →
      ((strSplit rs).filter (fun t => t ∈ validIds T)).isEmpty = false ∧
      joinSp ((strSplit rs).filter (fun t => t ∈ validIds T)) = rs) :
    idrefFix T = T := by
  unfold idrefFix
  refine mapTree_id_of _ T ?_
  intro d hd
  refine idrefNode_noop _ _ d ?_ ?_
  · intro r hr
    by_cases h0 : r = ""
    · exact Or.inl h0
    · exact Or.inr (h1 d hd r hr h0)
  · intro rs hrs
    by_cases h0 : rs = ""
    · exact Or.inl h0
    · exact Or.inr (h2 d hd rs hrs h0)

namespace Elem

theorem delA_setA_self (a : List (String × String)) (k v : String) :
    delA (setA a k v) k = delA a k := by
  induction a with
  | nil => simp [setA, delA]
  | cons p ps ih =>
    cases p with
    | mk pk pv =>
      by_cases hk : pk = k
      · subst hk
        simp [setA, delA, ih]
      · simp [setA, delA, hk, ih]

theorem delA_setA_ne (a : List (String × String)) (k v k2 : String) (h : ¬ k = k2) :
    delA (setA a k v) k2 = setA (delA a k2) k v := by
  induction a with
  | nil => simp [setA, delA, h]
  | cons p ps ih =>
    cases p with
    | mk pk pv =>
      by_cases hk : pk = k
      · subst hk
        simp [setA, delA, h, ih]
      · by_cases hk2 : pk = k2
        · subst hk2
          simp [setA, delA, hk, ih]
        · simp [setA, delA, hk, hk2, ih]

theorem delA_delA_self (a : List (String × String)) (k : String) :
    delA (delA a k) k = delA a k := by
  induction a with
  | nil => rfl
  | cons p ps ih =>
    by_cases hk : p.1 = k
    · simp [delA, hk, ih]
    · simp [delA, hk, ih]

theorem delA_delA_comm (a : List (String × String)) (k k2 : String) :
    delA (delA a k) k2 = delA (delA a k2) k := by
  induction a with
  | nil => rfl
  | cons p ps ih =>
    by_cases hk : p.1 = k
    · by_cases hk2 : p.1 = k2
      · have hkk : k2 = k := by rw [← hk2, hk]
        subst hkk
        rfl
      · rw [show delA (p :: ps) k = delA ps k from by simp [delA, hk]]
        rw [show delA (p :: ps) k2 = p :: delA ps k2 from by simp [delA, hk2]]
        rw [show delA (p :: delA ps k2) k = delA (delA ps k2) k from by simp [delA, hk]]
        exact ih
    · by_cases hk2 : p.1 = k2
      · rw [show delA (p :: ps) k2 = delA ps k2 from by simp [delA, hk2]]
        rw [show delA (p :: ps) k = p :: delA ps k from by simp [delA, hk]]
        rw [show delA (p :: delA ps k) k2 = delA (delA ps k) k2 from by simp [delA, hk2]]
        exact ih
      · rw [show delA (p :: ps) k = p :: delA ps k from by simp [delA, hk]]
        rw [show delA (p :: ps) k2 = p :: delA ps k2 from by simp [delA, hk2]]
        rw [show delA (p :: delA ps k) k2 = p :: delA (delA ps k) k2 from by
          simp [delA, hk2]]
        rw [show delA (p :: delA ps k2) k = p :: delA (delA ps k2) k from by
          simp [delA, hk]]
        rw [ih]

/-- Remove a set of keys. -/
def delKs (ks : List String) (a : List (String × String)) : List (String × String) :=
  ks.foldl delA a

theorem delKs_delA (ks : List String) :
    ∀ (a : List (String × String)) (k : String),
    delKs ks (delA a k) = delA (delKs ks a) k := by
  induction ks with
  | nil => intro a k; rfl
  | cons k1 kt ih =>
    intro a k
    simp only [delKs, List.foldl_cons] at *
    rw [show delA (delA a k) k1 = delA (delA a k1) k from delA_delA_comm a k k1]
    exact ih (delA a k1) k

theorem delKs_delA_mem (ks : List String) (a : List (String × String)) (k : String)
    (h : k ∈ ks) : delKs ks (delA a k) = delKs ks a := by
  induction ks generalizing a with
  | nil => cases h
  | cons k1 kt ih =>
    simp only [delKs, List.foldl_cons]
    rcases List.mem_cons.mp h with rfl | h
    · rw [show delA (delA a k) k = delA a k from delA_delA_self a k]
    · rw [show delA (delA a k) k1 = delA (delA a k1) k from delA_delA_comm a k k1]
      exact ih (delA a k1) h

theorem delKs_setA_mem (ks : List String) (a : List (String × String)) (k v : String)
    (h : k ∈ ks) : delKs ks (setA a k v) = delKs ks a := by
  induction ks generalizing a with
  | nil => cases h
  | cons k1 kt ih =>
    simp only [delKs, List.foldl_cons]
    rcases List.mem_cons.mp h with rfl | h
    · rw [delA_setA_self]
    · by_cases hk : k = k1
      · subst hk
        rw [delA_setA_self]
      · rw [delA_setA_ne a k v k1 hk]
        exact ih (delA a k1) h

theorem getA_delKs_not_mem (ks : List String) :
    ∀ (a : List (String × String)) (k : String), ¬ k ∈ ks →
    getA (delKs ks a) k = getA a k := by
  induction ks with
  | nil => intro a k _; rfl
  | cons k1 kt ih =>
    intro a k h
    simp only [delKs, List.foldl_cons]
    show getA (delKs kt (delA a k1)) k = getA a k
    rw [show getA (delKs kt (delA a k1)) k = getA (delA a k1) k from
      ih (delA a k1) k (fun hc => h (List.mem_cons_of_mem _ hc))]
    exact getA_delA_ne a k1 k (fun hc => h (hc ▸ List.mem_cons_self _ _))

end Elem

/-! ### Path lemmas: stability of `findPath`/`getPath` under localized updates -/

theorem findPathL_ne_nil (p : Elem → Bool) :
    ∀ (l : List Elem) (k : Nat) (pi : List Nat), findPathL p l k = some pi → pi ≠ [] := by
  intro l
  induction l with
  | nil => intro k pi h; simp [findPathL] at h
  | cons e es ih =>
    intro k pi h
    rw [findPathL] at h
    by_cases hp : p e = true
    · rw [if_pos hp] at h
      simp only [Option.some.injEq] at h
      subst h
      simp
    · rw [if_neg hp] at h
      cases hfe : findPath p e with
      | some path =>
        rw [hfe] at h
        simp only [Option.some.injEq] at h
        subst h
        simp
      | none =>
        rw [hfe] at h
        exact ih (k + 1) pi h

theorem findPath_ne_nil (p : Elem → Bool) (e : Elem) (pi : List Nat)
    (h : findPath p e = some pi) : pi ≠ [] := by
  cases e with
  | mk t a x c => exact findPathL_ne_nil p c 0 pi h

theorem findPathL_cons_inv (p : Elem → Bool) (e : Elem) (es : List Elem) (k : Nat)
    (pi : List Nat) (h : findPathL p (e :: es) k = some pi) :
    (p e = true ∧ pi = [k]) ∨
    (p e = false ∧ ∃ rest, findPath p e = some rest ∧ pi = k :: rest) ∨
    (p e = false ∧ findPath p e = none ∧ findPathL p es (k + 1) = some pi) := by
  rw [findPathL] at h
  by_cases hp : p e = true
  · rw [if_pos hp] at h
    simp only [Option.some.injEq] at h
    exact Or.inl ⟨hp, h.symm⟩
  · have hpf : p e = false := by
      cases hpe : p e with
      | false => rfl
      | true => exact absurd hpe hp
    rw [if_neg hp] at h
    cases hfe : findPath p e with
    | some path =>
      rw [hfe] at h
      simp only [Option.some.injEq] at h
      exact Or.inr (Or.inl ⟨hpf, path, rfl, h.symm⟩)
    | none =>
      rw [hfe] at h
      exact Or.inr (Or.inr ⟨hpf, rfl, h⟩)

theorem findPathL_head_ge (p : Elem → Bool) :
    ∀ (l : List Elem) (k j : Nat) (rest : List Nat),
    findPathL p l k = some (j :: rest) → k ≤ j := by
  intro l
  induction l with
  | nil => intro k j rest h; simp [findPathL] at h
  | cons e es ih =>
    intro k j rest h
    rcases findPathL_cons_inv p e es k _ h with ⟨_, hpi⟩ | ⟨_, r, _, hpi⟩ | ⟨_, _, h2⟩
    · injection hpi with h1 _
      omega
    · injection hpi with h1 _
      omega
    · have := ih (k + 1) j rest h2
      omega

theorem findPathL_target (p : Elem → Bool) :
    ∀ (c : List Elem) (k i : Nat) (is : List Nat),
    findPathL p c k = some ((k + i) :: is) →
    ∀ ch, c.get? i = some ch →
    (is = [] → p ch = true) ∧ (is ≠ [] → p ch = false ∧ findPath p ch = some is) := by
  intro c
  induction c with
  | nil => intro k i is h ch hc; simp [findPathL] at h
  | cons e es ihc =>
    intro k i is h ch hc
    rcases findPathL_cons_inv p e es k _ h with
      ⟨hpe, hpi⟩ | ⟨hpe, rest, hfe, hpi⟩ | ⟨hpe, hfe, h2⟩
    · injection hpi with h1 h2
      have hi : i = 0 := by omega
      subst hi
      subst h2
      have hce : ch = e := by
        simp only [List.get?_cons_zero, Option.some.injEq] at hc
        exact hc.symm
      subst hce
      exact ⟨fun _ => hpe, fun hne => absurd rfl hne⟩
    · injection hpi with h1 h2
      have hi : i = 0 := by omega
      subst hi
      subst h2
      have hce : ch = e := by
        simp only [List.get?_cons_zero, Option.some.injEq] at hc
        exact hc.symm
      subst hce
      have hrne : is ≠ [] := findPath_ne_nil p ch is hfe
      exact ⟨fun h0 => absurd h0 hrne, fun _ => ⟨hpe, hfe⟩⟩
    · have hge1 : k + 1 ≤ k + i := findPathL_head_ge p es (k + 1) (k + i) is h2
      obtain ⟨n, rfl⟩ : ∃ n, i = n + 1 := ⟨i - 1, by omega⟩
      have h2' : findPathL p es (k + 1) = some ((k + 1 + n) :: is) := by
        rw [show k + 1 + n = k + (n + 1) from by omega]
        exact h2
      exact ihc (k + 1) n is h2' ch hc

theorem findPathL_modN_stable (p : Elem → Bool) (g : Elem → Elem) :
    ∀ (c : List Elem) (k i : Nat) (is : List Nat),
    findPathL p c k = some ((k + i) :: is) →
    (∀ ch, c.get? i = some ch →
      (is = [] → p (g ch) = true) ∧
      (is ≠ [] → p (g ch) = false ∧ findPath p (g ch) = some is)) →
    findPathL p (modN g c i) k = some ((k + i) :: is) := by
  intro c
  induction c with
  | nil => intro k i is h _; simp [findPathL] at h
  | cons e es ihc =>
    intro k i is h hch
    rcases findPathL_cons_inv p e es k _ h with
      ⟨hpe, hpi⟩ | ⟨hpe, rest, hfe, hpi⟩ | ⟨hpe, hfe, h2⟩
    · injection hpi with h1 h2
      have hi : i = 0 := by omega
      subst hi
      subst h2
      have hge := (hch e rfl).1 rfl
      rw [show modN g (e :: es) 0 = g e :: es from rfl, findPathL, if_pos hge]
      simp
    · injection hpi with h1 h2
      have hi : i = 0 := by omega
      subst hi
      subst h2
      have hrne : is ≠ [] := findPath_ne_nil p e is hfe
      obtain ⟨hpg, hfg⟩ := (hch e rfl).2 hrne
      rw [show modN g (e :: es) 0 = g e :: es from rfl, findPathL,
        if_neg (by simp [hpg]), hfg]
      simp
    · have hge1 : k + 1 ≤ k + i := findPathL_head_ge p es (k + 1) (k + i) is h2
      obtain ⟨n, rfl⟩ : ∃ n, i = n + 1 := ⟨i - 1, by omega⟩
      have h2' : findPathL p es (k + 1) = some ((k + 1 + n) :: is) := by
        rw [show k + 1 + n = k + (n + 1) from by omega]
        exact h2
      have hrec := ihc (k + 1) n is h2' (fun ch hc => hch ch hc)
      rw [show modN g (e :: es) (n + 1) = e :: modN g es n from rfl, findPathL,
        if_neg (by simp [hpe]), hfe]
      rw [show k + (n + 1) = k + 1 + n from by omega]
      exact hrec

theorem get?_modN_self (g : Elem → Elem) :
    ∀ (l : List Elem) (i : Nat), (modN g l i).get? i = (l.get? i).map g := by
  intro l
  induction l with
  | nil => intro i; cases i <;> rfl
  | cons e es ih =>
    intro i
    cases i with
    | zero => rfl
    | succ n => exact ih n

theorem modN_congr_at (g g2 : Elem → Elem) :
    ∀ (l : List Elem) (i : Nat), (∀ ch, l.get? i = some ch → g ch = g2 ch) →
    modN g l i = modN g2 l i := by
  intro l
  induction l with
  | nil => intro i _; rfl
  | cons e es ih =>
    intro i h
    cases i with
    | zero => simp [modN, h e rfl]
    | succ n =>
      simp only [modN, List.cons.injEq, true_and]
      exact ih n (fun ch hc => h ch hc)

theorem modN_const_self :
    ∀ (l : List Elem) (i : Nat) (ch : Elem), l.get? i = some ch →
    modN (fun _ => ch) l i = l := by
  intro l
  induction l with
  | nil => intro i ch h; cases h
  | cons e es ih =>
    intro i ch h
    cases i with
    | zero =>
      simp only [List.get?_cons_zero, Option.some.injEq] at h
      simp [modN, h]
    | succ n =>
      simp only [modN, List.cons.injEq, true_and]
      exact ih n ch h

theorem getPath_updatePath (f : Elem → Elem) :
    ∀ (pi : List Nat) (e x : Elem), getPath e pi = some x →
    getPath (updatePath f e pi) pi = some (f x) := by
  intro pi
  induction pi with
  | nil =>
    intro e x h
    simp only [getPath, Option.some.injEq] at h
    subst h
    cases e with
    | mk t a xx c => rfl
  | cons i is ih =>
    intro e x h
    cases e with
    | mk t a x0 c =>
      simp only [getPath, children_mk] at h
      cases hg : c.get? i with
      | none => rw [hg] at h; cases h
      | some ch =>
        rw [hg] at h
        simp only [updatePath, getPath, children_mk]
        rw [get?_modN_self, hg]
        exact ih ch x h

theorem findPath_updatePath (p : Elem → Bool) (f : Elem → Elem)
    (hp : ∀ y z, z.tag = y.tag → p z = p y) :
    ∀ (pi : List Nat) (e : Elem), findPath p e = some pi →
    (∀ x, getPath e pi = some x → (f x).tag = x.tag) →
    findPath p (updatePath f e pi) = some pi := by
  intro pi
  induction pi with
  | nil => intro e h _; exact absurd rfl (findPath_ne_nil p e [] h)
  | cons i is ih =>
    intro e h hx
    cases e with
    | mk t a x0 c =>
      have h0 : findPathL p c 0 = some ((0 + i) :: is) := by
        rw [Nat.zero_add]
        exact h
      have hm := findPathL_modN_stable p (fun ch => updatePath f ch is) c 0 i is h0 ?_
      · rw [Nat.zero_add] at hm
        exact hm
      · intro ch hc
        have htgt := findPathL_target p c 0 i is h0 ch hc
        show (is = [] → p (updatePath f ch is) = true) ∧
          (is ≠ [] → p (updatePath f ch is) = false ∧
            findPath p (updatePath f ch is) = some is)
        constructor
        · intro his
          subst his
          have hpch := htgt.1 rfl
          have hc2 := hc
          rw [List.get?_eq_getElem?] at hc2
          have hget : getPath (Elem.mk t a x0 c) [i] = some ch := by
            simp [getPath, hc2]
          have htag : (f ch).tag = ch.tag := hx ch hget
          rw [show updatePath f ch [] = f ch from by cases ch; rfl]
          rw [hp ch (f ch) htag]
          exact hpch
        · intro his
          obtain ⟨hpf, hff⟩ := htgt.2 his
          obtain ⟨j, js, rfl⟩ : ∃ j js, is = j :: js := by
            cases is with
            | nil => exact absurd rfl his
            | cons j js => exact ⟨j, js, rfl⟩
          have htag : (updatePath f ch (j :: js)).tag = ch.tag := by
            cases ch with
            | mk tc ac xc cc => rfl
          refine ⟨by rw [hp ch _ htag]; exact hpf, ?_⟩
          refine ih ch hff ?_
          intro x2 hx2
          refine hx x2 ?_
          simp only [getPath, children_mk, hc]
          exact hx2

theorem modNE_spec (g : Elem → Except PErr Elem) :
    ∀ (l : List Elem) (i : Nat) (l2 : List Elem), modNE g l i = .ok l2 →
    (l.get? i = none ∧ l2 = l) ∨
    (∃ ch ch2, l.get? i = some ch ∧ g ch = .ok ch2 ∧ l2 = modN (fun _ => ch2) l i) := by
  intro l
  induction l with
  | nil =>
    intro i l2 h
    simp only [modNE, pure, Except.pure, Except.ok.injEq] at h
    subst h
    exact Or.inl ⟨rfl, rfl⟩
  | cons e es ih =>
    intro i l2 h
    cases i with
    | zero =>
      cases hge : g e with
      | error err => rw [modNE, hge] at h; simp [Except.bind, bind] at h
      | ok v =>
        rw [modNE, hge] at h
        simp only [Except.bind, bind, pure, Except.pure, Except.ok.injEq] at h
        subst h
        exact Or.inr ⟨e, v, rfl, hge, rfl⟩
    | succ n =>
      cases hme : modNE g es n with
      | error err => rw [modNE, hme] at h; simp [Except.bind, bind] at h
      | ok es2 =>
        rw [modNE, hme] at h
        simp only [Except.bind, bind, pure, Except.pure, Except.ok.injEq] at h
        subst h
        rcases ih n es2 hme with ⟨hn, rfl⟩ | ⟨ch, ch2, hg, hgc, rfl⟩
        · exact Or.inl ⟨hn, rfl⟩
        · exact Or.inr ⟨ch, ch2, hg, hgc, rfl⟩

theorem updatePathE_spec (f : Elem → Except PErr Elem) :
    ∀ (pi : List Nat) (e out : Elem), updatePathE f e pi = .ok out →
    (getPath e pi = none ∧ out = e) ∨
    (∃ x y, getPath e pi = some x ∧ f x = .ok y ∧ out = updatePath (fun _ => y) e pi) := by
  intro pi
  induction pi with
  | nil =>
    intro e out h
    refine Or.inr ⟨e, out, rfl, ?_, ?_⟩
    · cases e with
      | mk t a x c => exact h
    · cases e with
      | mk t a x c => rfl
  | cons i is ih =>
    intro e out h
    cases e with
    | mk t a x0 c =>
      simp only [updatePathE] at h
      cases hm : modNE (fun ch => updatePathE f ch is) c i with
      | error err => rw [hm] at h; simp [Except.bind, bind] at h
      | ok c2 =>
        rw [hm] at h
        simp only [Except.bind, bind, pure, Except.pure, Except.ok.injEq] at h
        subst h
        rcases modNE_spec _ c i c2 hm with ⟨hn, rfl⟩ | ⟨ch, ch2, hg, hgc, rfl⟩
        · refine Or.inl ⟨?_, rfl⟩
          have hn2 := hn
          rw [List.get?_eq_getElem?] at hn2
          simp [getPath, children_mk, hn2]
        · rcases ih ch ch2 hgc with ⟨hnone, hch2⟩ | ⟨x, y, hxg, hfy, hch2⟩
          · refine Or.inl ⟨?_, ?_⟩
            · have hg2 := hg
              rw [List.get?_eq_getElem?] at hg2
              simp [getPath, children_mk, hg2, hnone]
            · rw [hch2, modN_const_self c i ch hg]
          · subst hch2
            refine Or.inr ⟨x, y, ?_, hfy, ?_⟩
            · have hg2 := hg
              rw [List.get?_eq_getElem?] at hg2
              simp [getPath, children_mk, hg2, hxg]
            · simp only [updatePath]
              congr 1
              refine modN_congr_at _ _ c i ?_
              intro ch3 hc3
              rw [hg] at hc3
              simp only [Option.some.injEq] at hc3
              subst hc3
              rfl

theorem findPath_isSome (p : Elem → Bool) :
    ∀ e : Elem, (findPath p e).isSome = (descendants e).any p := by
  refine strongInd (fun e => (findPath p e).isSome = (descendants e).any p) ?_
  intro t a x c ih
  show (findPathL p c 0).isSome = (preorderL c).any p
  have haux : ∀ (l : List Elem),
      (∀ e ∈ l, (findPath p e).isSome = (descendants e).any p) →
      ∀ k, (findPathL p l k).isSome = (preorderL l).any p := by
    intro l
    induction l with
    | nil => intro _ k; rfl
    | cons e es ihl =>
      intro hmem k
      rw [findPathL]
      by_cases hp : p e = true
      · rw [if_pos hp]
        simp [preorderL, preorder_eq_cons, List.any_append, hp]
      · rw [if_neg hp]
        have hpf : p e = false := by
          cases hpe : p e with
          | false => rfl
          | true => exact absurd hpe hp
        cases hfe : findPath p e with
        | some path =>
          have hdesc := hmem e (List.mem_cons_self e es)
          rw [hfe] at hdesc
          simp only [Option.isSome_some] at hdesc
          simp [preorderL, preorder_eq_cons, List.any_append, hpf, ← hdesc]
        | none =>
          have hdesc := hmem e (List.mem_cons_self e es)
          rw [hfe] at hdesc
          simp only [Option.isSome_none] at hdesc
          rw [ihl (fun y hy => hmem y (List.mem_cons_of_mem _ hy)) (k + 1)]
          simp [preorderL, preorder_eq_cons, List.any_append, hpf, ← hdesc]
  exact haux c (fun e he => ih e he) 0

theorem findPath_children_congr (p : Elem → Bool) (a b : Elem)
    (h : a.children = b.children) : findPath p a = findPath p b := by
  cases a with
  | mk t1 a1 x1 c1 =>
    cases b with
    | mk t2 a2 x2 c2 =>
      simp only [children_mk] at h
      subst h
      rfl

theorem getPath_children_congr (a b : Elem) (h : a.children = b.children)
    (i : Nat) (is : List Nat) : getPath a (i :: is) = getPath b (i :: is) := by
  cases a with
  | mk t1 a1 x1 c1 =>
    cases b with
    | mk t2 a2 x2 c2 =>
      simp only [children_mk] at h
      subst h
      rfl

theorem findPathL_append_none (p : Elem → Bool) :
    ∀ (l l2 : List Elem) (k : Nat), findPathL p l k = none →
    findPathL p (l ++ l2) k = findPathL p l2 (k + l.length) := by
  intro l
  induction l with
  | nil => intro l2 k _; simp [findPathL]
  | cons e es ih =>
    intro l2 k h
    rw [findPathL] at h
    by_cases hp : p e = true
    · rw [if_pos hp] at h; cases h
    · rw [if_neg hp] at h
      cases hfe : findPath p e with
      | some path => rw [hfe] at h; cases h
      | none =>
        rw [hfe] at h
        rw [List.cons_append, findPathL, if_neg hp, hfe, ih l2 (k + 1) h]
        have hlen : k + (e :: es).length = k + 1 + es.length := by
          simp only [List.length_cons]
          omega
        rw [hlen]

/-! ### The extension relation

`Ext nts txs ks a b` relates a tree to a rewriting of it that may insert
whole subtrees all of whose tags lie in `nts`, change the text of nodes
whose tag lies in `txs`, and change attribute values only at keys in `ks`;
everything else (tags, other attributes, other texts, the relative order of
the kept nodes) is preserved.  Each metadata-fixing step of the pipeline
produces such a relation, which is what lets node-local facts established by
one stage survive the later ones. -/

def newOk (nts : List String) (x : Elem) : Prop := ∀ d ∈ preorder x, d.tag ∈ nts

mutual
inductive Ext (nts txs ks : List String) : Elem → Elem → Prop where
  | node (t : String) (a a2 : List (String × String)) (x x2 : String)
      (c c2 : List Elem)
      (ha : ∀ k, ¬ k ∈ ks → getA a k = getA a2 k)
      (hx : x = x2 ∨ t ∈ txs)
      (hc : ExtL nts txs ks c c2) :
      Ext nts txs ks (.mk t a x c) (.mk t a2 x2 c2)
inductive ExtL (nts txs ks : List String) : List Elem → List Elem → Prop where
  | nil : ExtL nts txs ks [] []
  | keep (e e2 : Elem) (l l2 : List Elem) (he : Ext nts txs ks e e2)
      (hl : ExtL nts txs ks l l2) : ExtL nts txs ks (e :: l) (e2 :: l2)
  | ins (x : Elem) (l l2 : List Elem) (hx : newOk nts x)
      (hl : ExtL nts txs ks l l2) : ExtL nts txs ks l (x :: l2)
end

theorem Ext_tag {nts txs ks : List String} {a b : Elem} (h : Ext nts txs ks a b) :
    b.tag = a.tag := by
  cases h
  rfl

theorem Ext_get {nts txs ks : List String} {a b : Elem} (h : Ext nts txs ks a b)
    (k : String) (hk : ¬ k ∈ ks) : b.get k = a.get k := by
  cases h with
  | node t a1 a2 x1 x2 c1 c2 ha hx hc => exact (ha k hk).symm

theorem Ext_text {nts txs ks : List String} {a b : Elem} (h : Ext nts txs ks a b)
    (ht : ¬ a.tag ∈ txs) : b.text = a.text := by
  cases h with
  | node t a1 a2 x1 x2 c1 c2 ha hx hc =>
    rcases hx with rfl | hbad
    · rfl
    · exact absurd hbad ht

theorem Ext_children {nts txs ks : List String} {a b : Elem} (h : Ext nts txs ks a b) :
    ExtL nts txs ks a.children b.children := by
  cases h with
  | node t a1 a2 x1 x2 c1 c2 ha hx hc => exact hc

theorem ExtL_of_forall (nts txs ks : List String) :
    ∀ (l : List Elem), (∀ e ∈ l, Ext nts txs ks e e) → ExtL nts txs ks l l := by
  intro l
  induction l with
  | nil => intro _; exact .nil
  | cons e es ih =>
    intro h
    exact .keep e e es es (h e (List.mem_cons_self e es))
      (ih (fun y hy => h y (List.mem_cons_of_mem _ hy)))

theorem Ext_refl (nts txs ks : List String) : ∀ e : Elem, Ext nts txs ks e e := by
  refine strongInd (fun e => Ext nts txs ks e e) ?_
  intro t a x c ih
  exact .node t a a x x c c (fun _ _ => rfl) (Or.inl rfl)
    (ExtL_of_forall nts txs ks c (fun y hy => ih y hy))

theorem ExtL_refl (nts txs ks : List String) (l : List Elem) : ExtL nts txs ks l l :=
  ExtL_of_forall nts txs ks l (fun e _ => Ext_refl nts txs ks e)

theorem preorder_sub : ∀ (x y : Elem), y ∈ preorder x → ∀ d ∈ preorder y, d ∈ preorder x := by
  refine strongInd (fun x => ∀ y, y ∈ preorder x → ∀ d ∈ preorder y, d ∈ preorder x) ?_
  intro t a xx c ih y hy d hd
  rw [preorder_mk] at hy ⊢
  rcases List.mem_cons.mp hy with rfl | hy
  · exact hd
  · rcases mem_preorderL.mp hy with ⟨e, he, hye⟩
    exact List.mem_cons_of_mem _ (mem_preorderL.mpr ⟨e, he, ih e he y hye d hd⟩)

theorem newOk_sub {nts : List String} {x y : Elem} (h : newOk nts x)
    (hy : y ∈ preorder x) : newOk nts y :=
  fun d hd => h d (preorder_sub x y hy d hd)

theorem ExtL_mem (nts txs ks : List String) :
    ∀ (l2 l : List Elem), ExtL nts txs ks l l2 →
    (∀ e ∈ l, ∀ e2, Ext nts txs ks e e2 → ∀ y ∈ preorder e2,
      (∃ x ∈ preorder e, Ext nts txs ks x y) ∨ newOk nts y) →
    ∀ y ∈ preorderL l2, (∃ x ∈ preorderL l, Ext nts txs ks x y) ∨ newOk nts y := by
  intro l2
  induction l2 with
  | nil => intro l h _ y hy; simp [preorderL] at hy
  | cons e2 l2t ih =>
    intro l h hrec y hy
    simp only [preorderL, List.mem_append] at hy
    cases h with
    | keep e1 e2b l1t l2b he hl =>
      rcases hy with hy | hy
      · rcases hrec e1 (List.mem_cons_self _ _) e2 he y hy with ⟨x, hx, hxy⟩ | hnew
        · refine Or.inl ⟨x, ?_, hxy⟩
          simp only [preorderL, List.mem_append]
          exact Or.inl hx
        · exact Or.inr hnew
      · rcases ih l1t hl (fun e3 he3 => hrec e3 (List.mem_cons_of_mem _ he3)) y hy with
          ⟨x, hx, hxy⟩ | hnew
        · refine Or.inl ⟨x, ?_, hxy⟩
          simp only [preorderL, List.mem_append]
          exact Or.inr hx
        · exact Or.inr hnew
    | ins xx l1b l2b hnew hl =>
      rcases hy with hy | hy
      · exact Or.inr (newOk_sub hnew hy)
      · exact ih l hl hrec y hy

theorem Ext_mem (nts txs ks : List String) :
    ∀ (a b : Elem), Ext nts txs ks a b →
    ∀ y ∈ preorder b, (∃ x ∈ preorder a, Ext nts txs ks x y) ∨ newOk nts y := by
  refine strongInd (fun a => ∀ b, Ext nts txs ks a b →
    ∀ y ∈ preorder b, (∃ x ∈ preorder a, Ext nts txs ks x y) ∨ newOk nts y) ?_
  intro t a1 x1 c1 ih b hab y hy
  rw [preorder_eq_cons] at hy
  rcases List.mem_cons.mp hy with rfl | hy
  · exact Or.inl ⟨_, self_mem_preorder _, hab⟩
  · have hc : ExtL nts txs ks c1 b.children := Ext_children hab
    rcases ExtL_mem nts txs ks b.children c1 hc
      (fun e he e2 hee2 => ih e he e2 hee2) y hy with ⟨x, hxm, hxy⟩ | hnew
    · refine Or.inl ⟨x, ?_, hxy⟩
      rw [preorder_mk]
      exact List.mem_cons_of_mem _ hxm
    · exact Or.inr hnew

theorem newOk_of_Ext {nts txs ks : List String} {a b : Elem}
    (h : Ext nts txs ks a b) (ha : newOk nts a) : newOk nts b := by
  intro d hd
  rcases Ext_mem nts txs ks a b h d hd with ⟨x, hx, hxy⟩ | hnew
  · rw [Ext_tag hxy]
    exact ha x hx
  · exact hnew d (self_mem_preorder d)

theorem ExtL_trans_aux (nts txs ks : List String) :
    ∀ (l3 l2 : List Elem), ExtL nts txs ks l2 l3 →
    ∀ (l1 : List Elem), ExtL nts txs ks l1 l2 →
    (∀ e1 ∈ l1, ∀ e2 e3, Ext nts txs ks e1 e2 → Ext nts txs ks e2 e3 →
      Ext nts txs ks e1 e3) →
    ExtL nts txs ks l1 l3 := by
  intro l3
  induction l3 with
  | nil =>
    intro l2 h l1 h1 _
    cases h
    cases h1
    exact .nil
  | cons e3 l3t ih =>
    intro l2 h l1 h1 H
    cases h with
    | keep e2 e3b l2b l3b he hl =>
      cases h1 with
      | keep e1 e2c l1t l2c he1 hl1 =>
        refine .keep e1 e3 l1t l3t (H e1 (List.mem_cons_self _ _) e2 e3 he1 he) ?_
        exact ih l2b hl l1t hl1 (fun z hz => H z (List.mem_cons_of_mem _ hz))
      | ins x2 l1b l2c hnew hl1 =>
        exact .ins e3 l1 l3t (newOk_of_Ext he hnew) (ih l2b hl l1 hl1 H)
    | ins xx l2b l3b hnew hl =>
      exact .ins e3 l1 l3t hnew (ih l2 hl l1 h1 H)

theorem Ext_trans (nts txs ks : List String) :
    ∀ (a b c : Elem), Ext nts txs ks a b → Ext nts txs ks b c →
    Ext nts txs ks a c := by
  refine strongInd (fun a => ∀ b c, Ext nts txs ks a b → Ext nts txs ks b c →
    Ext nts txs ks a c) ?_
  intro t a1 x1 c1 ih b c hab hbc
  cases b with
  | mk tb ab xb cb =>
    cases c with
    | mk tc ac xc cc =>
      cases hab with
      | node _ _ _ _ _ _ _ ha1 hx1 hc1 =>
        cases hbc with
        | node _ _ _ _ _ _ _ ha2 hx2 hc2 =>
          refine .node t a1 ac x1 xc c1 cc ?_ ?_ ?_
          · exact fun k hk => (ha1 k hk).trans (ha2 k hk)
          · rcases hx1 with rfl | ht
            · rcases hx2 with rfl | ht
              · exact Or.inl rfl
              · exact Or.inr ht
            · exact Or.inr ht
          · exact ExtL_trans_aux nts txs ks cc cb hc2 c1 hc1
              (fun e1 he1 e2 e3 h12 h23 => ih e1 he1 e2 e3 h12 h23)

theorem ExtL_insN (nts txs ks : List String) (x : Elem) (hx : newOk nts x) :
    ∀ (l : List Elem) (i : Nat), ExtL nts txs ks l (insN x l i) := by
  intro l
  induction l with
  | nil =>
    intro i
    cases i with
    | zero => exact .ins x [] [] hx .nil
    | succ n => exact .ins x [] [] hx .nil
  | cons e es ih =>
    intro i
    cases i with
    | zero => exact .ins x (e :: es) (e :: es) hx (ExtL_refl nts txs ks _)
    | succ n => exact .keep e e es (insN x es n) (Ext_refl nts txs ks e) (ih n)

theorem Ext_insChild (nts txs ks : List String) (e x : Elem) (i : Nat)
    (hx : newOk nts x) : Ext nts txs ks e (e.withChildren (insN x e.children i)) := by
  cases e with
  | mk t a xx c =>
    exact .node t a a xx xx c (insN x c i) (fun _ _ => rfl) (Or.inl rfl)
      (ExtL_insN nts txs ks x hx c i)

theorem Ext_set_mem (nts txs ks : List String) (e : Elem) (k v : String)
    (hk : k ∈ ks) : Ext nts txs ks e (e.set k v) := by
  cases e with
  | mk t a xx c =>
    refine .node t a (setA a k v) xx xx c c ?_ (Or.inl rfl) (ExtL_refl nts txs ks c)
    intro k2 hk2
    have hne : ¬ k2 = k := fun h => hk2 (h ▸ hk)
    exact (getA_setA_ne a k v k2 hne).symm

theorem Ext_del_mem (nts txs ks : List String) (e : Elem) (k : String)
    (hk : k ∈ ks) : Ext nts txs ks e (e.del k) := by
  cases e with
  | mk t a xx c =>
    refine .node t a (delA a k) xx xx c c ?_ (Or.inl rfl) (ExtL_refl nts txs ks c)
    intro k2 hk2
    have hne : ¬ k2 = k := fun h => hk2 (h ▸ hk)
    exact (getA_delA_ne a k k2 hne).symm

theorem Ext_withText_mem (nts txs ks : List String) (e : Elem) (s : String)
    (ht : e.tag ∈ txs) : Ext nts txs ks e (e.withText s) := by
  cases e with
  | mk t a xx c =>
    exact .node t a a xx s c c (fun _ _ => rfl) (Or.inr ht) (ExtL_refl nts txs ks c)

theorem ExtL_modN_at (nts txs ks : List String) (g : Elem → Elem) :
    ∀ (l : List Elem) (i : Nat), (∀ ch, l.get? i = some ch → Ext nts txs ks ch (g ch)) →
    ExtL nts txs ks l (modN g l i) := by
  intro l
  induction l with
  | nil => intro i _; exact .nil
  | cons e es ih =>
    intro i h
    cases i with
    | zero => exact .keep e (g e) es es (h e rfl) (ExtL_refl nts txs ks es)
    | succ n =>
      exact .keep e e es (modN g es n) (Ext_refl nts txs ks e) (ih n (fun ch hc => h ch hc))

theorem Ext_updatePath_at (nts txs ks : List String) (f : Elem → Elem) :
    ∀ (pi : List Nat) (e : Elem), (∀ x, getPath e pi = some x → Ext nts txs ks x (f x)) →
    Ext nts txs ks e (updatePath f e pi) := by
  intro pi
  induction pi with
  | nil =>
    intro e h
    have := h e (by cases e; rfl)
    rw [show updatePath f e [] = f e from by cases e; rfl]
    exact this
  | cons i is ih =>
    intro e h
    cases e with
    | mk t a xx c =>
      simp only [updatePath]
      refine .node t a a xx xx c _ (fun _ _ => rfl) (Or.inl rfl) ?_
      refine ExtL_modN_at nts txs ks _ c i ?_
      intro ch hc
      refine ih ch ?_
      intro x hx
      refine h x ?_
      simp only [getPath, children_mk, hc]
      exact hx

theorem Ext_updateFirst (nts txs ks : List String) (p : Elem → Bool) (f : Elem → Elem)
    (hf : ∀ y, Ext nts txs ks y (f y)) (e : Elem) :
    Ext nts txs ks e (updateFirst p f e) := by
  unfold updateFirst
  cases hfp : findPath p e with
  | none => exact Ext_refl nts txs ks e
  | some pi => exact Ext_updatePath_at nts txs ks f pi e (fun x _ => hf x)

theorem Ext_updateFirstE (nts txs ks : List String) (p : Elem → Bool)
    (f : Elem → Except PErr Elem)
    (hf : ∀ y out, f y = .ok out → Ext nts txs ks y out) (e out : Elem)
    (h : updateFirstE p f e = .ok out) : Ext nts txs ks e out := by
  unfold updateFirstE at h
  cases hfp : findPath p e with
  | none =>
    rw [hfp] at h
    simp only [pure, Except.pure, Except.ok.injEq] at h
    subst h
    exact Ext_refl nts txs ks e
  | some pi =>
    rw [hfp] at h
    rcases updatePathE_spec f pi e out h with ⟨_, rfl⟩ | ⟨x, y, hx, hfy, rfl⟩
    · exact Ext_refl nts txs ks out
    · refine Ext_updatePath_at nts txs ks _ pi e ?_
      intro x2 hx2
      rw [hx] at hx2
      simp only [Option.some.injEq] at hx2
      subst hx2
      exact hf x y hfy

/-! ### The insertion-free case: `Ext [] txs ks` preserves all structure -/

theorem newOk_nil (x : Elem) : ¬ newOk [] x := by
  intro h
  simpa using h x (self_mem_preorder x)

theorem Ext_mem_nil {txs ks : List String} {a b : Elem} (h : Ext [] txs ks a b) :
    ∀ y ∈ preorder b, ∃ x ∈ preorder a, Ext [] txs ks x y := by
  intro y hy
  rcases Ext_mem [] txs ks a b h y hy with hgood | hnew
  · exact hgood
  · exact absurd hnew (newOk_nil y)

theorem ExtL_mem_full {nts txs ks : List String} {l l2 : List Elem}
    (h : ExtL nts txs ks l l2) :
    ∀ y ∈ preorderL l2, (∃ x ∈ preorderL l, Ext nts txs ks x y) ∨ newOk nts y :=
  ExtL_mem nts txs ks l2 l h (fun e _ e2 hee2 => Ext_mem nts txs ks e e2 hee2)

theorem ExtL_mem_nil {txs ks : List String} {l l2 : List Elem}
    (h : ExtL [] txs ks l l2) :
    ∀ y ∈ preorderL l2, ∃ x ∈ preorderL l, Ext [] txs ks x y := by
  intro y hy
  rcases ExtL_mem_full h y hy with hgood | hnew
  · exact hgood
  · exact absurd hnew (newOk_nil y)

theorem ExtL_nil_get {txs ks : List String} :
    ∀ {l2 l : List Elem}, ExtL [] txs ks l l2 → ∀ (i : Nat) (ch : Elem),
    l.get? i = some ch → ∃ ch2, l2.get? i = some ch2 ∧ Ext [] txs ks ch ch2 := by
  intro l2
  induction l2 with
  | nil =>
    intro l h i ch hc
    cases h
    cases hc
  | cons e2 l2t ih =>
    intro l h i ch hc
    cases h with
    | keep e1 e2b l1t l2b he hl =>
      cases i with
      | zero =>
        simp only [List.get?_cons_zero, Option.some.injEq] at hc
        subst hc
        exact ⟨e2, rfl, he⟩
      | succ n =>
        obtain ⟨ch2, hg, hch⟩ := ih hl n ch hc
        exact ⟨ch2, hg, hch⟩
    | ins xx l1b l2b hnew hl =>
      exact absurd hnew (newOk_nil e2)

theorem ExtL_nil_length {txs ks : List String} :
    ∀ {l2 l : List Elem}, ExtL [] txs ks l l2 → l2.length = l.length := by
  intro l2
  induction l2 with
  | nil => intro l h; cases h; rfl
  | cons e2 l2t ih =>
    intro l h
    cases h with
    | keep e1 e2b l1t l2b he hl => simp [ih hl]
    | ins xx l1b l2b hnew hl => exact absurd hnew (newOk_nil e2)

theorem Ext_nil_findPath (txs ks : List String) (p : Elem → Bool)
    (hp : ∀ y z, z.tag = y.tag → p z = p y) :
    ∀ (a b : Elem), Ext [] txs ks a b → findPath p b = findPath p a := by
  refine strongInd (fun a => ∀ b, Ext [] txs ks a b → findPath p b = findPath p a) ?_
  intro t a1 x1 c1 ih b hab
  cases b with
  | mk tb ab xb cb =>
    have hc : ExtL [] txs ks c1 cb := Ext_children hab
    show findPathL p cb 0 = findPathL p c1 0
    have haux : ∀ (l2 l : List Elem), ExtL [] txs ks l l2 →
        (∀ e ∈ l, ∀ e2, Ext [] txs ks e e2 → findPath p e2 = findPath p e) →
        ∀ k, findPathL p l2 k = findPathL p l k := by
      intro l2
      induction l2 with
      | nil =>
        intro l h _ k
        cases h
        rfl
      | cons e2 l2t ihl =>
        intro l h hrec k
        cases h with
        | keep e1 e2b l1t l2b he hl =>
          have hpe : p e2 = p e1 := hp e1 e2 (Ext_tag he)
          have hfe : findPath p e2 = findPath p e1 :=
            hrec e1 (List.mem_cons_self _ _) e2 he
          rw [findPathL, findPathL, hpe, hfe]
          by_cases hcond : p e1 = true
          · rw [if_pos hcond, if_pos hcond]
          · rw [if_neg hcond, if_neg hcond]
            cases hf : findPath p e1 with
            | some path => simp only [hf]
            | none =>
              simp only [hf]
              exact ihl l1t hl
                (fun z hz ez hez => hrec z (List.mem_cons_of_mem _ hz) ez hez) (k + 1)
        | ins xx l1b l2b hnew hl =>
          exact absurd hnew (newOk_nil e2)
    exact haux cb c1 hc (fun e he e2 hee2 => ih e he e2 hee2) 0

theorem Ext_nil_getPath (txs ks : List String) :
    ∀ (pi : List Nat) (a b : Elem), Ext [] txs ks a b →
    ∀ x, getPath a pi = some x → ∃ y, getPath b pi = some y ∧ Ext [] txs ks x y := by
  intro pi
  induction pi with
  | nil =>
    intro a b hab x hx
    simp only [getPath, Option.some.injEq] at hx
    subst hx
    exact ⟨b, rfl, hab⟩
  | cons i is ih =>
    intro a b hab x hx
    cases a with
    | mk t a1 x1 c1 =>
      cases b with
      | mk tb ab xb cb =>
        have hc : ExtL [] txs ks c1 cb := Ext_children hab
        simp only [getPath, children_mk] at hx ⊢
        cases hg : c1.get? i with
        | none =>
          simp only [hg] at hx
          cases hx
        | some ch =>
          simp only [hg] at hx
          obtain ⟨ch2, hg2, hch⟩ := ExtL_nil_get hc i ch hg
          simp only [hg2]
          exact ih ch ch2 hch x hx

theorem ExtL_nil_append (txs ks : List String) :
    ∀ (l2 l1 : List Elem), ExtL [] txs ks l1 l2 →
    ∀ (u1 u2 : List Elem), ExtL [] txs ks u1 u2 →
    ExtL [] txs ks (l1 ++ u1) (l2 ++ u2) := by
  intro l2
  induction l2 with
  | nil =>
    intro l1 h u1 u2 hu
    cases h
    simpa using hu
  | cons e2 l2t ih =>
    intro l1 h u1 u2 hu
    cases h with
    | keep e1 e2b l1t l2b he hl =>
      exact .keep e1 e2 (l1t ++ u1) (l2t ++ u2) he (ih l1t hl u1 u2 hu)
    | ins xx l1b l2b hnew hl => exact absurd hnew (newOk_nil e2)

theorem Ext_nil_preorder (txs ks : List String) :
    ∀ (a b : Elem), Ext [] txs ks a b →
    ExtL [] txs ks (preorder a) (preorder b) := by
  refine strongInd (fun a => ∀ b, Ext [] txs ks a b →
    ExtL [] txs ks (preorder a) (preorder b)) ?_
  intro t a1 x1 c1 ih b hab
  cases b with
  | mk tb ab xb cb =>
    have hc : ExtL [] txs ks c1 cb := Ext_children hab
    rw [preorder_mk, preorder_mk]
    refine .keep _ _ _ _ hab ?_
    have haux : ∀ (l2 l : List Elem), ExtL [] txs ks l l2 →
        (∀ e ∈ l, ∀ e2, Ext [] txs ks e e2 →
          ExtL [] txs ks (preorder e) (preorder e2)) →
        ExtL [] txs ks (preorderL l) (preorderL l2) := by
      intro l2
      induction l2 with
      | nil => intro l h _; cases h; exact .nil
      | cons e2 l2t ihl =>
        intro l h hrec
        cases h with
        | keep e1 e2b l1t l2b he hl =>
          show ExtL [] txs ks (preorder e1 ++ preorderL l1t)
            (preorder e2 ++ preorderL l2t)
          exact ExtL_nil_append txs ks (preorder e2) (preorder e1)
            (hrec e1 (List.mem_cons_self _ _) e2 he) (preorderL l1t) (preorderL l2t)
            (ihl l1t hl (fun z hz ez hez => hrec z (List.mem_cons_of_mem _ hz) ez hez))
        | ins xx l1b l2b hnew hl => exact absurd hnew (newOk_nil e2)
    exact haux cb c1 hc (fun e he e2 hee2 => ih e he e2 hee2)

theorem ExtL_nil_preorderL (txs ks : List String) :
    ∀ (l2 l : List Elem), ExtL [] txs ks l l2 →
    ExtL [] txs ks (preorderL l) (preorderL l2) := by
  intro l2
  induction l2 with
  | nil => intro l h; cases h; exact .nil
  | cons e2 l2t ihl =>
    intro l h
    cases h with
    | keep e1 e2b l1t l2b he hl =>
      show ExtL [] txs ks (preorder e1 ++ preorderL l1t) (preorder e2 ++ preorderL l2t)
      exact ExtL_nil_append txs ks (preorder e2) (preorder e1)
        (Ext_nil_preorder txs ks e1 e2 he) (preorderL l1t) (preorderL l2t) (ihl l1t hl)
    | ins xx l1b l2b hnew hl => exact absurd hnew (newOk_nil e2)

theorem ExtL_nil_filter (txs ks : List String) (q : Elem → Bool)
    (hq : ∀ a b, Ext [] txs ks a b → q b = q a) :
    ∀ (l2 l : List Elem), ExtL [] txs ks l l2 →
    ExtL [] txs ks (l.filter q) (l2.filter q) := by
  intro l2
  induction l2 with
  | nil => intro l h; cases h; exact .nil
  | cons e2 l2t ih =>
    intro l h
    cases h with
    | keep e1 e2b l1t l2b he hl =>
      rw [List.filter_cons, List.filter_cons, hq e1 e2 he]
      by_cases hqe : q e1 = true
      · rw [if_pos hqe, if_pos hqe]
        exact .keep _ _ _ _ he (ih l1t hl)
      · rw [if_neg hqe, if_neg hqe]
        exact ih l1t hl
    | ins xx l1b l2b hnew hl => exact absurd hnew (newOk_nil e2)

theorem ExtL_nil_any (txs ks : List String) (q : Elem → Bool)
    (hq : ∀ a b, Ext [] txs ks a b → q b = q a) :
    ∀ (l2 l : List Elem), ExtL [] txs ks l l2 → l2.any q = l.any q := by
  intro l2
  induction l2 with
  | nil => intro l h; cases h; rfl
  | cons e2 l2t ih =>
    intro l h
    cases h with
    | keep e1 e2b l1t l2b he hl =>
      simp only [List.any_cons, hq e1 e2 he, ih l1t hl]
    | ins xx l1b l2b hnew hl => exact absurd hnew (newOk_nil e2)

theorem tag_pred_congr (T : String) (y z : Elem) (h : z.tag = y.tag) :
    (decide (z.tag = T) : Bool) = decide (y.tag = T) := by
  rw [h]

theorem Ext_nil_bibRefs (txs ks : List String) (a b : Elem) (h : Ext [] txs ks a b) :
    ExtL [] txs ks (bibRefs a) (bibRefs b) := by
  unfold bibRefs
  rw [Ext_nil_findPath txs ks _ (fun y z hzy => tag_pred_congr "back" y z hzy) a b h]
  cases hfb : findPath (fun d => d.tag = "back") a with
  | none =>
    simp only [hfb]
    exact .nil
  | some bp =>
    simp only [hfb]
    obtain ⟨x, hgx, hpx⟩ := findPath_getPath _ a bp hfb
    obtain ⟨y, hgy, hxy⟩ := Ext_nil_getPath txs ks bp a b h x hgx
    simp only [hgx, hgy]
    rw [Ext_nil_findPath txs ks _ (fun y2 z hzy => tag_pred_congr "ref-list" y2 z hzy) x y hxy]
    cases hfr : findPath (fun d => d.tag = "ref-list") x with
    | none =>
      simp only [hfr]
      exact .nil
    | some rp =>
      simp only [hfr]
      obtain ⟨rl, hgrl, hprl⟩ := findPath_getPath _ x rp hfr
      obtain ⟨rl2, hgrl2, hrl⟩ := Ext_nil_getPath txs ks rp x y hxy rl hgrl
      simp only [hgrl, hgrl2]
      refine ExtL_nil_filter txs ks _ ?_ _ _
        (ExtL_nil_preorderL txs ks rl2.children rl.children (Ext_children hrl))
      intro a2 b2 hab2
      exact tag_pred_congr "ref" a2 b2 (Ext_tag hab2)

/-! ### Each pipeline stage produces an extension relation -/

theorem Ext_updateFirst_tag (nts txs ks : List String) (T : String) (f : Elem → Elem)
    (hf : ∀ y, y.tag = T → Ext nts txs ks y (f y)) (e : Elem) :
    Ext nts txs ks e (updateFirst (fun d => d.tag = T) f e) := by
  unfold updateFirst
  cases hfp : findPath (fun d => d.tag = T) e with
  | none => exact Ext_refl nts txs ks e
  | some pi =>
    refine Ext_updatePath_at nts txs ks f pi e ?_
    intro x hx
    obtain ⟨x0, hg0, hp0⟩ := findPath_getPath _ e pi hfp
    rw [hg0] at hx
    simp only [Option.some.injEq] at hx
    subst hx
    exact hf x0 (of_decide_eq_true hp0)

theorem ExtL_mapTreeL_of (nts txs ks : List String) (f : Elem → Elem) :
    ∀ (l : List Elem), (∀ e ∈ l, Ext nts txs ks e (mapTree f e)) →
    ExtL nts txs ks l (mapTreeL f l) := by
  intro l
  induction l with
  | nil => intro _; exact .nil
  | cons e es ihl =>
    intro hm
    exact .keep e (mapTree f e) es (mapTreeL f es) (hm e (List.mem_cons_self _ _))
      (ihl (fun z hz => hm z (List.mem_cons_of_mem _ hz)))

theorem Ext_mapTree (nts txs ks : List String) (f : Elem → Elem)
    (hf : ∀ y, Ext nts txs ks y (f y)) :
    ∀ e : Elem, Ext nts txs ks e (mapTree f e) := by
  refine strongInd (fun e => Ext nts txs ks e (mapTree f e)) ?_
  intro t a x c ih
  show Ext nts txs ks (.mk t a x c) (f (.mk t a x (mapTreeL f c)))
  refine Ext_trans nts txs ks _ _ _ ?_ (hf (.mk t a x (mapTreeL f c)))
  exact .node t a a x x c (mapTreeL f c) (fun _ _ => rfl) (Or.inl rfl)
    (ExtL_mapTreeL_of nts txs ks f c (fun z hz => ih z hz))

theorem Ext_mapDescendants (nts txs ks : List String) (f : Elem → Elem)
    (hf : ∀ y, Ext nts txs ks y (f y)) (e : Elem) :
    Ext nts txs ks e (mapDescendants f e) := by
  cases e with
  | mk t a x c =>
    show Ext nts txs ks (.mk t a x c) (.mk t a x (mapTreeL f c))
    exact .node t a a x x c (mapTreeL f c) (fun _ _ => rfl) (Or.inl rfl)
      (ExtL_mapTreeL_of nts txs ks f c (fun z _ => Ext_mapTree nts txs ks f hf z))

theorem Ext_ridFixE (vs : List String) (refs : List Elem) (e : Elem) :
    Ext [] [] ["rid", "rids"] e (ridFixE vs refs e) := by
  simp only [ridFixE]
  repeat' split
  all_goals first
    | exact Ext_refl _ _ _ e
    | exact Ext_set_mem _ _ _ e "rid" _ (by simp)
    | exact Ext_del_mem _ _ _ e "rid" (by simp)

theorem Ext_ridsFixE (vs : List String) (e : Elem) :
    Ext [] [] ["rid", "rids"] e (ridsFixE vs e) := by
  simp only [ridsFixE]
  repeat' split
  all_goals first
    | exact Ext_refl _ _ _ e
    | exact Ext_set_mem _ _ _ e "rids" _ (by simp)
    | exact Ext_del_mem _ _ _ e "rids" (by simp)

theorem Ext_idrefNode (vs : List String) (refs : List Elem) (e : Elem) :
    Ext [] [] ["rid", "rids"] e (idrefNode vs refs e) := by
  rw [idrefNode]
  exact Ext_trans _ _ _ _ _ _ (Ext_ridFixE vs refs e) (Ext_ridsFixE vs (ridFixE vs refs e))

theorem Ext_idrefFix (r : Elem) : Ext [] [] ["rid", "rids"] r (idrefFix r) := by
  simp only [idrefFix]
  exact Ext_mapTree _ _ _ _ (fun y => Ext_idrefNode _ _ y) r

theorem Ext_altRewrite (refs : List Elem) (refIds : List String) (e : Elem) :
    Ext [] [] ["rid", "ref-type"] e (altRewrite refs refIds e) := by
  simp only [altRewrite]
  repeat' split
  all_goals first
    | exact Ext_refl _ _ _ e
    | exact Ext_set_mem _ _ _ e "rid" _ (by simp)

theorem Ext_refTypeRidFix (refs : List Elem) (e : Elem) :
    Ext [] [] ["rid", "ref-type"] e (refTypeRidFix refs e) := by
  simp only [refTypeRidFix]
  repeat' split
  all_goals first
    | exact Ext_refl _ _ _ e
    | exact Ext_set_mem _ _ _ e "ref-type" _ (by simp)
    | exact Ext_set_mem _ _ _ e "rid" _ (by simp)
    | exact Ext_trans _ _ _ _ _ _ (Ext_set_mem _ _ _ e "ref-type" _ (by simp))
        (Ext_set_mem _ _ _ _ "rid" _ (by simp))

theorem Ext_xref_guard (ks : List String) (g : Elem → Elem)
    (hg : ∀ y, Ext [] [] ks y (g y)) (y : Elem) :
    Ext [] [] ks y (if y.tag = "xref" then g y else y) := by
  split
  · exact hg y
  · exact Ext_refl _ _ _ y

theorem Ext_xrefFix (r : Elem) : Ext [] [] ["rid", "ref-type"] r (xrefFix r) := by
  simp only [xrefFix]
  have h1 := Ext_mapDescendants [] [] ["rid", "ref-type"] _
    (fun y => Ext_xref_guard _ _
      (fun z => Ext_altRewrite (bibRefs r) (referencedIds r) z) y) r
  have h2 := Ext_mapDescendants [] [] ["rid", "ref-type"] _
    (fun y => Ext_xref_guard _ _ (fun z => Ext_refTypeRidFix (bibRefs r) z) y)
    (mapDescendants
      (fun e => if e.tag = "xref" then altRewrite (bibRefs r) (referencedIds r) e else e) r)
  exact Ext_trans _ _ _ _ _ _ h1 h2

theorem ExtL_numberRefsL_aux :
    ∀ (l : List Elem), (∀ e ∈ l, ∀ n, Ext [] [] ["id"] e (numberRefsE e n).1) →
    ∀ n, ExtL [] [] ["id"] l (numberRefsL l n).1 := by
  intro l
  induction l with
  | nil => intro _ n; exact .nil
  | cons e es ih =>
    intro hm n
    show ExtL _ _ _ (e :: es) ((numberRefsE e n).1 :: (numberRefsL es (numberRefsE e n).2).1)
    exact .keep _ _ _ _ (hm e (List.mem_cons_self _ _) n)
      (ih (fun z hz => hm z (List.mem_cons_of_mem _ hz)) (numberRefsE e n).2)

theorem Ext_numberRefsE :
    ∀ (e : Elem) (n : Nat), Ext [] [] ["id"] e (numberRefsE e n).1 := by
  refine strongInd (fun e => ∀ n, Ext [] [] ["id"] e (numberRefsE e n).1) ?_
  intro t a x c ih n
  simp only [numberRefsE]
  by_cases ht : t = "ref"
  · rw [if_pos ht]
    refine .node t a _ x x c _ ?_ (Or.inl rfl)
      (ExtL_numberRefsL_aux c (fun z hz m => ih z hz m) (n + 1))
    intro k hk
    by_cases hid : (getA a "id").isSome = true
    · rw [if_pos hid]
    · rw [if_neg hid]
      have hne : ¬ k = "id" := fun hkk => hk (by rw [hkk]; simp)
      exact (getA_setA_ne a "id" _ k hne).symm
  · rw [if_neg ht]
    exact .node t a a x x c _ (fun _ _ => rfl) (Or.inl rfl)
      (ExtL_numberRefsL_aux c (fun z hz m => ih z hz m) n)

theorem Ext_refIdFix (r : Elem) : Ext [] [] ["id"] r (refIdFix r) := by
  unfold refIdFix
  refine Ext_updateFirst_tag _ _ _ "back" _ ?_ r
  intro y _
  refine Ext_updateFirst_tag _ _ _ "ref-list" _ ?_ y
  intro rl _
  cases rl with
  | mk t a x c =>
    show Ext _ _ _ (.mk t a x c) (.mk t a x (numberRefsL c 0).1)
    exact .node t a a x x c _ (fun _ _ => rfl) (Or.inl rfl)
      (ExtL_numberRefsL_aux c (fun z _ m => Ext_numberRefsE z m) 0)

def phNewTags : List String :=
  ["title-group", "article-title", "article-categories", "subj-group", "subject",
   "pub-date", "year", "elocation-id", "journal-title"]

def phTxTags : List String := ["journal-id", "journal-title", "issn", "publisher-name"]

def phKeys : List String := ["journal-id-type", "pub-type"]

theorem newOk_newTitleGroup : newOk phNewTags newTitleGroup := by
  intro d hd
  fin_cases hd <;> simp [phNewTags, tag]

theorem newOk_newArticleCategories (articleType : String) :
    newOk phNewTags (newArticleCategories articleType) := by
  intro d hd
  fin_cases hd <;> simp [phNewTags, tag]

theorem newOk_newPubDate (year : String) : newOk phNewTags (newPubDate year) := by
  intro d hd
  fin_cases hd <;> simp [phNewTags, tag]

theorem newOk_newElocation : newOk phNewTags newElocation := by
  intro d hd
  fin_cases hd <;> simp [phNewTags, tag]

theorem newOk_newJournalTitle :
    newOk phNewTags (Elem.mk "journal-title" [] "Unknown Journal" []) := by
  intro d hd
  fin_cases hd <;> simp [phNewTags, tag]

theorem Ext_fixJournalId (y : Elem) (ht : y.tag = "journal-id") :
    Ext phNewTags phTxTags phKeys y (fixJournalId y) := by
  simp only [fixJournalId]
  split
  · refine Ext_trans _ _ _ _ _ _
      (Ext_set_mem _ _ _ y "journal-id-type" "publisher-id" (by simp [phKeys])) ?_
    refine Ext_withText_mem _ _ _ _ _ ?_
    rw [show (y.set "journal-id-type" "publisher-id").tag = y.tag from by cases y; rfl, ht]
    simp [phTxTags]
  · split
    · exact Ext_refl _ _ _ y
    · exact Ext_set_mem _ _ _ y "journal-id-type" _ (by simp [phKeys])

theorem Ext_fixJTG (y : Elem) : Ext phNewTags phTxTags phKeys y (fixJTG y) := by
  simp only [fixJTG]
  cases hfp : findPath (fun d => d.tag = "journal-title") y with
  | none =>
    rw [← insN_len (Elem.mk "journal-title" [] "Unknown Journal" []) y.children]
    exact Ext_insChild _ _ _ y _ _ newOk_newJournalTitle
  | some pi =>
    refine Ext_updatePath_at _ _ _ _ pi y ?_
    intro x hx
    obtain ⟨x0, hg0, hp0⟩ := findPath_getPath _ y pi hfp
    rw [hg0] at hx
    simp only [Option.some.injEq] at hx
    subst hx
    have htag : x0.tag = "journal-title" := of_decide_eq_true hp0
    split
    · exact Ext_withText_mem _ _ _ x0 _ (by rw [htag]; simp [phTxTags])
    · exact Ext_refl _ _ _ x0

theorem Ext_fixIssn (y : Elem) (ht : y.tag = "issn") :
    Ext phNewTags phTxTags phKeys y (fixIssn y) := by
  simp only [fixIssn]
  by_cases hb : strBlank y.text = true
  · rw [if_pos hb]
    have h1 : Ext phNewTags phTxTags phKeys y (y.withText "0000-0000") :=
      Ext_withText_mem _ _ _ y _ (by rw [ht]; simp [phTxTags])
    split
    · exact h1
    · exact Ext_trans _ _ _ _ _ _ h1
        (Ext_set_mem _ _ _ _ "pub-type" "epub" (by simp [phKeys]))
  · rw [if_neg hb]
    split
    · exact Ext_refl _ _ _ y
    · exact Ext_set_mem _ _ _ y "pub-type" "epub" (by simp [phKeys])

theorem Ext_fixPublisher (y : Elem) : Ext phNewTags phTxTags phKeys y (fixPublisher y) := by
  unfold fixPublisher
  refine Ext_updateFirst_tag _ _ _ "publisher-name" _ ?_ y
  intro z hz
  split
  · exact Ext_withText_mem _ _ _ z _ (by rw [hz]; simp [phTxTags])
  · exact Ext_refl _ _ _ z

theorem Ext_fixJournalMeta (y : Elem) :
    Ext phNewTags phTxTags phKeys y (fixJournalMeta y) := by
  simp only [fixJournalMeta]
  refine Ext_trans _ _ _ _ _ _ ?_
    (Ext_updateFirst_tag _ _ _ "publisher" fixPublisher (fun z _ => Ext_fixPublisher z) _)
  refine Ext_trans _ _ _ _ _ _ ?_
    (Ext_updateFirst_tag _ _ _ "issn" fixIssn (fun z hz => Ext_fixIssn z hz) _)
  refine Ext_trans _ _ _ _ _ _ ?_
    (Ext_updateFirst_tag _ _ _ "journal-title-group" fixJTG (fun z _ => Ext_fixJTG z) _)
  exact Ext_updateFirst_tag _ _ _ "journal-id" fixJournalId
    (fun z hz => Ext_fixJournalId z hz) y

theorem Ext_tgStep (y out : Elem) (h : tgStep y = .ok out) :
    Ext phNewTags phTxTags phKeys y out := by
  unfold tgStep at h
  repeat' split at h
  any_goals exact Except.noConfusion h
  all_goals simp only [pure, Except.pure, Except.ok.injEq] at h
  all_goals subst h
  all_goals first
    | exact Ext_refl _ _ _ y
    | exact Ext_insChild _ _ _ y newTitleGroup _ newOk_newTitleGroup

theorem Ext_acStep (articleType : String) (y : Elem) :
    Ext phNewTags phTxTags phKeys y (acStep articleType y) := by
  unfold acStep
  cases hfp : findPath (fun d => d.tag = "article-categories") y with
  | none => exact Ext_insChild _ _ _ y _ 0 (newOk_newArticleCategories articleType)
  | some pi => exact Ext_refl _ _ _ y

theorem Ext_pubDateStep (year : String) (y : Elem) (i : Nat) :
    Ext phNewTags phTxTags phKeys y (pubDateStep year y i).1 := by
  unfold pubDateStep
  cases hfp : findPath (fun d => d.tag = "pub-date") y with
  | none => exact Ext_insChild _ _ _ y _ i (newOk_newPubDate year)
  | some pi => exact Ext_refl _ _ _ y

theorem Ext_elocStep (y : Elem) (i : Nat) :
    Ext phNewTags phTxTags phKeys y (elocStep y i) := by
  unfold elocStep
  split
  · exact Ext_insChild _ _ _ y newElocation i newOk_newElocation
  · exact Ext_refl _ _ _ y

theorem Ext_fixArticleMeta (articleType year : String) (y out : Elem)
    (h : fixArticleMeta articleType year y = .ok out) :
    Ext phNewTags phTxTags phKeys y out := by
  unfold fixArticleMeta at h
  cases htg : tgStep y with
  | error err => rw [htg] at h; simp [Except.bind, bind] at h
  | ok am1 =>
    rw [htg] at h
    simp only [Except.bind, bind, pure, Except.pure, Except.ok.injEq] at h
    subst h
    have e1 := Ext_tgStep y am1 htg
    have e2 := Ext_acStep articleType am1
    have e3 := Ext_pubDateStep year (acStep articleType am1)
      (baseIdx (acStep articleType am1) +
        scanLen ["contrib-group", "aff", "author-notes"]
          ((acStep articleType am1).children.drop (baseIdx (acStep articleType am1))))
    have e4 := Ext_elocStep
      (pubDateStep year (acStep articleType am1)
        (baseIdx (acStep articleType am1) +
          scanLen ["contrib-group", "aff", "author-notes"]
            ((acStep articleType am1).children.drop (baseIdx (acStep articleType am1))))).1
      ((pubDateStep year (acStep articleType am1)
        (baseIdx (acStep articleType am1) +
          scanLen ["contrib-group", "aff", "author-notes"]
            ((acStep articleType am1).children.drop (baseIdx (acStep articleType am1))))).2 +
        scanLen ["volume", "issue"]
          ((pubDateStep year (acStep articleType am1)
            (baseIdx (acStep articleType am1) +
              scanLen ["contrib-group", "aff", "author-notes"]
                ((acStep articleType am1).children.drop
                  (baseIdx (acStep articleType am1))))).1.children.drop
            ((pubDateStep year (acStep articleType am1)
              (baseIdx (acStep articleType am1) +
                scanLen ["contrib-group", "aff", "author-notes"]
                  ((acStep articleType am1).children.drop
                    (baseIdx (acStep articleType am1))))).2)))
    exact Ext_trans _ _ _ _ _ _ e1 (Ext_trans _ _ _ _ _ _ e2 (Ext_trans _ _ _ _ _ _ e3 e4))

theorem Ext_fixFront (articleType year : String) (y out : Elem)
    (h : fixFront articleType year y = .ok out) :
    Ext phNewTags phTxTags phKeys y out := by
  unfold fixFront at h
  refine Ext_trans _ _ _ _ _ _
    (Ext_updateFirst_tag _ _ _ "journal-meta" fixJournalMeta
      (fun z _ => Ext_fixJournalMeta z) y) ?_
  exact Ext_updateFirstE _ _ _ _ _
    (fun z oz hz => Ext_fixArticleMeta articleType year z oz hz) _ out h

theorem Ext_metaFix (year : String) (r out : Elem) (h : metaFix year r = .ok out) :
    Ext phNewTags phTxTags phKeys r out := by
  unfold metaFix at h
  exact Ext_updateFirstE _ _ _ _ _
    (fun z oz hz =>
      Ext_fixFront ((r.get "article-type").getD "research-article") year z oz hz) _ out h

/-! ### Second-run no-op conditions, stage by stage -/

def posOkNode (e : Elem) : Prop :=
  e.tag = "table-wrap" → ∃ v, e.get "position" = some v ∧ ¬ v = "top"

theorem posFixNode_noop (e : Elem) (h : posOkNode e) : posFixNode e = e := by
  unfold posFixNode
  by_cases ht : e.tag = "table-wrap"
  · rw [if_pos ht]
    obtain ⟨v, hv, hne⟩ := h ht
    simp only [hv]
    rw [if_neg hne]
  · rw [if_neg ht]

theorem posFix_noop (r : Elem) (h : ∀ d ∈ descendants r, posOkNode d) : posFix r = r := by
  unfold posFix
  exact mapDescendants_id_of _ r (fun d hd => posFixNode_noop d (h d hd))

def tblOkNode (e : Elem) : Prop :=
  e.tag = "table" →
    (∀ ch ∈ e.children, emptyTbody ch = false) ∧
    (hasHeadOrFoot e.children = true → e.children.any (fun ch => ch.tag = "tbody") = true)

theorem zipSelf_map_fst : ∀ c : List Elem, (c.zip c).map Prod.fst = c := by
  intro c
  induction c with
  | nil => rfl
  | cons e es ih => simp [ih]

theorem zipSelf_map_snd : ∀ c : List Elem, (c.zip c).map Prod.snd = c := by
  intro c
  induction c with
  | nil => rfl
  | cons e es ih => simp [ih]

theorem zipSelf_mem_fst {p : Elem × Elem} {c : List Elem} (h : p ∈ c.zip c) :
    p.1 ∈ c := by
  cases p with
  | mk p1 p2 => exact (List.of_mem_zip h).1

theorem fixTablePost_self (c : List Elem)
    (h1 : ∀ ch ∈ c, emptyTbody ch = false)
    (h2 : hasHeadOrFoot c = true → c.any (fun ch => ch.tag = "tbody") = true) :
    fixTablePost (c.zip c) = c := by
  simp only [fixTablePost, zipSelf_map_fst]
  have hfil : (c.zip c).filter (fun p => !(emptyTbody p.1)) = c.zip c :=
    List.filter_eq_self.mpr (fun p hp => by simp [h1 p.1 (zipSelf_mem_fst hp)])
  by_cases hHF : hasHeadOrFoot c = true
  · rw [if_pos hHF, hfil, zipSelf_map_snd, if_pos (h2 hHF)]
  · rw [if_neg hHF]
    split
    · have hmap : ∀ p ∈ c.zip c,
          (if emptyTbody p.1 then p.2.withChildren (p.2.children ++ [newTr]) else p.2) =
          p.2 :=
        fun p hp => by rw [if_neg (by simp [h1 p.1 (zipSelf_mem_fst hp)])]
      rw [List.map_congr_left hmap]
      exact zipSelf_map_snd c
    · rw [hfil]
      exact zipSelf_map_snd c

theorem tableFixE_id : ∀ e : Elem, (∀ d ∈ preorder e, tblOkNode d) → tableFixE e = e := by
  refine strongInd (fun e => (∀ d ∈ preorder e, tblOkNode d) → tableFixE e = e) ?_
  intro t a x c ih h
  have hch : tableFixL c = c := by
    rw [tableFixL_eq]
    have hmem : ∀ ce ∈ c, tableFixE ce = ce := fun ce hce =>
      ih ce hce (fun d hd => h d (by
        rw [preorder_mk]
        exact List.mem_cons_of_mem _ (mem_preorderL.mpr ⟨ce, hce, hd⟩)))
    calc c.map tableFixE = c.map id := List.map_congr_left hmem
      _ = c := List.map_id c
  simp only [tableFixE]
  by_cases ht : t = "table"
  · rw [if_pos ht, hch]
    obtain ⟨hA, hB⟩ := h (.mk t a x c) (self_mem_preorder _) (by simpa using ht)
    rw [fixTablePost_self c (fun ch hc => hA ch hc) (fun hHF => hB hHF)]
  · rw [if_neg ht, hch]

theorem tableFix_noop (r : Elem) (h : ∀ d ∈ descendants r, tblOkNode d) :
    tableFix r = r := by
  unfold tableFix
  rw [tableFixL_eq]
  have hmem : ∀ ce ∈ r.children, tableFixE ce = ce := fun ce hce =>
    tableFixE_id ce (fun d hd => h d (mem_preorderL.mpr ⟨ce, hce, hd⟩))
  rw [List.map_congr_left hmem, List.map_id', withChildren_self]

/-! ### Metadata-stage no-op conditions -/

def JIOk (ji : Elem) : Prop :=
  strBlank ji.text = false ∧ ji.hasA "journal-id-type" = true

def JTGOk (g : Elem) : Prop :=
  (findPath (fun d => d.tag = "journal-title") g).isSome = true ∧
  (∀ pi jt, findPath (fun d => d.tag = "journal-title") g = some pi →
    getPath g pi = some jt → strBlank jt.text = false)

def IssnOk (sn : Elem) : Prop :=
  strBlank sn.text = false ∧ (sn.hasA "pub-type" || sn.hasA "publication-format") = true

def PubOk (pb : Elem) : Prop :=
  ∀ pi pn, findPath (fun d => d.tag = "publisher-name") pb = some pi →
    getPath pb pi = some pn → strBlank pn.text = false

def JMOk (jm : Elem) : Prop :=
  (∀ pi ji, findPath (fun d => d.tag = "journal-id") jm = some pi →
    getPath jm pi = some ji → JIOk ji) ∧
  (∀ pi g, findPath (fun d => d.tag = "journal-title-group") jm = some pi →
    getPath jm pi = some g → JTGOk g) ∧
  (∀ pi sn, findPath (fun d => d.tag = "issn") jm = some pi →
    getPath jm pi = some sn → IssnOk sn) ∧
  (∀ pi pb, findPath (fun d => d.tag = "publisher") jm = some pi →
    getPath jm pi = some pb → PubOk pb)

def AMOk (am : Elem) : Prop :=
  (hasDescTag am "title-group" = true ∨ hasDescTag am "permissions" = false) ∧
  hasDescTag am "article-categories" = true ∧
  hasDescTag am "pub-date" = true ∧
  (hasDescTag am "fpage" = true ∨ hasDescTag am "elocation-id" = true)

def FrontOk (fr : Elem) : Prop :=
  (∀ pi jm, findPath (fun d => d.tag = "journal-meta") fr = some pi →
    getPath fr pi = some jm → JMOk jm) ∧
  (∀ pi am, findPath (fun d => d.tag = "article-meta") fr = some pi →
    getPath fr pi = some am → AMOk am)

def MetaFixed (r : Elem) : Prop :=
  ∀ pi fr, findPath (fun d => d.tag = "front") r = some pi →
    getPath r pi = some fr → FrontOk fr

theorem hasDescTag_iff_findPath (e : Elem) (T : String) :
    hasDescTag e T = (findPath (fun d => d.tag = T) e).isSome := by
  rw [findPath_isSome]
  rfl

theorem fixJournalId_noop (ji : Elem) (h : JIOk ji) : fixJournalId ji = ji := by
  unfold fixJournalId
  rw [if_neg (by simp [h.1]), if_pos h.2]

theorem fixJTG_noop (g : Elem) (h : JTGOk g) : fixJTG g = g := by
  unfold fixJTG
  obtain ⟨hs, hall⟩ := h
  cases hfp : findPath (fun d => d.tag = "journal-title") g with
  | none =>
    rw [hfp] at hs
    simp at hs
  | some pi =>
    refine updatePath_eq_self _ pi g ?_
    intro x hx
    rw [if_neg (by simp [hall pi x hfp hx])]

theorem fixIssn_noop (sn : Elem) (h : IssnOk sn) : fixIssn sn = sn := by
  simp only [fixIssn]
  rw [show (if strBlank sn.text = true then sn.withText "0000-0000" else sn) = sn from by
    rw [if_neg (by simp [h.1])]]
  rw [if_pos h.2]

theorem fixPublisher_noop (pb : Elem) (h : PubOk pb) : fixPublisher pb = pb := by
  unfold fixPublisher
  refine updateFirst_eq_self _ _ pb ?_
  intro pi hfp x hx
  rw [if_neg (by simp [h pi x hfp hx])]

theorem fixJournalMeta_noop (jm : Elem) (h : JMOk jm) : fixJournalMeta jm = jm := by
  obtain ⟨h1, h2, h3, h4⟩ := h
  simp only [fixJournalMeta]
  rw [updateFirst_eq_self _ _ jm
    (fun pi hfp x hx => fixJournalId_noop x (h1 pi x hfp hx))]
  rw [updateFirst_eq_self _ _ jm
    (fun pi hfp x hx => fixJTG_noop x (h2 pi x hfp hx))]
  rw [updateFirst_eq_self _ _ jm
    (fun pi hfp x hx => fixIssn_noop x (h3 pi x hfp hx))]
  exact updateFirst_eq_self _ _ jm
    (fun pi hfp x hx => fixPublisher_noop x (h4 pi x hfp hx))

theorem tgStep_noop (am : Elem) (h : AMOk am) : tgStep am = .ok am := by
  unfold tgStep
  cases hA : findPath (fun d => d.tag = "permissions") am with
  | none => rfl
  | some pp =>
    cases hB : findPath (fun d => d.tag = "title-group") am with
    | some pi => rfl
    | none =>
      exfalso
      rcases h.1 with htg | hperm
      · rw [hasDescTag_iff_findPath, hB] at htg
        simp at htg
      · rw [hasDescTag_iff_findPath, hA] at hperm
        simp at hperm

theorem acStep_noop (articleType : String) (am : Elem) (h : AMOk am) :
    acStep articleType am = am := by
  unfold acStep
  cases hfp : findPath (fun d => d.tag = "article-categories") am with
  | some pi => rfl
  | none =>
    exfalso
    have hac := h.2.1
    rw [hasDescTag_iff_findPath, hfp] at hac
    simp at hac

theorem pubDateStep_noop (year : String) (am : Elem) (i : Nat) (h : AMOk am) :
    pubDateStep year am i = (am, i) := by
  unfold pubDateStep
  cases hfp : findPath (fun d => d.tag = "pub-date") am with
  | some pi => rfl
  | none =>
    exfalso
    have hpd := h.2.2.1
    rw [hasDescTag_iff_findPath, hfp] at hpd
    simp at hpd

theorem elocStep_noop (am : Elem) (i : Nat) (h : AMOk am) : elocStep am i = am := by
  unfold elocStep
  have hcond : ((findPath (fun d => d.tag = "fpage") am).isNone &&
      (findPath (fun d => d.tag = "elocation-id") am).isNone) = false := by
    rcases h.2.2.2 with hf | he
    · rw [hasDescTag_iff_findPath] at hf
      cases hfp : findPath (fun d => d.tag = "fpage") am with
      | none =>
        rw [hfp] at hf
        simp at hf
      | some pi => simp [hfp]
    · rw [hasDescTag_iff_findPath] at he
      cases hfp : findPath (fun d => d.tag = "elocation-id") am with
      | none =>
        rw [hfp] at he
        simp at he
      | some pi => simp [hfp]
  rw [if_neg (by simp [hcond])]

theorem fixArticleMeta_noop (articleType year : String) (am : Elem) (h : AMOk am) :
    fixArticleMeta articleType year am = .ok am := by
  unfold fixArticleMeta
  rw [tgStep_noop am h]
  have hac := acStep_noop articleType am h
  have hpd : ∀ i, pubDateStep year am i = (am, i) := fun i => pubDateStep_noop year am i h
  have hel : ∀ i, elocStep am i = am := fun i => elocStep_noop am i h
  simp only [Except.bind, bind, hac, hpd, hel]
  rfl

theorem fixFront_noop (articleType year : String) (fr : Elem) (h : FrontOk fr) :
    fixFront articleType year fr = .ok fr := by
  unfold fixFront
  rw [updateFirst_eq_self _ _ fr
    (fun pi hfp x hx => fixJournalMeta_noop x (h.1 pi x hfp hx))]
  exact updateFirstE_eq_self _ _ fr
    (fun pi hfp x hx => fixArticleMeta_noop articleType year x (h.2 pi x hfp hx))

theorem metaFix_noop (year : String) (r : Elem) (h : MetaFixed r) :
    metaFix year r = .ok r := by
  unfold metaFix
  exact updateFirstE_eq_self _ _ r (fun pi hfp x hx => fixFront_noop _ year x (h pi x hfp hx))

/-! ### Reference-id and xref no-op conditions -/

def RefOk (r : Elem) : Prop :=
  ∀ pb b, findPath (fun d => d.tag = "back") r = some pb → getPath r pb = some b →
  ∀ pr rl, findPath (fun d => d.tag = "ref-list") b = some pr → getPath b pr = some rl →
  ∀ d ∈ preorderL rl.children, d.tag = "ref" → d.hasA "id" = true

theorem numberRefsL_id_aux :
    ∀ (l : List Elem), (∀ e ∈ l, ∀ n, (numberRefsE e n).1 = e) →
    ∀ n, (numberRefsL l n).1 = l := by
  intro l
  induction l with
  | nil => intro _ n; rfl
  | cons e es ih =>
    intro hm n
    show (numberRefsE e n).1 :: (numberRefsL es (numberRefsE e n).2).1 = e :: es
    rw [hm e (List.mem_cons_self _ _) n,
      ih (fun z hz => hm z (List.mem_cons_of_mem _ hz)) _]

theorem numberRefs_id :
    ∀ e : Elem, (∀ d ∈ preorder e, d.tag = "ref" → d.hasA "id" = true) →
    ∀ n, (numberRefsE e n).1 = e := by
  refine strongInd (fun e => (∀ d ∈ preorder e, d.tag = "ref" → d.hasA "id" = true) →
    ∀ n, (numberRefsE e n).1 = e) ?_
  intro t a x c ih h n
  have hsub : ∀ z ∈ c, ∀ m, (numberRefsE z m).1 = z := fun z hz m =>
    ih z hz (fun d hd hdr => h d (by
      rw [preorder_mk]
      exact List.mem_cons_of_mem _ (mem_preorderL.mpr ⟨z, hz, hd⟩)) hdr) m
  simp only [numberRefsE]
  by_cases ht : t = "ref"
  · rw [if_pos ht]
    have hid : (getA a "id").isSome = true :=
      h (.mk t a x c) (self_mem_preorder _) (by simpa using ht)
    rw [if_pos hid]
    show Elem.mk t a x (numberRefsL c (n + 1)).1 = Elem.mk t a x c
    rw [numberRefsL_id_aux c hsub (n + 1)]
  · rw [if_neg ht]
    show Elem.mk t a x (numberRefsL c n).1 = Elem.mk t a x c
    rw [numberRefsL_id_aux c hsub n]

theorem refIdFix_noop (r : Elem) (h : RefOk r) : refIdFix r = r := by
  unfold refIdFix
  refine updateFirst_eq_self _ _ r ?_
  intro pb hfb b hgb
  refine updateFirst_eq_self _ _ b ?_
  intro pr hfr rl hgr
  have hnum : (numberRefsL rl.children 0).1 = rl.children :=
    numberRefsL_id_aux rl.children
      (fun z hz n => numberRefs_id z
        (fun d hd hdr =>
          h pb b hfb hgb pr rl hfr hgr d (mem_preorderL.mpr ⟨z, hz, hd⟩) hdr) n) 0
  rw [hnum, withChildren_self]

def XOk (r : Elem) : Prop :=
  ∀ e ∈ descendants r, e.tag = "xref" →
    e.hasA "ref-type" = true ∧
    (∀ alt, e.get "alt" = some alt → isDigits alt = true →
      1 ≤ strToNat alt → strToNat alt ≤ (bibRefs r).length →
      ∃ rid, e.get "rid" = some rid ∧
        (rid = "" ∨ (bibRefs r).any (fun rf => rf.get "id" = some rid) = true))

theorem referencedIds_ne_empty (r : Elem) : ¬ "" ∈ referencedIds r := by
  intro h
  simp only [referencedIds, List.mem_filterMap] at h
  obtain ⟨e, he, hval⟩ := h
  repeat' split at hval
  all_goals simp_all

theorem altRewrite_noop (r : Elem) (e : Elem) (he : e ∈ descendants r)
    (hx : e.tag = "xref") (h : XOk r) :
    altRewrite (bibRefs r) (referencedIds r) e = e := by
  obtain ⟨hrt, hdigit⟩ := h e he hx
  simp only [altRewrite]
  split
  · rename_i alt rid ha hridq
    split
    · rename_i hd
      split
      · rename_i hrange
        split
        · rename_i ref hget
          split
          · rename_i hcontra
            exfalso
            obtain ⟨rid0, hrid0, hcase⟩ := hdigit alt ha hd hrange.1 hrange.2
            rw [hridq] at hrid0
            simp only [Option.some.injEq] at hrid0
            subst hrid0
            rcases hcase with hempty | hany
            · rw [hempty] at hcontra
              exact referencedIds_ne_empty r hcontra.1
            · exact hcontra.2 hany
          · rfl
        · rfl
      · rfl
    · rfl
  · rfl

theorem refTypeRidFix_noop (r : Elem) (e : Elem) (he : e ∈ descendants r)
    (hx : e.tag = "xref") (h : XOk r) : refTypeRidFix (bibRefs r) e = e := by
  obtain ⟨hrt, hdigit⟩ := h e he hx
  simp only [refTypeRidFix]
  rw [if_pos hrt]
  by_cases hrid : e.hasA "rid" = true
  · rw [if_pos hrid]
  · rw [if_neg hrid]
    have hnone : e.get "rid" = none := by
      rcases hget : e.get "rid" with _ | v
      · rfl
      · exfalso
        exact hrid (by simp [hasA, hget])
    split
    · rename_i alt ha
      split
      · rename_i hd
        split
        · rename_i hrange
          exfalso
          obtain ⟨rid0, hrid0, _⟩ := hdigit alt ha hd hrange.1 hrange.2
          rw [hnone] at hrid0
          cases hrid0
        · rfl
      · rfl
    · rfl

theorem xrefFix_noop (r : Elem) (h : XOk r) : xrefFix r = r := by
  simp only [xrefFix]
  have h1 : mapDescendants
      (fun e => if e.tag = "xref" then altRewrite (bibRefs r) (referencedIds r) e else e)
      r = r := by
    refine mapDescendants_id_of _ r ?_
    intro d hd
    by_cases ht : d.tag = "xref"
    · rw [if_pos ht]
      exact altRewrite_noop r d hd ht h
    · rw [if_neg ht]
  rw [h1]
  refine mapDescendants_id_of _ r ?_
  intro d hd
  by_cases ht : d.tag = "xref"
  · rw [if_pos ht]
    exact refTypeRidFix_noop r d hd ht h
  · rw [if_neg ht]

/-! ### The first matching descendant as a node, and its behaviour under `Ext` -/

def findNode (p : Elem → Bool) (e : Elem) : Option Elem :=
  match findPath p e with
  | some pi => getPath e pi
  | none => none

def findNodeL (p : Elem → Bool) : List Elem → Option Elem
  | [] => none
  | e :: es =>
    if p e then some e
    else
      match findNode p e with
      | some x => some x
      | none => findNodeL p es

theorem findNode_of_findPath (p : Elem → Bool) (e : Elem) (pi : List Nat) (x : Elem)
    (h1 : findPath p e = some pi) (h2 : getPath e pi = some x) :
    findNode p e = some x := by
  unfold findNode
  rw [h1]
  exact h2

theorem findPath_of_findNode (p : Elem → Bool) (e x : Elem)
    (h : findNode p e = some x) :
    ∃ pi, findPath p e = some pi ∧ getPath e pi = some x := by
  unfold findNode at h
  cases hfp : findPath p e with
  | none => rw [hfp] at h; cases h
  | some pi =>
    rw [hfp] at h
    exact ⟨pi, rfl, h⟩

theorem findNode_none_of_findPath_none (p : Elem → Bool) (e : Elem)
    (h : findPath p e = none) : findNode p e = none := by
  unfold findNode
  rw [h]

theorem findPath_none_of_findNode_none (p : Elem → Bool) (e : Elem)
    (h : findNode p e = none) : findPath p e = none := by
  cases hfp : findPath p e with
  | none => rfl
  | some pi =>
    obtain ⟨x, hgx, hpx⟩ := findPath_getPath p e pi hfp
    rw [findNode_of_findPath p e pi x hfp hgx] at h
    cases h

theorem findNode_p (p : Elem → Bool) (e x : Elem) (h : findNode p e = some x) :
    p x = true := by
  obtain ⟨pi, hfp, hgp⟩ := findPath_of_findNode p e x h
  obtain ⟨x0, hgx0, hpx0⟩ := findPath_getPath p e pi hfp
  rw [hgx0] at hgp
  simp only [Option.some.injEq] at hgp
  subst hgp
  exact hpx0

theorem findNodeL_aux (p : Elem → Bool) :
    ∀ (c : List Elem) (k : Nat),
    (findPathL p c k = none ∧ findNodeL p c = none) ∨
    (∃ j rest ch, findPathL p c k = some ((k + j) :: rest) ∧ c.get? j = some ch ∧
      ((rest = [] ∧ findNodeL p c = some ch) ∨
       (∃ x, getPath ch rest = some x ∧ findNodeL p c = some x))) := by
  intro c
  induction c with
  | nil => intro k; exact Or.inl ⟨rfl, rfl⟩
  | cons e es ih =>
    intro k
    by_cases hp : p e = true
    · refine Or.inr ⟨0, [], e, ?_, rfl, Or.inl ⟨rfl, ?_⟩⟩
      · rw [findPathL, if_pos hp]
        simp
      · rw [findNodeL, if_pos hp]
    · cases hf : findPath p e with
      | some path =>
        obtain ⟨x, hgx, hpx⟩ := findPath_getPath p e path hf
        refine Or.inr ⟨0, path, e, ?_, rfl, Or.inr ⟨x, hgx, ?_⟩⟩
        · rw [findPathL, if_neg hp, hf]
          simp
        · rw [findNodeL, if_neg hp, findNode_of_findPath p e path x hf hgx]
      | none =>
        have hnode : findNode p e = none := findNode_none_of_findPath_none p e hf
        rcases ih (k + 1) with ⟨hfp, hfn⟩ | ⟨j, rest, ch, hfp, hget, hcase⟩
        · refine Or.inl ⟨?_, ?_⟩
          · rw [findPathL, if_neg hp, hf]
            exact hfp
          · rw [findNodeL, if_neg hp, hnode]
            exact hfn
        · refine Or.inr ⟨j + 1, rest, ch, ?_, hget, ?_⟩
          · rw [findPathL, if_neg hp, hf]
            rw [show k + (j + 1) = k + 1 + j from by omega]
            exact hfp
          · rcases hcase with ⟨hrest, hfn⟩ | ⟨x, hgx, hfn⟩
            · exact Or.inl ⟨hrest, by rw [findNodeL, if_neg hp, hnode]; exact hfn⟩
            · exact Or.inr ⟨x, hgx, by rw [findNodeL, if_neg hp, hnode]; exact hfn⟩

theorem findNode_mk (p : Elem → Bool) (t : String) (a : List (String × String))
    (xx : String) (c : List Elem) :
    findNode p (.mk t a xx c) = findNodeL p c := by
  rcases findNodeL_aux p c 0 with ⟨hfp, hfn⟩ | ⟨j, rest, ch, hfp, hget, hcase⟩
  · rw [hfn]
    exact findNode_none_of_findPath_none p _ hfp
  · rw [Nat.zero_add] at hfp
    have hget2 := hget
    rw [List.get?_eq_getElem?] at hget2
    rcases hcase with ⟨hrest, hfn⟩ | ⟨x, hgx, hfn⟩
    · subst hrest
      rw [hfn]
      refine findNode_of_findPath p _ [j] ch hfp ?_
      simp [getPath, hget2]
    · rw [hfn]
      refine findNode_of_findPath p _ (j :: rest) x hfp ?_
      simp [getPath, hget2, hgx]

theorem newOk_findPath_none (nts : List String) (T : String) (hT : ¬ T ∈ nts)
    (x : Elem) (hx : newOk nts x) : findPath (fun d => d.tag = T) x = none := by
  cases hfp : findPath (fun d => d.tag = T) x with
  | none => rfl
  | some pi =>
    exfalso
    obtain ⟨y, hgy, hpy⟩ := findPath_getPath _ x pi hfp
    have hyx : y ∈ preorder x := getPath_mem pi x y hgy
    have := hx y hyx
    rw [of_decide_eq_true hpy] at this
    exact hT this

theorem ExtL_findNodeL (nts txs ks : List String) (T : String) (hT : ¬ T ∈ nts) :
    ∀ (l2 l : List Elem), ExtL nts txs ks l l2 →
    (∀ e ∈ l, ∀ e2, Ext nts txs ks e e2 →
      ((findNode (fun d => d.tag = T) e = none ∧
        findNode (fun d => d.tag = T) e2 = none) ∨
       (∃ x y, findNode (fun d => d.tag = T) e = some x ∧
         findNode (fun d => d.tag = T) e2 = some y ∧ Ext nts txs ks x y))) →
    ((findNodeL (fun d => d.tag = T) l = none ∧
      findNodeL (fun d => d.tag = T) l2 = none) ∨
     (∃ x y, findNodeL (fun d => d.tag = T) l = some x ∧
       findNodeL (fun d => d.tag = T) l2 = some y ∧ Ext nts txs ks x y)) := by
  intro l2
  induction l2 with
  | nil =>
    intro l h _
    cases h
    exact Or.inl ⟨rfl, rfl⟩
  | cons e2 l2t ih =>
    intro l h hrec
    cases h with
    | keep e1 e2b l1t l2b he hl =>
      have htag : e2.tag = e1.tag := Ext_tag he
      by_cases hp : (decide (e1.tag = T) : Bool) = true
      · refine Or.inr ⟨e1, e2, ?_, ?_, he⟩
        · rw [findNodeL, if_pos hp]
        · rw [findNodeL, if_pos (by rw [htag]; exact hp)]
      · rcases hrec e1 (List.mem_cons_self _ _) e2 he with ⟨hn1, hn2⟩ | ⟨x, y, hs1, hs2, hxy⟩
        · rw [findNodeL, if_neg hp, hn1, findNodeL, if_neg (by rw [htag]; exact hp), hn2]
          exact ih l1t hl (fun z hz ez hez => hrec z (List.mem_cons_of_mem _ hz) ez hez)
        · refine Or.inr ⟨x, y, ?_, ?_, hxy⟩
          · rw [findNodeL, if_neg hp, hs1]
          · rw [findNodeL, if_neg (by rw [htag]; exact hp), hs2]
    | ins xx l1b l2b hnew hl =>
      have hpx : ¬ (decide (e2.tag = T) : Bool) = true := by
        simp only [decide_eq_true_eq]
        intro hc
        exact hT (hc ▸ hnew e2 (self_mem_preorder e2))
      have hnode : findNode (fun d => d.tag = T) e2 = none :=
        findNode_none_of_findPath_none _ e2 (newOk_findPath_none nts T hT e2 hnew)
      rcases ih l hl hrec with ⟨hn1, hn2⟩ | ⟨x, y, hs1, hs2, hxy⟩
      · refine Or.inl ⟨hn1, ?_⟩
        rw [findNodeL, if_neg hpx, hnode, hn2]
      · refine Or.inr ⟨x, y, hs1, ?_, hxy⟩
        rw [findNodeL, if_neg hpx, hnode, hs2]

theorem Ext_findNode (nts txs ks : List String) (T : String) (hT : ¬ T ∈ nts) :
    ∀ (a b : Elem), Ext nts txs ks a b →
    ((findNode (fun d => d.tag = T) a = none ∧
      findNode (fun d => d.tag = T) b = none) ∨
     (∃ x y, findNode (fun d => d.tag = T) a = some x ∧
       findNode (fun d => d.tag = T) b = some y ∧ Ext nts txs ks x y)) := by
  refine strongInd (fun a => ∀ b, Ext nts txs ks a b → _) ?_
  intro t a1 x1 c1 ih b hab
  cases b with
  | mk tb ab xb cb =>
    have hc : ExtL nts txs ks c1 cb := Ext_children hab
    rw [findNode_mk, findNode_mk]
    exact ExtL_findNodeL nts txs ks T hT cb c1 hc (fun e he e2 hee2 => ih e he e2 hee2)

theorem Ext_mem_fwd (nts txs ks : List String) :
    ∀ (a b : Elem), Ext nts txs ks a b →
    ∀ x ∈ preorder a, ∃ y ∈ preorder b, Ext nts txs ks x y := by
  refine strongInd (fun a => ∀ b, Ext nts txs ks a b →
    ∀ x ∈ preorder a, ∃ y ∈ preorder b, Ext nts txs ks x y) ?_
  intro t a1 x1 c1 ih b hab x hx
  rw [preorder_eq_cons] at hx
  rcases List.mem_cons.mp hx with rfl | hx
  · exact ⟨b, self_mem_preorder b, hab⟩
  · have hc : ExtL nts txs ks c1 b.children := Ext_children hab
    have haux : ∀ (l2 l : List Elem), ExtL nts txs ks l l2 →
        (∀ e ∈ l, ∀ e2, Ext nts txs ks e e2 →
          ∀ z ∈ preorder e, ∃ y ∈ preorder e2, Ext nts txs ks z y) →
        ∀ z ∈ preorderL l, ∃ y ∈ preorderL l2, Ext nts txs ks z y := by
      intro l2
      induction l2 with
      | nil =>
        intro l h _ z hz
        cases h
        simp [preorderL] at hz
      | cons e2 l2t ihl =>
        intro l h hrec z hz
        cases h with
        | keep e1 e2b l1t l2b he hl =>
          simp only [preorderL, List.mem_append] at hz ⊢
          rcases hz with hz | hz
          · obtain ⟨y, hy, hzy⟩ := hrec e1 (List.mem_cons_self _ _) e2 he z hz
            exact ⟨y, Or.inl hy, hzy⟩
          · obtain ⟨y, hy, hzy⟩ := ihl l1t hl
              (fun w hw ew hew => hrec w (List.mem_cons_of_mem _ hw) ew hew) z hz
            exact ⟨y, Or.inr hy, hzy⟩
        | ins xx l1b l2b hnew hl =>
          obtain ⟨y, hy, hzy⟩ := ihl l hl hrec z hz
          refine ⟨y, ?_, hzy⟩
          simp only [preorderL, List.mem_append]
          exact Or.inr hy
    obtain ⟨y, hy, hxy⟩ := haux b.children c1 hc (fun e he e2 hee2 => ih e he e2 hee2) x hx
    refine ⟨y, ?_, hxy⟩
    rw [preorder_eq_cons]
    exact List.mem_cons_of_mem _ hy

theorem ExtL_mem_child (nts txs ks : List String) :
    ∀ (l2 l : List Elem), ExtL nts txs ks l l2 →
    ∀ ch2 ∈ l2, (∃ ch ∈ l, Ext nts txs ks ch ch2) ∨ newOk nts ch2 := by
  intro l2
  induction l2 with
  | nil => intro l h ch2 hc; cases hc
  | cons e2 l2t ih =>
    intro l h ch2 hc
    cases h with
    | keep e1 e2b l1t l2b he hl =>
      rcases List.mem_cons.mp hc with rfl | hc
      · exact Or.inl ⟨e1, List.mem_cons_self _ _, he⟩
      · rcases ih l1t hl ch2 hc with ⟨ch, hch, hrel⟩ | hnew
        · exact Or.inl ⟨ch, List.mem_cons_of_mem _ hch, hrel⟩
        · exact Or.inr hnew
    | ins xx l1b l2b hnew hl =>
      rcases List.mem_cons.mp hc with rfl | hc
      · exact Or.inr hnew
      · exact ih l hl ch2 hc

theorem ExtL_any_fwd (nts txs ks : List String) (q : Elem → Bool)
    (hq : ∀ a b, Ext nts txs ks a b → q a = true → q b = true) :
    ∀ (l2 l : List Elem), ExtL nts txs ks l l2 → l.any q = true → l2.any q = true := by
  intro l2
  induction l2 with
  | nil => intro l h hq2; cases h; simpa using hq2
  | cons e2 l2t ih =>
    intro l h hany
    cases h with
    | keep e1 e2b l1t l2b he hl =>
      simp only [List.any_cons, Bool.or_eq_true] at hany ⊢
      rcases hany with hany | hany
      · exact Or.inl (hq e1 e2 he hany)
      · exact Or.inr (ih l1t hl hany)
    | ins xx l1b l2b hnew hl =>
      simp only [List.any_cons, Bool.or_eq_true]
      exact Or.inr (ih l hl hany)

theorem ExtL_mem_fwd (nts txs ks : List String) :
    ∀ (l2 l : List Elem), ExtL nts txs ks l l2 →
    ∀ x ∈ preorderL l, ∃ y ∈ preorderL l2, Ext nts txs ks x y := by
  intro l2
  induction l2 with
  | nil =>
    intro l h x hx
    cases h
    simp [preorderL] at hx
  | cons e2 l2t ihl =>
    intro l h x hx
    cases h with
    | keep e1 e2b l1t l2b he hl =>
      simp only [preorderL, List.mem_append] at hx ⊢
      rcases hx with hx | hx
      · obtain ⟨y, hy, hzy⟩ := Ext_mem_fwd nts txs ks e1 e2 he x hx
        exact ⟨y, Or.inl hy, hzy⟩
      · obtain ⟨y, hy, hzy⟩ := ihl l1t hl x hx
        exact ⟨y, Or.inr hy, hzy⟩
    | ins xx l1b l2b hnew hl =>
      obtain ⟨y, hy, hzy⟩ := ihl l hl x hx
      refine ⟨y, ?_, hzy⟩
      simp only [preorderL, List.mem_append]
      exact Or.inr hy

theorem Ext_hasDescTr_fwd {nts txs ks : List String} {a b : Elem}
    (h : Ext nts txs ks a b) (hd : hasDescTr a = true) : hasDescTr b = true := by
  simp only [hasDescTr, descendants, List.any_eq_true] at hd ⊢
  obtain ⟨x, hx, hxt⟩ := hd
  obtain ⟨y, hy, hxy⟩ := ExtL_mem_fwd nts txs ks b.children a.children (Ext_children h) x hx
  exact ⟨y, hy, by rw [Ext_tag hxy]; exact hxt⟩

/-! ### Transport of the no-op conditions along extension relations -/

theorem posOkNode_Ext {nts txs ks : List String} {x y : Elem} (h : Ext nts txs ks x y)
    (hk : ¬ "position" ∈ ks) (hx : posOkNode x) : posOkNode y := by
  intro hty
  rw [Ext_tag h] at hty
  obtain ⟨v, hv, hne⟩ := hx hty
  exact ⟨v, by rw [Ext_get h "position" hk]; exact hv, hne⟩

theorem posOk_ExtL {nts txs ks : List String} {l l2 : List Elem}
    (h : ExtL nts txs ks l l2) (hn : ¬ "table-wrap" ∈ nts) (hk : ¬ "position" ∈ ks)
    (hx : ∀ d ∈ preorderL l, posOkNode d) : ∀ d ∈ preorderL l2, posOkNode d := by
  intro d hd
  rcases ExtL_mem_full h d hd with ⟨x, hxm, hxy⟩ | hnew
  · exact posOkNode_Ext hxy hk (hx x hxm)
  · intro htag
    exact absurd (htag ▸ hnew d (self_mem_preorder d)) hn

theorem emptyTbody_false_Ext {nts txs ks : List String} {x y : Elem}
    (h : Ext nts txs ks x y) (hx : emptyTbody x = false) : emptyTbody y = false := by
  by_cases ht : y.tag = "tbody"
  · have htx : x.tag = "tbody" := by rw [← Ext_tag h]; exact ht
    have hdx : hasDescTr x = true := by simpa [emptyTbody, htx] using hx
    have hdy : hasDescTr y = true := Ext_hasDescTr_fwd h hdx
    simp [emptyTbody, hdy]
  · simp [emptyTbody, ht]

theorem tblOkNode_Ext {nts txs ks : List String} {x y : Elem} (h : Ext nts txs ks x y)
    (hn1 : ¬ "thead" ∈ nts) (hn2 : ¬ "tfoot" ∈ nts) (hn3 : ¬ "tbody" ∈ nts)
    (hx : tblOkNode x) : tblOkNode y := by
  intro hty
  have htx : x.tag = "table" := by rw [← Ext_tag h]; exact hty
  obtain ⟨hA, hB⟩ := hx htx
  have hc : ExtL nts txs ks x.children y.children := Ext_children h
  constructor
  · intro ch2 hch2
    rcases ExtL_mem_child nts txs ks _ _ hc ch2 hch2 with ⟨ch, hch, hrel⟩ | hnew
    · exact emptyTbody_false_Ext hrel (hA ch hch)
    · have hnt : ¬ ch2.tag = "tbody" :=
        fun hcon => hn3 (hcon ▸ hnew ch2 (self_mem_preorder ch2))
      simp [emptyTbody, hnt]
  · intro hHF
    have hHFx : hasHeadOrFoot x.children = true := by
      simp only [hasHeadOrFoot, Bool.or_eq_true, List.any_eq_true] at hHF ⊢
      rcases hHF with ⟨ch2, hch2, htag2⟩ | ⟨ch2, hch2, htag2⟩
      · rcases ExtL_mem_child nts txs ks _ _ hc ch2 hch2 with ⟨ch, hch, hrel⟩ | hnew
        · exact Or.inl ⟨ch, hch, by rw [← Ext_tag hrel]; exact htag2⟩
        · exact absurd ((of_decide_eq_true htag2) ▸ hnew ch2 (self_mem_preorder ch2)) hn1
      · rcases ExtL_mem_child nts txs ks _ _ hc ch2 hch2 with ⟨ch, hch, hrel⟩ | hnew
        · exact Or.inr ⟨ch, hch, by rw [← Ext_tag hrel]; exact htag2⟩
        · exact absurd ((of_decide_eq_true htag2) ▸ hnew ch2 (self_mem_preorder ch2)) hn2
    refine ExtL_any_fwd nts txs ks _ ?_ _ _ hc (hB hHFx)
    intro a2 b2 hab2 hq
    rw [tag_pred_congr "tbody" a2 b2 (Ext_tag hab2)]
    exact hq

theorem tblOk_ExtL {nts txs ks : List String} {l l2 : List Elem}
    (h : ExtL nts txs ks l l2) (hn1 : ¬ "thead" ∈ nts) (hn2 : ¬ "tfoot" ∈ nts)
    (hn3 : ¬ "tbody" ∈ nts) (hnt : ¬ "table" ∈ nts)
    (hx : ∀ d ∈ preorderL l, tblOkNode d) : ∀ d ∈ preorderL l2, tblOkNode d := by
  intro d hd
  rcases ExtL_mem_full h d hd with ⟨x, hxm, hxy⟩ | hnew
  · exact tblOkNode_Ext hxy hn1 hn2 hn3 (hx x hxm)
  · intro htag
    exact absurd (htag ▸ hnew d (self_mem_preorder d)) hnt

theorem Ext_hasDescTag_fwd {nts txs ks : List String} {a b : Elem}
    (h : Ext nts txs ks a b) {T : String} (hd : hasDescTag a T = true) :
    hasDescTag b T = true := by
  simp only [hasDescTag, descendants, List.any_eq_true] at hd ⊢
  obtain ⟨x, hx, hxt⟩ := hd
  obtain ⟨y, hy, hxy⟩ := ExtL_mem_fwd nts txs ks b.children a.children (Ext_children h) x hx
  exact ⟨y, hy, by rw [tag_pred_congr T x y (Ext_tag hxy)]; exact hxt⟩

theorem Ext_hasDescTag_none {nts txs ks : List String} {a b : Elem}
    (h : Ext nts txs ks a b) {T : String} (hT : ¬ T ∈ nts)
    (hd : hasDescTag a T = false) : hasDescTag b T = false := by
  by_cases hb : hasDescTag b T = true
  · exfalso
    simp only [hasDescTag, descendants, List.any_eq_true] at hb
    simp only [hasDescTag, descendants] at hd
    obtain ⟨y, hy, hyt⟩ := hb
    rcases ExtL_mem_full (Ext_children h) y hy with ⟨x, hxm, hxy⟩ | hnew
    · rw [tag_pred_congr T x y (Ext_tag hxy)] at hyt
      have hc : (preorderL a.children).any (fun d => decide (d.tag = T)) = true :=
        List.any_eq_true.mpr ⟨x, hxm, hyt⟩
      rw [hc] at hd
      cases hd
    · exact hT ((of_decide_eq_true hyt) ▸ hnew y (self_mem_preorder y))
  · simpa using hb

theorem AMOk_Ext {nts txs ks : List String} {x y : Elem} (h : Ext nts txs ks x y)
    (hperm : ¬ "permissions" ∈ nts) (hx : AMOk x) : AMOk y := by
  obtain ⟨h1, h2, h3, h4⟩ := hx
  refine ⟨?_, Ext_hasDescTag_fwd h h2, Ext_hasDescTag_fwd h h3, ?_⟩
  · rcases h1 with h1 | h1
    · exact Or.inl (Ext_hasDescTag_fwd h h1)
    · exact Or.inr (Ext_hasDescTag_none h hperm h1)
  · rcases h4 with h4 | h4
    · exact Or.inl (Ext_hasDescTag_fwd h h4)
    · exact Or.inr (Ext_hasDescTag_fwd h h4)

theorem firstFound_Ext {nts txs ks : List String} (T : String) (hT : ¬ T ∈ nts)
    {a b : Elem} (h : Ext nts txs ks a b) {pi : List Nat} {y : Elem}
    (hfp : findPath (fun d => d.tag = T) b = some pi) (hgp : getPath b pi = some y) :
    ∃ pia x, findPath (fun d => d.tag = T) a = some pia ∧ getPath a pia = some x ∧
      Ext nts txs ks x y ∧ x.tag = T := by
  have hfn : findNode (fun d => d.tag = T) b = some y :=
    findNode_of_findPath _ _ _ _ hfp hgp
  rcases Ext_findNode nts txs ks T hT a b h with ⟨_, hn2⟩ | ⟨x0, y0, hx0, hy0, hxy0⟩
  · rw [hn2] at hfn
    cases hfn
  · rw [hy0] at hfn
    simp only [Option.some.injEq] at hfn
    subst hfn
    obtain ⟨pia, hfa, hga⟩ := findPath_of_findNode _ _ _ hx0
    exact ⟨pia, x0, hfa, hga, hxy0, of_decide_eq_true (findNode_p _ _ _ hx0)⟩

theorem JIOk_Ext {nts txs ks : List String} {x y : Elem} (h : Ext nts txs ks x y)
    (htag : x.tag = "journal-id") (htx : ¬ "journal-id" ∈ txs)
    (hk : ¬ "journal-id-type" ∈ ks) (hx : JIOk x) : JIOk y := by
  refine ⟨?_, ?_⟩
  · rw [Ext_text h (by rw [htag]; exact htx)]
    exact hx.1
  · have := hx.2
    simp only [hasA, Elem.get] at this ⊢
    rw [show getA y.attrs "journal-id-type" = getA x.attrs "journal-id-type" from
      Ext_get h "journal-id-type" hk]
    exact this

theorem IssnOk_Ext {nts txs ks : List String} {x y : Elem} (h : Ext nts txs ks x y)
    (htag : x.tag = "issn") (htx : ¬ "issn" ∈ txs) (hk1 : ¬ "pub-type" ∈ ks)
    (hk2 : ¬ "publication-format" ∈ ks) (hx : IssnOk x) : IssnOk y := by
  refine ⟨?_, ?_⟩
  · rw [Ext_text h (by rw [htag]; exact htx)]
    exact hx.1
  · have := hx.2
    simp only [hasA, Elem.get] at this ⊢
    rw [show getA y.attrs "pub-type" = getA x.attrs "pub-type" from Ext_get h _ hk1]
    rw [show getA y.attrs "publication-format" = getA x.attrs "publication-format" from
      Ext_get h _ hk2]
    exact this

theorem JTGOk_Ext {nts txs ks : List String} {g g2 : Elem} (h : Ext nts txs ks g g2)
    (hn : ¬ "journal-title" ∈ nts) (htx : ¬ "journal-title" ∈ txs)
    (hx : JTGOk g) : JTGOk g2 := by
  obtain ⟨hs, hall⟩ := hx
  rcases Ext_findNode nts txs ks "journal-title" hn g g2 h with
    ⟨hg1, _⟩ | ⟨x0, y0, hx0, hy0, hxy0⟩
  · exfalso
    rw [findPath_none_of_findNode_none _ _ hg1] at hs
    simp at hs
  · obtain ⟨pi2, hfp2, _⟩ := findPath_of_findNode _ _ _ hy0
    refine ⟨by rw [hfp2]; rfl, ?_⟩
    intro pi jt hfp hgp
    obtain ⟨pia, xx0, hfa, hga, hrel, htag⟩ := firstFound_Ext "journal-title" hn h hfp hgp
    rw [Ext_text hrel (by rw [htag]; exact htx)]
    exact hall pia xx0 hfa hga

theorem PubOk_Ext {nts txs ks : List String} {pb pb2 : Elem} (h : Ext nts txs ks pb pb2)
    (hn : ¬ "publisher-name" ∈ nts) (htx : ¬ "publisher-name" ∈ txs)
    (hx : PubOk pb) : PubOk pb2 := by
  intro pi pn hfp hgp
  obtain ⟨pia, x0, hfa, hga, hrel, htag⟩ := firstFound_Ext "publisher-name" hn h hfp hgp
  rw [Ext_text hrel (by rw [htag]; exact htx)]
  exact hx pia x0 hfa hga

theorem JMOk_Ext {nts txs ks : List String} {jm jm2 : Elem} (h : Ext nts txs ks jm jm2)
    (c4 : ¬ "journal-id" ∈ nts) (c5 : ¬ "journal-id" ∈ txs)
    (c6 : ¬ "journal-id-type" ∈ ks)
    (c7 : ¬ "journal-title-group" ∈ nts) (c8 : ¬ "journal-title" ∈ nts)
    (c9 : ¬ "journal-title" ∈ txs)
    (c10 : ¬ "issn" ∈ nts) (c11 : ¬ "issn" ∈ txs) (c12 : ¬ "pub-type" ∈ ks)
    (c13 : ¬ "publication-format" ∈ ks) (c14 : ¬ "publisher" ∈ nts)
    (c15 : ¬ "publisher-name" ∈ nts) (c16 : ¬ "publisher-name" ∈ txs)
    (hx : JMOk jm) : JMOk jm2 := by
  obtain ⟨h1, h2, h3, h4⟩ := hx
  refine ⟨?_, ?_, ?_, ?_⟩
  · intro pi ji hfp hgp
    obtain ⟨pia, x0, hfa, hga, hrel, htag⟩ := firstFound_Ext "journal-id" c4 h hfp hgp
    exact JIOk_Ext hrel htag c5 c6 (h1 pia x0 hfa hga)
  · intro pi g hfp hgp
    obtain ⟨pia, x0, hfa, hga, hrel, _⟩ := firstFound_Ext "journal-title-group" c7 h hfp hgp
    exact JTGOk_Ext hrel c8 c9 (h2 pia x0 hfa hga)
  · intro pi sn hfp hgp
    obtain ⟨pia, x0, hfa, hga, hrel, htag⟩ := firstFound_Ext "issn" c10 h hfp hgp
    exact IssnOk_Ext hrel htag c11 c12 c13 (h3 pia x0 hfa hga)
  · intro pi pb hfp hgp
    obtain ⟨pia, x0, hfa, hga, hrel, _⟩ := firstFound_Ext "publisher" c14 h hfp hgp
    exact PubOk_Ext hrel c15 c16 (h4 pia x0 hfa hga)

theorem FrontOk_Ext {nts txs ks : List String} {fr fr2 : Elem} (h : Ext nts txs ks fr fr2)
    (c2 : ¬ "journal-meta" ∈ nts) (c3 : ¬ "article-meta" ∈ nts)
    (c4 : ¬ "journal-id" ∈ nts) (c5 : ¬ "journal-id" ∈ txs)
    (c6 : ¬ "journal-id-type" ∈ ks)
    (c7 : ¬ "journal-title-group" ∈ nts) (c8 : ¬ "journal-title" ∈ nts)
    (c9 : ¬ "journal-title" ∈ txs)
    (c10 : ¬ "issn" ∈ nts) (c11 : ¬ "issn" ∈ txs) (c12 : ¬ "pub-type" ∈ ks)
    (c13 : ¬ "publication-format" ∈ ks) (c14 : ¬ "publisher" ∈ nts)
    (c15 : ¬ "publisher-name" ∈ nts) (c16 : ¬ "publisher-name" ∈ txs)
    (c17 : ¬ "permissions" ∈ nts)
    (hx : FrontOk fr) : FrontOk fr2 := by
  refine ⟨?_, ?_⟩
  · intro pi jm hfp hgp
    obtain ⟨pia, x0, hfa, hga, hrel, _⟩ := firstFound_Ext "journal-meta" c2 h hfp hgp
    exact JMOk_Ext hrel c4 c5 c6 c7 c8 c9 c10 c11 c12 c13 c14 c15 c16
      (hx.1 pia x0 hfa hga)
  · intro pi am hfp hgp
    obtain ⟨pia, x0, hfa, hga, hrel, _⟩ := firstFound_Ext "article-meta" c3 h hfp hgp
    exact AMOk_Ext hrel c17 (hx.2 pia x0 hfa hga)

theorem MetaFixed_Ext {nts txs ks : List String} {a b : Elem} (h : Ext nts txs ks a b)
    (c1 : ¬ "front" ∈ nts)
    (c2 : ¬ "journal-meta" ∈ nts) (c3 : ¬ "article-meta" ∈ nts)
    (c4 : ¬ "journal-id" ∈ nts) (c5 : ¬ "journal-id" ∈ txs)
    (c6 : ¬ "journal-id-type" ∈ ks)
    (c7 : ¬ "journal-title-group" ∈ nts) (c8 : ¬ "journal-title" ∈ nts)
    (c9 : ¬ "journal-title" ∈ txs)
    (c10 : ¬ "issn" ∈ nts) (c11 : ¬ "issn" ∈ txs) (c12 : ¬ "pub-type" ∈ ks)
    (c13 : ¬ "publication-format" ∈ ks) (c14 : ¬ "publisher" ∈ nts)
    (c15 : ¬ "publisher-name" ∈ nts) (c16 : ¬ "publisher-name" ∈ txs)
    (c17 : ¬ "permissions" ∈ nts)
    (hx : MetaFixed a) : MetaFixed b := by
  intro pi fr hfp hgp
  obtain ⟨pia, x0, hfa, hga, hrel, _⟩ := firstFound_Ext "front" c1 h hfp hgp
  exact FrontOk_Ext hrel c2 c3 c4 c5 c6 c7 c8 c9 c10 c11 c12 c13 c14 c15 c16 c17
    (hx pia x0 hfa hga)

/-! ### Locating the first matching descendant before and after an update -/

theorem tag_updateFirst (p : Elem → Bool) (f : Elem → Elem) (e : Elem) :
    (updateFirst p f e).tag = e.tag := by
  unfold updateFirst
  cases hfp : findPath p e with
  | none => rfl
  | some pi =>
    cases pi with
    | nil => exact absurd rfl (findPath_ne_nil p e [] hfp)
    | cons i is =>
      cases e with
      | mk t a x c => rfl

theorem updateFirst_found (T : String) (f : Elem → Elem) (e : Elem)
    (hf : ∀ y, y.tag = T → (f y).tag = y.tag) :
    (findPath (fun d => d.tag = T) e = none ∧
      updateFirst (fun d => d.tag = T) f e = e) ∨
    (∃ pi x, findPath (fun d => d.tag = T) e = some pi ∧ getPath e pi = some x ∧
      x.tag = T ∧
      findPath (fun d => d.tag = T) (updateFirst (fun d => d.tag = T) f e) = some pi ∧
      getPath (updateFirst (fun d => d.tag = T) f e) pi = some (f x)) := by
  unfold updateFirst
  cases hfp : findPath (fun d => d.tag = T) e with
  | none => exact Or.inl ⟨rfl, rfl⟩
  | some pi =>
    obtain ⟨x, hgx, hpx⟩ := findPath_getPath _ e pi hfp
    have htag : x.tag = T := of_decide_eq_true hpx
    refine Or.inr ⟨pi, x, rfl, hgx, htag, ?_, getPath_updatePath f pi e x hgx⟩
    refine findPath_updatePath _ f (fun y2 z hzy => tag_pred_congr T y2 z hzy) pi e hfp ?_
    intro x2 hx2
    rw [hgx] at hx2
    simp only [Option.some.injEq] at hx2
    subst hx2
    exact hf x htag

theorem updateFirstE_found (T : String) (f : Elem → Except PErr Elem) (e out : Elem)
    (hf : ∀ y oy, f y = .ok oy → oy.tag = y.tag)
    (h : updateFirstE (fun d => d.tag = T) f e = .ok out) :
    (findPath (fun d => d.tag = T) e = none ∧ out = e) ∨
    (∃ pi x y, findPath (fun d => d.tag = T) e = some pi ∧ getPath e pi = some x ∧
      x.tag = T ∧ f x = .ok y ∧
      findPath (fun d => d.tag = T) out = some pi ∧ getPath out pi = some y) := by
  unfold updateFirstE at h
  cases hfp : findPath (fun d => d.tag = T) e with
  | none =>
    rw [hfp] at h
    simp only [pure, Except.pure, Except.ok.injEq] at h
    exact Or.inl ⟨rfl, h.symm⟩
  | some pi =>
    rw [hfp] at h
    rcases updatePathE_spec f pi e out h with ⟨hnone, rfl⟩ | ⟨x, y, hx, hfy, rfl⟩
    · obtain ⟨x0, hg0, _⟩ := findPath_getPath _ out pi hfp
      rw [hg0] at hnone
      cases hnone
    · obtain ⟨x0, hg0, hp0⟩ := findPath_getPath _ e pi hfp
      rw [hx] at hg0
      simp only [Option.some.injEq] at hg0
      refine Or.inr ⟨pi, x, y, rfl, hx, by rw [hg0]; exact of_decide_eq_true hp0,
        hfy, ?_, ?_⟩
      · refine findPath_updatePath _ _ (fun y2 z hzy => tag_pred_congr T y2 z hzy)
          pi e hfp ?_
        intro x2 hx2
        rw [hx] at hx2
        simp only [Option.some.injEq] at hx2
        subst hx2
        exact hf x y hfy
      · exact getPath_updatePath (fun _ => y) pi e x hx

theorem firstPred_of_found {P : Elem → Prop} {p : Elem → Bool} {b : Elem}
    {pi0 : List Nat} {x0 : Elem}
    (hfp0 : findPath p b = some pi0) (hgp0 : getPath b pi0 = some x0) (hP : P x0) :
    ∀ pi x, findPath p b = some pi → getPath b pi = some x → P x := by
  intro pi x hfp hgp
  rw [hfp0] at hfp
  simp only [Option.some.injEq] at hfp
  subst hfp
  rw [hgp0] at hgp
  simp only [Option.some.injEq] at hgp
  subst hgp
  exact hP

theorem firstPred_of_none {P : Elem → Prop} {p : Elem → Bool} {b : Elem}
    (hfp0 : findPath p b = none) :
    ∀ pi x, findPath p b = some pi → getPath b pi = some x → P x := by
  intro pi x hfp _
  rw [hfp0] at hfp
  cases hfp

/-! ### Transport of the individual journal-meta component conditions -/

theorem JIpart_Ext {nts txs ks : List String} {a b : Elem} (h : Ext nts txs ks a b)
    (c1 : ¬ "journal-id" ∈ nts) (c2 : ¬ "journal-id" ∈ txs)
    (c3 : ¬ "journal-id-type" ∈ ks)
    (hx : ∀ pi ji, findPath (fun d => d.tag = "journal-id") a = some pi →
      getPath a pi = some ji → JIOk ji) :
    ∀ pi ji, findPath (fun d => d.tag = "journal-id") b = some pi →
      getPath b pi = some ji → JIOk ji := by
  intro pi ji hfp hgp
  obtain ⟨pia, x0, hfa, hga, hrel, htag⟩ := firstFound_Ext "journal-id" c1 h hfp hgp
  exact JIOk_Ext hrel htag c2 c3 (hx pia x0 hfa hga)

theorem JTGpart_Ext {nts txs ks : List String} {a b : Elem} (h : Ext nts txs ks a b)
    (c1 : ¬ "journal-title-group" ∈ nts) (c2 : ¬ "journal-title" ∈ nts)
    (c3 : ¬ "journal-title" ∈ txs)
    (hx : ∀ pi g, findPath (fun d => d.tag = "journal-title-group") a = some pi →
      getPath a pi = some g → JTGOk g) :
    ∀ pi g, findPath (fun d => d.tag = "journal-title-group") b = some pi →
      getPath b pi = some g → JTGOk g := by
  intro pi g hfp hgp
  obtain ⟨pia, x0, hfa, hga, hrel, _⟩ := firstFound_Ext "journal-title-group" c1 h hfp hgp
  exact JTGOk_Ext hrel c2 c3 (hx pia x0 hfa hga)

theorem Issnpart_Ext {nts txs ks : List String} {a b : Elem} (h : Ext nts txs ks a b)
    (c1 : ¬ "issn" ∈ nts) (c2 : ¬ "issn" ∈ txs) (c3 : ¬ "pub-type" ∈ ks)
    (c4 : ¬ "publication-format" ∈ ks)
    (hx : ∀ pi sn, findPath (fun d => d.tag = "issn") a = some pi →
      getPath a pi = some sn → IssnOk sn) :
    ∀ pi sn, findPath (fun d => d.tag = "issn") b = some pi →
      getPath b pi = some sn → IssnOk sn := by
  intro pi sn hfp hgp
  obtain ⟨pia, x0, hfa, hga, hrel, htag⟩ := firstFound_Ext "issn" c1 h hfp hgp
  exact IssnOk_Ext hrel htag c2 c3 c4 (hx pia x0 hfa hga)

theorem Pubpart_Ext {nts txs ks : List String} {a b : Elem} (h : Ext nts txs ks a b)
    (c1 : ¬ "publisher" ∈ nts) (c2 : ¬ "publisher-name" ∈ nts)
    (c3 : ¬ "publisher-name" ∈ txs)
    (hx : ∀ pi pb, findPath (fun d => d.tag = "publisher") a = some pi →
      getPath a pi = some pb → PubOk pb) :
    ∀ pi pb, findPath (fun d => d.tag = "publisher") b = some pi →
      getPath b pi = some pb → PubOk pb := by
  intro pi pb hfp hgp
  obtain ⟨pia, x0, hfa, hga, hrel, _⟩ := firstFound_Ext "publisher" c1 h hfp hgp
  exact PubOk_Ext hrel c2 c3 (hx pia x0 hfa hga)

theorem JMpart_Ext {nts txs ks : List String} {a b : Elem} (h : Ext nts txs ks a b)
    (c2 : ¬ "journal-meta" ∈ nts)
    (c4 : ¬ "journal-id" ∈ nts) (c5 : ¬ "journal-id" ∈ txs)
    (c6 : ¬ "journal-id-type" ∈ ks)
    (c7 : ¬ "journal-title-group" ∈ nts) (c8 : ¬ "journal-title" ∈ nts)
    (c9 : ¬ "journal-title" ∈ txs)
    (c10 : ¬ "issn" ∈ nts) (c11 : ¬ "issn" ∈ txs) (c12 : ¬ "pub-type" ∈ ks)
    (c13 : ¬ "publication-format" ∈ ks) (c14 : ¬ "publisher" ∈ nts)
    (c15 : ¬ "publisher-name" ∈ nts) (c16 : ¬ "publisher-name" ∈ txs)
    (hx : ∀ pi jm, findPath (fun d => d.tag = "journal-meta") a = some pi →
      getPath a pi = some jm → JMOk jm) :
    ∀ pi jm, findPath (fun d => d.tag = "journal-meta") b = some pi →
      getPath b pi = some jm → JMOk jm := by
  intro pi jm hfp hgp
  obtain ⟨pia, x0, hfa, hga, hrel, _⟩ := firstFound_Ext "journal-meta" c2 h hfp hgp
  exact JMOk_Ext hrel c4 c5 c6 c7 c8 c9 c10 c11 c12 c13 c14 c15 c16 (hx pia x0 hfa hga)

/-! ### Tight extension relations for the single metadata steps -/

theorem Ext_fixJTG_gen (nts txs ks : List String) (hn : "journal-title" ∈ nts)
    (htx : "journal-title" ∈ txs) (y : Elem) : Ext nts txs ks y (fixJTG y) := by
  simp only [fixJTG]
  cases hfp : findPath (fun d => d.tag = "journal-title") y with
  | none =>
    rw [← insN_len (Elem.mk "journal-title" [] "Unknown Journal" []) y.children]
    refine Ext_insChild _ _ _ y _ _ ?_
    intro d hd
    fin_cases hd
    simpa using hn
  | some pi =>
    refine Ext_updatePath_at _ _ _ _ pi y ?_
    intro x hx
    obtain ⟨x0, hg0, hp0⟩ := findPath_getPath _ y pi hfp
    rw [hg0] at hx
    simp only [Option.some.injEq] at hx
    subst hx
    have htag : x0.tag = "journal-title" := of_decide_eq_true hp0
    split
    · exact Ext_withText_mem _ _ _ x0 _ (by rw [htag]; exact htx)
    · exact Ext_refl _ _ _ x0

theorem Ext_fixIssn_gen (nts txs ks : List String) (htx : "issn" ∈ txs)
    (hk : "pub-type" ∈ ks) (y : Elem) (ht : y.tag = "issn") :
    Ext nts txs ks y (fixIssn y) := by
  simp only [fixIssn]
  by_cases hb : strBlank y.text = true
  · rw [if_pos hb]
    have h1 : Ext nts txs ks y (y.withText "0000-0000") :=
      Ext_withText_mem _ _ _ y _ (by rw [ht]; exact htx)
    split
    · exact h1
    · exact Ext_trans _ _ _ _ _ _ h1 (Ext_set_mem _ _ _ _ "pub-type" "epub" hk)
  · rw [if_neg hb]
    split
    · exact Ext_refl _ _ _ y
    · exact Ext_set_mem _ _ _ y "pub-type" "epub" hk

theorem Ext_fixPublisher_gen (nts txs ks : List String) (htx : "publisher-name" ∈ txs)
    (y : Elem) : Ext nts txs ks y (fixPublisher y) := by
  unfold fixPublisher
  refine Ext_updateFirst_tag _ _ _ "publisher-name" _ ?_ y
  intro z hz
  split
  · exact Ext_withText_mem _ _ _ z _ (by rw [hz]; exact htx)
  · exact Ext_refl _ _ _ z

theorem Ext_jmStep2 (jm : Elem) :
    Ext ["journal-title"] ["journal-title"] [] jm
      (updateFirst (fun d => d.tag = "journal-title-group") fixJTG jm) :=
  Ext_updateFirst_tag _ _ _ "journal-title-group" fixJTG
    (fun z _ => Ext_fixJTG_gen _ _ _ (by simp) (by simp) z) jm

theorem Ext_jmStep3 (jm : Elem) :
    Ext [] ["issn"] ["pub-type"] jm (updateFirst (fun d => d.tag = "issn") fixIssn jm) :=
  Ext_updateFirst_tag _ _ _ "issn" fixIssn
    (fun z hz => Ext_fixIssn_gen _ _ _ (by simp) (by simp) z hz) jm

theorem Ext_jmStep4 (jm : Elem) :
    Ext [] ["publisher-name"] [] jm
      (updateFirst (fun d => d.tag = "publisher") fixPublisher jm) :=
  Ext_updateFirst_tag _ _ _ "publisher" fixPublisher
    (fun z _ => Ext_fixPublisher_gen _ _ _ (by simp) z) jm

/-! ### Tight extension relation for the article-meta completion -/

def amNewTags : List String :=
  ["title-group", "article-title", "article-categories", "subj-group", "subject",
   "pub-date", "year", "elocation-id"]

theorem newOk_am_newTitleGroup : newOk amNewTags newTitleGroup := by
  intro d hd
  fin_cases hd <;> simp [amNewTags, tag]

theorem newOk_am_newArticleCategories (articleType : String) :
    newOk amNewTags (newArticleCategories articleType) := by
  intro d hd
  fin_cases hd <;> simp [amNewTags, tag]

theorem newOk_am_newPubDate (year : String) : newOk amNewTags (newPubDate year) := by
  intro d hd
  fin_cases hd <;> simp [amNewTags, tag]

theorem newOk_am_newElocation : newOk amNewTags newElocation := by
  intro d hd
  fin_cases hd <;> simp [amNewTags, tag]

theorem Ext_tgStep_am (y out : Elem) (h : tgStep y = .ok out) :
    Ext amNewTags [] [] y out := by
  unfold tgStep at h
  repeat' split at h
  any_goals exact Except.noConfusion h
  all_goals simp only [pure, Except.pure, Except.ok.injEq] at h
  all_goals subst h
  all_goals first
    | exact Ext_refl _ _ _ y
    | exact Ext_insChild _ _ _ y newTitleGroup _ newOk_am_newTitleGroup

theorem Ext_acStep_am (articleType : String) (y : Elem) :
    Ext amNewTags [] [] y (acStep articleType y) := by
  unfold acStep
  cases hfp : findPath (fun d => d.tag = "article-categories") y with
  | none => exact Ext_insChild _ _ _ y _ 0 (newOk_am_newArticleCategories articleType)
  | some pi => exact Ext_refl _ _ _ y

theorem Ext_pubDateStep_am (year : String) (y : Elem) (i : Nat) :
    Ext amNewTags [] [] y (pubDateStep year y i).1 := by
  unfold pubDateStep
  cases hfp : findPath (fun d => d.tag = "pub-date") y with
  | none => exact Ext_insChild _ _ _ y _ i (newOk_am_newPubDate year)
  | some pi => exact Ext_refl _ _ _ y

theorem Ext_elocStep_am (y : Elem) (i : Nat) :
    Ext amNewTags [] [] y (elocStep y i) := by
  unfold elocStep
  split
  · exact Ext_insChild _ _ _ y newElocation i newOk_am_newElocation
  · exact Ext_refl _ _ _ y

theorem Ext_fixArticleMeta_am (articleType year : String) (y out : Elem)
    (h : fixArticleMeta articleType year y = .ok out) :
    Ext amNewTags [] [] y out := by
  unfold fixArticleMeta at h
  cases htg : tgStep y with
  | error err => rw [htg] at h; simp [Except.bind, bind] at h
  | ok am1 =>
    rw [htg] at h
    simp only [Except.bind, bind, pure, Except.pure, Except.ok.injEq] at h
    subst h
    have e1 := Ext_tgStep_am y am1 htg
    have e2 := Ext_acStep_am articleType am1
    have e3 := Ext_pubDateStep_am year (acStep articleType am1)
      (baseIdx (acStep articleType am1) +
        scanLen ["contrib-group", "aff", "author-notes"]
          ((acStep articleType am1).children.drop (baseIdx (acStep articleType am1))))
    have e4 := Ext_elocStep_am
      (pubDateStep year (acStep articleType am1)
        (baseIdx (acStep articleType am1) +
          scanLen ["contrib-group", "aff", "author-notes"]
            ((acStep articleType am1).children.drop (baseIdx (acStep articleType am1))))).1
      ((pubDateStep year (acStep articleType am1)
        (baseIdx (acStep articleType am1) +
          scanLen ["contrib-group", "aff", "author-notes"]
            ((acStep articleType am1).children.drop (baseIdx (acStep articleType am1))))).2 +
        scanLen ["volume", "issue"]
          ((pubDateStep year (acStep articleType am1)
            (baseIdx (acStep articleType am1) +
              scanLen ["contrib-group", "aff", "author-notes"]
                ((acStep articleType am1).children.drop
                  (baseIdx (acStep articleType am1))))).1.children.drop
            ((pubDateStep year (acStep articleType am1)
              (baseIdx (acStep articleType am1) +
                scanLen ["contrib-group", "aff", "author-notes"]
                  ((acStep articleType am1).children.drop
                    (baseIdx (acStep articleType am1))))).2)))
    exact Ext_trans _ _ _ _ _ _ e1 (Ext_trans _ _ _ _ _ _ e2 (Ext_trans _ _ _ _ _ _ e3 e4))

/-! ### The journal-meta fixers establish their component conditions -/

theorem tag_fixJournalId (y : Elem) : (fixJournalId y).tag = y.tag := by
  unfold fixJournalId
  repeat' split
  all_goals simp

theorem tag_fixJTG (y : Elem) : (fixJTG y).tag = y.tag := by
  unfold fixJTG
  cases hfp : findPath (fun d => d.tag = "journal-title") y with
  | none => simp
  | some pi =>
    cases pi with
    | nil => exact absurd rfl (findPath_ne_nil _ y [] hfp)
    | cons i is =>
      cases y with
      | mk t a x c => rfl

theorem tag_fixIssn (y : Elem) : (fixIssn y).tag = y.tag := by
  simp only [fixIssn]
  repeat' split
  all_goals simp

theorem tag_fixPublisher (y : Elem) : (fixPublisher y).tag = y.tag := by
  unfold fixPublisher
  exact tag_updateFirst _ _ y

theorem tag_fixJournalMeta (y : Elem) : (fixJournalMeta y).tag = y.tag := by
  simp only [fixJournalMeta]
  rw [tag_updateFirst, tag_updateFirst, tag_updateFirst, tag_updateFirst]

theorem getPath_mem_descendants (i : Nat) (is : List Nat) (e x : Elem)
    (h : getPath e (i :: is) = some x) : x ∈ descendants e := by
  simp only [getPath] at h
  cases hget : e.children.get? i with
  | none => rw [hget] at h; cases h
  | some ch =>
    rw [hget] at h
    have hch : ch ∈ e.children := by
      rcases List.get?_eq_some.mp hget with ⟨hlt, hvl⟩
      exact hvl ▸ List.get_mem _ i hlt
    exact mem_preorderL.mpr ⟨ch, hch, getPath_mem is ch x h⟩

theorem JIOk_fixJournalId (ji : Elem) : JIOk (fixJournalId ji) := by
  unfold fixJournalId JIOk
  by_cases hb : strBlank ji.text = true
  · rw [if_pos hb]
    constructor
    · simp only [text_withText]
      decide
    · simp [hasA, Elem.get, Elem.set, getA_setA_self]
  · rw [if_neg hb]
    by_cases hA : ji.hasA "journal-id-type" = true
    · rw [if_pos hA]
      exact ⟨by simpa using hb, hA⟩
    · rw [if_neg hA]
      constructor
      · simpa using hb
      · simp [hasA, Elem.get, Elem.set, getA_setA_self]

theorem JTGOk_fixJTG (g : Elem) : JTGOk (fixJTG g) := by
  unfold fixJTG
  cases hfp : findPath (fun d => d.tag = "journal-title") g with
  | none =>
    have hnone : ∀ d ∈ descendants g, ¬ d.tag = "journal-title" := by
      intro d hd htag
      have hs := findPath_isSome (fun d => d.tag = "journal-title") g
      rw [hfp] at hs
      have hany : (descendants g).any (fun d => decide (d.tag = "journal-title")) = true :=
        List.any_eq_true.mpr ⟨d, hd, by simp [htag]⟩
      rw [hany] at hs
      simp at hs
    constructor
    · rw [← hasDescTag_iff_findPath]
      simp only [hasDescTag, descendants, children_withChildren]
      refine List.any_eq_true.mpr
        ⟨Elem.mk "journal-title" [] "Unknown Journal" [], ?_, by simp⟩
      refine mem_preorderL.mpr ⟨Elem.mk "journal-title" [] "Unknown Journal" [], ?_,
        self_mem_preorder _⟩
      exact List.mem_append_right _ (List.mem_singleton.mpr rfl)
    · intro pi jt hfp2 hgp2
      obtain ⟨x0, hg0, hp0⟩ := findPath_getPath _ _ pi hfp2
      rw [hg0] at hgp2
      simp only [Option.some.injEq] at hgp2
      subst hgp2
      obtain ⟨j, js, rfl⟩ : ∃ j js, pi = j :: js := by
        cases pi with
        | nil => exact absurd rfl (findPath_ne_nil _ _ [] hfp2)
        | cons j js => exact ⟨j, js, rfl⟩
      have hmem := getPath_mem_descendants j js _ _ hg0
      simp only [descendants, children_withChildren, preorderL_append] at hmem
      rcases List.mem_append.mp hmem with hmem | hmem
      · exact absurd (of_decide_eq_true hp0) (hnone x0 hmem)
      · have hx0 : x0 = Elem.mk "journal-title" [] "Unknown Journal" [] := by
          simpa [preorderL, preorder] using hmem
        subst hx0
        decide
  | some pi =>
    obtain ⟨x0, hg0, hp0⟩ := findPath_getPath _ g pi hfp
    have hfp1 : findPath (fun d => d.tag = "journal-title")
        (updatePath
          (fun jt => if strBlank jt.text then jt.withText "Unknown Journal" else jt)
          g pi) = some pi := by
      refine findPath_updatePath _ _ (fun y2 z hzy => tag_pred_congr _ y2 z hzy) pi g hfp ?_
      intro x2 hx2
      rw [hg0] at hx2
      simp only [Option.some.injEq] at hx2
      subst hx2
      split
      · simp
      · rfl
    have hgp1 := getPath_updatePath
      (fun jt => if strBlank jt.text then jt.withText "Unknown Journal" else jt) pi g x0 hg0
    constructor
    · rw [hfp1]
      rfl
    · refine firstPred_of_found hfp1 hgp1 ?_
      show strBlank (if strBlank x0.text = true then x0.withText "Unknown Journal"
        else x0).text = false
      split
      · simp only [text_withText]
        decide
      · rename_i hnb
        simpa using hnb

theorem IssnOk_fixIssn (sn : Elem) : IssnOk (fixIssn sn) := by
  simp only [fixIssn, IssnOk]
  by_cases hb : strBlank sn.text = true
  · rw [if_pos hb]
    by_cases hA : ((sn.withText "0000-0000").hasA "pub-type" ||
        (sn.withText "0000-0000").hasA "publication-format") = true
    · rw [if_pos hA]
      constructor
      · simp only [text_withText]
        decide
      · exact hA
    · rw [if_neg hA]
      constructor
      · simp only [text_set, text_withText]
        decide
      · simp [hasA, Elem.get, Elem.set, getA_setA_self]
  · rw [if_neg hb]
    by_cases hA : (sn.hasA "pub-type" || sn.hasA "publication-format") = true
    · rw [if_pos hA]
      exact ⟨by simpa using hb, hA⟩
    · rw [if_neg hA]
      constructor
      · simpa using hb
      · simp [hasA, Elem.get, Elem.set, getA_setA_self]

theorem PubOk_fixPublisher (pb : Elem) : PubOk (fixPublisher pb) := by
  unfold fixPublisher
  rcases updateFirst_found "publisher-name"
      (fun pn => if strBlank pn.text then pn.withText "Unknown Publisher" else pn) pb
      (fun y _ => by
        show (if strBlank y.text = true then y.withText "Unknown Publisher" else y).tag =
          y.tag
        split <;> simp) with
    ⟨hn, heq⟩ | ⟨pi0, x0, hfp0, hgp0, htag0, hfp1, hgp1⟩
  · rw [heq]
    exact firstPred_of_none hn
  · refine firstPred_of_found hfp1 hgp1 ?_
    show strBlank (if strBlank x0.text = true then x0.withText "Unknown Publisher"
      else x0).text = false
    split
    · simp only [text_withText]
      decide
    · rename_i hnb
      simpa using hnb

theorem JMOk_fixJournalMeta (jm : Elem) : JMOk (fixJournalMeta jm) := by
  have hji1 : ∀ pi ji, findPath (fun d => d.tag = "journal-id")
      (updateFirst (fun d => d.tag = "journal-id") fixJournalId jm) = some pi →
      getPath (updateFirst (fun d => d.tag = "journal-id") fixJournalId jm) pi = some ji →
      JIOk ji := by
    rcases updateFirst_found "journal-id" fixJournalId jm (fun y _ => tag_fixJournalId y) with
      ⟨hn, heq⟩ | ⟨pi0, x0, hfp0, hgp0, htag0, hfp1, hgp1⟩
    · rw [heq]
      exact firstPred_of_none hn
    · exact firstPred_of_found hfp1 hgp1 (JIOk_fixJournalId x0)
  have hji2 := JIpart_Ext (Ext_jmStep2 _) (by simp) (by simp) (by simp) hji1
  have hji3 := JIpart_Ext (Ext_jmStep3 _) (by simp) (by simp) (by simp) hji2
  have hji4 := JIpart_Ext (Ext_jmStep4 _) (by simp) (by simp) (by simp) hji3
  have hjtg2 : ∀ pi g, findPath (fun d => d.tag = "journal-title-group")
      (updateFirst (fun d => d.tag = "journal-title-group") fixJTG
        (updateFirst (fun d => d.tag = "journal-id") fixJournalId jm)) = some pi →
      getPath (updateFirst (fun d => d.tag = "journal-title-group") fixJTG
        (updateFirst (fun d => d.tag = "journal-id") fixJournalId jm)) pi = some g →
      JTGOk g := by
    rcases updateFirst_found "journal-title-group" fixJTG
        (updateFirst (fun d => d.tag = "journal-id") fixJournalId jm)
        (fun y _ => tag_fixJTG y) with
      ⟨hn, heq⟩ | ⟨pi0, x0, hfp0, hgp0, htag0, hfp1, hgp1⟩
    · rw [heq]
      exact firstPred_of_none hn
    · exact firstPred_of_found hfp1 hgp1 (JTGOk_fixJTG x0)
  have hjtg3 := JTGpart_Ext (Ext_jmStep3 _) (by simp) (by simp) (by simp) hjtg2
  have hjtg4 := JTGpart_Ext (Ext_jmStep4 _) (by simp) (by simp) (by simp) hjtg3
  have hsn3 : ∀ pi sn, findPath (fun d => d.tag = "issn")
      (updateFirst (fun d => d.tag = "issn") fixIssn
        (updateFirst (fun d => d.tag = "journal-title-group") fixJTG
          (updateFirst (fun d => d.tag = "journal-id") fixJournalId jm))) = some pi →
      getPath (updateFirst (fun d => d.tag = "issn") fixIssn
        (updateFirst (fun d => d.tag = "journal-title-group") fixJTG
          (updateFirst (fun d => d.tag = "journal-id") fixJournalId jm))) pi = some sn →
      IssnOk sn := by
    rcases updateFirst_found "issn" fixIssn
        (updateFirst (fun d => d.tag = "journal-title-group") fixJTG
          (updateFirst (fun d => d.tag = "journal-id") fixJournalId jm))
        (fun y _ => tag_fixIssn y) with
      ⟨hn, heq⟩ | ⟨pi0, x0, hfp0, hgp0, htag0, hfp1, hgp1⟩
    · rw [heq]
      exact firstPred_of_none hn
    · exact firstPred_of_found hfp1 hgp1 (IssnOk_fixIssn x0)
  have hsn4 := Issnpart_Ext (Ext_jmStep4 _) (by simp) (by simp) (by simp) (by simp) hsn3
  have hpb4 : ∀ pi pb, findPath (fun d => d.tag = "publisher")
      (updateFirst (fun d => d.tag = "publisher") fixPublisher
        (updateFirst (fun d => d.tag = "issn") fixIssn
          (updateFirst (fun d => d.tag = "journal-title-group") fixJTG
            (updateFirst (fun d => d.tag = "journal-id") fixJournalId jm)))) = some pi →
      getPath (updateFirst (fun d => d.tag = "publisher") fixPublisher
        (updateFirst (fun d => d.tag = "issn") fixIssn
          (updateFirst (fun d => d.tag = "journal-title-group") fixJTG
            (updateFirst (fun d => d.tag = "journal-id") fixJournalId jm)))) pi = some pb →
      PubOk pb := by
    rcases updateFirst_found "publisher" fixPublisher
        (updateFirst (fun d => d.tag = "issn") fixIssn
          (updateFirst (fun d => d.tag = "journal-title-group") fixJTG
            (updateFirst (fun d => d.tag = "journal-id") fixJournalId jm)))
        (fun y _ => tag_fixPublisher y) with
      ⟨hn, heq⟩ | ⟨pi0, x0, hfp0, hgp0, htag0, hfp1, hgp1⟩
    · rw [heq]
      exact firstPred_of_none hn
    · exact firstPred_of_found hfp1 hgp1 (PubOk_fixPublisher x0)
  simp only [fixJournalMeta]
  exact ⟨hji4, hjtg4, hsn4, hpb4⟩

/-! ### The article-meta completion establishes the presence conditions -/

theorem insN_mem_self (x : Elem) : ∀ (l : List Elem) (i : Nat), x ∈ insN x l i := by
  intro l
  induction l with
  | nil =>
    intro i
    cases i with
    | zero => exact List.mem_singleton.mpr rfl
    | succ n => exact List.mem_singleton.mpr rfl
  | cons e es ih =>
    intro i
    cases i with
    | zero => exact List.mem_cons_self _ _
    | succ n => exact List.mem_cons_of_mem _ (ih n)

theorem hasDescTag_insert (am x : Elem) (i : Nat) (T : String) (hx : x.tag = T) :
    hasDescTag (am.withChildren (insN x am.children i)) T = true := by
  simp only [hasDescTag, descendants, children_withChildren]
  exact List.any_eq_true.mpr
    ⟨x, mem_preorderL.mpr ⟨x, insN_mem_self x _ i, self_mem_preorder x⟩, by simp [hx]⟩

theorem tgStep_post (am am1 : Elem) (h : tgStep am = .ok am1) :
    hasDescTag am1 "title-group" = true ∨ hasDescTag am1 "permissions" = false := by
  unfold tgStep at h
  cases hA : findPath (fun d => d.tag = "permissions") am with
  | none =>
    cases hB : findPath (fun d => d.tag = "title-group") am with
    | none =>
      simp only [hA, hB, pure, Except.pure, Except.ok.injEq] at h
      subst h
      refine Or.inr ?_
      rw [hasDescTag_iff_findPath, hA]
      rfl
    | some pb =>
      simp only [hA, hB, pure, Except.pure, Except.ok.injEq] at h
      subst h
      refine Or.inr ?_
      rw [hasDescTag_iff_findPath, hA]
      rfl
  | some pp =>
    cases hB : findPath (fun d => d.tag = "title-group") am with
    | some pb =>
      simp only [hA, hB, pure, Except.pure, Except.ok.injEq] at h
      subst h
      refine Or.inl ?_
      rw [hasDescTag_iff_findPath, hB]
      rfl
    | none =>
      simp only [hA, hB] at h
      cases pp with
      | nil => exact Except.noConfusion h
      | cons i rest =>
        cases rest with
        | nil =>
          simp only [pure, Except.pure, Except.ok.injEq] at h
          subst h
          exact Or.inl (hasDescTag_insert am newTitleGroup i "title-group" rfl)
        | cons j rest2 => exact Except.noConfusion h

theorem acStep_post (aty : String) (am : Elem) :
    hasDescTag (acStep aty am) "article-categories" = true := by
  unfold acStep
  cases hfp : findPath (fun d => d.tag = "article-categories") am with
  | none => exact hasDescTag_insert am _ 0 "article-categories" rfl
  | some pi =>
    rw [hasDescTag_iff_findPath, hfp]
    rfl

theorem pubDateStep_post (yr : String) (am : Elem) (i : Nat) :
    hasDescTag (pubDateStep yr am i).1 "pub-date" = true := by
  unfold pubDateStep
  cases hfp : findPath (fun d => d.tag = "pub-date") am with
  | none => exact hasDescTag_insert am _ i "pub-date" rfl
  | some pi =>
    rw [hasDescTag_iff_findPath, hfp]
    rfl

theorem elocStep_post (am : Elem) (i : Nat) :
    hasDescTag (elocStep am i) "fpage" = true ∨
    hasDescTag (elocStep am i) "elocation-id" = true := by
  unfold elocStep
  split
  · exact Or.inr (hasDescTag_insert am newElocation i "elocation-id" rfl)
  · rename_i hcond
    rcases hfp : findPath (fun d => d.tag = "fpage") am with _ | pf
    · rcases hfe : findPath (fun d => d.tag = "elocation-id") am with _ | pe
      · exfalso
        exact hcond (by rw [hfp, hfe]; rfl)
      · refine Or.inr ?_
        rw [hasDescTag_iff_findPath, hfe]
        rfl
    · refine Or.inl ?_
      rw [hasDescTag_iff_findPath, hfp]
      rfl

theorem AMOk_steps (aty yr : String) (am1 : Elem) (i1 i2 : Nat)
    (h1 : hasDescTag am1 "title-group" = true ∨ hasDescTag am1 "permissions" = false) :
    AMOk (elocStep (pubDateStep yr (acStep aty am1) i1).1 i2) := by
  have hE2 : Ext amNewTags [] [] am1 (acStep aty am1) := Ext_acStep_am aty am1
  have hE3 : Ext amNewTags [] [] (acStep aty am1) (pubDateStep yr (acStep aty am1) i1).1 :=
    Ext_pubDateStep_am yr (acStep aty am1) i1
  have hE4 : Ext amNewTags [] [] (pubDateStep yr (acStep aty am1) i1).1
      (elocStep (pubDateStep yr (acStep aty am1) i1).1 i2) :=
    Ext_elocStep_am (pubDateStep yr (acStep aty am1) i1).1 i2
  have hperm : ¬ "permissions" ∈ amNewTags := by simp [amNewTags]
  refine ⟨?_, ?_, ?_, ?_⟩
  · rcases h1 with h1 | h1
    · exact Or.inl
        (Ext_hasDescTag_fwd hE4 (Ext_hasDescTag_fwd hE3 (Ext_hasDescTag_fwd hE2 h1)))
    · exact Or.inr (Ext_hasDescTag_none hE4 hperm
        (Ext_hasDescTag_none hE3 hperm (Ext_hasDescTag_none hE2 hperm h1)))
  · exact Ext_hasDescTag_fwd hE4 (Ext_hasDescTag_fwd hE3 (acStep_post aty am1))
  · exact Ext_hasDescTag_fwd hE4 (pubDateStep_post yr (acStep aty am1) i1)
  · exact elocStep_post (pubDateStep yr (acStep aty am1) i1).1 i2

theorem AMOk_fixArticleMeta (aty yr : String) (am out : Elem)
    (h : fixArticleMeta aty yr am = .ok out) : AMOk out := by
  unfold fixArticleMeta at h
  cases htg : tgStep am with
  | error err => rw [htg] at h; simp [Except.bind, bind] at h
  | ok am1 =>
    rw [htg] at h
    simp only [Except.bind, bind, pure, Except.pure, Except.ok.injEq] at h
    subst h
    exact AMOk_steps aty yr am1 _ _ (tgStep_post am am1 htg)

/-! ### The whole metadata stage establishes its own no-op condition -/

theorem FrontOk_fixFront (aty yr : String) (fr out : Elem)
    (h : fixFront aty yr fr = .ok out) : FrontOk out := by
  unfold fixFront at h
  have hJM1 : ∀ pi jm, findPath (fun d => d.tag = "journal-meta")
      (updateFirst (fun d => d.tag = "journal-meta") fixJournalMeta fr) = some pi →
      getPath (updateFirst (fun d => d.tag = "journal-meta") fixJournalMeta fr) pi =
        some jm → JMOk jm := by
    rcases updateFirst_found "journal-meta" fixJournalMeta fr
        (fun y _ => tag_fixJournalMeta y) with
      ⟨hn, heq⟩ | ⟨pi0, x0, hfp0, hgp0, htag0, hfp1, hgp1⟩
    · rw [heq]
      exact firstPred_of_none hn
    · exact firstPred_of_found hfp1 hgp1 (JMOk_fixJournalMeta x0)
  have hExt : Ext amNewTags [] []
      (updateFirst (fun d => d.tag = "journal-meta") fixJournalMeta fr) out :=
    Ext_updateFirstE amNewTags [] [] (fun d => d.tag = "article-meta") _
      (fun z oz hz => Ext_fixArticleMeta_am aty yr z oz hz) _ out h
  constructor
  · refine JMpart_Ext hExt ?_ ?_ ?_ ?_ ?_ ?_ ?_ ?_ ?_ ?_ ?_ ?_ ?_ ?_ hJM1
    all_goals simp [amNewTags]
  · rcases updateFirstE_found "article-meta" (fixArticleMeta aty yr)
        (updateFirst (fun d => d.tag = "journal-meta") fixJournalMeta fr) out
        (fun y oy hy => (HFME_fixArticleMeta aty yr y oy hy).1) h with
      ⟨hn, rfl⟩ | ⟨pi0, x0, y0, hfpa, hgpa, htga, hfam, hfp1, hgp1⟩
    · exact firstPred_of_none hn
    · exact firstPred_of_found hfp1 hgp1 (AMOk_fixArticleMeta aty yr x0 y0 hfam)

theorem MetaFixed_metaFix (yr : String) (r out : Elem) (h : metaFix yr r = .ok out) :
    MetaFixed out := by
  unfold metaFix at h
  rcases updateFirstE_found "front"
      (fixFront ((r.get "article-type").getD "research-article") yr) r out
      (fun y oy hy =>
        (HFME_fixFront ((r.get "article-type").getD "research-article") yr y oy hy).1) h with
    ⟨hn, rfl⟩ | ⟨pi0, x0, y0, hfpa, hgpa, htga, hff, hfp1, hgp1⟩
  · exact firstPred_of_none hn
  · exact firstPred_of_found hfp1 hgp1
      (FrontOk_fixFront ((r.get "article-type").getD "research-article") yr x0 y0 hff)

/-! ### Images of the whole-tree attribute passes -/

theorem mem_preorder_mapTree_loc (f : Elem → Elem) (hf : ∀ y, (f y).children = y.children) :
    ∀ e : Elem, ∀ d ∈ preorder (mapTree f e),
    ∃ x ∈ preorder e, d = f (x.withChildren (mapTreeL f x.children)) := by
  refine strongInd (fun e => ∀ d ∈ preorder (mapTree f e),
    ∃ x ∈ preorder e, d = f (x.withChildren (mapTreeL f x.children))) ?_
  intro t a xx c ih d hd
  rw [show mapTree f (.mk t a xx c) = f (.mk t a xx (mapTreeL f c)) from rfl] at hd
  rw [preorder_eq_cons] at hd
  simp only [descendants, hf, children_mk] at hd
  rcases List.mem_cons.mp hd with rfl | hd
  · exact ⟨.mk t a xx c, self_mem_preorder _, rfl⟩
  · rw [mapTreeL_eq] at hd
    rcases mem_preorderL.mp hd with ⟨ch2, hch2, hdch⟩
    rcases List.mem_map.mp hch2 with ⟨ch, hch, rfl⟩
    obtain ⟨x, hx, hdx⟩ := ih ch hch d hdch
    refine ⟨x, ?_, hdx⟩
    rw [preorder_mk]
    exact List.mem_cons_of_mem _ (mem_preorderL.mpr ⟨ch, hch, hx⟩)

theorem mem_descendants_mapDescendants (f : Elem → Elem)
    (hf : ∀ y, (f y).children = y.children) (e : Elem) :
    ∀ d ∈ descendants (mapDescendants f e),
    ∃ x ∈ descendants e, d = f (x.withChildren (mapTreeL f x.children)) := by
  intro d hd
  simp only [mapDescendants, descendants, children_withChildren] at hd
  rw [mapTreeL_eq] at hd
  rcases mem_preorderL.mp hd with ⟨ch2, hch2, hdch⟩
  rcases List.mem_map.mp hch2 with ⟨ch, hch, rfl⟩
  obtain ⟨x, hx, hdx⟩ := mem_preorder_mapTree_loc f hf ch d hdch
  exact ⟨x, mem_preorderL.mpr ⟨ch, hch, hx⟩, hdx⟩

theorem mem_descendants_mapTree (f : Elem → Elem)
    (hf : ∀ y, (f y).children = y.children) (e : Elem) :
    ∀ d ∈ descendants (mapTree f e),
    ∃ x ∈ descendants e, d = f (x.withChildren (mapTreeL f x.children)) := by
  intro d hd
  cases e with
  | mk t a xx c =>
    rw [show mapTree f (.mk t a xx c) = f (.mk t a xx (mapTreeL f c)) from rfl] at hd
    simp only [descendants, hf, children_mk] at hd
    rw [mapTreeL_eq] at hd
    rcases mem_preorderL.mp hd with ⟨ch2, hch2, hdch⟩
    rcases List.mem_map.mp hch2 with ⟨ch, hch, rfl⟩
    obtain ⟨x, hx, hdx⟩ := mem_preorder_mapTree_loc f hf ch d hdch
    exact ⟨x, mem_preorderL.mpr ⟨ch, hch, hx⟩, hdx⟩

/-! ### Stage 1 establishes the position condition -/

theorem children_posFixNode (y : Elem) : (posFixNode y).children = y.children := by
  unfold posFixNode
  repeat' split
  all_goals simp

theorem posOkNode_posFixNode (e : Elem) : posOkNode (posFixNode e) := by
  unfold posFixNode
  by_cases ht : e.tag = "table-wrap"
  · rw [if_pos ht]
    cases hg : e.get "position" with
    | none =>
      intro _
      refine ⟨"float", ?_, by decide⟩
      simp [Elem.get, Elem.set, getA_setA_self]
    | some p =>
      show posOkNode (if p = "top" then e.set "position" "float" else e)
      by_cases hp : p = "top"
      · rw [if_pos hp]
        intro _
        refine ⟨"float", ?_, by decide⟩
        simp [Elem.get, Elem.set, getA_setA_self]
      · rw [if_neg hp]
        intro _
        exact ⟨p, hg, hp⟩
  · rw [if_neg ht]
    intro hcon
    exact absurd hcon ht

theorem posOk_posFix (r : Elem) : ∀ d ∈ descendants (posFix r), posOkNode d := by
  intro d hd
  simp only [posFix] at hd
  obtain ⟨x, hx, rfl⟩ :=
    mem_descendants_mapDescendants posFixNode children_posFixNode r d hd
  exact posOkNode_posFixNode _

/-! ### Stage 2 establishes the table conditions -/

theorem attrs_tableFixE (e : Elem) : (tableFixE e).attrs = e.attrs := by
  cases e with
  | mk t a x c =>
    simp only [tableFixE]
    split
    · rfl
    · rfl

theorem zip_map_pair (f : Elem → Elem) :
    ∀ (c : List Elem) (p : Elem × Elem),
    p ∈ c.zip (c.map f) → p.2 = f p.1 ∧ p.1 ∈ c := by
  intro c
  induction c with
  | nil => intro p hp; cases hp
  | cons e es ih =>
    intro p hp
    rcases List.mem_cons.mp hp with rfl | hp
    · exact ⟨rfl, List.mem_cons_self _ _⟩
    · obtain ⟨h1, h2⟩ := ih p hp
      exact ⟨h1, List.mem_cons_of_mem _ h2⟩

theorem zip_map_mem_intro (f : Elem → Elem) :
    ∀ (c : List Elem) (ch : Elem), ch ∈ c → (ch, f ch) ∈ c.zip (c.map f) := by
  intro c
  induction c with
  | nil => intro ch h; cases h
  | cons e es ih =>
    intro ch h
    rcases List.mem_cons.mp h with rfl | h
    · exact List.mem_cons_self _ _
    · exact List.mem_cons_of_mem _ (ih ch h)

theorem zip_map_fst (f : Elem → Elem) :
    ∀ c : List Elem, (c.zip (c.map f)).map Prod.fst = c := by
  intro c
  induction c with
  | nil => rfl
  | cons e es ih => simp [ih]

theorem insN_mem_of (x y : Elem) : ∀ (l : List Elem) (i : Nat), y ∈ l → y ∈ insN x l i := by
  intro l
  induction l with
  | nil => intro i h; cases h
  | cons e es ih =>
    intro i h
    cases i with
    | zero => exact List.mem_cons_of_mem _ h
    | succ n =>
      rcases List.mem_cons.mp h with rfl | h
      · exact List.mem_cons_self _ _
      · exact List.mem_cons_of_mem _ (ih n h)

theorem any_eq_false_of (q : Elem → Bool) (l : List Elem)
    (h : ∀ x ∈ l, q x = false) : l.any q = false := by
  cases hq : l.any q with
  | false => rfl
  | true =>
    obtain ⟨x, hx, hqx⟩ := List.any_eq_true.mp hq
    rw [h x hx] at hqx
    cases hqx

theorem any_false_mem (q : Elem → Bool) {l : List Elem} (h : l.any q = false)
    {x : Elem} (hx : x ∈ l) : q x = false := by
  cases hqx : q x with
  | false => rfl
  | true =>
    rw [List.any_eq_true.mpr ⟨x, hx, hqx⟩] at h
    cases h

theorem mem_keptSnd (c : List Elem) (y : Elem)
    (hy : y ∈ ((c.zip (c.map tableFixE)).filter
      (fun p => !(emptyTbody p.1))).map Prod.snd) :
    ∃ ch ∈ c, emptyTbody ch = false ∧ y = tableFixE ch := by
  rcases List.mem_map.mp hy with ⟨p, hpf, rfl⟩
  rcases List.mem_filter.mp hpf with ⟨hpz, hpc⟩
  obtain ⟨h2, h1⟩ := zip_map_pair tableFixE c p hpz
  exact ⟨p.1, h1, by simpa using hpc, h2⟩

theorem mem_fixTablePost_zip (c : List Elem) (d : Elem)
    (hd : d ∈ fixTablePost (c.zip (tableFixL c))) :
    (∃ ch ∈ c, emptyTbody ch = false ∧ d = tableFixE ch) ∨
    (∃ ch ∈ c, emptyTbody ch = true ∧
      d = (tableFixE ch).withChildren ((tableFixE ch).children ++ [newTr])) ∨
    (hasHeadOrFoot c = true ∧ d = newTbody) := by
  rw [tableFixL_eq] at hd
  simp only [fixTablePost] at hd
  rw [zip_map_fst tableFixE c] at hd
  by_cases hHF : hasHeadOrFoot c = true
  · rw [if_pos hHF] at hd
    split at hd
    · exact Or.inl (mem_keptSnd c d hd)
    · rcases mem_insN hd with rfl | hd
      · exact Or.inr (Or.inr ⟨hHF, rfl⟩)
      · exact Or.inl (mem_keptSnd c d hd)
  · rw [if_neg hHF] at hd
    split at hd
    · rcases List.mem_map.mp hd with ⟨p, hpz, rfl⟩
      obtain ⟨h2, h1⟩ := zip_map_pair tableFixE c p hpz
      by_cases hE : emptyTbody p.1 = true
      · refine Or.inr (Or.inl ⟨p.1, h1, hE, ?_⟩)
        rw [if_pos hE, h2]
      · refine Or.inl ⟨p.1, h1, by simpa using hE, ?_⟩
        rw [if_neg hE, h2]
    · exact Or.inl (mem_keptSnd c d hd)

theorem mem_fixTablePost_intro (c : List Elem) (ch : Elem) (hch : ch ∈ c)
    (hE : emptyTbody ch = false) :
    tableFixE ch ∈ fixTablePost (c.zip (tableFixL c)) := by
  rw [tableFixL_eq]
  simp only [fixTablePost]
  rw [zip_map_fst tableFixE c]
  have hp : (ch, tableFixE ch) ∈ c.zip (c.map tableFixE) := zip_map_mem_intro _ c ch hch
  have hpf : (ch, tableFixE ch) ∈ (c.zip (c.map tableFixE)).filter
      (fun p => !(emptyTbody p.1)) :=
    List.mem_filter.mpr ⟨hp, by simp [hE]⟩
  have hks : tableFixE ch ∈ ((c.zip (c.map tableFixE)).filter
      (fun p => !(emptyTbody p.1))).map Prod.snd :=
    List.mem_map.mpr ⟨(ch, tableFixE ch), hpf, rfl⟩
  by_cases hHF : hasHeadOrFoot c = true
  · rw [if_pos hHF]
    split
    · exact hks
    · exact insN_mem_of _ _ _ _ hks
  · rw [if_neg hHF]
    split
    · refine List.mem_map.mpr ⟨(ch, tableFixE ch), hp, ?_⟩
      simp [hE]
    · exact hks

theorem hasDescTr_tableFixE :
    ∀ e : Elem, hasDescTr e = true → hasDescTr (tableFixE e) = true := by
  refine strongInd (fun e => hasDescTr e = true → hasDescTr (tableFixE e) = true) ?_
  intro t a x c ih htr
  simp only [hasDescTr, descendants, List.any_eq_true, children_mk] at htr
  obtain ⟨d, hd, hdt⟩ := htr
  rcases mem_preorderL.mp hd with ⟨ch, hch, hdch⟩
  have hEch : emptyTbody ch = false := by
    rw [preorder_eq_cons] at hdch
    rcases List.mem_cons.mp hdch with rfl | hdch2
    · have htag := of_decide_eq_true hdt
      simp [emptyTbody, htag]
    · have hdtr : hasDescTr ch = true := by
        simp only [hasDescTr, List.any_eq_true]
        exact ⟨d, hdch2, hdt⟩
      simp [emptyTbody, hdtr]
  have htrch : ∃ y ∈ preorder (tableFixE ch), (decide (y.tag = "tr") : Bool) = true := by
    rw [preorder_eq_cons] at hdch
    rcases List.mem_cons.mp hdch with rfl | hdch2
    · refine ⟨tableFixE d, self_mem_preorder _, ?_⟩
      rw [tag_pred_congr "tr" d (tableFixE d) (tag_tableFixE d)]
      exact hdt
    · have hih := ih ch hch (by
        simp only [hasDescTr, descendants, List.any_eq_true]
        exact ⟨d, hdch2, hdt⟩)
      simp only [hasDescTr, descendants, List.any_eq_true] at hih
      obtain ⟨y, hy, hyt⟩ := hih
      refine ⟨y, ?_, hyt⟩
      rw [preorder_eq_cons]
      exact List.mem_cons_of_mem _ hy
  obtain ⟨y, hy, hyt⟩ := htrch
  simp only [tableFixE]
  split
  · simp only [hasDescTr, descendants, children_mk, List.any_eq_true]
    exact ⟨y, mem_preorderL.mpr ⟨tableFixE ch, mem_fixTablePost_intro c ch hch hEch, hy⟩, hyt⟩
  · simp only [hasDescTr, descendants, children_mk, List.any_eq_true]
    refine ⟨y, mem_preorderL.mpr ⟨tableFixE ch, ?_, hy⟩, hyt⟩
    rw [tableFixL_eq]
    exact List.mem_map_of_mem _ hch

theorem emptyTbody_tableFixE (ch : Elem) (h : emptyTbody ch = false) :
    emptyTbody (tableFixE ch) = false := by
  by_cases ht : ch.tag = "tbody"
  · have hdtr : hasDescTr ch = true := by simpa [emptyTbody, ht] using h
    have hdtr2 := hasDescTr_tableFixE ch hdtr
    simp [emptyTbody, hdtr2]
  · have hne : ¬ (tableFixE ch).tag = "tbody" := by rw [tag_tableFixE]; exact ht
    simp [emptyTbody, hne]

theorem emptyTbody_withTr (X : Elem) :
    emptyTbody (X.withChildren (X.children ++ [newTr])) = false := by
  have htr : hasDescTr (X.withChildren (X.children ++ [newTr])) = true := by
    simp only [hasDescTr, descendants, children_withChildren, List.any_eq_true]
    refine ⟨newTr, mem_preorderL.mpr
      ⟨newTr, List.mem_append_right _ (List.mem_singleton.mpr rfl),
        self_mem_preorder _⟩, by decide⟩
  simp [emptyTbody, htr]

theorem hasHeadOrFoot_fixTablePost (c : List Elem) (hHF : hasHeadOrFoot c = false) :
    hasHeadOrFoot (fixTablePost (c.zip (tableFixL c))) = false := by
  have hmem : ∀ d ∈ fixTablePost (c.zip (tableFixL c)), ∃ ch ∈ c, d.tag = ch.tag := by
    intro d hd
    rcases mem_fixTablePost_zip c d hd with ⟨ch, hch, _, rfl⟩ | ⟨ch, hch, _, rfl⟩ | ⟨hcon, _⟩
    · exact ⟨ch, hch, tag_tableFixE ch⟩
    · exact ⟨ch, hch, by rw [tag_withChildren, tag_tableFixE]⟩
    · rw [hcon] at hHF
      cases hHF
  simp only [hasHeadOrFoot] at hHF ⊢
  rw [Bool.or_eq_false_iff] at hHF ⊢
  obtain ⟨hA, hB⟩ := hHF
  constructor
  · refine any_eq_false_of _ _ ?_
    intro x hx
    obtain ⟨ch, hch, htag⟩ := hmem x hx
    rw [tag_pred_congr "thead" ch x htag]
    exact any_false_mem _ hA hch
  · refine any_eq_false_of _ _ ?_
    intro x hx
    obtain ⟨ch, hch, htag⟩ := hmem x hx
    rw [tag_pred_congr "tfoot" ch x htag]
    exact any_false_mem _ hB hch

theorem tblOk_newTbody : ∀ d ∈ preorder newTbody, tblOkNode d := by
  intro d hd
  fin_cases hd
  all_goals intro hcon
  all_goals simp [tag] at hcon

theorem tblOk_newTr : ∀ d ∈ preorder newTr, tblOkNode d := by
  intro d hd
  fin_cases hd
  all_goals intro hcon
  all_goals simp [tag] at hcon

theorem newTbody_no_tw : ∀ d ∈ preorder newTbody, ¬ d.tag = "table-wrap" := by
  intro d hd
  fin_cases hd
  all_goals simp [tag]

theorem newTr_no_tw : ∀ d ∈ preorder newTr, ¬ d.tag = "table-wrap" := by
  intro d hd
  fin_cases hd
  all_goals simp [tag]

theorem tblOk_tableFixE : ∀ e : Elem, ∀ d ∈ preorder (tableFixE e), tblOkNode d := by
  refine strongInd (fun e => ∀ d ∈ preorder (tableFixE e), tblOkNode d) ?_
  intro t a x c ih d hd
  simp only [tableFixE] at hd
  by_cases ht : t = "table"
  · rw [if_pos ht] at hd
    rw [preorder_mk] at hd
    rcases List.mem_cons.mp hd with rfl | hd
    · intro _
      constructor
      · intro ch2 hch2
        simp only [children_mk] at hch2
        rcases mem_fixTablePost_zip c ch2 hch2 with ⟨ch, _, hE, rfl⟩ | ⟨ch, _, _, rfl⟩ | ⟨_, rfl⟩
        · exact emptyTbody_tableFixE ch hE
        · exact emptyTbody_withTr (tableFixE ch)
        · decide
      · intro hHF2
        simp only [children_mk] at hHF2 ⊢
        by_cases hHF : hasHeadOrFoot c = true
        · rw [tableFixL_eq]
          simp only [fixTablePost]
          rw [zip_map_fst tableFixE c, if_pos hHF]
          split
          · rename_i hany
            exact hany
          · exact List.any_eq_true.mpr ⟨newTbody, insN_mem_self _ _ _, by decide⟩
        · exfalso
          have hHFF : hasHeadOrFoot c = false := by
            cases hc : hasHeadOrFoot c with
            | false => rfl
            | true => exact absurd hc hHF
          rw [hasHeadOrFoot_fixTablePost c hHFF] at hHF2
          cases hHF2
    · rcases mem_preorderL.mp hd with ⟨el, hel, hdel⟩
      rcases mem_fixTablePost_zip c el hel with ⟨ch, hch, _, rfl⟩ | ⟨ch, hch, hE, rfl⟩ | ⟨_, rfl⟩
      · exact ih ch hch d hdel
      · rw [preorder_eq_cons] at hdel
        rcases List.mem_cons.mp hdel with rfl | hdel
        · intro hcon
          have htb : ch.tag = "tbody" := by
            by_cases htb : ch.tag = "tbody"
            · exact htb
            · exfalso
              simp [emptyTbody, htb] at hE
          rw [tag_withChildren, tag_tableFixE, htb] at hcon
          exact absurd hcon (by decide)
        · simp only [descendants, children_withChildren, preorderL_append] at hdel
          rcases List.mem_append.mp hdel with hdel | hdel
          · refine ih ch hch d ?_
            rw [preorder_eq_cons]
            exact List.mem_cons_of_mem _ hdel
          · exact tblOk_newTr d hdel
      · exact tblOk_newTbody d hdel
  · rw [if_neg ht] at hd
    rw [preorder_mk] at hd
    rcases List.mem_cons.mp hd with rfl | hd
    · intro hcon
      simp only [tag_mk] at hcon
      exact absurd hcon ht
    · rcases mem_preorderL.mp hd with ⟨el, hel, hdel⟩
      rw [tableFixL_eq] at hel
      rcases List.mem_map.mp hel with ⟨ch, hch, rfl⟩
      exact ih ch hch d hdel

theorem tblOk_tableFix (r : Elem) : ∀ d ∈ descendants (tableFix r), tblOkNode d := by
  intro d hd
  simp only [tableFix, descendants, children_withChildren] at hd
  rw [tableFixL_eq] at hd
  rcases mem_preorderL.mp hd with ⟨el, hel, hdel⟩
  rcases List.mem_map.mp hel with ⟨ch, hch, rfl⟩
  exact tblOk_tableFixE ch d hdel

theorem mem_tableFixE_attrs :
    ∀ e : Elem, ∀ d ∈ preorder (tableFixE e),
    (∃ x ∈ preorder e, d.tag = x.tag ∧ d.attrs = x.attrs) ∨
    d ∈ preorder newTbody ∨ d ∈ preorder newTr := by
  refine strongInd (fun e => ∀ d ∈ preorder (tableFixE e),
    (∃ x ∈ preorder e, d.tag = x.tag ∧ d.attrs = x.attrs) ∨
    d ∈ preorder newTbody ∨ d ∈ preorder newTr) ?_
  intro t a x c ih d hd
  simp only [tableFixE] at hd
  by_cases ht : t = "table"
  · rw [if_pos ht] at hd
    rw [preorder_mk] at hd
    rcases List.mem_cons.mp hd with rfl | hd
    · exact Or.inl ⟨.mk t a x c, self_mem_preorder _, rfl, rfl⟩
    · rcases mem_preorderL.mp hd with ⟨el, hel, hdel⟩
      rcases mem_fixTablePost_zip c el hel with ⟨ch, hch, _, rfl⟩ | ⟨ch, hch, _, rfl⟩ | ⟨_, rfl⟩
      · rcases ih ch hch d hdel with ⟨x2, hx2, h1, h2⟩ | hnew
        · refine Or.inl ⟨x2, ?_, h1, h2⟩
          rw [preorder_mk]
          exact List.mem_cons_of_mem _ (mem_preorderL.mpr ⟨ch, hch, hx2⟩)
        · exact Or.inr hnew
      · rw [preorder_eq_cons] at hdel
        rcases List.mem_cons.mp hdel with rfl | hdel
        · refine Or.inl ⟨ch, ?_, ?_, ?_⟩
          · rw [preorder_mk]
            exact List.mem_cons_of_mem _ (mem_preorderL.mpr ⟨ch, hch, self_mem_preorder ch⟩)
          · rw [tag_withChildren, tag_tableFixE]
          · rw [attrs_withChildren, attrs_tableFixE]
        · simp only [descendants, children_withChildren, preorderL_append] at hdel
          rcases List.mem_append.mp hdel with hdel | hdel
          · have hdel2 : d ∈ preorder (tableFixE ch) := by
              rw [preorder_eq_cons]
              exact List.mem_cons_of_mem _ hdel
            rcases ih ch hch d hdel2 with ⟨x2, hx2, h1, h2⟩ | hnew
            · refine Or.inl ⟨x2, ?_, h1, h2⟩
              rw [preorder_mk]
              exact List.mem_cons_of_mem _ (mem_preorderL.mpr ⟨ch, hch, hx2⟩)
            · exact Or.inr hnew
          · exact Or.inr (Or.inr hdel)
      · exact Or.inr (Or.inl hdel)
  · rw [if_neg ht] at hd
    rw [preorder_mk] at hd
    rcases List.mem_cons.mp hd with rfl | hd
    · exact Or.inl ⟨.mk t a x c, self_mem_preorder _, rfl, rfl⟩
    · rcases mem_preorderL.mp hd with ⟨el, hel, hdel⟩
      rw [tableFixL_eq] at hel
      rcases List.mem_map.mp hel with ⟨ch, hch, rfl⟩
      rcases ih ch hch d hdel with ⟨x2, hx2, h1, h2⟩ | hnew
      · refine Or.inl ⟨x2, ?_, h1, h2⟩
        rw [preorder_mk]
        exact List.mem_cons_of_mem _ (mem_preorderL.mpr ⟨ch, hch, hx2⟩)
      · exact Or.inr hnew

theorem posOk_tableFix (r : Elem) (h : ∀ d ∈ descendants r, posOkNode d) :
    ∀ d ∈ descendants (tableFix r), posOkNode d := by
  intro d hd
  simp only [tableFix, descendants, children_withChildren] at hd
  rw [tableFixL_eq] at hd
  rcases mem_preorderL.mp hd with ⟨el, hel, hdel⟩
  rcases List.mem_map.mp hel with ⟨ch, hch, rfl⟩
  rcases mem_tableFixE_attrs ch d hdel with ⟨x2, hx2, h1, h2⟩ | hnew
  · have hx2d : x2 ∈ descendants r := mem_preorderL.mpr ⟨ch, hch, hx2⟩
    intro htag
    rw [h1] at htag
    obtain ⟨v, hv, hne⟩ := h x2 hx2d htag
    refine ⟨v, ?_, hne⟩
    show getA d.attrs "position" = some v
    rw [h2]
    exact hv
  · intro htag
    rcases hnew with hnew | hnew
    · exact absurd htag (newTbody_no_tw d hnew)
    · exact absurd htag (newTr_no_tw d hnew)

/-! ### Stage 4 establishes the reference-id condition -/

theorem numberRefsL_post :
    ∀ (l : List Elem),
    (∀ e ∈ l, ∀ n, ∀ d ∈ preorder (numberRefsE e n).1, d.tag = "ref" →
      d.hasA "id" = true) →
    ∀ n, ∀ d ∈ preorderL (numberRefsL l n).1, d.tag = "ref" → d.hasA "id" = true := by
  intro l
  induction l with
  | nil =>
    intro _ n d hd
    simp [numberRefsL, preorderL] at hd
  | cons e es ih =>
    intro hm n d hd
    rw [show (numberRefsL (e :: es) n).1 =
      (numberRefsE e n).1 :: (numberRefsL es (numberRefsE e n).2).1 from rfl] at hd
    simp only [preorderL] at hd
    rcases List.mem_append.mp hd with hd | hd
    · exact hm e (List.mem_cons_self _ _) n d hd
    · exact ih (fun z hz => hm z (List.mem_cons_of_mem _ hz)) _ d hd

theorem numberRefs_post :
    ∀ e : Elem, ∀ n, ∀ d ∈ preorder (numberRefsE e n).1, d.tag = "ref" →
    d.hasA "id" = true := by
  refine strongInd (fun e => ∀ n, ∀ d ∈ preorder (numberRefsE e n).1,
    d.tag = "ref" → d.hasA "id" = true) ?_
  intro t a x c ih n d hd hdr
  have hsub : ∀ z ∈ c, ∀ m, ∀ d2 ∈ preorder (numberRefsE z m).1,
      d2.tag = "ref" → d2.hasA "id" = true := fun z hz => ih z hz
  simp only [numberRefsE] at hd
  by_cases ht : t = "ref"
  · rw [if_pos ht] at hd
    simp only [preorder_mk] at hd
    rcases List.mem_cons.mp hd with rfl | hd
    · show (getA (if (getA a "id").isSome = true then a
        else setA a "id" ("ref" ++ toString (n + 1))) "id").isSome = true
      by_cases hid : (getA a "id").isSome = true
      · rw [if_pos hid]
        exact hid
      · rw [if_neg hid]
        simp [getA_setA_self]
    · exact numberRefsL_post c hsub (n + 1) d hd hdr
  · rw [if_neg ht] at hd
    simp only [preorder_mk] at hd
    rcases List.mem_cons.mp hd with rfl | hd
    · exact absurd (by simpa using hdr) ht
    · exact numberRefsL_post c hsub n d hd hdr

theorem RefOk_refIdFix (r : Elem) : RefOk (refIdFix r) := by
  unfold refIdFix
  rcases updateFirst_found "back"
      (updateFirst (fun d => d.tag = "ref-list")
        (fun rl => rl.withChildren (numberRefsL rl.children 0).1)) r
      (fun y _ => tag_updateFirst _ _ y) with
    ⟨hn, heq⟩ | ⟨pb0, b0, hfp0, hgp0, htag0, hfpb, hgpb⟩
  · rw [heq]
    intro pb b hfpb hgpb
    rw [hn] at hfpb
    cases hfpb
  · intro pb b hfpb2 hgpb2
    rw [hfpb] at hfpb2
    simp only [Option.some.injEq] at hfpb2
    subst hfpb2
    rw [hgpb] at hgpb2
    simp only [Option.some.injEq] at hgpb2
    subst hgpb2
    rcases updateFirst_found "ref-list"
        (fun rl => rl.withChildren (numberRefsL rl.children 0).1) b0
        (fun y _ => tag_withChildren _ _) with
      ⟨hn2, heq2⟩ | ⟨pr0, rl0, hfpr0, hgpr0, htagr0, hfpr1, hgpr1⟩
    · rw [heq2]
      intro pr rl hfpr hgpr
      rw [hn2] at hfpr
      cases hfpr
    · intro pr rl hfpr hgpr
      rw [hfpr1] at hfpr
      simp only [Option.some.injEq] at hfpr
      subst hfpr
      rw [hgpr1] at hgpr
      simp only [Option.some.injEq] at hgpr
      subst hgpr
      intro d hd hdr
      simp only [children_withChildren] at hd
      exact numberRefsL_post rl0.children (fun z hz m => numberRefs_post z m) 0 d hd hdr

/-! ### The reference-id condition survives the attribute-only stages -/

theorem RefOk_Ext_nil {txs ks : List String} {a b : Elem} (h : Ext [] txs ks a b)
    (hid : ¬ "id" ∈ ks) (hx : RefOk a) : RefOk b := by
  intro pb bb hfpb hgpb pr rl hfpr hgrl d hd hdr
  rw [Ext_nil_findPath txs ks _ (fun y z hzy => tag_pred_congr "back" y z hzy) a b h]
    at hfpb
  obtain ⟨ba, hgba, _⟩ := findPath_getPath _ a pb hfpb
  obtain ⟨bb2, hgbb2, hbab⟩ := Ext_nil_getPath txs ks pb a b h ba hgba
  rw [hgpb] at hgbb2
  simp only [Option.some.injEq] at hgbb2
  subst hgbb2
  rw [Ext_nil_findPath txs ks _ (fun y z hzy => tag_pred_congr "ref-list" y z hzy)
    ba bb hbab] at hfpr
  obtain ⟨rla, hgrla, _⟩ := findPath_getPath _ ba pr hfpr
  obtain ⟨rlb2, hgrlb2, hrab⟩ := Ext_nil_getPath txs ks pr ba bb hbab rla hgrla
  rw [hgrl] at hgrlb2
  simp only [Option.some.injEq] at hgrlb2
  subst hgrlb2
  obtain ⟨x, hxm, hxd⟩ := ExtL_mem_nil (Ext_children hrab) d hd
  have hxtag : x.tag = "ref" := by rw [← Ext_tag hxd]; exact hdr
  have hres := hx pb ba hfpb hgba pr rla hfpr hgrla x hxm hxtag
  show (d.get "id").isSome = true
  rw [Ext_get hxd "id" hid]
  exact hres

/-! ### All no-op conditions transfer along equal child lists -/

theorem RefOk_congr {a b : Elem} (hch : a.children = b.children) (hx : RefOk a) :
    RefOk b := by
  intro pb bb hfpb hgpb
  rw [← findPath_children_congr _ a b hch] at hfpb
  obtain ⟨j, js, rfl⟩ : ∃ j js, pb = j :: js := by
    cases pb with
    | nil => exact absurd rfl (findPath_ne_nil _ a [] hfpb)
    | cons j js => exact ⟨j, js, rfl⟩
  rw [← getPath_children_congr a b hch] at hgpb
  exact hx (j :: js) bb hfpb hgpb

theorem MetaFixed_congr {a b : Elem} (hch : a.children = b.children) (hx : MetaFixed a) :
    MetaFixed b := by
  intro pi fr hfp hgp
  rw [← findPath_children_congr _ a b hch] at hfp
  obtain ⟨j, js, rfl⟩ : ∃ j js, pi = j :: js := by
    cases pi with
    | nil => exact absurd rfl (findPath_ne_nil _ a [] hfp)
    | cons j js => exact ⟨j, js, rfl⟩
  rw [← getPath_children_congr a b hch] at hgp
  exact hx (j :: js) fr hfp hgp

theorem posOk_congr {a b : Elem} (hch : a.children = b.children)
    (hx : ∀ d ∈ descendants a, posOkNode d) : ∀ d ∈ descendants b, posOkNode d := by
  intro d hd
  refine hx d ?_
  simp only [descendants] at hd ⊢
  rw [hch]
  exact hd

theorem tblOk_congr {a b : Elem} (hch : a.children = b.children)
    (hx : ∀ d ∈ descendants a, tblOkNode d) : ∀ d ∈ descendants b, tblOkNode d := by
  intro d hd
  refine hx d ?_
  simp only [descendants] at hd ⊢
  rw [hch]
  exact hd

theorem bibRefs_congr {a b : Elem} (hch : a.children = b.children) :
    bibRefs a = bibRefs b := by
  unfold bibRefs
  rw [findPath_children_congr (fun d => d.tag = "back") a b hch]
  cases hfb : findPath (fun d => d.tag = "back") b with
  | none => rfl
  | some bp =>
    obtain ⟨j, js, rfl⟩ : ∃ j js, bp = j :: js := by
      cases bp with
      | nil => exact absurd rfl (findPath_ne_nil _ b [] hfb)
      | cons j js => exact ⟨j, js, rfl⟩
    have hg : getPath a (j :: js) = getPath b (j :: js) :=
      getPath_children_congr a b hch j js
    simp only [hg]

theorem XOk_congr {a b : Elem} (hch : a.children = b.children) (hx : XOk a) : XOk b := by
  intro e he htag
  have hd : descendants a = descendants b := by simp only [descendants, hch]
  obtain ⟨h1, h2⟩ := hx e (by rw [hd]; exact he) htag
  refine ⟨h1, ?_⟩
  intro alt halt hdig hge hle
  rw [← bibRefs_congr hch] at hle
  obtain ⟨rid, hrid, hcase⟩ := h2 alt halt hdig hge hle
  refine ⟨rid, hrid, ?_⟩
  rcases hcase with hc | hc
  · exact Or.inl hc
  · refine Or.inr ?_
    rw [← bibRefs_congr hch]
    exact hc

/-! ### Attribute-locality of the xref and idref passes -/

theorem children_altRewrite (refs : List Elem) (ids : List String) (e : Elem) :
    (altRewrite refs ids e).children = e.children := by
  simp only [altRewrite]
  repeat' split
  all_goals simp

theorem tag_altRewrite (refs : List Elem) (ids : List String) (e : Elem) :
    (altRewrite refs ids e).tag = e.tag := by
  simp only [altRewrite]
  repeat' split
  all_goals simp

theorem children_refTypeRidFix (refs : List Elem) (e : Elem) :
    (refTypeRidFix refs e).children = e.children := by
  simp only [refTypeRidFix]
  repeat' split
  all_goals simp

theorem tag_refTypeRidFix (refs : List Elem) (e : Elem) :
    (refTypeRidFix refs e).tag = e.tag := by
  simp only [refTypeRidFix]
  repeat' split
  all_goals simp

theorem get_altRewrite_ne (refs : List Elem) (ids : List String) (e : Elem) (k : String)
    (hk : ¬ k = "rid") : (altRewrite refs ids e).get k = e.get k := by
  simp only [altRewrite]
  repeat' split
  all_goals first
    | rfl
    | exact get_set_ne e "rid" _ k hk

theorem get_refTypeRidFix_ne (refs : List Elem) (e : Elem) (k : String)
    (hk1 : ¬ k = "rid") (hk2 : ¬ k = "ref-type") :
    (refTypeRidFix refs e).get k = e.get k := by
  simp only [refTypeRidFix]
  repeat' split
  all_goals first
    | rfl
    | exact get_set_ne e "ref-type" _ k hk2
    | exact get_set_ne e "rid" _ k hk1
    | (rw [get_set_ne (e.set "ref-type" "bibr") "rid" _ k hk1]
       exact get_set_ne e "ref-type" _ k hk2)

theorem children_ridFixE (vs : List String) (refs : List Elem) (e : Elem) :
    (ridFixE vs refs e).children = e.children := by
  simp only [ridFixE]
  repeat' split
  all_goals simp

theorem tag_ridFixE (vs : List String) (refs : List Elem) (e : Elem) :
    (ridFixE vs refs e).tag = e.tag := by
  simp only [ridFixE]
  repeat' split
  all_goals simp

theorem children_ridsFixE (vs : List String) (e : Elem) :
    (ridsFixE vs e).children = e.children := by
  simp only [ridsFixE]
  repeat' split
  all_goals simp

theorem tag_ridsFixE (vs : List String) (e : Elem) :
    (ridsFixE vs e).tag = e.tag := by
  simp only [ridsFixE]
  repeat' split
  all_goals simp

theorem children_idrefNode (vs : List String) (refs : List Elem) (y : Elem) :
    (idrefNode vs refs y).children = y.children := by
  rw [idrefNode, children_ridsFixE, children_ridFixE]

theorem tag_idrefNode (vs : List String) (refs : List Elem) (y : Elem) :
    (idrefNode vs refs y).tag = y.tag := by
  rw [idrefNode, tag_ridsFixE, tag_ridFixE]

theorem get_ridFixE_ne (vs : List String) (refs : List Elem) (e : Elem) (k : String)
    (hk : ¬ k = "rid") : (ridFixE vs refs e).get k = e.get k := by
  simp only [ridFixE]
  repeat' split
  all_goals first
    | rfl
    | exact get_set_ne e "rid" _ k hk
    | exact get_del_ne e "rid" k hk

theorem get_ridsFixE_ne (vs : List String) (e : Elem) (k : String)
    (hk : ¬ k = "rids") : (ridsFixE vs e).get k = e.get k := by
  simp only [ridsFixE]
  repeat' split
  all_goals first
    | rfl
    | exact get_set_ne e "rids" _ k hk
    | exact get_del_ne e "rids" k hk

/-! ### Branch equations for the xref passes -/

theorem altRewrite_eq_norid (refs : List Elem) (ids : List String) (e : Elem)
    (hr : e.get "rid" = none) : altRewrite refs ids e = e := by
  cases ha : e.get "alt" with
  | none => simp [altRewrite, ha]
  | some a => simp [altRewrite, ha, hr]

theorem altRewrite_eq_rewrite (refs : List Elem) (ids : List String) (e : Elem)
    (alt rid : String) (ha : e.get "alt" = some alt) (hr : e.get "rid" = some rid)
    (hd : isDigits alt = true)
    (hrange : 1 ≤ strToNat alt ∧ strToNat alt ≤ refs.length)
    (ref : Elem) (href : refs.get? (strToNat alt - 1) = some ref)
    (hcond : rid ∈ ids ∧ ¬ refs.any (fun rr => rr.get "id" = some rid) = true) :
    altRewrite refs ids e =
      e.set "rid" ((ref.get "id").getD ("ref" ++ toString (strToNat alt))) := by
  simp only [altRewrite, ha, hr]
  rw [if_pos hd, if_pos hrange]
  simp only [href]
  rw [if_pos hcond]

theorem altRewrite_eq_keep (refs : List Elem) (ids : List String) (e : Elem)
    (alt rid : String) (ha : e.get "alt" = some alt) (hr : e.get "rid" = some rid)
    (hd : isDigits alt = true)
    (hrange : 1 ≤ strToNat alt ∧ strToNat alt ≤ refs.length)
    (ref : Elem) (href : refs.get? (strToNat alt - 1) = some ref)
    (hcond : ¬ (rid ∈ ids ∧ ¬ refs.any (fun rr => rr.get "id" = some rid) = true)) :
    altRewrite refs ids e = e := by
  simp only [altRewrite, ha, hr]
  rw [if_pos hd, if_pos hrange]
  simp only [href]
  rw [if_neg hcond]

theorem refTypeRidFix_refType (refs : List Elem) (e : Elem) :
    (refTypeRidFix refs e).hasA "ref-type" = true := by
  simp only [refTypeRidFix]
  by_cases hA : e.hasA "ref-type" = true
  · rw [if_pos hA]
    repeat' split
    all_goals first
      | exact hA
      | (show ((e.set "rid" _).get "ref-type").isSome = true
         rw [get_set_ne e "rid" _ "ref-type" (by decide)]
         exact hA)
  · rw [if_neg hA]
    have hA2 : (e.set "ref-type" "bibr").hasA "ref-type" = true := by
      show ((e.set "ref-type" "bibr").get "ref-type").isSome = true
      rw [get_set_self]
      rfl
    repeat' split
    all_goals first
      | exact hA2
      | (show (((e.set "ref-type" "bibr").set "rid" _).get "ref-type").isSome = true
         rw [get_set_ne (e.set "ref-type" "bibr") "rid" _ "ref-type" (by decide)]
         exact hA2)

theorem refTypeRidFix_rid_of_hasA (refs : List Elem) (e : Elem)
    (h : e.hasA "rid" = true) : (refTypeRidFix refs e).get "rid" = e.get "rid" := by
  simp only [refTypeRidFix]
  by_cases hA : e.hasA "ref-type" = true
  · rw [if_pos hA, if_pos h]
  · rw [if_neg hA]
    have h2 : (e.set "ref-type" "bibr").hasA "rid" = true := by
      show ((e.set "ref-type" "bibr").get "rid").isSome = true
      rw [get_set_ne e "ref-type" _ "rid" (by decide)]
      exact h
    rw [if_pos h2]
    exact get_set_ne e "ref-type" _ "rid" (by decide)

theorem refTypeRidFix_eq_norid (refs : List Elem) (e : Elem)
    (hnorid : e.hasA "rid" = false)
    (alt : String) (ha : e.get "alt" = some alt) (hd : isDigits alt = true)
    (hrange : 1 ≤ strToNat alt ∧ strToNat alt ≤ refs.length)
    (ref : Elem) (href : refs.get? (strToNat alt - 1) = some ref) :
    refTypeRidFix refs e =
      (if e.hasA "ref-type" = true then e else e.set "ref-type" "bibr").set "rid"
        ((ref.get "id").getD ("ref" ++ toString (strToNat alt))) := by
  simp only [refTypeRidFix]
  by_cases hA : e.hasA "ref-type" = true
  · rw [if_pos hA]
    rw [if_neg (by simp [hnorid])]
    simp only [ha]
    rw [if_pos hd, if_pos hrange]
    simp only [href]
  · rw [if_neg hA]
    have hrid2 : (e.set "ref-type" "bibr").hasA "rid" = false := by
      show ((e.set "ref-type" "bibr").get "rid").isSome = false
      rw [get_set_ne e "ref-type" _ "rid" (by decide)]
      exact hnorid
    rw [if_neg (by simp [hrid2])]
    have ha2 : (e.set "ref-type" "bibr").get "alt" = some alt := by
      rw [get_set_ne e "ref-type" _ "alt" (by decide)]
      exact ha
    simp only [ha2]
    rw [if_pos hd, if_pos hrange]
    simp only [href]

/-! ### Branch equations for the idref pass -/

theorem ridFixE_empty (vs : List String) (refs : List Elem) (e : Elem)
    (h : e.get "rid" = some "") : ridFixE vs refs e = e := by
  simp [ridFixE, h]

theorem ridFixE_valid (vs : List String) (refs : List Elem) (e : Elem) (rid : String)
    (h : e.get "rid" = some rid) (hne : ¬ rid = "") (hin : rid ∈ vs) :
    ridFixE vs refs e = e := by
  simp [ridFixE, h, hne, hin]

/-! ### Collected-id membership and reference lookups -/

theorem mem_referencedIds_intro (r x : Elem) (hx : x ∈ descendants r)
    (htag : x.tag = "xref") {v : String} (hget : x.get "rid" = some v)
    (hne : ¬ v = "") : v ∈ referencedIds r := by
  simp only [referencedIds, List.mem_filterMap]
  refine ⟨x, hx, ?_⟩
  simp [htag, hget, hne]

theorem mem_validIds_intro (r x : Elem) (hx : x ∈ preorder r) {v : String}
    (hget : x.get "id" = some v) (hne : ¬ v = "") : v ∈ validIds r := by
  simp only [validIds, List.mem_filterMap]
  exact ⟨x, hx, by simp [hget, hne]⟩

theorem bibRefs_sub_preorder (r : Elem) : ∀ x ∈ bibRefs r, x ∈ preorder r := by
  intro x hx
  unfold bibRefs at hx
  cases hfb : findPath (fun d => d.tag = "back") r with
  | none => simp only [hfb] at hx; cases hx
  | some bp =>
    simp only [hfb] at hx
    cases hgb : getPath r bp with
    | none => simp only [hgb] at hx; cases hx
    | some b =>
      simp only [hgb] at hx
      cases hfr : findPath (fun d => d.tag = "ref-list") b with
      | none => simp only [hfr] at hx; cases hx
      | some rp =>
        simp only [hfr] at hx
        cases hgr : getPath b rp with
        | none => simp only [hgr] at hx; cases hx
        | some rl =>
          simp only [hgr] at hx
          have hx1 : x ∈ preorderL rl.children := (List.mem_filter.mp hx).1
          have hx2 : x ∈ preorder rl := by
            rw [preorder_eq_cons]
            exact List.mem_cons_of_mem _ hx1
          have hrlb : rl ∈ preorder b := getPath_mem rp b rl hgr
          have hbr : b ∈ preorder r := getPath_mem bp r b hgb
          exact preorder_sub r b hbr x (preorder_sub b rl hrlb x hx2)

theorem bibRefs_refs_have_id (r : Elem) (h : RefOk r) :
    ∀ ref ∈ bibRefs r, ref.hasA "id" = true := by
  intro ref href
  unfold bibRefs at href
  cases hfb : findPath (fun d => d.tag = "back") r with
  | none => simp only [hfb] at href; cases href
  | some bp =>
    simp only [hfb] at href
    cases hgb : getPath r bp with
    | none => simp only [hgb] at href; cases href
    | some b =>
      simp only [hgb] at href
      cases hfr : findPath (fun d => d.tag = "ref-list") b with
      | none => simp only [hfr] at href; cases href
      | some rp =>
        simp only [hfr] at href
        cases hgr : getPath b rp with
        | none => simp only [hgr] at href; cases href
        | some rl =>
          simp only [hgr] at href
          rcases List.mem_filter.mp href with ⟨hmem, htag⟩
          exact h bp b hfb hgb rp rl hfr hgr ref hmem (of_decide_eq_true htag)

theorem get?_mem_of_lt {l : List Elem} {i : Nat} (h : i < l.length) :
    ∃ x, l.get? i = some x ∧ x ∈ l := by
  cases hg : l.get? i with
  | none => exact absurd (List.get?_eq_none.mp hg) (by omega)
  | some x =>
    refine ⟨x, rfl, ?_⟩
    rcases List.get?_eq_some.mp hg with ⟨hlt, hvl⟩
    exact hvl ▸ List.get_mem _ i hlt

theorem bibRefs_len_eq {txs ks : List String} {a b : Elem} (h : Ext [] txs ks a b) :
    (bibRefs b).length = (bibRefs a).length :=
  ExtL_nil_length (Ext_nil_bibRefs txs ks a b h)

theorem bibRefs_any_id {txs ks : List String} (hid : ¬ "id" ∈ ks) {a b : Elem}
    (h : Ext [] txs ks a b) (v : String) :
    (bibRefs b).any (fun rf => rf.get "id" = some v) =
    (bibRefs a).any (fun rf => rf.get "id" = some v) := by
  refine ExtL_nil_any txs ks _ ?_ _ _ (Ext_nil_bibRefs txs ks a b h)
  intro x y hxy
  show decide (y.get "id" = some v) = decide (x.get "id" = some v)
  rw [Ext_get hxy "id" hid]

/-! ### Stage 5 establishes the xref condition -/

def xga (refs : List Elem) (ids : List String) : Elem → Elem :=
  fun e => if e.tag = "xref" then altRewrite refs ids e else e

def xgb (refs : List Elem) : Elem → Elem :=
  fun e => if e.tag = "xref" then refTypeRidFix refs e else e

theorem xrefFix_eq (r : Elem) : xrefFix r =
    mapDescendants (xgb (bibRefs r))
      (mapDescendants (xga (bibRefs r) (referencedIds r)) r) := rfl

theorem children_xga (refs : List Elem) (ids : List String) (y : Elem) :
    (xga refs ids y).children = y.children := by
  unfold xga
  split
  · exact children_altRewrite refs ids y
  · rfl

theorem tag_xga (refs : List Elem) (ids : List String) (y : Elem) :
    (xga refs ids y).tag = y.tag := by
  unfold xga
  split
  · exact tag_altRewrite refs ids y
  · rfl

theorem get_xga_ne (refs : List Elem) (ids : List String) (y : Elem) (k : String)
    (hk : ¬ k = "rid") : (xga refs ids y).get k = y.get k := by
  unfold xga
  split
  · exact get_altRewrite_ne refs ids y k hk
  · rfl

theorem children_xgb (refs : List Elem) (y : Elem) :
    (xgb refs y).children = y.children := by
  unfold xgb
  split
  · exact children_refTypeRidFix refs y
  · rfl

theorem tag_xgb (refs : List Elem) (y : Elem) : (xgb refs y).tag = y.tag := by
  unfold xgb
  split
  · exact tag_refTypeRidFix refs y
  · rfl

theorem XOk_xrefFix (r : Elem) (href : ∀ ref ∈ bibRefs r, ref.hasA "id" = true) :
    XOk (xrefFix r) := by
  have hExt : Ext [] [] ["rid", "ref-type"] r (xrefFix r) := Ext_xrefFix r
  have hlen : (bibRefs (xrefFix r)).length = (bibRefs r).length := bibRefs_len_eq hExt
  have hany : ∀ v, (bibRefs r).any (fun rf => rf.get "id" = some v) = true →
      (bibRefs (xrefFix r)).any (fun rf => rf.get "id" = some v) = true := by
    intro v hv
    rw [bibRefs_any_id (by simp) hExt v]
    exact hv
  intro e2 he2 htag2
  rw [xrefFix_eq] at he2
  obtain ⟨w, hw, he2eq⟩ :=
    mem_descendants_mapDescendants _ (children_xgb (bibRefs r)) _ e2 he2
  obtain ⟨x, hx, hweq⟩ :=
    mem_descendants_mapDescendants _ (children_xga (bibRefs r) (referencedIds r)) r w hw
  have hWtag : (w.withChildren (mapTreeL (xgb (bibRefs r)) w.children)).tag = x.tag := by
    rw [tag_withChildren, hweq, tag_xga, tag_withChildren]
  have hxt : x.tag = "xref" := by
    rw [he2eq, tag_xgb, hWtag] at htag2
    exact htag2
  have hWt : (w.withChildren (mapTreeL (xgb (bibRefs r)) w.children)).tag = "xref" := by
    rw [hWtag]
    exact hxt
  have hX1t : (x.withChildren
      (mapTreeL (xga (bibRefs r) (referencedIds r)) x.children)).tag = "xref" := by
    rw [tag_withChildren]
    exact hxt
  have he2' : e2 = refTypeRidFix (bibRefs r)
      (w.withChildren (mapTreeL (xgb (bibRefs r)) w.children)) := by
    rw [he2eq]
    show (if (w.withChildren (mapTreeL (xgb (bibRefs r)) w.children)).tag = "xref"
        then refTypeRidFix (bibRefs r)
          (w.withChildren (mapTreeL (xgb (bibRefs r)) w.children))
        else w.withChildren (mapTreeL (xgb (bibRefs r)) w.children)) =
      refTypeRidFix (bibRefs r) (w.withChildren (mapTreeL (xgb (bibRefs r)) w.children))
    rw [if_pos hWt]
  have hwAR : w = altRewrite (bibRefs r) (referencedIds r)
      (x.withChildren (mapTreeL (xga (bibRefs r) (referencedIds r)) x.children)) := by
    rw [hweq]
    show (if (x.withChildren
          (mapTreeL (xga (bibRefs r) (referencedIds r)) x.children)).tag = "xref"
        then altRewrite (bibRefs r) (referencedIds r)
          (x.withChildren (mapTreeL (xga (bibRefs r) (referencedIds r)) x.children))
        else x.withChildren (mapTreeL (xga (bibRefs r) (referencedIds r)) x.children)) =
      altRewrite (bibRefs r) (referencedIds r)
        (x.withChildren (mapTreeL (xga (bibRefs r) (referencedIds r)) x.children))
    rw [if_pos hX1t]
  constructor
  · rw [he2']
    exact refTypeRidFix_refType _ _
  · intro alt halt hdig hge hle
    rw [hlen] at hle
    have haltW : (w.withChildren (mapTreeL (xgb (bibRefs r)) w.children)).get "alt" =
        some alt := by
      rw [he2'] at halt
      rw [get_refTypeRidFix_ne _ _ "alt" (by decide) (by decide)] at halt
      exact halt
    have haltw : w.get "alt" = some alt := haltW
    have haltx : x.get "alt" = some alt := by
      rw [hwAR] at haltw
      rw [get_altRewrite_ne _ _ _ "alt" (by decide)] at haltw
      exact haltw
    obtain ⟨ref, hgetref, hrefmem⟩ :=
      get?_mem_of_lt (show strToNat alt - 1 < (bibRefs r).length by omega)
    have hrefid : (ref.get "id").isSome = true := href ref hrefmem
    obtain ⟨v, hv⟩ := Option.isSome_iff_exists.mp hrefid
    have hdisj : ∀ u, e2.get "rid" = some u →
        (u = "" ∨ (bibRefs r).any (fun rf => rf.get "id" = some u) = true) →
        ∃ rid, e2.get "rid" = some rid ∧
          (rid = "" ∨ (bibRefs (xrefFix r)).any
            (fun rf => rf.get "id" = some rid) = true) := by
      intro u hu hc
      refine ⟨u, hu, ?_⟩
      rcases hc with hc | hc
      · exact Or.inl hc
      · exact Or.inr (hany u hc)
    by_cases hrid : (w.withChildren (mapTreeL (xgb (bibRefs r)) w.children)).hasA "rid" =
        true
    · -- the xref kept its rid through the first pass
      have he2rid : e2.get "rid" = w.get "rid" := by
        rw [he2']
        exact refTypeRidFix_rid_of_hasA _ _ hrid
      cases hx1rid : x.get "rid" with
      | none =>
        exfalso
        have hX1rid : (x.withChildren
            (mapTreeL (xga (bibRefs r) (referencedIds r)) x.children)).get "rid" =
            none := hx1rid
        have hwnone : w.get "rid" = none := by
          rw [hwAR, altRewrite_eq_norid _ _ _ hX1rid]
          exact hX1rid
        have : (w.get "rid").isSome = true := hrid
        rw [hwnone] at this
        cases this
      | some rid0 =>
        have hX1rid : (x.withChildren
            (mapTreeL (xga (bibRefs r) (referencedIds r)) x.children)).get "rid" =
            some rid0 := hx1rid
        have hX1alt : (x.withChildren
            (mapTreeL (xga (bibRefs r) (referencedIds r)) x.children)).get "alt" =
            some alt := haltx
        by_cases hcond : rid0 ∈ referencedIds r ∧
            ¬ (bibRefs r).any (fun rr => rr.get "id" = some rid0) = true
        · -- rewritten to the reference id
          have hwrid : w.get "rid" = some v := by
            rw [hwAR, altRewrite_eq_rewrite (bibRefs r) (referencedIds r) _ alt rid0
              hX1alt hX1rid hdig ⟨hge, hle⟩ ref hgetref hcond]
            rw [get_set_self, hv]
            rfl
          refine hdisj v (by rw [he2rid]; exact hwrid) ?_
          by_cases hv0 : v = ""
          · exact Or.inl hv0
          · refine Or.inr (List.any_eq_true.mpr ⟨ref, hrefmem, ?_⟩)
            simp [hv]
        · -- kept as is
          have hwrid : w.get "rid" = some rid0 := by
            rw [hwAR, altRewrite_eq_keep (bibRefs r) (referencedIds r) _ alt rid0
              hX1alt hX1rid hdig ⟨hge, hle⟩ ref hgetref hcond]
            exact hx1rid
          refine hdisj rid0 (by rw [he2rid]; exact hwrid) ?_
          rcases Decidable.not_and_iff_or_not.mp hcond with hcnot | hcnot
          · -- not a collected id: only possible for the empty string
            by_cases h0 : rid0 = ""
            · exact Or.inl h0
            · exact absurd (mem_referencedIds_intro r x hx hxt hx1rid h0) hcnot
          · exact Or.inr (Decidable.of_not_not hcnot)
    · -- no rid: the second pass synthesizes one from the reference
      have hridf : (w.withChildren (mapTreeL (xgb (bibRefs r)) w.children)).hasA "rid" =
          false := by
        cases hh : (w.withChildren (mapTreeL (xgb (bibRefs r)) w.children)).hasA "rid" with
        | false => rfl
        | true => exact absurd hh hrid
      have he2eq2 : e2 = (if (w.withChildren
            (mapTreeL (xgb (bibRefs r)) w.children)).hasA "ref-type" = true
          then (w.withChildren (mapTreeL (xgb (bibRefs r)) w.children))
          else (w.withChildren (mapTreeL (xgb (bibRefs r)) w.children)).set
            "ref-type" "bibr").set "rid"
          ((ref.get "id").getD ("ref" ++ toString (strToNat alt))) := by
        rw [he2']
        exact refTypeRidFix_eq_norid (bibRefs r) _ hridf alt haltW hdig ⟨hge, hle⟩
          ref hgetref
      have he2rid : e2.get "rid" = some v := by
        rw [he2eq2, get_set_self, hv]
        rfl
      refine hdisj v he2rid ?_
      by_cases hv0 : v = ""
      · exact Or.inl hv0
      · refine Or.inr (List.any_eq_true.mpr ⟨ref, hrefmem, ?_⟩)
        simp [hv]

/-! ### The xref condition survives the ID/IDREF validation pass -/

theorem XOk_idrefFix (r4 : Elem) (hx : XOk r4) : XOk (idrefFix r4) := by
  have hExt : Ext [] [] ["rid", "rids"] r4 (idrefFix r4) := Ext_idrefFix r4
  have hlen : (bibRefs (idrefFix r4)).length = (bibRefs r4).length := bibRefs_len_eq hExt
  have hany : ∀ v, (bibRefs r4).any (fun rf => rf.get "id" = some v) = true →
      (bibRefs (idrefFix r4)).any (fun rf => rf.get "id" = some v) = true := by
    intro v hv
    rw [bibRefs_any_id (by simp) hExt v]
    exact hv
  intro e2 he2 htag2
  simp only [idrefFix] at he2
  obtain ⟨x, hx4, he2eq⟩ := mem_descendants_mapTree _
    (children_idrefNode (validIds r4) (bibRefs r4)) r4 e2 he2
  have hxt : x.tag = "xref" := by
    rw [he2eq, tag_idrefNode, tag_withChildren] at htag2
    exact htag2
  obtain ⟨hrt, hdA⟩ := hx x hx4 hxt
  constructor
  · show (e2.get "ref-type").isSome = true
    rw [he2eq, idrefNode, get_ridsFixE_ne _ _ _ (by decide),
      get_ridFixE_ne _ _ _ _ (by decide)]
    exact hrt
  · intro alt halt hdig hge hle
    rw [hlen] at hle
    have haltx : x.get "alt" = some alt := by
      rw [he2eq, idrefNode, get_ridsFixE_ne _ _ _ (by decide),
        get_ridFixE_ne _ _ _ _ (by decide)] at halt
      exact halt
    obtain ⟨rid0, hrid0, hcase⟩ := hdA alt haltx hdig hge hle
    have hX4rid : (x.withChildren
        (mapTreeL (idrefNode (validIds r4) (bibRefs r4)) x.children)).get "rid" =
        some rid0 := hrid0
    by_cases h0 : rid0 = ""
    · subst h0
      have hkeep : ridFixE (validIds r4) (bibRefs r4)
          (x.withChildren (mapTreeL (idrefNode (validIds r4) (bibRefs r4)) x.children)) =
          x.withChildren (mapTreeL (idrefNode (validIds r4) (bibRefs r4)) x.children) :=
        ridFixE_empty _ _ _ hX4rid
      refine ⟨"", ?_, Or.inl rfl⟩
      rw [he2eq, idrefNode, hkeep, get_ridsFixE_ne _ _ _ (by decide)]
      exact hX4rid
    · have hanyr : (bibRefs r4).any (fun rf => rf.get "id" = some rid0) = true := by
        rcases hcase with hc | hc
        · exact absurd hc h0
        · exact hc
      obtain ⟨ref2, href2, hrefid2⟩ := List.any_eq_true.mp hanyr
      have hrefget : ref2.get "id" = some rid0 := of_decide_eq_true hrefid2
      have hin : rid0 ∈ validIds r4 :=
        mem_validIds_intro r4 ref2 (bibRefs_sub_preorder r4 ref2 href2) hrefget h0
      have hkeep : ridFixE (validIds r4) (bibRefs r4)
          (x.withChildren (mapTreeL (idrefNode (validIds r4) (bibRefs r4)) x.children)) =
          x.withChildren (mapTreeL (idrefNode (validIds r4) (bibRefs r4)) x.children) :=
        ridFixE_valid _ _ _ rid0 hX4rid h0 hin
      refine ⟨rid0, ?_, Or.inr (hany rid0 hanyr)⟩
      rw [he2eq, idrefNode, hkeep, get_ridsFixE_ne _ _ _ (by decide)]
      exact hX4rid

/-! ### Idempotence of the whole rewrite -/

theorem MetaFixed_Ext_attrs {ks : List String} {a b : Elem} (h : Ext [] [] ks a b)
    (k1 : ¬ "journal-id-type" ∈ ks) (k2 : ¬ "pub-type" ∈ ks)
    (k3 : ¬ "publication-format" ∈ ks) (hx : MetaFixed a) : MetaFixed b :=
  MetaFixed_Ext h (by simp) (by simp) (by simp) (by simp) (by simp) k1 (by simp)
    (by simp) (by simp) (by simp) (by simp) k2 k3 (by simp) (by simp) (by simp)
    (by simp) hx

theorem doc_eta (D : Doc) : { D with root := D.root } = D := by
  cases D
  rfl

/-- C4: the repair stage is idempotent on its own output.  Whenever
`_post_process_xml` successfully rewrites a document, running the whole tree
rewriting a second time (with any publication year) succeeds and returns
exactly the same document, and the file-level action leaves the on-disk
document unchanged — the bytes written by the second run are identical to its
input bytes. -/
theorem c4_idempotent (y1 y2 : String) (d d2 : Doc)
    (h : postProcessDoc y1 d = .ok d2) :
    postProcessDoc y2 d2 = .ok d2 ∧ postProcessFile y2 d2 = d2 := by
  have hmain : postProcessDoc y2 d2 = .ok d2 := by
    rcases hm : metaFix y1 (tableFix (posFix d.root)) with err | rm
    · simp [postProcessDoc, postProcessTree, hm] at h
    · simp only [postProcessDoc, postProcessTree, hm] at h
      simp only [Except.bind, bind, pure, Except.pure, Except.ok.injEq] at h
      subst h
      have hchR : (nsBind { d with
          root := idrefFix (xrefFix (refIdFix rm)) }).root.children
          = (idrefFix (xrefFix (refIdFix rm))).children :=
        nsBind_root_children _
      -- position condition, established by stage 1 and carried to the output root
      have hp2 : ∀ e ∈ descendants (tableFix (posFix d.root)), posOkNode e :=
        posOk_tableFix (posFix d.root) (posOk_posFix d.root)
      have hExtM : Ext phNewTags phTxTags phKeys (tableFix (posFix d.root)) rm :=
        Ext_metaFix y1 _ rm hm
      have hp3 : ∀ e ∈ descendants rm, posOkNode e :=
        posOk_ExtL (Ext_children hExtM) (by simp [phNewTags]) (by simp [phKeys]) hp2
      have hp4 : ∀ e ∈ descendants (refIdFix rm), posOkNode e :=
        posOk_ExtL (Ext_children (Ext_refIdFix rm)) (by simp) (by simp) hp3
      have hp5 : ∀ e ∈ descendants (xrefFix (refIdFix rm)), posOkNode e :=
        posOk_ExtL (Ext_children (Ext_xrefFix _)) (by simp) (by simp) hp4
      have hp6 : ∀ e ∈ descendants (idrefFix (xrefFix (refIdFix rm))), posOkNode e :=
        posOk_ExtL (Ext_children (Ext_idrefFix _)) (by simp) (by simp) hp5
      have hpR : ∀ e ∈ descendants (nsBind { d with
          root := idrefFix (xrefFix (refIdFix rm)) }).root, posOkNode e :=
        posOk_congr hchR.symm hp6
      -- table condition, established by stage 2 and carried to the output root
      have ht2 : ∀ e ∈ descendants (tableFix (posFix d.root)), tblOkNode e :=
        tblOk_tableFix _
      have ht3 : ∀ e ∈ descendants rm, tblOkNode e :=
        tblOk_ExtL (Ext_children hExtM) (by simp [phNewTags]) (by simp [phNewTags])
          (by simp [phNewTags]) (by simp [phNewTags]) ht2
      have ht4 : ∀ e ∈ descendants (refIdFix rm), tblOkNode e :=
        tblOk_ExtL (Ext_children (Ext_refIdFix rm)) (by simp) (by simp) (by simp)
          (by simp) ht3
      have ht5 : ∀ e ∈ descendants (xrefFix (refIdFix rm)), tblOkNode e :=
        tblOk_ExtL (Ext_children (Ext_xrefFix _)) (by simp) (by simp) (by simp)
          (by simp) ht4
      have ht6 : ∀ e ∈ descendants (idrefFix (xrefFix (refIdFix rm))), tblOkNode e :=
        tblOk_ExtL (Ext_children (Ext_idrefFix _)) (by simp) (by simp) (by simp)
          (by simp) ht5
      have htR : ∀ e ∈ descendants (nsBind { d with
          root := idrefFix (xrefFix (refIdFix rm)) }).root, tblOkNode e :=
        tblOk_congr hchR.symm ht6
      -- metadata condition, established by stage 3 and carried to the output root
      have hm3 : MetaFixed rm := MetaFixed_metaFix y1 _ rm hm
      have hm4 : MetaFixed (refIdFix rm) :=
        MetaFixed_Ext_attrs (Ext_refIdFix rm) (by simp) (by simp) (by simp) hm3
      have hm5 : MetaFixed (xrefFix (refIdFix rm)) :=
        MetaFixed_Ext_attrs (Ext_xrefFix _) (by simp) (by simp) (by simp) hm4
      have hm6 : MetaFixed (idrefFix (xrefFix (refIdFix rm))) :=
        MetaFixed_Ext_attrs (Ext_idrefFix _) (by simp) (by simp) (by simp) hm5
      have hmR : MetaFixed (nsBind { d with
          root := idrefFix (xrefFix (refIdFix rm)) }).root :=
        MetaFixed_congr hchR.symm hm6
      -- reference-id condition, established by stage 4 and carried to the output root
      have hr3 : RefOk (refIdFix rm) := RefOk_refIdFix rm
      have hr4 : RefOk (xrefFix (refIdFix rm)) :=
        RefOk_Ext_nil (Ext_xrefFix _) (by simp) hr3
      have hr5 : RefOk (idrefFix (xrefFix (refIdFix rm))) :=
        RefOk_Ext_nil (Ext_idrefFix _) (by simp) hr4
      have hrR : RefOk (nsBind { d with
          root := idrefFix (xrefFix (refIdFix rm)) }).root :=
        RefOk_congr hchR.symm hr5
      -- xref condition, established by stage 5 and carried to the output root
      have hx4 : XOk (xrefFix (refIdFix rm)) :=
        XOk_xrefFix (refIdFix rm) (bibRefs_refs_have_id _ hr3)
      have hx5 : XOk (idrefFix (xrefFix (refIdFix rm))) := XOk_idrefFix _ hx4
      have hxR : XOk (nsBind { d with
          root := idrefFix (xrefFix (refIdFix rm)) }).root :=
        XOk_congr hchR.symm hx5
      -- the idref pass is a no-op on the output root
      have hi1 := nsBind_idrefFix_post { d with
        root := idrefFix (xrefFix (refIdFix rm)) } (xrefFix (refIdFix rm)) rfl
      have hi2 := nsBind_idrefFix_post_norm { d with
        root := idrefFix (xrefFix (refIdFix rm)) } (xrefFix (refIdFix rm)) rfl
      have hIdref : idrefFix (nsBind { d with
          root := idrefFix (xrefFix (refIdFix rm)) }).root
          = (nsBind { d with root := idrefFix (xrefFix (refIdFix rm)) }).root := by
        refine idrefFix_noop _ ?_ ?_
        · intro e he rid hr hne
          exact (hi1 e he).1 rid hr hne
        · intro e he rs hrs hne
          exact hi2 e he rs hrs hne
      -- all stages are no-ops on the second run
      have e1 : posFix (nsBind { d with
          root := idrefFix (xrefFix (refIdFix rm)) }).root
          = (nsBind { d with root := idrefFix (xrefFix (refIdFix rm)) }).root :=
        posFix_noop _ hpR
      have e2 : tableFix (nsBind { d with
          root := idrefFix (xrefFix (refIdFix rm)) }).root
          = (nsBind { d with root := idrefFix (xrefFix (refIdFix rm)) }).root :=
        tableFix_noop _ htR
      have e3 : metaFix y2 (nsBind { d with
          root := idrefFix (xrefFix (refIdFix rm)) }).root
          = .ok (nsBind { d with root := idrefFix (xrefFix (refIdFix rm)) }).root :=
        metaFix_noop y2 _ hmR
      have e4 : refIdFix (nsBind { d with
          root := idrefFix (xrefFix (refIdFix rm)) }).root
          = (nsBind { d with root := idrefFix (xrefFix (refIdFix rm)) }).root :=
        refIdFix_noop _ hrR
      have e5 : xrefFix (nsBind { d with
          root := idrefFix (xrefFix (refIdFix rm)) }).root
          = (nsBind { d with root := idrefFix (xrefFix (refIdFix rm)) }).root :=
        xrefFix_noop _ hxR
      simp only [postProcessDoc, postProcessTree]
      rw [e1, e2, e3]
      simp only [Except.bind, bind, pure, Except.pure]
      rw [e4, e5, hIdref, doc_eta, nsBind_idem]
  refine ⟨hmain, ?_⟩
  rw [postProcessFile, hmain]

/-- A small article on which the rewrite succeeds. -/
def c4WitDoc : Doc :=
  Doc.mk true [("xlink", xlinkNs), ("mml", mmlNs)]
    (.mk "article" [("article-type", "research-article"), ("dtd-version", "1.3")] ""
      [.mk "body" [] "" [.mk "p" [] "hello" []]])

def c4WitOut : Doc :=
  match postProcessDoc "2024" c4WitDoc with
  | .ok r => r
  | .error _ => c4WitDoc

set_option maxHeartbeats 4000000 in
/-- Witness for C4: on a concrete document the second run of the rewrite
returns its input unchanged. -/
theorem c4_idempotent_witness :
    postProcessDoc "2025" c4WitOut = .ok c4WitOut ∧
    postProcessFile "2025" c4WitOut = c4WitOut :=
  c4_idempotent "2024" "2025" c4WitDoc c4WitOut (by decide)
